import Mathlib

/-!
# slmenu: the interactive session engine

A shallow embedding of `slmenu.c`.  Bytes are natural numbers (the value of the
`char` read as `unsigned char`), a C string is the list of bytes in front of the
first NUL (the end of the list also reads as NUL), pointers to `Item` are
indices into the `items` array (`none` is `NULL`), and the `left` / `right`
fields of the items live in two maps of the state.
-/

namespace Slmenu

/-! ## libc: strings -/

/-- The byte `s[i]`; reading past the stored bytes yields NUL. -/
def byteAt (s : List Nat) (i : Nat) : Nat := s.getD i 0

/-- The C function `strlen`: number of bytes in front of the first NUL. -/
def strlen : List Nat → Nat
  | [] => 0
  | c :: cs => if c = 0 then 0 else strlen cs + 1

/-- The C function `strncmp`: difference of the first differing bytes among the
first `n`, comparison stops behind a NUL. -/
def strncmp : List Nat → List Nat → Nat → Int
  | _, _, 0 => 0
  | a, b, n + 1 =>
    if a.headD 0 ≠ b.headD 0 then (a.headD 0 : Int) - (b.headD 0 : Int)
    else if a.headD 0 = 0 then 0
    else strncmp a.tail b.tail n

/-- The C function `tolower` in the "C" locale (slmenu never calls `setlocale`). -/
def tolower (c : Nat) : Nat := if 65 ≤ c ∧ c ≤ 90 then c + 32 else c

/-- The C function `strncasecmp`: `strncmp` on the lower-cased bytes. -/
def strncasecmp : List Nat → List Nat → Nat → Int
  | _, _, 0 => 0
  | a, b, n + 1 =>
    if tolower (a.headD 0) ≠ tolower (b.headD 0) then
      (tolower (a.headD 0) : Int) - (tolower (b.headD 0) : Int)
    else if a.headD 0 = 0 then 0
    else strncasecmp a.tail b.tail n

/-- The C function `iscntrl` in the "C" locale. -/
def iscntrl (c : Nat) : Bool := c < 32 || c = 127

/-- The test `(c & 0xc0) == 0x80`: `c` is a UTF-8 continuation byte. -/
def isCont (c : Nat) : Bool := c &&& 0xc0 = 0x80

/-- Conversion of an integer to the C type `int` (32 bits, two's complement). -/
def toInt32 (x : Int) : Int := (x + 2 ^ 31) % 2 ^ 32 - 2 ^ 31

/-- Conversion of an integer to the C type `size_t` (64 bits, unsigned). -/
def toSize (x : Int) : Nat := (x % 2 ^ 64).toNat

/-- The macro `MIN(a, b)` at a `size_t` first and an `int` second argument: the
comparison and the result are `size_t`. -/
def minSize (a : Nat) (b : Int) : Nat := if a < toSize b then a else toSize b

/-- The macro `CONTROL(ch)`, `ch ^ 0x40`. -/
def CONTROL (ch : Nat) : Nat := ch ^^^ 0x40

/-! ## The state: the static variables of `slmenu.c` -/

/-- The static variables.  `text` is the buffer `char text[BUFSIZ]`, a list of
`BUFSIZ` bytes, so that `sizeof text` is its length.  `items` holds the `text`
field of the entries of the array `items` in front of the terminating entry
whose `text` is `NULL`; `left` and `right` hold the two pointer fields.
`icase` says that `fstrncmp` is `strncasecmp` (option `-i`); `matches_` is the
variable `matches`. -/
structure State where
  text : List Nat
  lines : Int
  mw : Int
  inputw : Int
  promptw : Int
  cursor : Nat
  items : List (List Nat)
  left : Nat → Option Nat
  right : Nat → Option Nat
  matches_ : Option Nat
  matchend : Option Nat
  prev : Option Nat
  curr : Option Nat
  next : Option Nat
  sel : Option Nat
  icase : Bool

/-- The expression `sizeof text`. -/
def sizeofText (s : State) : Nat := s.text.length

/-- The field `item->text` as a string; the terminating entry (and nothing else
that is ever read) has no text. -/
def itemText (s : State) (item : Nat) : List Nat := (s.items.get? item).getD []

/-- The function pointer `fstrncmp`. -/
def fstrncmp (icase : Bool) (a b : List Nat) (n : Nat) : Int :=
  if icase then strncasecmp a b n else strncmp a b n

/-- The function `fstrstr`: the first suffix of `s`, not the empty one, whose
first `strlen(sub)` bytes compare equal to `sub`; `none` is `NULL`. -/
def fstrstr (icase : Bool) : List Nat → List Nat → Option (List Nat)
  | [], _ => none
  | c :: cs, sub =>
    if c = 0 then none
    else if fstrncmp icase (c :: cs) sub (strlen sub) = 0 then some (c :: cs)
    else fstrstr icase cs sub

/-- The loop of `textwn`: `c` counts the bytes that are not continuation bytes
among the first `l` bytes (all bytes for `l < 0`) in front of the NUL. -/
def textwnLoop (l : Int) : List Nat → Nat → Nat → Nat
  | [], _, c => c
  | x :: xs, b, c =>
    if x ≠ 0 ∧ (l < 0 ∨ (b : Int) < l) then
      textwnLoop l xs (b + 1) (if isCont x then c else c + 1)
    else c

/-- The function `textwn`: code points plus two columns of padding. -/
def textwn (s : List Nat) (l : Int) : Nat := textwnLoop l s 0 0 + 2

/-- The function `textw`. -/
def textw (s : List Nat) : Nat := textwn s (-1)

/-! ## Lists of items -/

/-- The function `appenditem(item, &list, &last)`; returns the state with the
new links and the new values of `*list` and `*last`. -/
def appenditem (item : Nat) (list last : Option Nat) (s : State) :
    State × Option Nat × Option Nat :=
  match last with
  | none =>
    ({ s with left := Function.update s.left item none,
              right := Function.update s.right item none }, some item, some item)
  | some l =>
    ({ s with left := Function.update s.left item (some l),
              right := Function.update (Function.update s.right l (some item)) item none },
      list, some item)

/-- The first loop of `calcoffsets`, from the value `next` with the running
total `i`: the result is the final `next`.  The walk is cut after `fuel` items,
`none` says that it did not end. -/
def calcNext (s : State) (n : Int) : Nat → Int → Option Nat → Option (Option Nat)
  | _, _, none => some none
  | 0, _, some _ => none
  | fuel + 1, i, some x =>
    if toInt32 (i + (if s.lines > 0 then 1 else minSize (textw (itemText s x)) n)) > n then
      some (some x)
    else
      calcNext s n fuel
        (toInt32 (i + (if s.lines > 0 then 1 else minSize (textw (itemText s x)) n)))
        (s.right x)

/-- The second loop of `calcoffsets`, from the value `prev` with the running
total `i`: the result is the final `prev`. -/
def calcPrev (s : State) (n : Int) : Nat → Int → Option Nat → Option (Option Nat)
  | _, _, none => some none
  | 0, _, some _ => none
  | fuel + 1, i, some x =>
    match s.left x with
    | none => some (some x)
    | some y =>
      if toInt32 (i + (if s.lines > 0 then 1 else minSize (textw (itemText s y)) n)) > n then
        some (some x)
      else
        calcPrev s n fuel
          (toInt32 (i + (if s.lines > 0 then 1 else minSize (textw (itemText s y)) n)))
          (some y)

/-- The function `calcoffsets`.  With `lines > 0` it only sets the local `n`
and leaves `next` and `prev` alone: both loops stand in the `else` branch.
A walk over distinct items of the pool takes at most as many steps as the pool
has items; `none` says that a walk did not end within that many steps. -/
def calcoffsets (s : State) : Option State :=
  if s.lines > 0 then some s
  else
    match calcNext s (toInt32 (s.mw - (toInt32 (s.promptw + s.inputw) + 3 + 3)))
        (s.items.length + 1) 0 s.curr with
    | none => none
    | some nx =>
      match calcPrev s (toInt32 (s.mw - (toInt32 (s.promptw + s.inputw) + 3 + 3)))
          (s.items.length + 1) 0 s.curr with
      | none => none
      | some pv => some { s with next := nx, prev := pv }

/-- The six local list variables of `match`. -/
structure Bands where
  lexact : Option Nat
  exactend : Option Nat
  lprefix : Option Nat
  prefixend : Option Nat
  lsubstr : Option Nat
  substrend : Option Nat

/-- The body of the loop of `match` for one `item` with text `t`. -/
def matchItem (item : Nat) (t : List Nat) (s : State) (b : Bands) : State × Bands :=
  if fstrncmp s.icase s.text t (strlen s.text + 1) = 0 then
    let r := appenditem item b.lexact b.exactend s
    (r.1, { b with lexact := r.2.1, exactend := r.2.2 })
  else if fstrncmp s.icase s.text t (strlen s.text) = 0 then
    let r := appenditem item b.lprefix b.prefixend s
    (r.1, { b with lprefix := r.2.1, prefixend := r.2.2 })
  else if (fstrstr s.icase t s.text).isSome then
    let r := appenditem item b.lsubstr b.substrend s
    (r.1, { b with lsubstr := r.2.1, substrend := r.2.2 })
  else (s, b)

/-- The loop of `match`: `for (...; item && item->text; item = lnext)` with
`lnext = sub ? item->right : item + 1`, taken before the item is re-linked. -/
def matchLoop (sub : Bool) : Nat → Option Nat → State → Bands → Option (State × Bands)
  | _, none, s, b => some (s, b)
  | fuel, some item, s, b =>
    match s.items.get? item with
    | none => some (s, b)
    | some t =>
      match fuel with
      | 0 => none
      | fuel + 1 =>
        matchLoop sub fuel (if sub then s.right item else some (item + 1))
          (matchItem item t s b).1 (matchItem item t s b).2

/-- The statement `if (l) { if (matchend) { matchend->right = l;
l->left = matchend; } else matches = l; matchend = lend; }` of `match`. -/
def joinBand (l lend : Option Nat) (s : State) : State :=
  match l with
  | none => s
  | some f =>
    match s.matchend with
    | some e =>
      { s with right := Function.update s.right e (some f),
               left := Function.update s.left f (some e),
               matchend := lend }
    | none => { s with matches_ := some f, matchend := lend }

/-- The pointer `items`: `NULL` when no line was read. -/
def itemsPtr (s : State) : Option Nat := if s.items = [] then none else some 0

/-- The function `match(sub)`. -/
def match_ (sub : Bool) (s : State) : Option State :=
  match matchLoop sub (s.items.length + 1) (if sub then s.matches_ else itemsPtr s) s
      ⟨none, none, none, none, none, none⟩ with
  | none => none
  | some (s1, b) =>
    let s2 := { s1 with matches_ := b.lexact, matchend := b.exactend }
    let s3 := joinBand b.lprefix b.prefixend s2
    let s4 := joinBand b.lsubstr b.substrend s3
    calcoffsets { s4 with curr := s4.matches_, sel := s4.matches_ }

/-! ## The edit buffer -/

/-- Conversion of an integer to the C type `ssize_t` (64 bits, two's complement). -/
def toSSize (x : Int) : Int := (x + 2 ^ 63) % 2 ^ 64 - 2 ^ 63

/-- The C function `memmove` inside one buffer: `cnt` bytes from offset `src`
to offset `dst`. -/
def memmove (buf : List Nat) (dst src cnt : Nat) : List Nat :=
  buf.take dst ++ (buf.drop src).take cnt ++ buf.drop (dst + cnt)

/-- The C function `memcpy` into a buffer: `n` bytes of `str` to offset `dst`. -/
def memcpy (buf : List Nat) (dst : Nat) (str : List Nat) (n : Nat) : List Nat :=
  buf.take dst ++ str.take n ++ buf.drop (dst + n)

/-- The C function `strncpy` into a fresh buffer of `n` bytes: the string
`src`, filled up with NUL bytes. -/
def strncpy (src : List Nat) (n : Nat) : List Nat :=
  (src.take (strlen src) ++ List.replicate n 0).take n

/-- The function `insert(str, n)`; `NULL` is passed for `str` only with
`n <= 0`, where `str` is not read. -/
def insert (str : List Nat) (n : Int) (s : State) : Option State :=
  if toSize (strlen s.text + n) > toSize ((sizeofText s : Int) - 1) then some s
  else
    let t1 := memmove s.text (toSize (s.cursor + n)) s.cursor
      (toSize ((sizeofText s : Int) - s.cursor - max n 0))
    let t2 := if n > 0 then memcpy t1 s.cursor str (toSize n) else t1
    match_ (decide (n > 0) && decide (byteAt t2 (toSize (s.cursor + n)) = 0))
      { s with text := t2, cursor := toSize (s.cursor + n) }

/-- The loop of `nextrune`: `for (...; n + inc >= 0 && (text[n] & 0xc0) == 0x80;
n += inc);`, cut after `fuel` rounds. -/
def nextruneLoop (text : List Nat) (inc : Int) : Nat → Int → Int
  | 0, n => n
  | fuel + 1, n =>
    if n + inc ≥ 0 ∧ isCont (byteAt text n.toNat) = true then
      nextruneLoop text inc fuel (n + inc)
    else n

/-- The function `nextrune(inc)`, called with `inc` one of `+1` and `-1`: the
loop then ends within `sizeof text + 1` rounds. -/
def nextrune (inc : Int) (s : State) : Nat :=
  toSize (nextruneLoop s.text inc (s.text.length + 1) (s.cursor + inc))

/-! ## Drawing -/

/-- What `calloc(1, n)` does with a request of `n` bytes: it returns `NULL`
for a request above `PTRDIFF_MAX` and memory for every other one. -/
def callocFails (n : Nat) : Bool := decide (2 ^ 63 ≤ n)

/-- The function `drawtext` with the value `w` of its parameter `size_t w`:
`true` when it ends in `die("Can't calloc.")`, that is in `exit(1)`.  It
returns at once for `w < 3`; else `tw = w - 2` is stored in an `int`, and
`calloc(1, tw + 1)` gets `tw + 1` converted back to `size_t`. -/
def drawtextDies (w : Nat) : Bool :=
  if w < 3 then false
  else callocFails (toSize (toInt32 (toInt32 ((w : Int) - 2) + 1)))

/-- How a call of `drawmenu` ends: `done`, it returns, after the calls of
`drawtext` for the items `calls`, each with its width; `died`, one of its calls
of `drawtext` ended the process in `die`; `fault`, a `NULL` pointer was
dereferenced. -/
inductive Drawn where
  | done (calls : List (Nat × Nat))
  | died
  | fault

/-- The call `c` of `drawtext` has returned, and what follows it ends as `d`. -/
def Drawn.after (c : Nat × Nat) : Drawn → Drawn
  | Drawn.done l => Drawn.done (c :: l)
  | Drawn.died => Drawn.died
  | Drawn.fault => Drawn.fault

/-- The loop of `drawmenu` for `lines > 0`, `k` lines left: the items handed
to `drawtext`, each with the width `w` (the value of `mw` as a `size_t`).
`fault`: `item->text` is read at `NULL`. -/
def drawVert (s : State) (w : Nat) : Nat → Option Nat → Drawn
  | 0, _ => Drawn.done []
  | k + 1, item =>
    if item = s.next then Drawn.done []
    else
      match item with
      | none => Drawn.fault
      | some x =>
        if drawtextDies w = true then Drawn.died
        else Drawn.after (x, w) (drawVert s w k (s.right x))

/-- The loop of `drawmenu` for `lines == 0`, with `rw` columns left: the items
handed to `drawtext`, each with the width `iw`.  `fault`: `item->text` is read
at `NULL`, or the walk did not end within `fuel` items. -/
def drawHoriz (s : State) : Nat → Int → Option Nat → Drawn
  | 0, _, item => if item = s.next then Drawn.done [] else Drawn.fault
  | fuel + 1, rw, item =>
    if item = s.next then Drawn.done []
    else
      match item with
      | none => Drawn.fault
      | some x =>
        if drawtextDies (toSize (toInt32 (minSize (textw (itemText s x)) rw))) = true then
          Drawn.died
        else if toInt32 (rw - textw (itemText s x)) ≤ 0 then
          Drawn.done [(x, toSize (toInt32 (minSize (textw (itemText s x)) rw)))]
        else
          Drawn.after (x, toSize (toInt32 (minSize (textw (itemText s x)) rw)))
            (drawHoriz s fuel (toInt32 (rw - textw (itemText s x))) (s.right x))

/-- The two calls of `drawtext` at the head of `drawmenu`: whether one of them
dies.  The first, `drawtext(prompt, promptw, Normal)`, is made when `prompt` is
not `NULL`, that is when `promptw` is not 0 (`setup` stores 0 for no prompt
and `textw(prompt)`, at least 2, for a prompt); the second draws the text,
`inputw` columns wide when `lines == 0 && matches`, and `mw - promptw` columns
else. -/
def drawHead (s : State) : Bool :=
  (decide (s.promptw ≠ 0) && drawtextDies (toSize s.promptw)) ||
    drawtextDies
      (toSize (if s.lines = 0 ∧ s.matches_.isSome = true then s.inputw
        else toInt32 (s.mw - s.promptw)))

/-- The loops of `drawmenu` over the items, behind the two calls of `drawtext`
for the prompt and the text.  `fault`: `curr->left` is read with `curr ==
NULL`, or `item->text` with `item == NULL`.  (The calls `drawtext("<", 3,
Normal)` and `drawtext("  >", 5, Normal)` ask `calloc` for 2 and 4 bytes.) -/
def drawItems (s : State) : Drawn :=
  if s.lines > 0 then drawVert s (toSize s.mw) s.lines.toNat s.curr
  else if s.matches_.isSome then
    match s.curr with
    | none => Drawn.fault
    | some _ =>
      drawHoriz s (s.items.length + 1) (toInt32 (s.mw - (6 + s.promptw + s.inputw))) s.curr
  else Drawn.done []

/-- The function `drawmenu`, as far as it reads the state: it dies in one of
the two calls of `drawtext` at its head, or goes on to the items. -/
def drawmenu (s : State) : Drawn :=
  if drawHead s = true then Drawn.died else drawItems s

/-! ## The loop of `run` -/

/-- The `read(0, &c, 1)` in which `run` waits: the one at the head of the loop,
the one behind ESC, the one behind ESC `[`, and the ones that drop the byte
behind a digit, after which `c` is dispatched at `switch_top` or (`toEsc`) at
`esc_switch_top`. -/
inductive Pc where
  | top
  | esc
  | csi
  | tilde (c : Nat) (toEsc : Bool)

/-- Where `run` stands after some input: waiting in a `read`; returned with a
status after writing the lines `out` to the standard output; `died`, the
process has ended in `die` (called by `drawtext`), which is `exit(1)` with
nothing written to the standard output; or aborted (a `NULL` pointer was
dereferenced or a walk over items did not end). -/
inductive Run where
  | reading (pc : Pc) (s : State)
  | returned (status : Nat) (out : List (List Nat)) (s : State)
  | died
  | abort

/-- The end of a round of the loop: `break` out of the `switch`, then
`drawmenu()`. -/
def redraw (o : Option State) : Run :=
  match o with
  | none => Run.abort
  | some s =>
    match drawmenu s with
    | Drawn.fault => Run.abort
    | Drawn.died => Run.died
    | Drawn.done _ => Run.reading Pc.top s

/-- The two loops `while (cursor > 0 && text[nextrune(-1)] == ' ')` and
`... != ' '` of Esc-b, with `p` the test of the byte; `none`: cut by `fuel`. -/
def backWhile (p : Nat → Bool) : Nat → State → Option State
  | 0, s =>
    if s.cursor > 0 ∧ p (byteAt s.text (nextrune (-1) s)) = true then none else some s
  | fuel + 1, s =>
    if s.cursor > 0 ∧ p (byteAt s.text (nextrune (-1) s)) = true then
      backWhile p fuel { s with cursor := nextrune (-1) s }
    else some s

/-- The loop `while (text[cursor] != 0 && text[nextrune(+1)] == ' ')` of Esc-f. -/
def fwdSpaces : Nat → State → Option State
  | 0, s =>
    if byteAt s.text s.cursor ≠ 0 ∧ byteAt s.text (nextrune 1 s) = 32 then none else some s
  | fuel + 1, s =>
    if byteAt s.text s.cursor ≠ 0 ∧ byteAt s.text (nextrune 1 s) = 32 then
      fwdSpaces fuel { s with cursor := nextrune 1 s }
    else some s

/-- The loop `do cursor = nextrune(+1); while (text[cursor] != 0 &&
text[cursor] != ' ')` of Esc-f. -/
def fwdWord : Nat → State → Option State
  | 0, _ => none
  | fuel + 1, s =>
    if byteAt s.text (nextrune 1 s) ≠ 0 ∧ byteAt s.text (nextrune 1 s) ≠ 32 then
      fwdWord fuel { s with cursor := nextrune 1 s }
    else some { s with cursor := nextrune 1 s }

/-- The call `insert(NULL, nextrune(-1) - cursor)`. -/
def deleteBack (s : State) : Option State :=
  insert [] (toSSize ((nextrune (-1) s : Int) - s.cursor)) s

/-- The loop `while (text[cursor] != 0 && text[nextrune(+1)] == ' ')` of Esc-d
with its body `cursor = nextrune(+1); insert(NULL, nextrune(-1) - cursor);`. -/
def delSpaces : Nat → State → Option State
  | 0, s =>
    if byteAt s.text s.cursor ≠ 0 ∧ byteAt s.text (nextrune 1 s) = 32 then none else some s
  | fuel + 1, s =>
    if byteAt s.text s.cursor ≠ 0 ∧ byteAt s.text (nextrune 1 s) = 32 then
      match deleteBack { s with cursor := nextrune 1 s } with
      | none => none
      | some s1 => delSpaces fuel s1
    else some s

/-- The loop `do cursor = nextrune(+1); insert(NULL, nextrune(-1) - cursor);
while (text[cursor] != 0 && text[cursor] != ' ')` of Esc-d. -/
def delWord : Nat → State → Option State
  | 0, _ => none
  | fuel + 1, s =>
    match deleteBack { s with cursor := nextrune 1 s } with
    | none => none
    | some s1 =>
      if byteAt s1.text s1.cursor ≠ 0 ∧ byteAt s1.text s1.cursor ≠ 32 then delWord fuel s1
      else some s1

/-- The two loops `while (cursor > 0 && text[nextrune(-1)] == ' ')` and
`... != ' '` of Ctrl-W with the body `insert(NULL, nextrune(-1) - cursor);`. -/
def delBackWhile (p : Nat → Bool) : Nat → State → Option State
  | 0, s =>
    if s.cursor > 0 ∧ p (byteAt s.text (nextrune (-1) s)) = true then none else some s
  | fuel + 1, s =>
    if s.cursor > 0 ∧ p (byteAt s.text (nextrune (-1) s)) = true then
      match deleteBack s with
      | none => none
      | some s1 => delBackWhile p fuel s1
    else some s

/-- The loop `while (next && (curr = curr->right)) calcoffsets();` of Ctrl-E;
`none`: `curr->right` is read at `NULL`, or cut by `fuel`. -/
def endLoop : Nat → State → Option State
  | 0, s =>
    match s.next with
    | none => some s
    | some _ =>
      match s.curr with
      | none => none
      | some c =>
        match s.right c with
        | none => some { s with curr := none }
        | some _ => none
  | fuel + 1, s =>
    match s.next with
    | none => some s
    | some _ =>
      match s.curr with
      | none => none
      | some c =>
        match s.right c with
        | none => some { s with curr := none }
        | some c1 =>
          match calcoffsets { s with curr := some c1 } with
          | none => none
          | some s1 => endLoop fuel s1

/-- The case `CONTROL('P')`: select the previous entry. -/
def selectPrev (s : State) : Option State :=
  match s.sel with
  | none => some s
  | some x =>
    match s.left x with
    | none => some s
    | some y =>
      if s.right y = s.curr then calcoffsets { s with sel := some y, curr := s.prev }
      else some { s with sel := some y }

/-- The case `CONTROL('N')`: select the next entry. -/
def selectNext (s : State) : Option State :=
  match s.sel with
  | none => some s
  | some x =>
    match s.right x with
    | none => some s
    | some y =>
      if some y = s.next then calcoffsets { s with sel := some y, curr := s.next }
      else some { s with sel := some y }

/-- The case `CONTROL('E')`. -/
def keyEnd (s : State) : Option State :=
  if byteAt s.text s.cursor ≠ 0 then some { s with cursor := strlen s.text }
  else
    match s.next with
    | none => some { s with sel := s.matchend }
    | some _ =>
      match calcoffsets { s with curr := s.matchend } with
      | none => none
      | some s1 =>
        match calcoffsets { s1 with curr := s1.prev } with
        | none => none
        | some s2 =>
          match endLoop (s.items.length + 1) s2 with
          | none => none
          | some s3 => some { s3 with sel := s3.matchend }

/-- The cases `CONTROL('H')` and `CONTROL('?')`, also reached from
`CONTROL('D')`. -/
def keyBackspace (s : State) : Option State :=
  if s.cursor = 0 then some s else deleteBack s

/-- The `default` case: insert the byte `buf[0]` unless it is a control
character, then leave with failure when the text ends in "qq". -/
def keyDefault (buf0 : Nat) (s : State) : Run :=
  match (if iscntrl buf0 = true then some s else insert [buf0] (strlen [buf0]) s) with
  | none => Run.abort
  | some s1 =>
    if 2 ≤ strlen s1.text ∧ (s1.text.drop (strlen s1.text - 2)).take 2 = [113, 113] then
      Run.returned 1 [(s1.text.drop (strlen s1.text - 2)).take 2] s1
    else redraw (some s1)

/-- The cases of the `switch (c)` at `switch_top`; `buf0` is `buf[0]`, the
first byte read in this round. -/
def switchTop (buf0 c : Nat) (s : State) : Run :=
  if c = CONTROL 91 then Run.reading Pc.esc s
  else if c = CONTROL 67 then Run.returned 1 [] s
  else if c = CONTROL 77 ∨ c = CONTROL 74 then
    match
      match_ true
        { s with
          text := (match s.sel with
            | none => s.text
            | some x => strncpy (itemText s x) (sizeofText s)),
          cursor := strlen (match s.sel with
            | none => s.text
            | some x => strncpy (itemText s x) (sizeofText s)) } with
    | none => Run.abort
    | some s1 =>
      match drawmenu s1 with
      | Drawn.fault => Run.abort
      | Drawn.died => Run.died
      | Drawn.done _ => Run.returned 0 [s1.text.take (strlen s1.text)] s1
  else if c = CONTROL 93 ∨ c = CONTROL 92 then
    Run.returned 0 [s.text.take (strlen s.text)] s
  else if c = CONTROL 65 then
    if s.sel = s.matches_ then redraw (some { s with cursor := 0 })
    else redraw (calcoffsets { s with sel := s.matches_, curr := s.matches_ })
  else if c = CONTROL 69 then redraw (keyEnd s)
  else if c = CONTROL 66 then
    if s.cursor > 0 ∧ (s.sel = none ∨ s.sel.bind s.left = none ∨ s.lines > 0) then
      redraw (some { s with cursor := nextrune (-1) s })
    else redraw (selectPrev s)
  else if c = CONTROL 80 then redraw (selectPrev s)
  else if c = CONTROL 70 ∨ c = CONTROL 73 then
    if byteAt s.text s.cursor ≠ 0 then redraw (some { s with cursor := nextrune 1 s })
    else redraw (selectNext s)
  else if c = CONTROL 78 then redraw (selectNext s)
  else if c = CONTROL 68 then
    if byteAt s.text s.cursor = 0 then redraw (some s)
    else redraw (keyBackspace { s with cursor := nextrune 1 s })
  else if c = CONTROL 72 ∨ c = CONTROL 63 then redraw (keyBackspace s)
  else if c = CONTROL 75 then redraw (match_ false { s with text := s.text.set s.cursor 0 })
  else if c = CONTROL 85 then redraw (insert [] (toSSize (0 - (s.cursor : Int))) s)
  else if c = CONTROL 87 then
    redraw ((delBackWhile (fun b => b = 32) (s.text.length + 1) s).bind
      (fun s1 => delBackWhile (fun b => b ≠ 32) (s1.text.length + 1) s1))
  else if c = CONTROL 86 then
    match s.prev with
    | none => redraw (some s)
    | some _ => redraw (calcoffsets { s with sel := s.prev, curr := s.prev })
  else keyDefault buf0 s

/-- The cases of the `switch (c)` at `esc_switch_top`, behind ESC. -/
def escSwitch (c : Nat) (s : State) : Run :=
  if c = CONTROL 91 then switchTop (CONTROL 91) (CONTROL 67) s
  else if c = 91 then Run.reading Pc.csi s
  else if c = 98 then
    redraw ((backWhile (fun b => b = 32) (s.text.length + 1) s).bind
      (fun s1 => backWhile (fun b => b ≠ 32) (s1.text.length + 1) s1))
  else if c = 102 then
    redraw ((fwdSpaces (s.text.length + 1) s).bind
      (fun s1 => if byteAt s1.text s1.cursor ≠ 0 then fwdWord (s1.text.length + 1) s1
        else some s1))
  else if c = 100 then
    redraw ((delSpaces (s.text.length + 1) s).bind
      (fun s1 => if byteAt s1.text s1.cursor ≠ 0 then delWord (s1.text.length + 1) s1
        else some s1))
  else if c = 118 then
    match s.next with
    | none => redraw (some s)
    | some _ => redraw (calcoffsets { s with sel := s.next, curr := s.next })
  else redraw (some s)

/-- The cases of the `switch (c)` behind ESC `[`. -/
def csiSwitch (c : Nat) (s : State) : Run :=
  if c = 49 ∨ c = 55 then Run.reading (Pc.tilde (CONTROL 65) false) s
  else if c = 72 then switchTop (CONTROL 91) (CONTROL 65) s
  else if c = 50 then Run.reading (Pc.tilde (CONTROL 89) false) s
  else if c = 51 then Run.reading (Pc.tilde (CONTROL 68) false) s
  else if c = 52 ∨ c = 56 then Run.reading (Pc.tilde (CONTROL 69) false) s
  else if c = 70 then switchTop (CONTROL 91) (CONTROL 69) s
  else if c = 53 then Run.reading (Pc.tilde (CONTROL 86) false) s
  else if c = 54 then Run.reading (Pc.tilde 118 true) s
  else if c = 65 then switchTop (CONTROL 91) (CONTROL 80) s
  else if c = 66 then switchTop (CONTROL 91) (CONTROL 78) s
  else if c = 67 then switchTop (CONTROL 91) (CONTROL 70) s
  else if c = 68 then switchTop (CONTROL 91) (CONTROL 66) s
  else if c = 90 then switchTop (CONTROL 91) (CONTROL 80) s
  else redraw (some s)

/-- One byte `c` arrives at the `read` in which `run` waits. -/
def step (r : Run) (c : Nat) : Run :=
  match r with
  | Run.reading Pc.top s => switchTop (c % 256) (c % 256) s
  | Run.reading Pc.esc s => escSwitch (c % 256) s
  | Run.reading Pc.csi s => csiSwitch (c % 256) s
  | Run.reading (Pc.tilde c1 toEsc) s =>
    if toEsc = true then escSwitch c1 s else switchTop (CONTROL 91) c1 s
  | Run.returned status out s => Run.returned status out s
  | Run.died => Run.died
  | Run.abort => Run.abort

/-- The function `run` on the bytes `input` that arrive on the terminal. -/
def run (s : State) (input : List Nat) : Run := input.foldl step (Run.reading Pc.top s)

/-- The static variables when `main` starts, with `bufsiz` the value of
`BUFSIZ`, after `readstdin` has stored the lines `items` (whose link fields
`left`, `right` are not set) and after `setup` has set the four sizes. -/
def initial (bufsiz : Nat) (items : List (List Nat)) (icase : Bool)
    (lines mw inputw promptw : Int) (left right : Nat → Option Nat) : State :=
  { text := List.replicate bufsiz 0, lines := lines, mw := mw, inputw := inputw,
    promptw := promptw, cursor := 0, items := items, left := left, right := right,
    matches_ := none, matchend := none, prev := none, curr := none, next := none,
    sel := none, icase := icase }

/-- The session: `match(FALSE)` at the end of `setup`, `drawmenu()`, and then
`run()` on the bytes `input`. -/
def session (s : State) (input : List Nat) : Run :=
  input.foldl step (redraw (match_ false s))

/-- The static variables where `run` stands; `d` after the process has died or
aborted. -/
def varsOf (d : State) : Run → State
  | Run.reading _ s => s
  | Run.returned _ _ s => s
  | Run.died => d
  | Run.abort => d

/-- Whether `run` waits for input at the head of its loop. -/
def waits : Run → Bool
  | Run.reading Pc.top _ => true
  | _ => false

/-- Whether the process has ended in `die`. -/
def hasDied : Run → Bool
  | Run.died => true
  | _ => false

/-- The state in which `run` stands after the bytes `input`, in a session with
the pool `pool`, a buffer of 16 bytes, `lines` lines for the menu, a terminal
of `mw` columns, a query field of `inputw` columns and a prompt of `promptw`
columns. -/
def demoAfter (pool : List (List Nat)) (lines mw inputw promptw : Int) (input : List Nat) :
    State :=
  varsOf (initial 16 pool false lines mw inputw promptw (fun _ => none) (fun _ => none))
    (session (initial 16 pool false lines mw inputw promptw (fun _ => none) (fun _ => none))
      input)

/-- Walking from `p` along the links `r` passes exactly the items `l` and
arrives at `q`. -/
def Seg (r : Nat → Option Nat) : Option Nat → List Nat → Option Nat → Prop
  | p, [], q => p = q
  | p, x :: xs, q => p = some x ∧ Seg r (r x) xs q

instance Seg.decidable (r : Nat → Option Nat) :
    ∀ (p : Option Nat) (l : List Nat) (q : Option Nat), Decidable (Seg r p l q)
  | p, [], q => inferInstanceAs (Decidable (p = q))
  | _, x :: xs, q => @instDecidableAnd _ _ _ (Seg.decidable r (r x) xs q)

/-- A doubly linked list -/
def Band (left right : Nat → Option Nat) (first last : Option Nat) (l : List Nat) : Prop :=
  Seg right first l none ∧ Seg left last l.reverse none

/-- The band into which the loop of `match` puts an item with text `t`:
0 exact, 1 prefix, 2 substring, 3 none. -/
def codeBand (icase : Bool) (text t : List Nat) : Nat :=
  if fstrncmp icase text t (strlen text + 1) = 0 then 0
  else if fstrncmp icase text t (strlen text) = 0 then 1
  else if (fstrstr icase t text).isSome then 2
  else 3

/-- The items of `vis` that the loop of `match` puts into band `k`. -/
def codeBands (s : State) (k : Nat) (vis : List Nat) : List Nat :=
  vis.filter (fun x => codeBand s.icase s.text (itemText s x) = k)

/-- The three lists under construction in the loop of `match`. -/
structure Inv (s : State) (b : Bands) (lE lF lS : List Nat) : Prop where
  e : Band s.left s.right b.lexact b.exactend lE
  f : Band s.left s.right b.lprefix b.prefixend lF
  u : Band s.left s.right b.lsubstr b.substrend lS
  nd : (lE ++ lF ++ lS).Nodup

/-- The items `vis` that the loop of `match` still has to visit from `item`:
the rest of the old chain for `sub`, the rest of the array otherwise. -/
def Visit (sub : Bool) (n : Nat) (r : Nat → Option Nat) (item : Option Nat)
    (vis : List Nat) : Prop :=
  if sub = true then Seg r item vis none ∧ ∀ x ∈ vis, x < n
  else ∃ i, i ≤ n ∧ vis = List.range' i (n - i) ∧ (item = some i ∨ (item = none ∧ n = 0))

/-- The match chain of the state is `l`: from `matches` along `right` one
passes exactly the items `l` and arrives at `NULL`, and from `matchend` along
`left` one passes them in reverse. -/
def IsChain (s : State) (l : List Nat) : Prop :=
  Seg s.right s.matches_ l none ∧ Seg s.left s.matchend l.reverse none

/-- The variables that `match` and `calcoffsets` do not write agree in the two
states. -/
def SameConf (s s' : State) : Prop :=
  s'.text = s.text ∧ s'.lines = s.lines ∧ s'.mw = s.mw ∧ s'.inputw = s.inputw ∧
    s'.promptw = s.promptw ∧ s'.cursor = s.cursor ∧ s'.items = s.items ∧ s'.icase = s.icase

/-- The string held in a buffer: the bytes in front of the first NUL. -/
def cstr (t : List Nat) : List Nat := t.take (strlen t)

/-- The text under the comparison in use: lower-cased for `-i`. -/
def fold (icase : Bool) (l : List Nat) : List Nat := if icase = true then l.map tolower else l

/-- The whole text `t` equals the query `q`. -/
def WholeEq (icase : Bool) (q t : List Nat) : Prop := fold icase t = fold icase q

/-- The text `t` starts with the query `q`. -/
def StartsWith (icase : Bool) (q t : List Nat) : Prop := fold icase q <+: fold icase t

/-- The text `t` contains the query `q` somewhere. -/
def Contains (icase : Bool) (q t : List Nat) : Prop := fold icase q <:+: fold icase t

instance (icase : Bool) (q t : List Nat) : Decidable (WholeEq icase q t) :=
  inferInstanceAs (Decidable (fold icase t = fold icase q))

instance (icase : Bool) (q t : List Nat) : Decidable (StartsWith icase q t) :=
  inferInstanceAs (Decidable (fold icase q <+: fold icase t))

instance (icase : Bool) (q t : List Nat) : Decidable (Contains icase q t) :=
  inferInstanceAs (Decidable (fold icase q <:+: fold icase t))

/-- The items of `l` whose whole text equals the query `q`. -/
def exactItems (icase : Bool) (q : List Nat) (texts : List (List Nat)) (l : List Nat) :
    List Nat :=
  l.filter (fun x => decide (WholeEq icase q ((texts.get? x).getD [])))

/-- The items of `l` that start with the query `q` and are not equal to it. -/
def prefixItems (icase : Bool) (q : List Nat) (texts : List (List Nat)) (l : List Nat) :
    List Nat :=
  l.filter (fun x => decide (StartsWith icase q ((texts.get? x).getD []) ∧
    ¬ WholeEq icase q ((texts.get? x).getD [])))

/-- The items of `l` that contain the query `q`, do not start with it and are
not equal to it. -/
def substrItems (icase : Bool) (q : List Nat) (texts : List (List Nat)) (l : List Nat) :
    List Nat :=
  l.filter (fun x => decide (Contains icase q ((texts.get? x).getD []) ∧
    ¬ WholeEq icase q ((texts.get? x).getD []) ∧
    ¬ StartsWith icase q ((texts.get? x).getD [])))

/-- The three bands over the items `l`, exact, prefix, substring, each in the
order of `l`. -/
def banded (icase : Bool) (q : List Nat) (texts : List (List Nat)) (l : List Nat) : List Nat :=
  exactItems icase q texts l ++ prefixItems icase q texts l ++ substrItems icase q texts l

instance (s : State) (l : List Nat) : Decidable (IsChain s l) :=
  inferInstanceAs (Decidable (Seg s.right s.matches_ l none ∧ Seg s.left s.matchend l.reverse none))

/-- Any two items of the chain `c2` stand in `c2` in the order in which they
stand in `c1`. -/
def OrderKept (c1 c2 : List Nat) : Prop :=
  ∀ i ∈ c2, ∀ j ∈ c2, (List.Sublist [i, j] c2 ↔ List.Sublist [i, j] c1)

/-- The band of the text `t` for the query `q`: 0 exact, 1 prefix, 2 substring,
3 no match. -/
def bandOf (icase : Bool) (q t : List Nat) : Nat :=
  if WholeEq icase q t then 0
  else if StartsWith icase q t then 1
  else if Contains icase q t then 2
  else 3

/-- The items of `l` in three bands after the band number `k` of each item,
0, 1 and 2, each band in the order of `l`. -/
def byBand (k : Nat → Nat) (l : List Nat) : List Nat :=
  l.filter (fun x => decide (k x = 0)) ++ l.filter (fun x => decide (k x = 1)) ++
    l.filter (fun x => decide (k x = 2))

/-- A state with the query `q` in a buffer of `q.length + 4` bytes, the pool
`pool` and a terminal of 80 columns, before `match` has run. -/
def demo (q : List Nat) (pool : List (List Nat)) (icase : Bool) : State :=
  { text := q ++ [0, 0, 0, 0], lines := 0, mw := 80, inputw := 10, promptw := 0, cursor := 0,
    items := pool, left := fun _ => none, right := fun _ => none, matches_ := none,
    matchend := none, prev := none, curr := none, next := none, sel := none, icase := icase }

/-- The invariant of the edit buffer of `B` bytes: the buffer holds a string,
the cursor lies inside it, and (`strict`) neither the byte at the cursor nor the
first byte of the text is a continuation byte. -/
def TextInv (strict : Bool) (B : Nat) (s : State) : Prop :=
  s.text.length = B ∧ strlen s.text < B ∧ s.cursor ≤ strlen s.text ∧
    (strict = true →
      isCont (byteAt s.text s.cursor) = false ∧ isCont (byteAt s.text 0) = false)

/-- The invariant of the edit buffer wherever `run` stands. -/
def RunInv (strict : Bool) (B : Nat) : Run → Prop
  | Run.reading _ s => TextInv strict B s
  | Run.returned _ _ s =>
    s.cursor ≤ strlen s.text ∧ (strict = true → isCont (byteAt s.text s.cursor) = false)
  | Run.died => True
  | Run.abort => True

/-- The byte `c` that arrives while `run` stands at `r` is not a continuation
byte that the head of the loop inserts at offset 0: it is no continuation
byte, or the cursor is not at 0, or `insert` finds the buffer full
(`strlen(text) + n > sizeof text - 1` with `n = 1`) and leaves it. -/
def insertOk (r : Run) (c : Nat) : Bool :=
  match r with
  | Run.reading Pc.top s =>
    !(isCont (c % 256)) || decide (0 < s.cursor) ||
      decide (strlen s.text + 1 > sizeofText s - 1)
  | _ => true

/-- In the input `input` that arrives while `run` stands at `r`, no continuation
byte is inserted at offset 0: none arrives at the head of the loop while the
cursor is at offset 0 and the buffer has room. -/
def InsertsWell : Run → List Nat → Prop
  | _, [] => True
  | r, c :: cs => insertOk r c = true ∧ InsertsWell (step r c) cs

instance InsertsWell.decidable : ∀ (r : Run) (l : List Nat), Decidable (InsertsWell r l)
  | _, [] => isTrue trivial
  | r, c :: cs => @instDecidableAnd _ _ _ (InsertsWell.decidable (step r c) cs)

/-- The cursor lies inside the text. -/
def CursorInText : Run → Prop
  | Run.reading _ s => s.cursor ≤ strlen s.text
  | Run.returned _ _ s => s.cursor ≤ strlen s.text
  | Run.died => True
  | Run.abort => True

/-- The byte at the cursor is not a continuation byte. -/
def CursorOnBoundary : Run → Prop
  | Run.reading _ s => isCont (byteAt s.text s.cursor) = false
  | Run.returned _ _ s => isCont (byteAt s.text s.cursor) = false
  | Run.died => True
  | Run.abort => True

/-- The state is well formed with the match chain `l`: the links of the chain
are sound, no item stands twice in it, its items are items of the pool, and in
the vertical layout `next` is `NULL` (as `calcoffsets` leaves it). -/
def Wf (s : State) (l : List Nat) : Prop :=
  IsChain s l ∧ l.Nodup ∧ (∀ x ∈ l, x < s.items.length) ∧ (s.lines > 0 → s.next = none)

instance (s : State) (l : List Nat) : Decidable (Wf s l) :=
  inferInstanceAs (Decidable (IsChain s l ∧ l.Nodup ∧ (∀ x ∈ l, x < s.items.length) ∧
    (s.lines > 0 → s.next = none)))

/-- The sizes are ones that `setup` and `readstdin` leave: `drawtext` can draw
a text `mw` columns wide (`mw` is the width `ws_col` of the terminal, or 80),
and the width of every item fits into the `int` in which `textwn` counts. -/
def Sized (s : State) : Prop :=
  drawtextDies (toSize s.mw) = false ∧ ∀ t ∈ s.items, textw t < 2 ^ 31

instance (s : State) : Decidable (Sized s) :=
  inferInstanceAs (Decidable (drawtextDies (toSize s.mw) = false ∧
    ∀ t ∈ s.items, textw t < 2 ^ 31))

/-- The pointer `p` is `NULL` or an item of the chain `l`. -/
def InChain (p : Option Nat) (l : List Nat) : Prop := ∀ x, p = some x → x ∈ l

instance (p : Option Nat) (l : List Nat) : Decidable (InChain p l) :=
  match p with
  | none => isTrue (fun _ h => absurd h (by simp))
  | some y =>
    if h : y ∈ l then isTrue (fun x hx => by rw [← Option.some.inj hx]; exact h)
    else isFalse (fun hh => h (hh y rfl))

/-- The test `2 <= strlen(text) && strcmp("qq", text + strlen(text) - 2) == 0`
of the `default` case of `run`: the text ends in "qq". -/
def endsQQ (t : List Nat) : Prop :=
  2 ≤ strlen t ∧ (t.drop (strlen t - 2)).take 2 = [113, 113]

instance (t : List Nat) : Decidable (endsQQ t) :=
  inferInstanceAs (Decidable (2 ≤ strlen t ∧ (t.drop (strlen t - 2)).take 2 = [113, 113]))

/-- The forward boundary in the words of the specification: the first item `x`
of the walk `l` from `curr` such that the running total of the widths `w` of
the items from `curr` through `x`, started at `i`, exceeds `n`; `NULL` when
there is no such item. -/
def specNext (w : Nat → Nat) (n : Int) : Int → List Nat → Option Nat
  | _, [] => none
  | i, x :: xs => if i + w x > n then some x else specNext w n (i + w x) xs

/-- The single changes of the static variables that `run` makes between two
waits: the moves of the cursor, the calls of `insert`, the cut at the cursor
with `match(FALSE)`, and the moves of the selection. -/
inductive Op : State → State → Prop
  | fwd (s : State) (h : byteAt s.text s.cursor ≠ 0) : Op s { s with cursor := nextrune 1 s }
  | bwd (s : State) (h : 0 < s.cursor) : Op s { s with cursor := nextrune (-1) s }
  | bol (s : State) : Op s { s with cursor := 0 }
  | eol (s : State) : Op s { s with cursor := strlen s.text }
  | del (s s' : State) (h : 0 < s.cursor) (hd : deleteBack s = some s') : Op s s'
  | killLeft (s s' : State)
      (hd : insert [] (toSSize (0 - (s.cursor : Int))) s = some s') : Op s s'
  | typed (b : Nat) (s s' : State) (hb : iscntrl b = false)
      (hd : insert [b] (strlen [b]) s = some s') : Op s s'
  | kill (s s' : State)
      (hd : match_ false { s with text := s.text.set s.cursor 0 } = some s') : Op s s'
  | home (s s' : State)
      (hd : calcoffsets { s with sel := s.matches_, curr := s.matches_ } = some s') : Op s s'
  | endk (s s' : State) (h : byteAt s.text s.cursor = 0) (hd : keyEnd s = some s') : Op s s'
  | prev (s s' : State) (hd : selectPrev s = some s') : Op s s'
  | next (s s' : State) (hd : selectNext s = some s') : Op s s'
  | pgup (s s' : State) (h : s.prev ≠ none)
      (hd : calcoffsets { s with sel := s.prev, curr := s.prev } = some s') : Op s s'
  | pgdn (s s' : State) (h : s.next ≠ none)
      (hd : calcoffsets { s with sel := s.next, curr := s.next } = some s') : Op s s'

/-- A sequence of single changes. -/
def Ops : State → State → Prop := Relation.ReflTransGen Op

/-- The chain `l` of the state is sound and the window pointers `curr`, `next`
and `prev` are `NULL` or items of the chain; in the vertical layout `next` and
`prev` are `NULL`. -/
def Core (s : State) (l : List Nat) : Prop :=
  IsChain s l ∧ l.Nodup ∧ (∀ x ∈ l, x < s.items.length) ∧
    (∀ x, s.curr = some x → x ∈ l) ∧ (∀ x, s.next = some x → x ∈ l) ∧
    (∀ x, s.prev = some x → x ∈ l) ∧ (s.lines > 0 → s.next = none ∧ s.prev = none)

/-- The selection is `NULL` exactly when the chain `l` is empty, and otherwise
an item of the chain. -/
def SelOk (s : State) (l : List Nat) : Prop :=
  (s.sel = none ↔ l = []) ∧ ∀ x, s.sel = some x → x ∈ l

/-- The chain `l` holds exactly the items of the pool (whose texts hold no NUL
byte) whose text contains the query. -/
def Content (s : State) (l : List Nat) : Prop :=
  (∀ t ∈ s.items, 0 ∉ t) ∧
    ∀ x, x ∈ l ↔ x < s.items.length ∧ Contains s.icase (cstr s.text) (itemText s x)

/-- The invariant of the selection: the state has a sound chain with the
selection in it, made of the items that contain the query. -/
def Memb (s : State) : Prop := ∃ l, Core s l ∧ SelOk s l ∧ Content s l

/-- The variables that `run` never writes agree in the two states: the pool,
the comparison mode and the sizes. -/
def SameGeom (s s' : State) : Prop :=
  s'.lines = s.lines ∧ s'.mw = s.mw ∧ s'.inputw = s.inputw ∧ s'.promptw = s.promptw ∧
    s'.items = s.items ∧ s'.icase = s.icase

/-- The available width `n` of `calcoffsets` in the horizontal layout:
`mw - (promptw + inputw + textw("<") + textw(">"))`. -/
def availW (s : State) : Int := s.mw - s.promptw - s.inputw - 6

/-- The width that `calcoffsets` adds for the item `x`: `MIN(textw(text), n)`,
for `n >= 0`. -/
def capW (s : State) (x : Nat) : Nat := min (textw (itemText s x)) (availW s).toNat

/-- The total of the capped widths of the items `l`. -/
def sumW (s : State) (l : List Nat) : Nat := (l.map (capW s)).sum

/-- The horizontal layout with sizes in the range of `int` and an available
width that is not negative. -/
def Geo (s : State) : Prop :=
  s.lines = 0 ∧ 0 ≤ s.promptw ∧ s.promptw < 2 ^ 29 ∧ 0 ≤ s.inputw ∧ s.inputw < 2 ^ 29 ∧
    s.mw < 2 ^ 30 ∧ 0 ≤ availW s

/-- The frame of the window in the horizontal layout: the chain is the items
`A1 ++ A2` in front of the window, the window `W` from `curr` up to `next`, and
the items `B` from `next` on; `prev` is the first item of `A2` (or `curr`), the
items `A2` fit into the available width, and the window is empty only when the
chain is. -/
def Frame (s : State) (A1 A2 W B : List Nat) : Prop :=
  IsChain s (A1 ++ A2 ++ (W ++ B)) ∧ (A1 ++ A2 ++ (W ++ B)).Nodup ∧
    (∀ x ∈ A1 ++ A2 ++ (W ++ B), x < s.items.length) ∧
    s.curr = (W ++ B).head? ∧ s.next = B.head? ∧ s.prev = (A2 ++ (W ++ B)).head? ∧
    (sumW s A2 : Int) ≤ availW s ∧ (A1 ≠ [] → A2 ≠ []) ∧
    (W = [] → A1 ++ A2 ++ (W ++ B) = [])

/-- The invariant of the window in the horizontal layout: the frame, with the
selection an item of the window (and `NULL` when the chain is empty). -/
def Win (s : State) : Prop :=
  ∃ A1 A2 W B : List Nat, Frame s A1 A2 W B ∧
    ((A1 ++ A2 ++ (W ++ B) = [] ∧ s.sel = none) ∨ ∃ x ∈ W, s.sel = some x)

/-- The viewport invariant of the claim: the chain is `A ++ W ++ B` with `curr`
the first item of `W ++ B`, `next` the first item of `B` (`NULL` when `B` is
empty), and the selection an item of the window `W`; the window and the
selection are missing only when the chain is empty. -/
def InWindow (s : State) : Prop :=
  ∃ A W B : List Nat, IsChain s (A ++ W ++ B) ∧ (A ++ W ++ B).Nodup ∧
    s.curr = (W ++ B).head? ∧ s.next = B.head? ∧
    ((A ++ W ++ B = [] ∧ s.sel = none) ∨ ∃ x ∈ W, s.sel = some x)

/-- Where `run` waits, it waits at the head of its loop. -/
def AtTop : Run → Prop
  | Run.reading pc _ => pc = Pc.top
  | _ => True

/-- Where `run` waits, the cursor is behind offset 0 or `insert` finds the
buffer full. -/
def CursorPast : Run → Prop
  | Run.reading _ s => 0 < s.cursor ∨ strlen s.text + 1 > sizeofText s - 1
  | _ => True

/-- A condition on the input bytes alone: no byte is ESC (27), and each
continuation byte comes directly behind a byte of 0x80 or more (`prev` is the
byte in front of the input).  Well-formed UTF-8 without escape sequences is
of this kind. -/
def typedWell : Nat → List Nat → Bool
  | _, [] => true
  | prev, c :: cs =>
    decide (c % 256 ≠ 27) && (!(isCont (c % 256)) || decide (128 ≤ prev % 256)) &&
      typedWell c cs

/-! ## Lemmas -/

theorem Seg_append (r : Nat → Option Nat) :
    ∀ (l1 l2 : List Nat) (p q : Option Nat),
      Seg r p (l1 ++ l2) q ↔ ∃ m, Seg r p l1 m ∧ Seg r m l2 q := by
  intro l1
  induction l1 with
  | nil =>
    intro l2 p q
    simp only [List.nil_append, Seg]
    constructor
    · intro h; exact ⟨p, rfl, h⟩
    · rintro ⟨m, rfl, h⟩; exact h
  | cons x xs ih =>
    intro l2 p q
    rw [List.cons_append]
    simp only [Seg]
    rw [ih]
    constructor
    · rintro ⟨hp, m, h1, h2⟩; exact ⟨m, ⟨hp, h1⟩, h2⟩
    · rintro ⟨m, ⟨hp, h1⟩, h2⟩; exact ⟨hp, m, h1, h2⟩

theorem Seg_congr {r r' : Nat → Option Nat} :
    ∀ (l : List Nat) (p q : Option Nat), (∀ x ∈ l, r x = r' x) →
      (Seg r p l q ↔ Seg r' p l q) := by
  intro l
  induction l with
  | nil => intro p q _; simp [Seg]
  | cons x xs ih =>
    intro p q h
    simp only [Seg]
    rw [h x (List.mem_cons_self _ _)]
    rw [ih (r' x) q (fun y hy => h y (List.mem_cons_of_mem _ hy))]

theorem Seg_none_unique {r : Nat → Option Nat} :
    ∀ (l l' : List Nat) (p : Option Nat), Seg r p l none → Seg r p l' none → l = l' := by
  intro l
  induction l with
  | nil =>
    intro l' p h h'
    cases l' with
    | nil => rfl
    | cons y ys => simp only [Seg] at h h'; rw [h] at h'; exact absurd h'.1 (by simp)
  | cons x xs ih =>
    intro l' p h h'
    cases l' with
    | nil => simp only [Seg] at h h'; rw [h'] at h; exact absurd h.1 (by simp)
    | cons y ys =>
      simp only [Seg] at h h'
      have hxy : x = y := by
        have := h.1.symm.trans h'.1
        exact Option.some.inj this
      subst hxy
      rw [ih ys _ h.2 h'.2]

theorem Seg_singleton (r : Nat → Option Nat) (p q : Option Nat) (x : Nat) :
    Seg r p [x] q ↔ p = some x ∧ r x = q := by
  simp [Seg]

theorem Band_nil (left right : Nat → Option Nat) (first last : Option Nat) :
    Band left right first last [] ↔ first = none ∧ last = none := by
  simp [Band, Seg]

theorem Band_last {left right : Nat → Option Nat} {first last : Option Nat} {l : List Nat}
    {y : Nat} (h : Band left right first last (l ++ [y])) : last = some y := by
  have := h.2
  simp only [List.reverse_append, List.reverse_cons, List.reverse_nil, List.nil_append,
    List.singleton_append, Seg] at this
  exact this.1

theorem Band_congr {left right left' right' : Nat → Option Nat} {first last : Option Nat}
    {l : List Nat} (h : Band left right first last l)
    (hr : ∀ x ∈ l, right x = right' x) (hl : ∀ x ∈ l, left x = left' x) :
    Band left' right' first last l := by
  refine ⟨(Seg_congr l _ _ hr).1 h.1, (Seg_congr l.reverse _ _ ?_).1 h.2⟩
  intro x hx
  exact hl x (List.mem_reverse.1 hx)

theorem appenditem_band (x : Nat) (first last : Option Nat) (s : State) (l : List Nat)
    (h : Band s.left s.right first last l) (hx : x ∉ l) (hnd : l.Nodup) :
    Band (appenditem x first last s).1.left (appenditem x first last s).1.right
      (appenditem x first last s).2.1 (appenditem x first last s).2.2 (l ++ [x]) := by
  rcases List.eq_nil_or_concat l with hl | ⟨l', y, hl⟩
  · subst hl
    rw [Band_nil] at h
    obtain ⟨h1, h2⟩ := h
    subst h1 h2
    simp [appenditem, Band, Seg]
  · rw [List.concat_eq_append] at hl
    subst hl
    have hlast := Band_last h
    subst hlast
    have hy : y ≠ x := by
      intro e; apply hx; simp [e]
    have hxl' : x ∉ l' := by
      intro e; apply hx; simp [e]
    have hyl' : y ∉ l' := by
      intro e
      have := List.nodup_append.1 hnd
      exact this.2.2 e (by simp) 
    obtain ⟨h1, h2⟩ := h
    rw [Seg_append] at h1
    obtain ⟨m, h1a, h1b⟩ := h1
    rw [Seg_singleton] at h1b
    obtain ⟨hm, hry⟩ := h1b
    subst hm
    constructor
    · simp only [appenditem]
      rw [Seg_append]
      refine ⟨some x, ?_, ?_⟩
      · rw [Seg_append]
        refine ⟨some y, ?_, ?_⟩
        · refine (Seg_congr l' _ _ ?_).1 h1a
          intro z hz
          have hzx : z ≠ x := fun e => hxl' (e ▸ hz)
          have hzy : z ≠ y := fun e => hyl' (e ▸ hz)
          simp [Function.update, hzx, hzy]
        · rw [Seg_singleton]
          simp [Function.update, hy]
      · rw [Seg_singleton]
        simp [Function.update]
    · simp only [appenditem]
      rw [List.reverse_append]
      simp only [List.reverse_cons, List.reverse_nil, List.nil_append, List.singleton_append]
      simp only [Seg, true_and]
      simp only [Function.update, dite_true]
      refine (Seg_congr _ _ _ ?_).1 h2
      intro z hz
      have hzx : z ≠ x := by
        intro e; apply hx; rw [← e]; exact List.mem_reverse.1 hz
      simp [hzx]

theorem Band_last_mem {left right : Nat → Option Nat} {first : Option Nat} {l : List Nat}
    {y : Nat} (h : Band left right first (some y) l) : y ∈ l := by
  rcases List.eq_nil_or_concat l with hl | ⟨l', z, hl⟩
  · subst hl
    rw [Band_nil] at h
    exact absurd h.2 (by simp)
  · rw [List.concat_eq_append] at hl
    subst hl
    have := Band_last h
    have hyz : y = z := Option.some.inj this
    simp [hyz]

theorem appenditem_frame (x : Nat) (first last : Option Nat) (s : State) (l : List Nat)
    (h : Band s.left s.right first last l) (z : Nat) (hzx : z ≠ x) (hz : z ∉ l) :
    (appenditem x first last s).1.right z = s.right z ∧
      (appenditem x first last s).1.left z = s.left z := by
  cases last with
  | none => simp [appenditem, Function.update, hzx]
  | some y =>
    have hy : y ∈ l := Band_last_mem h
    have hzy : z ≠ y := fun e => hz (e ▸ hy)
    simp [appenditem, Function.update, hzx, hzy]

theorem appenditem_vars (x : Nat) (first last : Option Nat) (s : State) :
    (appenditem x first last s).1 =
      { s with left := (appenditem x first last s).1.left,
               right := (appenditem x first last s).1.right } := by
  cases last <;> rfl

theorem matchItem_vars (x : Nat) (t : List Nat) (s : State) (b : Bands) :
    (matchItem x t s b).1 =
      { s with left := (matchItem x t s b).1.left, right := (matchItem x t s b).1.right } := by
  unfold matchItem
  split_ifs
  · exact appenditem_vars _ _ _ _
  · exact appenditem_vars _ _ _ _
  · exact appenditem_vars _ _ _ _
  · rfl

theorem matchItem_spec (x : Nat) (t : List Nat) (s : State) (b : Bands) (lE lF lS : List Nat)
    (h : Inv s b lE lF lS) (hx : x ∉ lE ++ lF ++ lS) :
    Inv (matchItem x t s b).1 (matchItem x t s b).2
      (lE ++ if codeBand s.icase s.text t = 0 then [x] else [])
      (lF ++ if codeBand s.icase s.text t = 1 then [x] else [])
      (lS ++ if codeBand s.icase s.text t = 2 then [x] else []) ∧
    ∀ z, z ≠ x → z ∉ lE ++ lF ++ lS →
      (matchItem x t s b).1.right z = s.right z ∧ (matchItem x t s b).1.left z = s.left z := by
  obtain ⟨he, hf, hu, hnd⟩ := h
  have hxE : x ∉ lE := fun e => hx (by simp [e])
  have hxF : x ∉ lF := fun e => hx (by simp [e])
  have hxS : x ∉ lS := fun e => hx (by simp [e])
  have hndE : lE.Nodup := (List.nodup_append.1 (List.nodup_append.1 hnd).1).1
  have hndF : lF.Nodup := (List.nodup_append.1 (List.nodup_append.1 hnd).1).2.1
  have hndS : lS.Nodup := (List.nodup_append.1 hnd).2.1
  have hdEF : ∀ z, z ∈ lE → z ∉ lF := fun z h1 h2 =>
    (List.nodup_append.1 (List.nodup_append.1 hnd).1).2.2 h1 h2
  have hdES : ∀ z, z ∈ lE → z ∉ lS := fun z h1 h2 =>
    (List.nodup_append.1 hnd).2.2 (by simp [h1]) h2
  have hdFS : ∀ z, z ∈ lF → z ∉ lS := fun z h1 h2 =>
    (List.nodup_append.1 hnd).2.2 (by simp [h1]) h2
  unfold matchItem codeBand
  by_cases c0 : fstrncmp s.icase s.text t (strlen s.text + 1) = 0
  · simp only [c0, if_true]
    have hfr := appenditem_frame x b.lexact b.exactend s lE he
    refine ⟨⟨appenditem_band x _ _ s lE he hxE hndE, ?_, ?_, ?_⟩, ?_⟩
    · simp only [show ((0:Nat) = 1) = False from by simp, if_false, List.append_nil]
      exact Band_congr hf (fun z hz => (hfr z (fun e => hxF (e ▸ hz)) (fun e => hdEF z e hz)).1.symm)
        (fun z hz => (hfr z (fun e => hxF (e ▸ hz)) (fun e => hdEF z e hz)).2.symm)
    · simp only [show ((0:Nat) = 2) = False from by simp, if_false, List.append_nil]
      exact Band_congr hu (fun z hz => (hfr z (fun e => hxS (e ▸ hz)) (fun e => hdES z e hz)).1.symm)
        (fun z hz => (hfr z (fun e => hxS (e ▸ hz)) (fun e => hdES z e hz)).2.symm)
    · simp only [show ((0:Nat) = 1) = False from by simp, show ((0:Nat) = 2) = False from by simp,
        if_false, List.append_nil]
      have : (lE ++ [x] ++ lF ++ lS).Perm (x :: (lE ++ lF ++ lS)) := by
        simp only [List.append_assoc]
        exact List.perm_middle
      exact (this.nodup_iff).2 (List.nodup_cons.2 ⟨hx, hnd⟩)
    · intro z hzx hz
      exact hfr z hzx (fun e => hz (by simp [e]))
  · by_cases c1 : fstrncmp s.icase s.text t (strlen s.text) = 0
    · simp only [c0, c1, if_true, if_false]
      have hfr := appenditem_frame x b.lprefix b.prefixend s lF hf
      refine ⟨⟨?_, appenditem_band x _ _ s lF hf hxF hndF, ?_, ?_⟩, ?_⟩
      · simp only [show ((1:Nat) = 0) = False from by simp, if_false, List.append_nil]
        exact Band_congr he
          (fun z hz => (hfr z (fun e => hxE (e ▸ hz)) (fun e => hdEF z hz e)).1.symm)
          (fun z hz => (hfr z (fun e => hxE (e ▸ hz)) (fun e => hdEF z hz e)).2.symm)
      · simp only [show ((1:Nat) = 2) = False from by simp, if_false, List.append_nil]
        exact Band_congr hu
          (fun z hz => (hfr z (fun e => hxS (e ▸ hz)) (fun e => hdFS z e hz)).1.symm)
          (fun z hz => (hfr z (fun e => hxS (e ▸ hz)) (fun e => hdFS z e hz)).2.symm)
      · simp only [show ((1:Nat) = 0) = False from by simp, show ((1:Nat) = 2) = False from by simp,
          if_false, List.append_nil]
        have : (lE ++ (lF ++ [x]) ++ lS).Perm (x :: (lE ++ lF ++ lS)) := by
          simp only [List.append_assoc]
          refine (List.perm_append_left_iff lE).2 ?_ |>.trans List.perm_middle
          exact List.perm_middle
        exact (this.nodup_iff).2 (List.nodup_cons.2 ⟨hx, hnd⟩)
      · intro z hzx hz
        exact hfr z hzx (fun e => hz (by simp [e]))
    · by_cases c2 : (fstrstr s.icase t s.text).isSome = true
      · simp only [c0, c1, c2, if_true, if_false]
        have hfr := appenditem_frame x b.lsubstr b.substrend s lS hu
        refine ⟨⟨?_, ?_, appenditem_band x _ _ s lS hu hxS hndS, ?_⟩, ?_⟩
        · simp only [show ((2:Nat) = 0) = False from by simp, if_false, List.append_nil]
          exact Band_congr he
            (fun z hz => (hfr z (fun e => hxE (e ▸ hz)) (fun e => hdES z hz e)).1.symm)
            (fun z hz => (hfr z (fun e => hxE (e ▸ hz)) (fun e => hdES z hz e)).2.symm)
        · simp only [show ((2:Nat) = 1) = False from by simp, if_false, List.append_nil]
          exact Band_congr hf
            (fun z hz => (hfr z (fun e => hxF (e ▸ hz)) (fun e => hdFS z hz e)).1.symm)
            (fun z hz => (hfr z (fun e => hxF (e ▸ hz)) (fun e => hdFS z hz e)).2.symm)
        · simp only [show ((2:Nat) = 0) = False from by simp,
            show ((2:Nat) = 1) = False from by simp, if_false, List.append_nil]
          have : (lE ++ lF ++ (lS ++ [x])).Perm (x :: (lE ++ lF ++ lS)) := by
            rw [← List.append_assoc]
            exact (List.perm_append_singleton x _)
          exact (this.nodup_iff).2 (List.nodup_cons.2 ⟨hx, hnd⟩)
        · intro z hzx hz
          exact hfr z hzx (fun e => hz (by simp [e]))
      · simp only [c0, c1, c2, Bool.false_eq_true, if_false, show ((3:Nat) = 0) = False from by simp,
          show ((3:Nat) = 1) = False from by simp, show ((3:Nat) = 2) = False from by simp,
          List.append_nil]
        exact ⟨⟨he, hf, hu, hnd⟩, fun z _ _ => ⟨trivial, trivial⟩⟩

theorem codeBands_cons (s : State) (k x : Nat) (vis : List Nat) :
    codeBands s k (x :: vis) =
      (if codeBand s.icase s.text (itemText s x) = k then [x] else []) ++ codeBands s k vis := by
  unfold codeBands
  by_cases h : codeBand s.icase s.text (itemText s x) = k
  · simp [List.filter_cons, h]
  · simp [List.filter_cons, h]

theorem codeBands_vars (s s' : State) (k : Nat) (vis : List Nat)
    (h : s' = { s with left := s'.left, right := s'.right }) :
    codeBands s' k vis = codeBands s k vis := by
  have h1 : s'.icase = s.icase := by rw [h]
  have h2 : s'.text = s.text := by rw [h]
  have h3 : s'.items = s.items := by rw [h]
  unfold codeBands itemText
  rw [h1, h2, h3]

theorem matchLoop_spec (sub : Bool) :
    ∀ (vis : List Nat) (fuel : Nat) (item : Option Nat) (s : State) (b : Bands)
      (lE lF lS : List Nat),
      Visit sub s.items.length s.right item vis →
      vis.length < fuel →
      vis.Nodup → (∀ x ∈ vis, x ∉ lE ++ lF ++ lS) →
      Inv s b lE lF lS →
      ∃ s' b', matchLoop sub fuel item s b = some (s', b') ∧
        Inv s' b' (lE ++ codeBands s 0 vis) (lF ++ codeBands s 1 vis)
          (lS ++ codeBands s 2 vis) ∧
        s' = { s with left := s'.left, right := s'.right } := by
  intro vis
  induction vis with
  | nil =>
    intro fuel item s b lE lF lS hv _ _ _ hinv
    refine ⟨s, b, ?_, ?_, rfl⟩
    · unfold Visit at hv
      by_cases hs : sub = true
      · rw [if_pos hs] at hv
        have : item = none := hv.1
        subst this
        unfold matchLoop
        rfl
      · rw [if_neg hs] at hv
        obtain ⟨i, hi, hr, hitem⟩ := hv
        rcases hitem with hitem | ⟨hitem, _⟩
        · have hin : i = s.items.length := by
            have := congrArg List.length hr
            simp at this
            omega
          subst hitem
          unfold matchLoop
          have : s.items.get? i = none := by
            rw [hin]; simp
          simp only [List.get?_eq_getElem?] at this ⊢
          rw [this]
        · subst hitem
          unfold matchLoop
          rfl
    · simpa [codeBands] using hinv
  | cons x vis ih =>
    intro fuel item s b lE lF lS hv hfuel hnd hdis hinv
    obtain ⟨f, hf⟩ : ∃ f, fuel = f + 1 := ⟨fuel - 1, by simp at hfuel; omega⟩
    subst hf
    have hxn : x ∉ lE ++ lF ++ lS := hdis x (List.mem_cons_self _ _)
    have hxv : x ∉ vis := (List.nodup_cons.1 hnd).1
    have hitem : item = some x ∧ x < s.items.length ∧
        Visit sub s.items.length s.right (if sub = true then s.right x else some (x + 1)) vis := by
      unfold Visit at hv ⊢
      by_cases hs : sub = true
      · rw [if_pos hs] at hv
        simp only [hs, if_true]
        exact ⟨hv.1.1, hv.2 x (List.mem_cons_self _ _), hv.1.2,
          fun y hy => hv.2 y (List.mem_cons_of_mem _ hy)⟩
      · rw [if_neg hs] at hv
        simp only [hs, if_false]
        obtain ⟨i, hi, hr, hitem⟩ := hv
        have hlen := congrArg List.length hr
        simp at hlen
        obtain ⟨k, hk⟩ : ∃ k, s.items.length - i = k + 1 := ⟨vis.length, by omega⟩
        rw [hk, List.range'_succ] at hr
        have hxi : x = i := (List.cons.inj hr).1
        have hvis : vis = List.range' (i + 1) k := (List.cons.inj hr).2
        subst hxi
        refine ⟨?_, by omega, x + 1, by omega, ?_, Or.inl rfl⟩
        · rcases hitem with h | ⟨_, h⟩
          · exact h
          · omega
        · rw [hvis]
          congr 1
          omega
    obtain ⟨hitem, hxlt, hv'⟩ := hitem
    subst hitem
    obtain ⟨t, ht⟩ : ∃ t, s.items.get? x = some t := by
      rw [List.get?_eq_get hxlt]; exact ⟨_, rfl⟩
    have htx : itemText s x = t := by
      unfold itemText; rw [ht]; rfl
    have hstep : matchLoop sub (f + 1) (some x) s b =
        matchLoop sub f (if sub = true then s.right x else some (x + 1))
          (matchItem x t s b).1 (matchItem x t s b).2 := by
      rw [matchLoop]
      simp only [ht]
    obtain ⟨hinv1, hframe⟩ := matchItem_spec x t s b lE lF lS hinv hxn
    have hvars := matchItem_vars x t s b
    have hitems : (matchItem x t s b).1.items = s.items := by rw [hvars]
    have hv1 : Visit sub (matchItem x t s b).1.items.length (matchItem x t s b).1.right
        (if sub = true then s.right x else some (x + 1)) vis := by
      rw [hitems]
      unfold Visit at hv' ⊢
      by_cases hs : sub = true
      · simp only [hs, if_true] at hv' ⊢
        refine ⟨(Seg_congr vis _ _ ?_).1 hv'.1, hv'.2⟩
        intro z hz
        exact ((hframe z (fun e => hxv (e ▸ hz))
          (hdis z (List.mem_cons_of_mem _ hz))).1).symm
      · simp only [hs, if_false] at hv' ⊢
        exact hv'
    have hdis1 : ∀ z ∈ vis, z ∉
        (lE ++ if codeBand s.icase s.text t = 0 then [x] else []) ++
        (lF ++ if codeBand s.icase s.text t = 1 then [x] else []) ++
        (lS ++ if codeBand s.icase s.text t = 2 then [x] else []) := by
      intro z hz hmem
      have hzx : z ≠ x := fun e => hxv (e ▸ hz)
      have hz0 := hdis z (List.mem_cons_of_mem _ hz)
      simp only [List.mem_append] at hmem hz0
      have aux : ∀ (c : Prop) [Decidable c], z ∉ (if c then [x] else []) := by
        intro c _
        split_ifs <;> simp [hzx]
      rcases hmem with (((h | h) | (h | h)) | (h | h))
      · exact hz0 (Or.inl (Or.inl h))
      · exact aux _ h
      · exact hz0 (Or.inl (Or.inr h))
      · exact aux _ h
      · exact hz0 (Or.inr h)
      · exact aux _ h
    obtain ⟨s', b', hrun, hinv', hvars'⟩ :=
      ih f _ (matchItem x t s b).1 (matchItem x t s b).2 _ _ _ hv1
        (by simp at hfuel; omega) (List.nodup_cons.1 hnd).2 hdis1 hinv1
    refine ⟨s', b', by rw [hstep]; exact hrun, ?_, ?_⟩
    · rw [codeBands_vars s _ _ _ hvars] at hinv'
      rw [codeBands_vars s _ _ _ hvars, codeBands_vars s _ _ _ hvars] at hinv'
      rw [codeBands_cons, codeBands_cons, codeBands_cons, htx]
      simpa [List.append_assoc] using hinv'
    · rw [hvars'] 
      rw [hvars]

theorem length_le_of_nodup_lt {l : List Nat} {n : Nat} (hnd : l.Nodup)
    (h : ∀ x ∈ l, x < n) : l.length ≤ n := by
  have hsub : l ⊆ List.range n := fun x hx => List.mem_range.2 (h x hx)
  have := (List.subperm_of_subset hnd hsub).length_le
  simpa using this

theorem Seg_from_none {r : Nat → Option Nat} {l : List Nat} {q : Option Nat}
    (h : Seg r none l q) : l = [] := by
  cases l with
  | nil => rfl
  | cons x xs => exact absurd h.1 (by simp)

theorem Seg_from_some {r : Nat → Option Nat} {l : List Nat} {f : Nat}
    (h : Seg r (some f) l none) : ∃ l', l = f :: l' := by
  cases l with
  | nil => exact absurd h (by simp [Seg])
  | cons x xs =>
    have : f = x := Option.some.inj h.1
    exact ⟨xs, by rw [this]⟩

theorem joinBand_spec (l lend : Option Nat) (s : State) (A B : List Nat)
    (hA : Band s.left s.right s.matches_ s.matchend A)
    (hB : Band s.left s.right l lend B) (hnd : (A ++ B).Nodup) :
    Band (joinBand l lend s).left (joinBand l lend s).right (joinBand l lend s).matches_
      (joinBand l lend s).matchend (A ++ B) ∧
    (∀ z, z ∉ A ++ B → (joinBand l lend s).right z = s.right z ∧
      (joinBand l lend s).left z = s.left z) ∧
    joinBand l lend s = { s with left := (joinBand l lend s).left,
                                 right := (joinBand l lend s).right,
                                 matches_ := (joinBand l lend s).matches_,
                                 matchend := (joinBand l lend s).matchend } := by
  cases l with
  | none =>
    have hBnil : B = [] := Seg_from_none hB.1
    subst hBnil
    rw [List.append_nil]
    exact ⟨hA, fun z _ => ⟨rfl, rfl⟩, rfl⟩
  | some f =>
    obtain ⟨B', hB'⟩ := Seg_from_some hB.1
    subst hB'
    cases hme : s.matchend with
    | none =>
      rw [hme] at hA
      have hAnil : A = [] := by
        have := Seg_from_none hA.2
        simpa using this
      subst hAnil
      rw [List.nil_append]
      have hj : joinBand (some f) lend s = { s with matches_ := some f, matchend := lend } := by
        simp only [joinBand, hme]
      rw [hj]
      exact ⟨hB, fun z _ => ⟨rfl, rfl⟩, rfl⟩
    | some e =>
      rw [hme] at hA
      have heA : e ∈ A := Band_last_mem hA
      rcases List.eq_nil_or_concat A with hAn | ⟨A', y, hAc⟩
      · subst hAn; simp at heA
      · rw [List.concat_eq_append] at hAc
        subst hAc
        have hey : e = y := Option.some.inj (Band_last hA)
        subst hey
        have hnd' := List.nodup_append.1 hnd
        have hndA := List.nodup_append.1 hnd'.1
        have heA' : e ∉ A' := fun h => hndA.2.2 h (by simp)
        have heB : e ∉ f :: B' := fun h => hnd'.2.2 (by simp) h
        have hfe : f ≠ e := fun h => heB (by simp [h])
        have hfA : f ∉ A' ++ [e] := fun h => hnd'.2.2 h (by simp)
        have hfB' : f ∉ B' := (List.nodup_cons.1 hnd'.2.1).1
        have hj : joinBand (some f) lend s =
            { s with right := Function.update s.right e (some f),
                     left := Function.update s.left f (some e),
                     matchend := lend } := by
          simp only [joinBand, hme]
        rw [hj]
        refine ⟨⟨?_, ?_⟩, ?_, rfl⟩
        · obtain ⟨h1, _⟩ := hA
          rw [Seg_append] at h1
          obtain ⟨m, h1a, h1b⟩ := h1
          rw [Seg_singleton] at h1b
          obtain ⟨hm, _⟩ := h1b
          subst hm
          rw [Seg_append]
          refine ⟨some f, ?_, ?_⟩
          · rw [Seg_append]
            refine ⟨some e, ?_, ?_⟩
            · refine (Seg_congr A' _ _ ?_).1 h1a
              intro z hz
              have : z ≠ e := fun h => heA' (h ▸ hz)
              simp [Function.update, this]
            · rw [Seg_singleton]; simp [Function.update]
          · refine (Seg_congr _ _ _ ?_).1 hB.1
            intro z hz
            have : z ≠ e := fun h => heB (h ▸ hz)
            simp [Function.update, this]
        · obtain ⟨_, h2⟩ := hB
          rw [List.reverse_cons, Seg_append] at h2
          obtain ⟨m, h2a, h2b⟩ := h2
          rw [Seg_singleton] at h2b
          obtain ⟨hm, _⟩ := h2b
          subst hm
          rw [List.reverse_append, List.reverse_cons (a := f), Seg_append]
          refine ⟨some e, ?_, ?_⟩
          · rw [Seg_append]
            refine ⟨some f, ?_, ?_⟩
            · refine (Seg_congr _ _ _ ?_).1 h2a
              intro z hz
              have : z ≠ f := fun h => hfB' (h ▸ List.mem_reverse.1 hz)
              simp [Function.update, this]
            · rw [Seg_singleton]; simp [Function.update]
          · refine (Seg_congr _ _ _ ?_).1 hA.2
            intro z hz
            have : z ≠ f := fun h => hfA (h ▸ List.mem_reverse.1 hz)
            simp [Function.update, this]
        · intro z hz
          have h1 : z ≠ e := fun h => hz (by simp [h])
          have h2 : z ≠ f := fun h => hz (by simp [h])
          simp [Function.update, h1, h2]

theorem calcNext_some (s : State) (n : Int) :
    ∀ (l : List Nat) (fuel : Nat) (i : Int) (p : Option Nat),
      Seg s.right p l none → l.length ≤ fuel →
      ∃ nx, calcNext s n fuel i p = some nx ∧ (nx = none ∨ ∃ y ∈ l, nx = some y) := by
  intro l
  induction l with
  | nil =>
    intro fuel i p h _
    have : p = none := h
    subst this
    exact ⟨none, by cases fuel <;> simp [calcNext], Or.inl rfl⟩
  | cons x xs ih =>
    intro fuel i p h hf
    have hp : p = some x := h.1
    subst hp
    obtain ⟨f, hf'⟩ : ∃ f, fuel = f + 1 := ⟨fuel - 1, by simp at hf; omega⟩
    subst hf'
    rw [calcNext]
    have key : ∀ i1, ∃ nx, calcNext s n f i1 (s.right x) = some nx ∧
        (nx = none ∨ ∃ y ∈ x :: xs, nx = some y) := by
      intro i1
      obtain ⟨nx, h1, h2⟩ := ih f i1 (s.right x) h.2 (by simp at hf; omega)
      refine ⟨nx, h1, ?_⟩
      rcases h2 with h2 | ⟨y, hy, h2⟩
      · exact Or.inl h2
      · exact Or.inr ⟨y, List.mem_cons_of_mem _ hy, h2⟩
    split_ifs
    all_goals first
      | exact ⟨some x, rfl, Or.inr ⟨x, List.mem_cons_self _ _, rfl⟩⟩
      | exact key _

theorem calcPrev_some (s : State) (n : Int) :
    ∀ (l : List Nat) (fuel : Nat) (i : Int) (p : Option Nat),
      Seg s.left p l none → l.length ≤ fuel →
      ∃ pv, calcPrev s n fuel i p = some pv ∧
        ((p = none ∧ pv = none) ∨ ∃ y ∈ l, pv = some y) := by
  intro l
  induction l with
  | nil =>
    intro fuel i p h _
    have : p = none := h
    subst this
    exact ⟨none, by cases fuel <;> simp [calcPrev], Or.inl ⟨rfl, rfl⟩⟩
  | cons x xs ih =>
    intro fuel i p h hf
    have hp : p = some x := h.1
    subst hp
    obtain ⟨f, hf'⟩ : ∃ f, fuel = f + 1 := ⟨fuel - 1, by simp at hf; omega⟩
    subst hf'
    rw [calcPrev]
    cases hl : s.left x with
    | none => exact ⟨some x, rfl, Or.inr ⟨x, List.mem_cons_self _ _, rfl⟩⟩
    | some y =>
      simp only []
      have key : ∀ i1, ∃ pv, calcPrev s n f i1 (some y) = some pv ∧
          ∃ z ∈ x :: xs, pv = some z := by
        intro i1
        have h2 := h.2
        rw [hl] at h2
        obtain ⟨pv, h1, h3⟩ := ih f i1 (some y) h2 (by simp at hf; omega)
        refine ⟨pv, h1, ?_⟩
        rcases h3 with ⟨h3, _⟩ | ⟨z, hz, h3⟩
        · exact absurd h3 (by simp)
        · exact ⟨z, List.mem_cons_of_mem _ hz, h3⟩
      split_ifs
      all_goals first
        | exact ⟨some x, rfl, Or.inr ⟨x, List.mem_cons_self _ _, rfl⟩⟩
        | exact (key _).imp (fun pv hpv => ⟨hpv.1, Or.inr hpv.2⟩)

theorem calcNext_seg (s : State) (n : Int) :
    ∀ (l : List Nat) (fuel : Nat) (i : Int) (p nx : Option Nat),
      Seg s.right p l none → calcNext s n fuel i p = some nx →
      ∃ l1, Seg s.right p l1 nx ∧ l1.length ≤ l.length := by
  intro l
  induction l with
  | nil =>
    intro fuel i p nx h hc
    have : p = none := h
    subst this
    have : calcNext s n fuel i none = some none := by cases fuel <;> simp [calcNext]
    rw [this] at hc
    have : nx = none := (Option.some.inj hc).symm
    subst this
    exact ⟨[], rfl, Nat.le_refl _⟩
  | cons x xs ih =>
    intro fuel i p nx h hc
    have hp : p = some x := h.1
    subst hp
    cases fuel with
    | zero => simp [calcNext] at hc
    | succ f =>
      rw [calcNext] at hc
      have key : ∀ i1, calcNext s n f i1 (s.right x) = some nx →
          ∃ l1, Seg s.right (some x) l1 nx ∧ l1.length ≤ (x :: xs).length := by
        intro i1 h1
        obtain ⟨l1, hl1, hlen⟩ := ih f i1 (s.right x) nx h.2 h1
        exact ⟨x :: l1, ⟨rfl, hl1⟩, by simpa using hlen⟩
      have stop : some (some x) = some nx →
          ∃ l1, Seg s.right (some x) l1 nx ∧ l1.length ≤ (x :: xs).length := by
        intro h1
        have : nx = some x := (Option.some.inj h1).symm
        subst this
        exact ⟨[], rfl, Nat.zero_le _⟩
      split_ifs at hc
      all_goals first
        | exact stop hc
        | exact key _ hc

theorem calcoffsets_some (s : State) (l1 l2 : List Nat)
    (h1 : Seg s.right s.curr l1 none) (h2 : Seg s.left s.curr l2 none)
    (hl1 : l1.length ≤ s.items.length + 1) (hl2 : l2.length ≤ s.items.length + 1) :
    ∃ s', calcoffsets s = some s' ∧ s' = { s with next := s'.next, prev := s'.prev } ∧
      (s'.next = s.next ∨ s'.next = none ∨ ∃ y ∈ l1, s'.next = some y) ∧
      (s'.prev = s.prev ∨ (s.curr = none ∧ s'.prev = none) ∨ ∃ y ∈ l2, s'.prev = some y) ∧
      (s.lines > 0 → s'.next = s.next) ∧
      (¬ s.lines > 0 → ∃ l, Seg s.right s.curr l s'.next ∧ l.length ≤ l1.length) := by
  unfold calcoffsets
  by_cases hlines : s.lines > 0
  · rw [if_pos hlines]
    exact ⟨s, rfl, rfl, Or.inl rfl, Or.inl rfl, fun _ => rfl, fun h => absurd hlines h⟩
  · rw [if_neg hlines]
    obtain ⟨nx, hnx, hnx'⟩ := calcNext_some s
      (toInt32 (s.mw - (toInt32 (s.promptw + s.inputw) + 3 + 3))) l1 _ 0 _ h1 hl1
    obtain ⟨pv, hpv, hpv'⟩ := calcPrev_some s
      (toInt32 (s.mw - (toInt32 (s.promptw + s.inputw) + 3 + 3))) l2 _ 0 _ h2 hl2
    have hseg := calcNext_seg s _ l1 _ 0 _ nx h1 hnx
    rw [hnx, hpv]
    exact ⟨_, rfl, rfl, Or.inr hnx', Or.inr hpv', fun h => absurd h hlines, fun _ => hseg⟩

theorem SameConf.refl (s : State) : SameConf s s :=
  ⟨rfl, rfl, rfl, rfl, rfl, rfl, rfl, rfl⟩

theorem SameConf.trans {s1 s2 s3 : State} (h1 : SameConf s1 s2) (h2 : SameConf s2 s3) :
    SameConf s1 s3 := by
  obtain ⟨a1, a2, a3, a4, a5, a6, a7, a8⟩ := h1
  obtain ⟨b1, b2, b3, b4, b5, b6, b7, b8⟩ := h2
  exact ⟨b1.trans a1, b2.trans a2, b3.trans a3, b4.trans a4, b5.trans a5, b6.trans a6,
    b7.trans a7, b8.trans a8⟩

theorem Band_first_left {left right : Nat → Option Nat} {first last : Option Nat}
    {l : List Nat} (h : Band left right first last l) : Seg left first (l.take 1) none := by
  cases l with
  | nil =>
    have : first = none := h.1
    subst this
    simp [Seg]
  | cons x xs =>
    have hf : first = some x := h.1.1
    subst hf
    have h2 := h.2
    rw [List.reverse_cons, Seg_append] at h2
    obtain ⟨m, _, h2b⟩ := h2
    rw [Seg_singleton] at h2b
    simp only [List.take_succ_cons, List.take_zero]
    rw [Seg_singleton]
    exact ⟨rfl, h2b.2⟩

theorem codeBands_subset (s : State) (k : Nat) (vis : List Nat) :
    ∀ x ∈ codeBands s k vis, x ∈ vis := by
  intro x hx
  unfold codeBands at hx
  exact (List.mem_filter.1 hx).1

theorem match_spec (sub : Bool) (s : State) (vis : List Nat)
    (hv : Visit sub s.items.length s.right (if sub = true then s.matches_ else itemsPtr s) vis)
    (hnd : vis.Nodup) (hlt : ∀ x ∈ vis, x < s.items.length) :
    ∃ s', match_ sub s = some s' ∧
      IsChain s' (codeBands s 0 vis ++ codeBands s 1 vis ++ codeBands s 2 vis) ∧
      s'.curr = s'.matches_ ∧ s'.sel = s'.matches_ ∧ SameConf s s' ∧
      (s.lines > 0 → s'.next = s.next) ∧
      (¬ s.lines > 0 →
        ∃ l, Seg s'.right s'.curr l s'.next ∧ l.length ≤ s.items.length) := by
  have hlen : vis.length < s.items.length + 1 := by
    have := length_le_of_nodup_lt hnd hlt
    omega
  obtain ⟨s1, b, hrun, hinv, hvars⟩ :=
    matchLoop_spec sub vis (s.items.length + 1) _ s ⟨none, none, none, none, none, none⟩
      [] [] [] hv hlen hnd (by simp)
      ⟨by simp [Band, Seg], by simp [Band, Seg], by simp [Band, Seg], by simp⟩
  simp only [List.nil_append] at hinv
  obtain ⟨hE, hF, hS, hND⟩ := hinv
  have hc1 : SameConf s s1 := by
    rw [hvars]; exact SameConf.refl _
  -- the first join
  have hj1 := joinBand_spec b.lprefix b.prefixend
    { s1 with matches_ := b.lexact, matchend := b.exactend }
    (codeBands s 0 vis) (codeBands s 1 vis) hE hF (List.nodup_append.1 hND).1
  obtain ⟨hEF, hfr1, hv1⟩ := hj1
  have hS1 : Band
      (joinBand b.lprefix b.prefixend { s1 with matches_ := b.lexact, matchend := b.exactend }).left
      (joinBand b.lprefix b.prefixend { s1 with matches_ := b.lexact, matchend := b.exactend }).right
      b.lsubstr b.substrend (codeBands s 2 vis) := by
    refine Band_congr hS ?_ ?_
    · intro z hz
      exact ((hfr1 z (fun h => (List.nodup_append.1 hND).2.2 h hz)).1).symm
    · intro z hz
      exact ((hfr1 z (fun h => (List.nodup_append.1 hND).2.2 h hz)).2).symm
  have hj2 := joinBand_spec b.lsubstr b.substrend _ _ _ hEF hS1 hND
  obtain ⟨hEFS, _, hv2⟩ := hj2
  have hc2 : SameConf s1
      (joinBand b.lsubstr b.substrend
        (joinBand b.lprefix b.prefixend
          { s1 with matches_ := b.lexact, matchend := b.exactend })) := by
    rw [hv2, hv1]; exact SameConf.refl _
  -- calcoffsets
  have hL : (codeBands s 0 vis ++ codeBands s 1 vis ++ codeBands s 2 vis).length
      ≤ s.items.length := by
    refine length_le_of_nodup_lt hND ?_
    intro x hx
    simp only [List.mem_append] at hx
    rcases hx with (hx | hx) | hx
    · exact hlt x (codeBands_subset s _ vis x hx)
    · exact hlt x (codeBands_subset s _ vis x hx)
    · exact hlt x (codeBands_subset s _ vis x hx)
  have hitems : s1.items = s.items := hc1.2.2.2.2.2.2.1
  obtain ⟨s', hcalc, hs', _, _, hnv, hnh⟩ := calcoffsets_some
    { (joinBand b.lsubstr b.substrend
        (joinBand b.lprefix b.prefixend
          { s1 with matches_ := b.lexact, matchend := b.exactend })) with
      curr := (joinBand b.lsubstr b.substrend
        (joinBand b.lprefix b.prefixend
          { s1 with matches_ := b.lexact, matchend := b.exactend })).matches_,
      sel := (joinBand b.lsubstr b.substrend
        (joinBand b.lprefix b.prefixend
          { s1 with matches_ := b.lexact, matchend := b.exactend })).matches_ }
    _ _ hEFS.1 (Band_first_left hEFS)
    (by
      have h7 := hc2.2.2.2.2.2.2.1
      show _ ≤ (joinBand b.lsubstr b.substrend
        (joinBand b.lprefix b.prefixend
          { s1 with matches_ := b.lexact, matchend := b.exactend })).items.length + 1
      rw [h7, hitems]; omega)
    (by
      have h7 := hc2.2.2.2.2.2.2.1
      show _ ≤ (joinBand b.lsubstr b.substrend
        (joinBand b.lprefix b.prefixend
          { s1 with matches_ := b.lexact, matchend := b.exactend })).items.length + 1
      rw [h7, hitems]
      have := List.length_take_le 1
        (codeBands s 0 vis ++ codeBands s 1 vis ++ codeBands s 2 vis)
      omega)
  have hnext : (joinBand b.lsubstr b.substrend
        (joinBand b.lprefix b.prefixend
          { s1 with matches_ := b.lexact, matchend := b.exactend })).next = s.next := by
    rw [hv2, hv1, hvars]
  have hlines : (joinBand b.lsubstr b.substrend
        (joinBand b.lprefix b.prefixend
          { s1 with matches_ := b.lexact, matchend := b.exactend })).lines = s.lines :=
    (hc1.trans hc2).2.1
  refine ⟨s', ?_, ?_, ?_, ?_, ?_, ?_, ?_⟩
  · unfold match_
    rw [hrun]
    exact hcalc
  · rw [hs']
    exact hEFS
  · rw [hs']
  · rw [hs']
  · refine hc1.trans (hc2.trans ?_)
    rw [hs']
    exact SameConf.refl _
  · intro hl
    rw [hnv (by rw [← hlines] at hl; exact hl)]
    exact hnext
  · intro hl
    obtain ⟨l, hseg, hlen'⟩ := hnh (by rw [← hlines] at hl; exact hl)
    refine ⟨l, ?_, hlen'.trans hL⟩
    rw [hs']
    exact hseg

theorem cstr_nil : cstr [] = [] := rfl

theorem cstr_cons_zero (cs : List Nat) : cstr (0 :: cs) = [] := by
  simp [cstr, strlen]

theorem cstr_cons_ne (c : Nat) (cs : List Nat) (h : c ≠ 0) : cstr (c :: cs) = c :: cstr cs := by
  simp [cstr, strlen, h]

theorem strlen_cstr (t : List Nat) : (cstr t).length = strlen t := by
  induction t with
  | nil => rfl
  | cons c cs ih =>
    by_cases h : c = 0
    · subst h; simp [cstr_cons_zero, strlen]
    · rw [cstr_cons_ne c cs h]; simp [strlen, h, ih]

theorem cstr_of_no_zero (t : List Nat) (h : 0 ∉ t) : cstr t = t := by
  induction t with
  | nil => rfl
  | cons c cs ih =>
    have hc : c ≠ 0 := fun e => h (by simp [e])
    rw [cstr_cons_ne c cs hc, ih (fun e => h (List.mem_cons_of_mem _ e))]

theorem zero_not_mem_cstr (t : List Nat) : 0 ∉ cstr t := by
  induction t with
  | nil => simp [cstr_nil]
  | cons c cs ih =>
    by_cases h : c = 0
    · subst h; simp [cstr_cons_zero]
    · rw [cstr_cons_ne c cs h]
      simp only [List.mem_cons, not_or]
      exact ⟨fun e => h e.symm, ih⟩

theorem tolower_eq_zero (c : Nat) : tolower c = 0 ↔ c = 0 := by
  unfold tolower
  by_cases h : 65 ≤ c ∧ c ≤ 90
  · rw [if_pos h]
    constructor <;> intro h1 <;> omega
  · rw [if_neg h]

theorem headD_map_tolower (a : List Nat) : (a.map tolower).headD 0 = tolower (a.headD 0) := by
  cases a <;> simp [tolower]

theorem strncasecmp_eq (n : Nat) : ∀ (a b : List Nat),
    strncasecmp a b n = strncmp (a.map tolower) (b.map tolower) n := by
  induction n with
  | zero => intro a b; simp [strncasecmp, strncmp]
  | succ n ih =>
    intro a b
    rw [strncasecmp, strncmp]
    simp only [headD_map_tolower, tolower_eq_zero]
    rw [ih a.tail b.tail]
    simp only [List.map_tail]

theorem strlen_map_tolower (a : List Nat) : strlen (a.map tolower) = strlen a := by
  induction a with
  | nil => rfl
  | cons c cs ih => simp [strlen, tolower_eq_zero, ih]

theorem cstr_map_tolower (a : List Nat) : cstr (a.map tolower) = (cstr a).map tolower := by
  unfold cstr
  rw [strlen_map_tolower, List.map_take]

theorem fstrncmp_eq (icase : Bool) (a b : List Nat) (n : Nat) :
    fstrncmp icase a b n = strncmp (fold icase a) (fold icase b) n := by
  unfold fstrncmp fold
  cases icase
  · simp
  · simp [strncasecmp_eq]

theorem strlen_fold (icase : Bool) (a : List Nat) : strlen (fold icase a) = strlen a := by
  unfold fold
  cases icase
  · simp
  · simp [strlen_map_tolower]

theorem cstr_fold (icase : Bool) (a : List Nat) : cstr (fold icase a) = fold icase (cstr a) := by
  unfold fold
  cases icase
  · simp
  · simp [cstr_map_tolower]

theorem zero_not_mem_fold (icase : Bool) (a : List Nat) (h : 0 ∉ a) : 0 ∉ fold icase a := by
  unfold fold
  cases icase
  · simpa using h
  · simp only [if_true, List.mem_map, not_exists, not_and]
    intro x hx e
    rw [tolower_eq_zero] at e
    exact h (e ▸ hx)

theorem strncmp_neg (n : Nat) : ∀ (a b : List Nat), strncmp a b n = - strncmp b a n := by
  induction n with
  | zero => intro a b; simp [strncmp]
  | succ n ih =>
    intro a b
    rw [strncmp, strncmp]
    by_cases h : a.headD 0 = b.headD 0
    · have h' : b.headD 0 = a.headD 0 := h.symm
      simp only [h, ne_eq, not_true_eq_false, if_false]
      by_cases h0 : b.headD 0 = 0
      · rw [if_pos h0, if_pos h0]; rfl
      · rw [if_neg h0, if_neg h0]
        exact ih _ _
    · have h' : ¬ b.headD 0 = a.headD 0 := fun e => h e.symm
      simp only [ne_eq, h, h', not_false_eq_true, if_true]
      omega

/-- Prefix test of `match`: the first `strlen(text)` bytes agree. -/
theorem strncmp_starts : ∀ (text t : List Nat),
    strncmp text t (strlen text) = 0 ↔ cstr text <+: t := by
  intro text
  induction text with
  | nil => intro t; simp [strlen, strncmp, cstr_nil]
  | cons c cs ih =>
    intro t
    by_cases hc : c = 0
    · subst hc; simp [strlen, strncmp, cstr_cons_zero]
    · rw [cstr_cons_ne c cs hc]
      have hs : strlen (c :: cs) = strlen cs + 1 := by simp [strlen, hc]
      rw [hs, strncmp]
      cases t with
      | nil =>
        simp only [List.headD_cons, List.headD_nil, ne_eq, hc, not_false_eq_true, if_true]
        constructor
        · intro h; exfalso; omega
        · intro h; exact absurd (List.prefix_nil.1 h) (by simp)
      | cons d ds =>
        simp only [List.headD_cons, List.tail_cons]
        by_cases hcd : c = d
        · subst hcd
          simp only [ne_eq, not_true_eq_false, if_false, hc]
          rw [ih ds]
          constructor
          · intro h; exact (List.prefix_cons_inj c).2 h
          · intro h; exact (List.prefix_cons_inj c).1 h
        · simp only [ne_eq, hcd, not_false_eq_true, if_true]
          constructor
          · intro h; exfalso; omega
          · intro h
            exact absurd (List.cons_prefix_cons.1 h).1 hcd

/-- Exact test of `match`: the first `strlen(text) + 1` bytes agree. -/
theorem strncmp_exact : ∀ (text t : List Nat),
    strncmp text t (strlen text + 1) = 0 ↔ cstr text = cstr t := by
  intro text
  have base : ∀ (a t : List Nat), a.headD 0 = 0 → (strncmp a t 1 = 0 ↔ [] = cstr t) := by
    intro a t ha
    rw [strncmp]
    cases t with
    | nil =>
      rw [ha]
      simp only [List.headD_nil, ne_eq, not_true_eq_false, if_false, if_true, cstr_nil]
    | cons d ds =>
      by_cases hd : d = 0
      · subst hd
        rw [ha]
        simp only [List.headD_cons, ne_eq, not_true_eq_false, if_false, if_true,
          cstr_cons_zero]
      · rw [cstr_cons_ne d ds hd]
        have : ¬ (0 = d) := fun e => hd e.symm
        simp only [ha, List.headD_cons, ne_eq, this, not_false_eq_true, if_true]
        constructor
        · intro h; exfalso; omega
        · intro h; exact absurd h (by simp)
  induction text with
  | nil => intro t; simpa [strlen, cstr_nil] using base [] t rfl
  | cons c cs ih =>
    intro t
    by_cases hc : c = 0
    · subst hc
      simpa [strlen, cstr_cons_zero] using base (0 :: cs) t rfl
    · rw [cstr_cons_ne c cs hc]
      have hs : strlen (c :: cs) = strlen cs + 1 := by simp [strlen, hc]
      rw [hs, strncmp]
      cases t with
      | nil =>
        simp only [List.headD_cons, List.headD_nil, ne_eq, hc, not_false_eq_true, if_true,
          cstr_nil]
        constructor
        · intro h; exfalso; omega
        · intro h; exact absurd h (by simp)
      | cons d ds =>
        simp only [List.headD_cons, List.tail_cons]
        by_cases hcd : c = d
        · subst hcd
          simp only [ne_eq, not_true_eq_false, if_false, hc]
          rw [ih ds, cstr_cons_ne c ds hc]
          simp
        · simp only [ne_eq, hcd, not_false_eq_true, if_true]
          constructor
          · intro h; exfalso; omega
          · intro h
            exfalso
            by_cases hd : d = 0
            · subst hd; rw [cstr_cons_zero] at h; exact absurd h (by simp)
            · rw [cstr_cons_ne d ds hd] at h
              exact hcd (List.cons.inj h).1

theorem fold_nil (icase : Bool) : fold icase [] = [] := by
  cases icase <;> rfl

theorem fold_cons (icase : Bool) (c : Nat) (cs : List Nat) :
    fold icase (c :: cs) = (if icase = true then tolower c else c) :: fold icase cs := by
  cases icase <;> rfl

theorem fold_eq_nil (icase : Bool) (l : List Nat) : fold icase l = [] ↔ l = [] := by
  cases l with
  | nil => simp [fold_nil]
  | cons c cs => simp [fold_cons]

theorem fold_append (icase : Bool) (a b : List Nat) :
    fold icase (a ++ b) = fold icase a ++ fold icase b := by
  cases icase <;> simp [fold]

theorem fold_length (icase : Bool) (a : List Nat) : (fold icase a).length = a.length := by
  cases icase <;> simp [fold]

theorem code_exact (icase : Bool) (text t : List Nat) (ht : 0 ∉ t) :
    fstrncmp icase text t (strlen text + 1) = 0 ↔ WholeEq icase (cstr text) t := by
  rw [fstrncmp_eq, ← strlen_fold icase text, strncmp_exact, cstr_fold,
    cstr_of_no_zero _ (zero_not_mem_fold icase t ht)]
  unfold WholeEq
  exact eq_comm

theorem code_starts (icase : Bool) (text t : List Nat) :
    fstrncmp icase text t (strlen text) = 0 ↔ StartsWith icase (cstr text) t := by
  rw [fstrncmp_eq, ← strlen_fold icase text, strncmp_starts, cstr_fold]
  exact Iff.rfl

theorem code_starts_rev (icase : Bool) (text t : List Nat) :
    fstrncmp icase t text (strlen text) = 0 ↔ StartsWith icase (cstr text) t := by
  rw [← code_starts, fstrncmp_eq, fstrncmp_eq, strncmp_neg]
  exact neg_eq_zero

theorem code_substr (icase : Bool) (text : List Nat) (hq : cstr text ≠ []) :
    ∀ (t : List Nat), 0 ∉ t →
      ((fstrstr icase t text).isSome = true ↔ Contains icase (cstr text) t) := by
  intro t
  induction t with
  | nil =>
    intro _
    unfold Contains
    rw [fold_nil]
    simp only [fstrstr, Option.isSome_none, Bool.false_eq_true, false_iff]
    intro h
    rw [List.infix_nil, fold_eq_nil] at h
    exact hq h
  | cons c cs ih =>
    intro ht
    have hc : c ≠ 0 := fun e => ht (by simp [e])
    have ih' := ih (fun e => ht (List.mem_cons_of_mem _ e))
    rw [fstrstr, if_neg hc]
    have hcons : Contains icase (cstr text) (c :: cs) ↔
        StartsWith icase (cstr text) (c :: cs) ∨ Contains icase (cstr text) cs := by
      unfold Contains StartsWith
      rw [fold_cons]
      exact List.infix_cons_iff
    by_cases hp : fstrncmp icase (c :: cs) text (strlen text) = 0
    · rw [if_pos hp]
      simp only [Option.isSome_some, true_iff]
      exact hcons.2 (Or.inl ((code_starts_rev icase text (c :: cs)).1 hp))
    · rw [if_neg hp, ih', hcons]
      constructor
      · intro h; exact Or.inr h
      · intro h
        rcases h with h | h
        · exact absurd ((code_starts_rev icase text (c :: cs)).2 h) hp
        · exact h

theorem startsWith_nil (icase : Bool) (t : List Nat) : StartsWith icase [] t := by
  unfold StartsWith
  rw [fold_nil]
  exact List.nil_prefix

theorem codeBand_zero (icase : Bool) (text t : List Nat) (ht : 0 ∉ t) :
    codeBand icase text t = 0 ↔ WholeEq icase (cstr text) t := by
  rw [← code_exact icase text t ht]
  unfold codeBand
  split_ifs <;> simp_all

theorem codeBand_one (icase : Bool) (text t : List Nat) (ht : 0 ∉ t) :
    codeBand icase text t = 1 ↔
      StartsWith icase (cstr text) t ∧ ¬ WholeEq icase (cstr text) t := by
  rw [← code_exact icase text t ht, ← code_starts icase text t]
  unfold codeBand
  split_ifs <;> simp_all

theorem codeBand_two (icase : Bool) (text t : List Nat) (ht : 0 ∉ t) :
    codeBand icase text t = 2 ↔
      Contains icase (cstr text) t ∧ ¬ WholeEq icase (cstr text) t ∧
        ¬ StartsWith icase (cstr text) t := by
  by_cases hp : StartsWith icase (cstr text) t
  · have h1 := (code_starts icase text t).2 hp
    unfold codeBand
    split_ifs <;> simp_all
  · have hq : cstr text ≠ [] := by
      intro e
      rw [e] at hp
      exact hp (startsWith_nil icase t)
    rw [← code_substr icase text hq t ht]
    rw [← code_exact icase text t ht, ← code_starts icase text t]
    rw [← code_starts icase text t] at hp
    unfold codeBand
    split_ifs <;> simp_all

theorem itemText_no_zero (s : State) (hP : ∀ t ∈ s.items, 0 ∉ t) (x : Nat) :
    0 ∉ itemText s x := by
  unfold itemText
  cases h : s.items.get? x with
  | none => simp
  | some t =>
    simp only [Option.getD_some]
    exact hP t (List.get?_mem h)

theorem codeBands_eq (s : State) (hP : ∀ t ∈ s.items, 0 ∉ t) (vis : List Nat) :
    codeBands s 0 vis ++ codeBands s 1 vis ++ codeBands s 2 vis =
      banded s.icase (cstr s.text) s.items vis := by
  unfold banded codeBands exactItems prefixItems substrItems itemText
  congr 1
  · congr 1
    · apply List.filter_congr
      intro x _
      have := codeBand_zero s.icase s.text (itemText s x) (itemText_no_zero s hP x)
      unfold itemText at this
      exact decide_eq_decide.2 this
    · apply List.filter_congr
      intro x _
      have := codeBand_one s.icase s.text (itemText s x) (itemText_no_zero s hP x)
      unfold itemText at this
      exact decide_eq_decide.2 this
  · apply List.filter_congr
    intro x _
    have := codeBand_two s.icase s.text (itemText s x) (itemText_no_zero s hP x)
    unfold itemText at this
    exact decide_eq_decide.2 this

theorem wholeEq_startsWith {icase : Bool} {q t : List Nat} (h : WholeEq icase q t) :
    StartsWith icase q t := by
  unfold WholeEq at h
  unfold StartsWith
  rw [h]

theorem startsWith_contains {icase : Bool} {q t : List Nat} (h : StartsWith icase q t) :
    Contains icase q t :=
  List.IsPrefix.isInfix h

theorem contains_length {icase : Bool} {q t : List Nat} (h : Contains icase q t) :
    q.length ≤ t.length := by
  have := List.IsInfix.length_le h
  rwa [fold_length, fold_length] at this

theorem contains_mono {icase : Bool} {q sfx t : List Nat} (h : Contains icase (q ++ sfx) t) :
    Contains icase q t := by
  unfold Contains at h ⊢
  rw [fold_append] at h
  exact List.IsInfix.trans (List.IsPrefix.isInfix (List.prefix_append _ _)) h

theorem startsWith_mono {icase : Bool} {q sfx t : List Nat}
    (h : StartsWith icase (q ++ sfx) t) : StartsWith icase q t := by
  unfold StartsWith at h ⊢
  rw [fold_append] at h
  exact List.IsPrefix.trans (List.prefix_append _ _) h

theorem not_wholeEq_of_contains {icase : Bool} {q sfx t : List Nat} (hs : sfx ≠ [])
    (h : Contains icase (q ++ sfx) t) : ¬ WholeEq icase q t := by
  intro hw
  have h1 := contains_length h
  have h2 : t.length = q.length := by
    have := congrArg List.length hw
    rwa [fold_length, fold_length] at this
  have h3 : 0 < sfx.length := List.length_pos.2 hs
  rw [List.length_append] at h1
  omega

theorem mem_banded (icase : Bool) (q : List Nat) (texts : List (List Nat)) (l : List Nat)
    (x : Nat) :
    x ∈ banded icase q texts l ↔ x ∈ l ∧ Contains icase q ((texts.get? x).getD []) := by
  unfold banded exactItems prefixItems substrItems
  simp only [List.mem_append, List.mem_filter, decide_eq_true_eq]
  constructor
  · rintro ((⟨h1, h2⟩ | ⟨h1, h2, _⟩) | ⟨h1, h2, _⟩)
    · exact ⟨h1, startsWith_contains (wholeEq_startsWith h2)⟩
    · exact ⟨h1, startsWith_contains h2⟩
    · exact ⟨h1, h2⟩
  · rintro ⟨h1, h2⟩
    by_cases hw : WholeEq icase q ((texts.get? x).getD [])
    · exact Or.inl (Or.inl ⟨h1, hw⟩)
    · by_cases hp : StartsWith icase q ((texts.get? x).getD [])
      · exact Or.inl (Or.inr ⟨h1, hp, hw⟩)
      · exact Or.inr ⟨h1, h2, hw, hp⟩

theorem banded_nodup (icase : Bool) (q : List Nat) (texts : List (List Nat)) (l : List Nat)
    (h : l.Nodup) : (banded icase q texts l).Nodup := by
  unfold banded exactItems prefixItems substrItems
  rw [List.nodup_append, List.nodup_append]
  refine ⟨⟨h.filter _, h.filter _, ?_⟩, h.filter _, ?_⟩
  · intro x hx hy
    simp only [List.mem_filter, decide_eq_true_eq] at hx hy
    exact hy.2.2 hx.2
  · intro x hx hy
    simp only [List.mem_append, List.mem_filter, decide_eq_true_eq] at hx hy
    rcases hx with hx | hx
    · exact hy.2.2.1 hx.2
    · exact hy.2.2.2 hx.2.1

theorem filter_byBand (p : Nat → Bool) (k : Nat → Nat) (m : Nat) (hm : m < 3) (R : List Nat)
    (h : ∀ x ∈ R, p x = true → k x = m) :
    List.filter p (byBand k R) = List.filter p R := by
  have key : ∀ i, List.filter p (List.filter (fun x => decide (k x = i)) R) =
      if i = m then List.filter p R else [] := by
    intro i
    rw [List.filter_filter]
    by_cases him : i = m
    · rw [if_pos him]
      apply List.filter_congr
      intro x hx
      by_cases hp : p x = true
      · simp [hp, h x hx hp, him]
      · simp [hp]
    · rw [if_neg him, List.filter_eq_nil_iff]
      intro x hx
      by_cases hp : p x = true
      · have := h x hx hp
        simp [hp, this, Ne.symm him]
      · simp [hp]
  unfold byBand
  rw [List.filter_append, List.filter_append, key 0, key 1, key 2]
  interval_cases m <;> simp

theorem byBand_perm (k : Nat → Nat) (R : List Nat) :
    (byBand k R).Perm (List.filter (fun x => decide (k x < 3)) R) := by
  induction R with
  | nil => simp [byBand]
  | cons x R ih =>
    unfold byBand at ih ⊢
    by_cases h0 : k x = 0
    · have : k x < 3 := by omega
      simp only [List.filter_cons, h0, this, decide_True, if_true, List.cons_append,
        show ¬ ((0 : Nat) = 1) by omega, show ¬ ((0 : Nat) = 2) by omega, decide_False,
        Bool.false_eq_true, if_false]
      exact List.Perm.cons x ih
    · by_cases h1 : k x = 1
      · have : k x < 3 := by omega
        simp only [List.filter_cons, h1, this, decide_True, if_true,
          show ¬ ((1 : Nat) = 0) by omega, show ¬ ((1 : Nat) = 2) by omega, decide_False,
          Bool.false_eq_true, if_false]
        exact (List.perm_middle.append_right _).trans (List.Perm.cons x ih)
      · by_cases h2 : k x = 2
        · have : k x < 3 := by omega
          simp only [List.filter_cons, h2, this, decide_True, if_true,
            show ¬ ((2 : Nat) = 0) by omega, show ¬ ((2 : Nat) = 1) by omega, decide_False,
            Bool.false_eq_true, if_false]
          exact List.perm_middle.trans (List.Perm.cons x ih)
        · have : ¬ k x < 3 := by omega
          simp only [List.filter_cons, h0, h1, h2, this, decide_False, Bool.false_eq_true,
            if_false]
          exact ih

theorem byBand_idem (k : Nat → Nat) (R : List Nat) : byBand k (byBand k R) = byBand k R := by
  have key : ∀ i, i < 3 → List.filter (fun x => decide (k x = i)) (byBand k R) =
      List.filter (fun x => decide (k x = i)) R := by
    intro i hi
    apply filter_byBand _ k i hi
    intro x _ hx
    simpa using hx
  show List.filter (fun x => decide (k x = 0)) (byBand k R) ++
    List.filter (fun x => decide (k x = 1)) (byBand k R) ++
    List.filter (fun x => decide (k x = 2)) (byBand k R) = _
  rw [key 0 (by omega), key 1 (by omega), key 2 (by omega)]
  rfl

theorem bandOf_zero (icase : Bool) (q t : List Nat) :
    bandOf icase q t = 0 ↔ WholeEq icase q t := by
  unfold bandOf
  split_ifs <;> simp_all

theorem bandOf_one (icase : Bool) (q t : List Nat) :
    bandOf icase q t = 1 ↔ StartsWith icase q t ∧ ¬ WholeEq icase q t := by
  unfold bandOf
  split_ifs <;> simp_all

theorem bandOf_two (icase : Bool) (q t : List Nat) :
    bandOf icase q t = 2 ↔
      Contains icase q t ∧ ¬ WholeEq icase q t ∧ ¬ StartsWith icase q t := by
  unfold bandOf
  split_ifs <;> simp_all

theorem banded_eq_byBand (icase : Bool) (q : List Nat) (texts : List (List Nat))
    (l : List Nat) :
    banded icase q texts l = byBand (fun x => bandOf icase q ((texts.get? x).getD [])) l := by
  unfold banded byBand exactItems prefixItems substrItems
  congr 1
  · congr 1
    · apply List.filter_congr
      intro x _
      exact decide_eq_decide.2 (bandOf_zero icase q _).symm
    · apply List.filter_congr
      intro x _
      exact decide_eq_decide.2 (bandOf_one icase q _).symm
  · apply List.filter_congr
    intro x _
    exact decide_eq_decide.2 (bandOf_two icase q _).symm

theorem banded_idem (icase : Bool) (q : List Nat) (texts : List (List Nat)) (l : List Nat) :
    banded icase q texts (banded icase q texts l) = banded icase q texts l := by
  rw [banded_eq_byBand, banded_eq_byBand, byBand_idem]

theorem IsChain_unique {s : State} {l l' : List Nat} (h : IsChain s l) (h' : IsChain s l') :
    l = l' :=
  Seg_none_unique l l' _ h.1 h'.1

theorem visit_full (s : State) :
    Visit false s.items.length s.right (if false = true then s.matches_ else itemsPtr s)
      (List.range s.items.length) := by
  unfold Visit
  simp only [Bool.false_eq_true, if_false]
  refine ⟨0, Nat.zero_le _, by rw [List.range_eq_range']; rfl, ?_⟩
  unfold itemsPtr
  by_cases h : s.items = []
  · right; simp [h]
  · left; simp [h]

theorem match_false_spec (s : State) (hP : ∀ t ∈ s.items, 0 ∉ t) :
    ∃ s', match_ false s = some s' ∧
      IsChain s' (banded s.icase (cstr s.text) s.items (List.range s.items.length)) ∧
      s'.curr = s'.matches_ ∧ s'.sel = s'.matches_ ∧ SameConf s s' := by
  obtain ⟨s', h1, h2, h3, h4, h5, _⟩ := match_spec false s (List.range s.items.length)
    (visit_full s) (List.nodup_range _) (fun x hx => List.mem_range.1 hx)
  rw [codeBands_eq s hP] at h2
  exact ⟨s', h1, h2, h3, h4, h5⟩

theorem match_true_spec (s : State) (l : List Nat) (hP : ∀ t ∈ s.items, 0 ∉ t)
    (hl : IsChain s l) (hnd : l.Nodup) (hlt : ∀ x ∈ l, x < s.items.length) :
    ∃ s', match_ true s = some s' ∧
      IsChain s' (banded s.icase (cstr s.text) s.items l) ∧
      s'.curr = s'.matches_ ∧ s'.sel = s'.matches_ ∧ SameConf s s' := by
  have hv : Visit true s.items.length s.right (if true = true then s.matches_ else itemsPtr s)
      l := by
    unfold Visit
    simp only [if_true]
    exact ⟨hl.1, hlt⟩
  obtain ⟨s', h1, h2, h3, h4, h5, _⟩ := match_spec true s l hv hnd hlt
  rw [codeBands_eq s hP] at h2
  exact ⟨s', h1, h2, h3, h4, h5⟩

theorem banded_lt (icase : Bool) (q : List Nat) (texts : List (List Nat)) (n : Nat) :
    ∀ x ∈ banded icase q texts (List.range n), x < n := by
  intro x hx
  exact List.mem_range.1 ((mem_banded icase q texts _ x).1 hx).1

theorem sublist_pair_byBand (k : Nat → Nat) (R : List Nat) (i j m : Nat) (hm : m < 3)
    (hi : k i = m) (hj : k j = m) :
    List.Sublist [i, j] (byBand k R) ↔ List.Sublist [i, j] R := by
  have hf : List.filter (fun x => decide (k x = m)) (byBand k R) =
      List.filter (fun x => decide (k x = m)) R := by
    apply filter_byBand _ k m hm
    intro x _ hx
    simpa using hx
  have hij : List.filter (fun x => decide (k x = m)) [i, j] = [i, j] := by
    simp [List.filter_cons, hi, hj]
  constructor
  · intro h
    have := h.filter (fun x => decide (k x = m))
    rw [hij, hf] at this
    exact this.trans (List.filter_sublist _)
  · intro h
    have := h.filter (fun x => decide (k x = m))
    rw [hij, ← hf] at this
    exact this.trans (List.filter_sublist _)

theorem mem_byBand (k : Nat → Nat) (R : List Nat) (x : Nat) :
    x ∈ byBand k R ↔ x ∈ R ∧ k x < 3 := by
  rw [(byBand_perm k R).mem_iff]
  simp

/-! ## The claims about `match` -/

/-- C1: for every pool and every query text, in both comparison modes,
`match(FALSE)` returns and leaves the match chain `E ++ F ++ S`, with `E` the
items whose whole text equals the query, `F` the items that start with the query
and are not in `E`, `S` the items that contain the query and are in neither, each
in pool order; the chain is the only one, no item occurs twice in it, and an
item is in it exactly when it contains the query. -/
theorem match_full_bands (s : State) (hP : ∀ t ∈ s.items, 0 ∉ t) :
    ∃ s', match_ false s = some s' ∧
      IsChain s'
        (exactItems s.icase (cstr s.text) s.items (List.range s.items.length) ++
          prefixItems s.icase (cstr s.text) s.items (List.range s.items.length) ++
          substrItems s.icase (cstr s.text) s.items (List.range s.items.length)) ∧
      (∀ l, IsChain s' l →
        l = exactItems s.icase (cstr s.text) s.items (List.range s.items.length) ++
          prefixItems s.icase (cstr s.text) s.items (List.range s.items.length) ++
          substrItems s.icase (cstr s.text) s.items (List.range s.items.length)) ∧
      (exactItems s.icase (cstr s.text) s.items (List.range s.items.length) ++
          prefixItems s.icase (cstr s.text) s.items (List.range s.items.length) ++
          substrItems s.icase (cstr s.text) s.items (List.range s.items.length)).Nodup ∧
      ∀ x, x ∈ exactItems s.icase (cstr s.text) s.items (List.range s.items.length) ++
          prefixItems s.icase (cstr s.text) s.items (List.range s.items.length) ++
          substrItems s.icase (cstr s.text) s.items (List.range s.items.length) ↔
        x < s.items.length ∧ Contains s.icase (cstr s.text) (itemText s x) := by
  obtain ⟨s', h1, h2, _⟩ := match_false_spec s hP
  refine ⟨s', h1, h2, fun l hl => IsChain_unique hl h2, ?_, ?_⟩
  · exact banded_nodup _ _ _ _ (List.nodup_range _)
  · intro x
    have := mem_banded s.icase (cstr s.text) s.items (List.range s.items.length) x
    unfold banded at this
    rw [this, List.mem_range]
    rfl

/-- C1, the two scenarios: the pool apple, apricot, banana with the query "ap"
gives the chain apple, apricot; the pool foobar, barfoo with the query "bar" gives
the chain barfoo, foobar. -/
theorem match_full_bands_witness :
    (∀ t ∈ (demo [97, 112] [[97, 112, 112, 108, 101], [97, 112, 114, 105, 99, 111, 116],
        [98, 97, 110, 97, 110, 97]] false).items, 0 ∉ t) ∧
    (∃ s', match_ false (demo [97, 112] [[97, 112, 112, 108, 101],
        [97, 112, 114, 105, 99, 111, 116], [98, 97, 110, 97, 110, 97]] false) = some s' ∧
      IsChain s' [0, 1]) ∧
    (∃ s', match_ false (demo [98, 97, 114] [[102, 111, 111, 98, 97, 114],
        [98, 97, 114, 102, 111, 111]] true) = some s' ∧ IsChain s' [1, 0]) := by
  refine ⟨by decide, ?_, ?_⟩
  · obtain ⟨s', h1, h2, _⟩ := match_full_bands (demo [97, 112] [[97, 112, 112, 108, 101],
      [97, 112, 114, 105, 99, 111, 116], [98, 97, 110, 97, 110, 97]] false) (by decide)
    exact ⟨s', h1, h2⟩
  · obtain ⟨s', h1, h2, _⟩ := match_full_bands (demo [98, 97, 114]
      [[102, 111, 111, 98, 97, 114], [98, 97, 114, 102, 111, 111]] true) (by decide)
    exact ⟨s', h1, h2⟩

theorem bandOf_lt_of_contains {icase : Bool} {q t : List Nat} (h : Contains icase q t) :
    bandOf icase q t < 3 := by
  unfold bandOf
  split_ifs <;> omega

theorem contains_of_bandOf_lt {icase : Bool} {q t : List Nat} (h : bandOf icase q t < 3) :
    Contains icase q t := by
  unfold bandOf at h
  split_ifs at h with h1 h2 h3
  · exact startsWith_contains (wholeEq_startsWith h1)
  · exact startsWith_contains h2
  · exact h3
  · omega

theorem narrow_bands_lists (icase : Bool) (q sfx : List Nat) (texts : List (List Nat))
    (R : List Nat) (hs : sfx ≠ []) :
    exactItems icase (q ++ sfx) texts (banded icase q texts R) =
        exactItems icase (q ++ sfx) texts R ∧
      prefixItems icase (q ++ sfx) texts (banded icase q texts R) =
        prefixItems icase (q ++ sfx) texts R ∧
      (substrItems icase (q ++ sfx) texts (banded icase q texts R)).Perm
        (substrItems icase (q ++ sfx) texts R) := by
  rw [banded_eq_byBand]
  refine ⟨?_, ?_, ?_⟩
  · unfold exactItems
    apply filter_byBand _ _ 1 (by omega)
    intro x _ hx
    simp only [decide_eq_true_eq] at hx
    rw [bandOf_one]
    exact ⟨startsWith_mono (wholeEq_startsWith hx),
      not_wholeEq_of_contains hs (startsWith_contains (wholeEq_startsWith hx))⟩
  · unfold prefixItems
    apply filter_byBand _ _ 1 (by omega)
    intro x _ hx
    simp only [decide_eq_true_eq] at hx
    rw [bandOf_one]
    exact ⟨startsWith_mono hx.1, not_wholeEq_of_contains hs (startsWith_contains hx.1)⟩
  · unfold substrItems
    refine ((byBand_perm _ R).filter _).trans ?_
    rw [List.filter_filter]
    apply List.Perm.of_eq
    apply List.filter_congr
    intro x _
    have hb : ∀ (a b : Bool), (a = true → b = true) → (a && b) = a := by decide
    apply hb
    intro hx
    simp only [decide_eq_true_eq] at hx ⊢
    exact bandOf_lt_of_contains (contains_mono hx.1)

/-- C2 fails in the code: with the pool xab, aab, the query "a" and the byte "b"
appended, `match(TRUE)` over the chain for "a" leaves the chain aab, xab, and
`match(FALSE)` over the pool with the text "ab" leaves the chain xab, aab.  In
a session both are reached with the same text "ab": after the keys "a", "b" the
chain has been narrowed twice and Enter writes "aab"; after the keys "a", "b",
"x", Backspace the chain has been built by `match(FALSE)` and Enter writes
"xab". -/
theorem narrowing_changes_order :
    (∃ s1 s2 s3,
      match_ false (demo [97] [[120, 97, 98], [97, 97, 98]] false) = some s1 ∧
      match_ true { s1 with text := [97, 98, 0, 0, 0] } = some s2 ∧
      match_ false (demo [97, 98] [[120, 97, 98], [97, 97, 98]] false) = some s3 ∧
      IsChain s1 [1, 0] ∧ IsChain s2 [1, 0] ∧ IsChain s3 [0, 1] ∧
      ¬ ∃ l, IsChain s2 l ∧ IsChain s3 l) ∧
    (∃ s, session (initial 16 [[120, 97, 98], [97, 97, 98]] false 0 80 10 0 (fun _ => none)
        (fun _ => none)) [97, 98] = Run.reading Pc.top s ∧ cstr s.text = [97, 98] ∧
      IsChain s [1, 0]) ∧
    (∃ s, session (initial 16 [[120, 97, 98], [97, 97, 98]] false 0 80 10 0 (fun _ => none)
        (fun _ => none)) [97, 98, 120, 127] = Run.reading Pc.top s ∧ cstr s.text = [97, 98] ∧
      IsChain s [0, 1]) ∧
    (∃ s, session (initial 16 [[120, 97, 98], [97, 97, 98]] false 0 80 10 0 (fun _ => none)
        (fun _ => none)) [97, 98, 13] = Run.returned 0 [[97, 97, 98]] s) ∧
    (∃ s, session (initial 16 [[120, 97, 98], [97, 97, 98]] false 0 80 10 0 (fun _ => none)
        (fun _ => none)) [97, 98, 120, 127, 13] = Run.returned 0 [[120, 97, 98]] s) := by
  refine ⟨⟨_, _, _, rfl, rfl, rfl, by decide, by decide, by decide, ?_⟩,
    ⟨_, rfl, by decide, by decide⟩, ⟨_, rfl, by decide, by decide⟩, ⟨_, rfl⟩, ⟨_, rfl⟩⟩
  rintro ⟨l, h2, h3⟩
  have e2 : l = [1, 0] := IsChain_unique h2 (by decide)
  have e3 : l = [0, 1] := IsChain_unique h3 (by decide)
  rw [e2] at e3
  exact absurd e3 (by decide)

/-- Narrowing a chain that `match(FALSE)` has built: for every pool, every
query and every non-empty string appended to it, `match(TRUE)` over the chain
that `match(FALSE)` leaves for the query returns, and its chain has the exact
band and the prefix band of `match(FALSE)` over the pool, followed by a
substring band that holds the same items as that of `match(FALSE)`, in the order
in which they stand in the chain for the query before the append. -/
theorem narrow_bands (s : State) (text2 sfx : List Nat) (hP : ∀ t ∈ s.items, 0 ∉ t)
    (h2 : cstr text2 = cstr s.text ++ sfx) (hs : sfx ≠ []) :
    ∃ s1 s2 s3, match_ false s = some s1 ∧
      match_ true { s1 with text := text2 } = some s2 ∧
      match_ false { s with text := text2 } = some s3 ∧
      IsChain s1 (banded s.icase (cstr s.text) s.items (List.range s.items.length)) ∧
      IsChain s2
        (exactItems s.icase (cstr text2) s.items (List.range s.items.length) ++
          prefixItems s.icase (cstr text2) s.items (List.range s.items.length) ++
          substrItems s.icase (cstr text2) s.items
            (banded s.icase (cstr s.text) s.items (List.range s.items.length))) ∧
      IsChain s3
        (exactItems s.icase (cstr text2) s.items (List.range s.items.length) ++
          prefixItems s.icase (cstr text2) s.items (List.range s.items.length) ++
          substrItems s.icase (cstr text2) s.items (List.range s.items.length)) ∧
      (substrItems s.icase (cstr text2) s.items
          (banded s.icase (cstr s.text) s.items (List.range s.items.length))).Perm
        (substrItems s.icase (cstr text2) s.items (List.range s.items.length)) := by
  obtain ⟨s1, h1, hc1, _, _, hconf⟩ := match_false_spec s hP
  obtain ⟨a1, a2, a3, a4, a5, a6, a7, a8⟩ := hconf
  have hP1 : ∀ t ∈ ({ s1 with text := text2 } : State).items, 0 ∉ t := by
    show ∀ t ∈ s1.items, 0 ∉ t
    rw [a7]; exact hP
  obtain ⟨s2, h2', hc2, _⟩ := match_true_spec { s1 with text := text2 } _ hP1 hc1
    (banded_nodup _ _ _ _ (List.nodup_range _))
    (by
      show ∀ x ∈ _, x < s1.items.length
      rw [a7]; exact banded_lt _ _ _ _)
  obtain ⟨s3, h3, hc3, _⟩ := match_false_spec { s with text := text2 } hP
  have hl := narrow_bands_lists s.icase (cstr s.text) sfx s.items
    (List.range s.items.length) hs
  rw [← h2] at hl
  refine ⟨s1, s2, s3, h1, h2', h3, hc1, ?_, hc3, hl.2.2⟩
  have hc2' : IsChain s2 (banded s1.icase (cstr text2) s1.items
      (banded s.icase (cstr s.text) s.items (List.range s.items.length))) := hc2
  rw [a7, a8] at hc2'
  have e : banded s.icase (cstr text2) s.items
      (banded s.icase (cstr s.text) s.items (List.range s.items.length)) =
      exactItems s.icase (cstr text2) s.items
        (banded s.icase (cstr s.text) s.items (List.range s.items.length)) ++
      prefixItems s.icase (cstr text2) s.items
        (banded s.icase (cstr s.text) s.items (List.range s.items.length)) ++
      substrItems s.icase (cstr text2) s.items
        (banded s.icase (cstr s.text) s.items (List.range s.items.length)) := rfl
  rw [e, hl.1, hl.2.1] at hc2'
  exact hc2'

/-- C3: filtering is idempotent.  For every pool and query, `match` (of the
pool, or in narrowing mode of a well-formed chain) returns, and `match(TRUE)`
over the chain it leaves, the text unchanged, returns and leaves the same
chain: the same items in the same order. -/
theorem match_idempotent (sub : Bool) (s : State) (l0 : List Nat)
    (hP : ∀ t ∈ s.items, 0 ∉ t)
    (h0 : sub = true → IsChain s l0 ∧ l0.Nodup ∧ ∀ x ∈ l0, x < s.items.length) :
    ∃ s1 s2 l, match_ sub s = some s1 ∧ match_ true s1 = some s2 ∧
      IsChain s1 l ∧ IsChain s2 l ∧ s1.text = s.text ∧ s2.text = s.text := by
  have key : ∀ (s1 : State) (v : List Nat), v.Nodup → (∀ x ∈ v, x < s.items.length) →
      IsChain s1 (banded s.icase (cstr s.text) s.items v) → SameConf s s1 →
      ∃ s2, match_ true s1 = some s2 ∧
        IsChain s2 (banded s.icase (cstr s.text) s.items v) ∧ s2.text = s.text := by
    intro s1 v hv hlt hc hconf
    obtain ⟨a1, a2, a3, a4, a5, a6, a7, a8⟩ := hconf
    have hP1 : ∀ t ∈ s1.items, 0 ∉ t := by rw [a7]; exact hP
    obtain ⟨s2, h2, hc2, _, _, hconf2⟩ := match_true_spec s1 _ hP1 hc
      (banded_nodup _ _ _ _ hv)
      (by
        rw [a7]
        intro x hx
        exact hlt x ((mem_banded _ _ _ _ x).1 hx).1)
    rw [a1, a7, a8, banded_idem] at hc2
    exact ⟨s2, h2, hc2, hconf2.1.trans a1⟩
  cases sub with
  | false =>
    obtain ⟨s1, h1, hc1, _, _, hconf⟩ := match_false_spec s hP
    obtain ⟨s2, h2, hc2, ht2⟩ := key s1 _ (List.nodup_range _)
      (fun x hx => List.mem_range.1 hx) hc1 hconf
    exact ⟨s1, s2, _, h1, h2, hc1, hc2, hconf.1, ht2⟩
  | true =>
    obtain ⟨hl0, hnd0, hlt0⟩ := h0 rfl
    obtain ⟨s1, h1, hc1, _, _, hconf⟩ := match_true_spec s l0 hP hl0 hnd0 hlt0
    obtain ⟨s2, h2, hc2, ht2⟩ := key s1 _ hnd0 hlt0 hc1 hconf
    exact ⟨s1, s2, _, h1, h2, hc1, hc2, hconf.1, ht2⟩

/-- C3 at the pool foobar, barfoo with the query "bar". -/
theorem match_idempotent_witness :
    ∃ s1 s2 l, match_ false (demo [98, 97, 114] [[102, 111, 111, 98, 97, 114],
        [98, 97, 114, 102, 111, 111]] false) = some s1 ∧ match_ true s1 = some s2 ∧
      IsChain s1 l ∧ IsChain s2 l ∧
      s1.text = [98, 97, 114, 0, 0, 0, 0] ∧ s2.text = [98, 97, 114, 0, 0, 0, 0] :=
  match_idempotent false (demo [98, 97, 114] [[102, 111, 111, 98, 97, 114],
    [98, 97, 114, 102, 111, 111]] false) [] (by decide) (by decide)

/-- C4: monotonic narrowing, the set part.  For every pool and queries `Q1` and
`Q2 = Q1 ++ sfx`, in both comparison modes, `match(FALSE)` returns for both and
every item in the chain for `Q2` is in the chain for `Q1`. -/
theorem chain_shrinks (s : State) (text2 sfx : List Nat) (hP : ∀ t ∈ s.items, 0 ∉ t)
    (h2 : cstr text2 = cstr s.text ++ sfx) :
    ∃ s1 s2 l1 l2, match_ false s = some s1 ∧
      match_ false { s with text := text2 } = some s2 ∧
      IsChain s1 l1 ∧ IsChain s2 l2 ∧ ∀ x ∈ l2, x ∈ l1 := by
  obtain ⟨s1, h1, hc1, _⟩ := match_false_spec s hP
  obtain ⟨s2, h3, hc2, _⟩ := match_false_spec { s with text := text2 } hP
  refine ⟨s1, s2, _, _, h1, h3, hc1, hc2, ?_⟩
  intro x hx
  rw [mem_banded] at hx ⊢
  refine ⟨hx.1, ?_⟩
  have := hx.2
  rw [show ({ s with text := text2 } : State).text = text2 from rfl, h2] at this
  exact contains_mono this

/-- C4 at the pool aab, ab with the queries "a" and "aB", ignoring case. -/
theorem chain_shrinks_witness :
    ∃ s1 s2 l1 l2, match_ false (demo [97] [[97, 97, 98], [97, 98]] true) = some s1 ∧
      match_ false { demo [97] [[97, 97, 98], [97, 98]] true with
        text := [97, 66, 0, 0] } = some s2 ∧
      IsChain s1 l1 ∧ IsChain s2 l2 ∧ ∀ x ∈ l2, x ∈ l1 :=
  chain_shrinks (demo [97] [[97, 97, 98], [97, 98]] true) [97, 66, 0, 0] [66]
    (by decide) (by decide)

/-- C5 as stated fails: with the pool aab, ab the chain for the query "a" is
aab, ab and the chain for the query "ab" is ab, aab, so the two items of the
second chain stand there in the other order. -/
theorem order_not_kept :
    ∃ s1 s2, match_ false (demo [97] [[97, 97, 98], [97, 98]] false) = some s1 ∧
      match_ false (demo [97, 98] [[97, 97, 98], [97, 98]] false) = some s2 ∧
      IsChain s1 [0, 1] ∧ IsChain s2 [1, 0] ∧ ¬ OrderKept [0, 1] [1, 0] := by
  refine ⟨_, _, rfl, rfl, by decide, by decide, ?_⟩
  intro h
  have := (h 1 (by decide) 0 (by decide)).1 (by decide)
  exact absurd this (by decide)

/-- C5, amended: for every pool and queries `Q1` and `Q2 = Q1 ++ sfx`, two
items of the chain for `Q2` that lie in one band for `Q1` and in one band for
`Q2` stand in the chain for `Q2` in the order in which they stand in the chain
for `Q1`. -/
theorem order_kept_in_band (s : State) (text2 sfx : List Nat) (hP : ∀ t ∈ s.items, 0 ∉ t)
    (h2 : cstr text2 = cstr s.text ++ sfx) :
    ∃ s1 s2 l1 l2, match_ false s = some s1 ∧
      match_ false { s with text := text2 } = some s2 ∧
      IsChain s1 l1 ∧ IsChain s2 l2 ∧
      ∀ i ∈ l2, ∀ j ∈ l2,
        bandOf s.icase (cstr s.text) (itemText s i) =
          bandOf s.icase (cstr s.text) (itemText s j) →
        bandOf s.icase (cstr text2) (itemText s i) =
          bandOf s.icase (cstr text2) (itemText s j) →
        (List.Sublist [i, j] l2 ↔ List.Sublist [i, j] l1) := by
  obtain ⟨s1, h1, hc1, _⟩ := match_false_spec s hP
  obtain ⟨s2, h3, hc2, _⟩ := match_false_spec { s with text := text2 } hP
  refine ⟨s1, s2, _, _, h1, h3, hc1, hc2, ?_⟩
  intro i hi j _ hb1 hb2
  have hi2 := ((mem_banded _ _ _ _ i).1 hi).2
  have hci2 : Contains s.icase (cstr text2) (itemText s i) := hi2
  have hci1 : Contains s.icase (cstr s.text) (itemText s i) := by
    rw [h2] at hci2
    exact contains_mono hci2
  show List.Sublist [i, j] (banded s.icase (cstr text2) s.items _) ↔ _
  rw [banded_eq_byBand, banded_eq_byBand]
  rw [sublist_pair_byBand _ _ i j _ (bandOf_lt_of_contains hci2) rfl hb2.symm,
    sublist_pair_byBand _ _ i j _ (bandOf_lt_of_contains hci1) rfl hb1.symm]

/-- C5, amended, at the pool ab, aab, abc, abd with the queries "a" and "ab".
The chain for "a" is ab, aab, abc, abd and the chain for "ab" is ab, abc, abd,
aab.  The items abc and abd lie in one band for "a" (prefix) and in one band
for "ab" (prefix), and stand in the same order in both chains; the items aab
and abc, which do not lie in one band for "ab", have swapped. -/
theorem order_kept_in_band_witness :
    ∃ s1 s2, match_ false (demo [97] [[97, 98], [97, 97, 98], [97, 98, 99], [97, 98, 100]] false) = some s1 ∧
      match_ false { demo [97] [[97, 98], [97, 97, 98], [97, 98, 99], [97, 98, 100]] false with text := [97, 98, 0] } = some s2 ∧
      IsChain s1 [0, 1, 2, 3] ∧ IsChain s2 [0, 2, 3, 1] ∧
      bandOf false (cstr [97, 0, 0, 0, 0]) (itemText (demo [97] [[97, 98], [97, 97, 98], [97, 98, 99], [97, 98, 100]] false) 2) =
        bandOf false (cstr [97, 0, 0, 0, 0]) (itemText (demo [97] [[97, 98], [97, 97, 98], [97, 98, 99], [97, 98, 100]] false) 3) ∧
      bandOf false (cstr [97, 98, 0]) (itemText (demo [97] [[97, 98], [97, 97, 98], [97, 98, 99], [97, 98, 100]] false) 2) =
        bandOf false (cstr [97, 98, 0]) (itemText (demo [97] [[97, 98], [97, 97, 98], [97, 98, 99], [97, 98, 100]] false) 3) ∧
      (List.Sublist [2, 3] [0, 2, 3, 1] ↔ List.Sublist [2, 3] [0, 1, 2, 3]) ∧
      List.Sublist [2, 3] [0, 2, 3, 1] ∧ List.Sublist [2, 3] [0, 1, 2, 3] := by
  obtain ⟨s1, s2, l1, l2, h1, h2, hc1, hc2, h⟩ :=
    order_kept_in_band (demo [97] [[97, 98], [97, 97, 98], [97, 98, 99], [97, 98, 100]] false) [97, 98, 0] [98] (by decide) (by decide)
  have e1 : s1 = (match_ false (demo [97] [[97, 98], [97, 97, 98], [97, 98, 99], [97, 98, 100]] false)).getD (demo [97] [[97, 98], [97, 97, 98], [97, 98, 99], [97, 98, 100]] false) := by rw [h1]; rfl
  have e2 : s2 = (match_ false { demo [97] [[97, 98], [97, 97, 98], [97, 98, 99], [97, 98, 100]] false with text := [97, 98, 0] }).getD (demo [97] [[97, 98], [97, 97, 98], [97, 98, 99], [97, 98, 100]] false) := by
    rw [h2]; rfl
  have d1 : IsChain s1 [0, 1, 2, 3] := by rw [e1]; decide
  have d2 : IsChain s2 [0, 2, 3, 1] := by rw [e2]; decide
  have u1 := IsChain_unique hc1 d1
  have u2 := IsChain_unique hc2 d2
  rw [u1, u2] at h
  exact ⟨s1, s2, h1, h2, d1, d2, by decide, by decide,
    h 2 (by decide) 3 (by decide) (by decide) (by decide), by decide, by decide⟩

/-! ## Lemmas about the edit buffer -/

theorem toSize_eq (x : Int) (h0 : 0 ≤ x) (h1 : x < 2 ^ 64) : toSize x = x.toNat := by
  unfold toSize
  rw [Int.emod_eq_of_lt h0 h1]

theorem toSize_nat (n : Nat) (h : n < 2 ^ 64) : toSize (n : Int) = n := by
  rw [toSize_eq _ (Int.natCast_nonneg n) (by exact_mod_cast h)]
  simp

theorem toSSize_eq (x : Int) (h0 : -(2 ^ 63) ≤ x) (h1 : x < 2 ^ 63) : toSSize x = x := by
  unfold toSSize
  rw [Int.emod_eq_of_lt (by omega) (by omega)]
  omega

theorem strlen_le_length (t : List Nat) : strlen t ≤ t.length := by
  induction t with
  | nil => simp [strlen]
  | cons c cs ih =>
    unfold strlen
    split_ifs
    · simp
    · simp; exact ih

theorem cstr_append_zero (a r : List Nat) (h : 0 ∉ a) : cstr (a ++ 0 :: r) = a := by
  induction a with
  | nil => simp [cstr_cons_zero]
  | cons c cs ih =>
    have hc : c ≠ 0 := fun e => h (by simp [e])
    rw [List.cons_append, cstr_cons_ne _ _ hc, ih (fun e => h (List.mem_cons_of_mem _ e))]

theorem cstr_eq_self_of_length (t : List Nat) (h : strlen t = t.length) : cstr t = t := by
  unfold cstr
  rw [h, List.take_length]

theorem text_split (t : List Nat) (h : strlen t < t.length) :
    t = cstr t ++ 0 :: t.drop (strlen t + 1) := by
  induction t with
  | nil => simp [strlen] at h
  | cons c cs ih =>
    by_cases hc : c = 0
    · subst hc; simp [cstr_cons_zero, strlen]
    · have hs : strlen (c :: cs) = strlen cs + 1 := by simp [strlen, hc]
      rw [hs] at h
      rw [cstr_cons_ne _ _ hc, hs]
      simp only [List.cons_append, List.drop_succ_cons]
      rw [← ih (by simpa using h)]

theorem byteAt_append_left (a b : List Nat) (i : Nat) (h : i < a.length) :
    byteAt (a ++ b) i = byteAt a i := by
  unfold byteAt
  rw [List.getD_eq_getElem?_getD, List.getD_eq_getElem?_getD, List.getElem?_append_left h]

theorem byteAt_append_right (a b : List Nat) (i : Nat) (h : a.length ≤ i) :
    byteAt (a ++ b) i = byteAt b (i - a.length) := by
  unfold byteAt
  rw [List.getD_eq_getElem?_getD, List.getD_eq_getElem?_getD, List.getElem?_append_right h]

theorem byteAt_length (a : List Nat) (i : Nat) (h : a.length ≤ i) : byteAt a i = 0 := by
  unfold byteAt
  rw [List.getD_eq_getElem?_getD, List.getElem?_eq_none h]
  rfl

theorem byteAt_ne_zero_of_mem (a : List Nat) (h : 0 ∉ a) (i : Nat) (hi : i < a.length) :
    byteAt a i ≠ 0 := by
  unfold byteAt
  rw [List.getD_eq_getElem?_getD, List.getElem?_eq_getElem hi]
  intro e
  apply h
  simp only [Option.getD_some] at e
  rw [← e]
  exact List.getElem_mem hi

/-- What a buffer that holds a string looks like. -/
theorem text_form (t : List Nat) (h : strlen t < t.length) :
    ∃ tl, t = cstr t ++ 0 :: tl ∧ t.length = strlen t + 1 + tl.length := by
  refine ⟨t.drop (strlen t + 1), text_split t h, ?_⟩
  rw [List.length_drop]
  omega

theorem byteAt_cons_succ (c : Nat) (l : List Nat) (i : Nat) :
    byteAt (c :: l) (i + 1) = byteAt l i := by
  unfold byteAt
  rfl

theorem byteAt_cstr : ∀ (t : List Nat) (i : Nat), i ≤ strlen t →
    byteAt (cstr t) i = byteAt t i := by
  intro t
  induction t with
  | nil => intro i _; rfl
  | cons c cs ih =>
    intro i hi
    by_cases hc : c = 0
    · subst hc
      have : i = 0 := by simpa [strlen] using hi
      subst this
      rw [cstr_cons_zero]
      rfl
    · rw [cstr_cons_ne _ _ hc]
      cases i with
      | zero => rfl
      | succ i =>
        rw [byteAt_cons_succ, byteAt_cons_succ]
        apply ih
        simpa [strlen, hc] using hi

theorem insert_pos (str : List Nat) (n : Nat) (s : State) (hn : 0 < n)
    (hB : s.text.length < 2 ^ 63) (hcur : s.cursor ≤ strlen s.text)
    (hfit : strlen s.text + n < s.text.length) :
    insert str n s =
      match_ (decide (byteAt (s.text.take s.cursor ++ str.take n ++
          (s.text.drop s.cursor).take (s.text.length - s.cursor - n)) (s.cursor + n) = 0))
        { s with text := s.text.take s.cursor ++ str.take n ++
                   (s.text.drop s.cursor).take (s.text.length - s.cursor - n),
                 cursor := s.cursor + n } := by
  have hlen := strlen_le_length s.text
  have e1 : toSize ((strlen s.text : Int) + (n : Int)) = strlen s.text + n := by
    rw [show ((strlen s.text : Int) + (n : Int)) = ((strlen s.text + n : Nat) : Int) by push_cast; rfl]
    exact toSize_nat _ (by omega)
  have e2 : toSize ((sizeofText s : Int) - 1) = s.text.length - 1 := by
    unfold sizeofText
    rw [show ((s.text.length : Int) - 1) = ((s.text.length - 1 : Nat) : Int) by omega]
    exact toSize_nat _ (by omega)
  have e3 : toSize ((s.cursor : Int) + (n : Int)) = s.cursor + n := by
    rw [show ((s.cursor : Int) + (n : Int)) = ((s.cursor + n : Nat) : Int) by push_cast; rfl]
    exact toSize_nat _ (by omega)
  have e4 : toSize ((sizeofText s : Int) - s.cursor - max (n : Int) 0) =
      s.text.length - s.cursor - n := by
    unfold sizeofText
    rw [show ((s.text.length : Int) - s.cursor - max (n : Int) 0) =
      ((s.text.length - s.cursor - n : Nat) : Int) by omega]
    exact toSize_nat _ (by omega)
  have e5 : toSize (n : Int) = n := toSize_nat _ (by omega)
  have hnpos : (n : Int) > 0 := by omega
  unfold insert
  rw [e1, e2, if_neg (by omega), e3, e4, e5]
  simp only [hnpos, if_true, decide_True, Bool.true_and]
  have ht : memcpy (memmove s.text (s.cursor + n) s.cursor (s.text.length - s.cursor - n))
      s.cursor str n =
      s.text.take s.cursor ++ str.take n ++
        (s.text.drop s.cursor).take (s.text.length - s.cursor - n) := by
    unfold memcpy memmove
    have d1 : List.drop (s.cursor + n + (s.text.length - s.cursor - n)) s.text = [] := by
      apply List.drop_eq_nil_of_le
      omega
    rw [d1, List.append_nil]
    have l1 : (List.take (s.cursor + n) s.text).length = s.cursor + n := by
      rw [List.length_take]; omega
    rw [List.take_append_of_le_length (by omega), List.take_take,
      List.drop_append_of_le_length (by omega)]
    rw [show min s.cursor (s.cursor + n) = s.cursor by omega]
    rw [List.drop_eq_nil_of_le (by omega), List.nil_append]
  rw [ht]

theorem insert_neg (str : List Nat) (k : Nat) (s : State) (hk : 0 < k) (hkc : k ≤ s.cursor)
    (hB : s.text.length < 2 ^ 63) (hcur : s.cursor ≤ strlen s.text) :
    insert str (-(k : Int)) s =
      match_ false
        { s with text := s.text.take (s.cursor - k) ++ s.text.drop s.cursor ++
                   s.text.drop (s.text.length - k),
                 cursor := s.cursor - k } := by
  have hlen := strlen_le_length s.text
  have e1 : toSize ((strlen s.text : Int) + -(k : Int)) = strlen s.text - k := by
    rw [show ((strlen s.text : Int) + -(k : Int)) = ((strlen s.text - k : Nat) : Int) by omega]
    exact toSize_nat _ (by omega)
  have e2 : toSize ((sizeofText s : Int) - 1) = s.text.length - 1 ∨ s.text.length = 0 := by
    unfold sizeofText
    by_cases h0 : s.text.length = 0
    · right; exact h0
    · left
      rw [show ((s.text.length : Int) - 1) = ((s.text.length - 1 : Nat) : Int) by omega]
      exact toSize_nat _ (by omega)
  have e3 : toSize ((s.cursor : Int) + -(k : Int)) = s.cursor - k := by
    rw [show ((s.cursor : Int) + -(k : Int)) = ((s.cursor - k : Nat) : Int) by omega]
    exact toSize_nat _ (by omega)
  have e4 : toSize ((sizeofText s : Int) - s.cursor - max (-(k : Int)) 0) =
      s.text.length - s.cursor := by
    unfold sizeofText
    rw [show ((s.text.length : Int) - s.cursor - max (-(k : Int)) 0) =
      ((s.text.length - s.cursor : Nat) : Int) by omega]
    exact toSize_nat _ (by omega)
  have hnneg : ¬ (-(k : Int) > 0) := by omega
  unfold insert
  have hcond : ¬ (toSize ((strlen s.text : Int) + -(k : Int)) >
      toSize ((sizeofText s : Int) - 1)) := by
    rw [e1]
    rcases e2 with e2 | e2
    · rw [e2]; omega
    · omega
  rw [if_neg hcond, e3, e4]
  simp only [hnneg, if_false, decide_False, Bool.false_and]
  have ht : memmove s.text (s.cursor - k) s.cursor (s.text.length - s.cursor) =
      s.text.take (s.cursor - k) ++ s.text.drop s.cursor ++
        s.text.drop (s.text.length - k) := by
    unfold memmove
    have e : List.take (s.text.length - s.cursor) (List.drop s.cursor s.text) =
        List.drop s.cursor s.text :=
      List.take_of_length_le (by rw [List.length_drop])
    rw [e, show s.cursor - k + (s.text.length - s.cursor) = s.text.length - k by omega]
  rw [ht]

theorem length_spliced (text str : List Nat) (cursor n : Nat) (hstr : n ≤ str.length)
    (hfit : cursor + n ≤ text.length) :
    (text.take cursor ++ str.take n ++
      (text.drop cursor).take (text.length - cursor - n)).length = text.length := by
  simp only [List.length_append, List.length_take, List.length_drop]
  omega

theorem spliced_form (Q tl str : List Nat) (cursor n : Nat) (hcur : cursor ≤ Q.length)
    (hn : n ≤ tl.length) :
    (Q ++ 0 :: tl).take cursor ++ str.take n ++
        ((Q ++ 0 :: tl).drop cursor).take ((Q ++ 0 :: tl).length - cursor - n) =
      (Q.take cursor ++ str.take n ++ Q.drop cursor) ++ 0 :: tl.take (tl.length - n) := by
  have hlen : (Q ++ 0 :: tl).length - cursor - n = (Q.length - cursor) + ((tl.length - n) + 1) := by
    simp only [List.length_append, List.length_cons]
    omega
  have hd : (Q.drop cursor).length = Q.length - cursor := List.length_drop _ _
  have e1 : (Q ++ 0 :: tl).take cursor = Q.take cursor :=
    List.take_append_of_le_length hcur
  have e2 : (Q ++ 0 :: tl).drop cursor = Q.drop cursor ++ 0 :: tl :=
    List.drop_append_of_le_length hcur
  have e3 : (Q.drop cursor ++ 0 :: tl).take ((Q.length - cursor) + ((tl.length - n) + 1)) =
      Q.drop cursor ++ 0 :: tl.take (tl.length - n) := by
    rw [← hd, List.take_append, List.take_succ_cons]
  rw [e1, e2, hlen, e3]
  simp

theorem cstr_spliced (text str : List Nat) (cursor n : Nat)
    (hz : 0 ∉ str.take n) (hcur : cursor ≤ strlen text) (hfit : strlen text + n < text.length) :
    cstr (text.take cursor ++ str.take n ++
        (text.drop cursor).take (text.length - cursor - n)) =
      (cstr text).take cursor ++ str.take n ++ (cstr text).drop cursor := by
  obtain ⟨tl, ht, hlen⟩ := text_form text (by omega)
  have hl := strlen_cstr text
  have hzq := zero_not_mem_cstr text
  have key := spliced_form (cstr text) tl str cursor n (by omega) (by omega)
  rw [← ht] at key
  rw [key]
  apply cstr_append_zero
  simp only [List.mem_append, not_or]
  exact ⟨⟨fun h => hzq (List.mem_of_mem_take h), hz⟩, fun h => hzq (List.mem_of_mem_drop h)⟩

theorem length_deleted (text : List Nat) (cursor k : Nat) (hk : k ≤ cursor)
    (hc : cursor ≤ text.length) :
    (text.take (cursor - k) ++ text.drop cursor ++ text.drop (text.length - k)).length =
      text.length := by
  simp only [List.length_append, List.length_take, List.length_drop]
  omega

theorem cstr_deleted (text : List Nat) (cursor k : Nat) (hk : k ≤ cursor)
    (hcur : cursor ≤ strlen text) (hnul : strlen text < text.length) :
    cstr (text.take (cursor - k) ++ text.drop cursor ++ text.drop (text.length - k)) =
      (cstr text).take (cursor - k) ++ (cstr text).drop cursor := by
  obtain ⟨tl, ht, hlen⟩ := text_form text hnul
  have hl := strlen_cstr text
  have hzq := zero_not_mem_cstr text
  have key : (cstr text ++ 0 :: tl).take (cursor - k) ++ (cstr text ++ 0 :: tl).drop cursor =
      ((cstr text).take (cursor - k) ++ (cstr text).drop cursor) ++ 0 :: tl := by
    rw [List.take_append_of_le_length (by omega), List.drop_append_of_le_length (by omega)]
    simp
  rw [← ht] at key
  rw [key, List.append_assoc, List.cons_append]
  apply cstr_append_zero
  simp only [List.mem_append, not_or]
  exact ⟨fun h => hzq (List.mem_of_mem_take h), fun h => hzq (List.mem_of_mem_drop h)⟩

theorem matchLoop_conf (sub : Bool) :
    ∀ (fuel : Nat) (item : Option Nat) (s : State) (b : Bands) (s' : State) (b' : Bands),
      matchLoop sub fuel item s b = some (s', b') → SameConf s s' := by
  intro fuel
  induction fuel with
  | zero =>
    intro item s b s' b' h
    cases item with
    | none =>
      simp only [matchLoop, Option.some.injEq, Prod.mk.injEq] at h
      rw [← h.1]; exact SameConf.refl _
    | some x =>
      rw [matchLoop] at h
      cases ht : s.items.get? x with
      | none =>
        rw [ht] at h
        simp only [Option.some.injEq, Prod.mk.injEq] at h
        rw [← h.1]; exact SameConf.refl _
      | some t =>
        rw [ht] at h
        exact absurd h (by simp)
  | succ f ih =>
    intro item s b s' b' h
    cases item with
    | none =>
      simp only [matchLoop, Option.some.injEq, Prod.mk.injEq] at h
      rw [← h.1]; exact SameConf.refl _
    | some x =>
      rw [matchLoop] at h
      cases ht : s.items.get? x with
      | none =>
        rw [ht] at h
        simp only [Option.some.injEq, Prod.mk.injEq] at h
        rw [← h.1]; exact SameConf.refl _
      | some t =>
        rw [ht] at h
        have h1 := ih _ _ _ _ _ h
        have h0 : SameConf s (matchItem x t s b).1 := by
          rw [matchItem_vars]; exact SameConf.refl _
        exact h0.trans h1

theorem joinBand_conf (l lend : Option Nat) (s : State) : SameConf s (joinBand l lend s) := by
  unfold joinBand
  cases l with
  | none => exact SameConf.refl _
  | some f =>
    cases s.matchend with
    | none => exact SameConf.refl _
    | some e => exact SameConf.refl _

theorem calcoffsets_conf (s s' : State) (h : calcoffsets s = some s') : SameConf s s' := by
  unfold calcoffsets at h
  split_ifs at h with hl
  · simp only [Option.some.injEq] at h
    rw [← h]; exact SameConf.refl _
  · split at h
    · exact absurd h (by simp)
    · split at h
      · exact absurd h (by simp)
      · simp only [Option.some.injEq] at h
        rw [← h]; exact SameConf.refl _

theorem match_conf (sub : Bool) (s s' : State) (h : match_ sub s = some s') : SameConf s s' := by
  unfold match_ at h
  split at h
  · exact absurd h (by simp)
  · rename_i s1 b hloop
    have h1 := matchLoop_conf sub _ _ _ _ _ _ hloop
    have h2 := calcoffsets_conf _ _ h
    refine h1.trans (SameConf.trans ?_ h2)
    exact (SameConf.trans (joinBand_conf b.lprefix b.prefixend
      { s1 with matches_ := b.lexact, matchend := b.exactend })
      (joinBand_conf b.lsubstr b.substrend _))

theorem match_false_total (s : State) : ∃ s', match_ false s = some s' := by
  obtain ⟨s', h, _⟩ := match_spec false s (List.range s.items.length)
    (visit_full s) (List.nodup_range _) (fun x hx => List.mem_range.1 hx)
  exact ⟨s', h⟩

theorem isCont_zero : isCont 0 = false := by decide

theorem byteAt_strlen (t : List Nat) : byteAt t (strlen t) = 0 := by
  rw [← byteAt_cstr t _ (Nat.le_refl _)]
  exact byteAt_length _ _ (by rw [strlen_cstr])

theorem byteAt_ne_zero_of_lt (t : List Nat) (i : Nat) (h : i < strlen t) : byteAt t i ≠ 0 := by
  rw [← byteAt_cstr t i (Nat.le_of_lt h)]
  exact byteAt_ne_zero_of_mem _ (zero_not_mem_cstr t) i (by rw [strlen_cstr]; exact h)

theorem lt_strlen_of_byteAt (t : List Nat) (i : Nat) (hi : i ≤ strlen t)
    (h : byteAt t i ≠ 0) : i < strlen t := by
  rcases Nat.lt_or_ge i (strlen t) with h1 | h1
  · exact h1
  · have : i = strlen t := by omega
    rw [this] at h
    exact absurd (byteAt_strlen t) h

theorem nextruneLoop_fwd (text : List Nat) :
    ∀ (fuel m : Nat), text.length < m + fuel →
      ∃ r : Nat, nextruneLoop text 1 fuel (m : Int) = (r : Int) ∧ m ≤ r ∧
        isCont (byteAt text r) = false ∧
        ∀ i, m ≤ i → i < r → isCont (byteAt text i) = true := by
  intro fuel
  induction fuel with
  | zero =>
    intro m h
    refine ⟨m, rfl, Nat.le_refl _, ?_, fun i h1 h2 => by omega⟩
    rw [byteAt_length _ _ (by omega)]
    exact isCont_zero
  | succ f ih =>
    intro m h
    rw [nextruneLoop]
    by_cases hc : isCont (byteAt text m) = true
    · have hcond : (m : Int) + 1 ≥ 0 ∧ isCont (byteAt text (m : Int).toNat) = true := by
        refine ⟨by omega, ?_⟩
        rw [Int.toNat_ofNat]; exact hc
      rw [if_pos hcond]
      obtain ⟨r, h1, h2, h3, h4⟩ := ih (m + 1) (by omega)
      refine ⟨r, ?_, by omega, h3, ?_⟩
      · rw [← h1]; push_cast; rfl
      · intro i hi1 hi2
        rcases Nat.eq_or_lt_of_le hi1 with e | e
        · rw [← e]; exact hc
        · exact h4 i e hi2
    · have hcond : ¬ ((m : Int) + 1 ≥ 0 ∧ isCont (byteAt text (m : Int).toNat) = true) := by
        rw [Int.toNat_ofNat]
        exact fun h => hc h.2
      rw [if_neg hcond]
      refine ⟨m, rfl, Nat.le_refl _, ?_, fun i h1 h2 => by omega⟩
      simpa using hc

theorem nextruneLoop_bwd (text : List Nat) :
    ∀ (fuel m : Nat), m < fuel →
      ∃ r : Nat, nextruneLoop text (-1) fuel (m : Int) = (r : Int) ∧ r ≤ m ∧
        (r = 0 ∨ isCont (byteAt text r) = false) ∧
        ∀ i, r < i → i ≤ m → isCont (byteAt text i) = true := by
  intro fuel
  induction fuel with
  | zero => intro m h; omega
  | succ f ih =>
    intro m h
    rw [nextruneLoop]
    by_cases hc : 1 ≤ m ∧ isCont (byteAt text m) = true
    · have hcond : (m : Int) + -1 ≥ 0 ∧ isCont (byteAt text (m : Int).toNat) = true := by
        refine ⟨by omega, ?_⟩
        rw [Int.toNat_ofNat]; exact hc.2
      rw [if_pos hcond]
      obtain ⟨r, h1, h2, h3, h4⟩ := ih (m - 1) (by omega)
      refine ⟨r, ?_, by omega, h3, ?_⟩
      · rw [← h1]
        congr 1
        omega
      · intro i hi1 hi2
        rcases Nat.eq_or_lt_of_le hi2 with e | e
        · rw [e]; exact hc.2
        · exact h4 i hi1 (by omega)
    · have hcond : ¬ ((m : Int) + -1 ≥ 0 ∧ isCont (byteAt text (m : Int).toNat) = true) := by
        rw [Int.toNat_ofNat]
        intro h
        exact hc ⟨by omega, h.2⟩
      rw [if_neg hcond]
      refine ⟨m, rfl, Nat.le_refl _, ?_, fun i h1 h2 => by omega⟩
      by_cases hm : m = 0
      · exact Or.inl hm
      · right
        have : ¬ isCont (byteAt text m) = true := fun h => hc ⟨by omega, h⟩
        simpa using this

theorem nextrune_fwd (s : State) (hB : s.text.length < 2 ^ 63)
    (hcur : s.cursor < strlen s.text) :
    s.cursor < nextrune 1 s ∧ nextrune 1 s ≤ strlen s.text ∧
      isCont (byteAt s.text (nextrune 1 s)) = false ∧
      ∀ i, s.cursor < i → i < nextrune 1 s → isCont (byteAt s.text i) = true := by
  have hlen := strlen_le_length s.text
  obtain ⟨r, h1, h2, h3, h4⟩ := nextruneLoop_fwd s.text (s.text.length + 1) (s.cursor + 1)
    (by omega)
  have hr : r ≤ strlen s.text := by
    by_contra hgt
    have := h4 (strlen s.text) (by omega) (by omega)
    rw [byteAt_strlen, isCont_zero] at this
    exact absurd this (by simp)
  have e : nextrune 1 s = r := by
    unfold nextrune
    rw [show ((s.cursor : Int) + 1) = ((s.cursor + 1 : Nat) : Int) by push_cast; rfl, h1]
    exact toSize_nat r (by omega)
  rw [e]
  exact ⟨by omega, hr, h3, fun i hi1 hi2 => h4 i (by omega) hi2⟩

theorem nextrune_bwd (s : State) (hB : s.text.length < 2 ^ 63)
    (hcur : s.cursor ≤ strlen s.text) (hpos : 0 < s.cursor) :
    nextrune (-1) s < s.cursor ∧
      (nextrune (-1) s = 0 ∨ isCont (byteAt s.text (nextrune (-1) s)) = false) ∧
      ∀ i, nextrune (-1) s < i → i < s.cursor → isCont (byteAt s.text i) = true := by
  have hlen := strlen_le_length s.text
  obtain ⟨r, h1, h2, h3, h4⟩ := nextruneLoop_bwd s.text (s.text.length + 1) (s.cursor - 1)
    (by omega)
  have e : nextrune (-1) s = r := by
    unfold nextrune
    rw [show ((s.cursor : Int) + -1) = ((s.cursor - 1 : Nat) : Int) by omega, h1]
    exact toSize_nat r (by omega)
  rw [e]
  exact ⟨by omega, h3, fun i hi1 hi2 => h4 i hi1 (by omega)⟩

theorem match_total (sub : Bool) (s : State) (l : List Nat) (hl : IsChain s l)
    (hnd : l.Nodup) (hlt : ∀ x ∈ l, x < s.items.length) :
    ∃ s', match_ sub s = some s' ∧ SameConf s s' ∧
      (s'.matches_.isSome = true → s'.curr.isSome = true) ∧
      (s.lines > 0 → s'.next = s.next) ∧
      (¬ s.lines > 0 →
        ∃ l1, Seg s'.right s'.curr l1 s'.next ∧ l1.length ≤ s.items.length) := by
  cases sub with
  | false =>
    obtain ⟨s', h1, _, h3, _, h5, h6, h7⟩ := match_spec false s (List.range s.items.length)
      (visit_full s) (List.nodup_range _) (fun x hx => List.mem_range.1 hx)
    exact ⟨s', h1, h5, fun h => by rw [h3]; exact h, h6, h7⟩
  | true =>
    have hv : Visit true s.items.length s.right
        (if true = true then s.matches_ else itemsPtr s) l := by
      unfold Visit
      simp only [if_true]
      exact ⟨hl.1, hlt⟩
    obtain ⟨s', h1, _, h3, _, h5, h6, h7⟩ := match_spec true s l hv hnd hlt
    exact ⟨s', h1, h5, fun h => by rw [h3]; exact h, h6, h7⟩

theorem toInt32_same (x : Int) (h1 : -(2 ^ 31) ≤ x) (h2 : x < 2 ^ 31) : toInt32 x = x := by
  unfold toInt32
  omega

theorem toInt32_range (x : Int) : -(2 ^ 31) ≤ toInt32 x ∧ toInt32 x < 2 ^ 31 := by
  unfold toInt32
  omega

/-- A width below `2^31` does not make `drawtext` die. -/
theorem drawtextDies_small (w : Nat) (h : w < 2 ^ 31) : drawtextDies w = false := by
  unfold drawtextDies
  by_cases h3 : w < 3
  · rw [if_pos h3]
  · rw [if_neg h3, toInt32_same ((w : Int) - 2) (by omega) (by omega),
      toInt32_same ((w : Int) - 2 + 1) (by omega) (by omega)]
    unfold callocFails toSize
    simp only [decide_eq_false_iff_not, not_le]
    omega

/-- A negative `int` handed to `drawtext` as its width makes it die. -/
theorem drawtextDies_neg (v : Int) (h1 : v < 0) (h2 : -(2 ^ 31) + 2 ≤ v) :
    drawtextDies (toSize v) = true := by
  have hv : ((toSize v : Nat) : Int) = 2 ^ 64 + v := by
    unfold toSize
    omega
  unfold drawtextDies
  rw [if_neg (by omega), hv]
  have e1 : toInt32 (2 ^ 64 + v - 2) = v - 2 := by
    unfold toInt32
    omega
  rw [e1, toInt32_same (v - 2 + 1) (by omega) (by omega)]
  unfold callocFails toSize
  simp only [decide_eq_true_eq]
  omega

theorem minSize_lt (a : Nat) (rw : Int) (ha : a < 2 ^ 31) (h1 : -(2 ^ 31) ≤ rw)
    (h2 : rw < 2 ^ 31) : minSize a rw < 2 ^ 31 := by
  unfold minSize
  by_cases h : a < toSize rw
  · rw [if_pos h]; exact ha
  · rw [if_neg h]
    unfold toSize at h ⊢
    omega

theorem drawHoriz_width (a : Nat) (rw : Int) (ha : a < 2 ^ 31) :
    drawtextDies (toSize (toInt32 (minSize a (toInt32 rw)))) = false := by
  have hr := toInt32_range rw
  have h := minSize_lt a (toInt32 rw) ha hr.1 hr.2
  rw [toInt32_same _ (by omega) (by omega), toSize_nat _ (by omega)]
  exact drawtextDies_small _ h

theorem textw_itemText (s : State) (hw : ∀ t ∈ s.items, textw t < 2 ^ 31) (x : Nat) :
    textw (itemText s x) < 2 ^ 31 := by
  unfold itemText
  cases h : s.items.get? x with
  | none => exact (by decide : textw [] < 2 ^ 31)
  | some t => exact hw t (List.get?_mem h)

theorem drawVert_zero (s : State) (w : Nat) (item : Option Nat) :
    drawVert s w 0 item = Drawn.done [] := rfl

theorem drawVert_succ (s : State) (w k : Nat) (item : Option Nat) :
    drawVert s w (k + 1) item =
      if item = s.next then Drawn.done []
      else
        match item with
        | none => Drawn.fault
        | some x =>
          if drawtextDies w = true then Drawn.died
          else Drawn.after (x, w) (drawVert s w k (s.right x)) := rfl

theorem after_ne_fault (c : Nat × Nat) (d : Drawn) (h : d ≠ Drawn.fault) :
    Drawn.after c d ≠ Drawn.fault := by
  cases d with
  | done l => intro h'; cases h'
  | died => intro h'; cases h'
  | fault => exact absurd rfl h

theorem after_done (c : Nat × Nat) (d : Drawn) (h : ∃ l, d = Drawn.done l) :
    ∃ l, Drawn.after c d = Drawn.done l := by
  obtain ⟨l, hl⟩ := h
  rw [hl]
  exact ⟨c :: l, rfl⟩

/-- In the vertical layout, where `next` is `NULL`, the loop over the items
reads no `NULL` pointer. -/
theorem drawVert_nofault (s : State) (w : Nat) (hn : s.next = none) :
    ∀ (k : Nat) (item : Option Nat), drawVert s w k item ≠ Drawn.fault := by
  intro k
  induction k with
  | zero => intro item h; cases h
  | succ k ih =>
    intro item
    rw [drawVert_succ]
    cases item with
    | none =>
      rw [if_pos hn.symm]
      intro h; cases h
    | some x =>
      rw [if_neg (by rw [hn]; simp)]
      simp only []
      by_cases hd : drawtextDies w = true
      · rw [if_pos hd]; intro h; cases h
      · rw [if_neg hd]
        exact after_ne_fault _ _ (ih (s.right x))

theorem drawVert_done (s : State) (w : Nat) (hn : s.next = none)
    (hw : drawtextDies w = false) :
    ∀ (k : Nat) (item : Option Nat), ∃ d, drawVert s w k item = Drawn.done d := by
  intro k
  induction k with
  | zero => intro item; exact ⟨[], rfl⟩
  | succ k ih =>
    intro item
    rw [drawVert_succ]
    cases item with
    | none =>
      rw [if_pos hn.symm]
      exact ⟨[], rfl⟩
    | some x =>
      rw [if_neg (by rw [hn]; simp)]
      simp only []
      rw [if_neg (by rw [hw]; simp)]
      exact after_done _ _ (ih (s.right x))

theorem drawHoriz_zero (s : State) (rw : Int) (item : Option Nat) :
    drawHoriz s 0 rw item = if item = s.next then Drawn.done [] else Drawn.fault := rfl

theorem drawHoriz_succ (s : State) (fuel : Nat) (rw : Int) (item : Option Nat) :
    drawHoriz s (fuel + 1) rw item =
      if item = s.next then Drawn.done []
      else
        match item with
        | none => Drawn.fault
        | some x =>
          if drawtextDies (toSize (toInt32 (minSize (textw (itemText s x)) rw))) = true then
            Drawn.died
          else if toInt32 (rw - textw (itemText s x)) ≤ 0 then
            Drawn.done [(x, toSize (toInt32 (minSize (textw (itemText s x)) rw)))]
          else
            Drawn.after (x, toSize (toInt32 (minSize (textw (itemText s x)) rw)))
              (drawHoriz s fuel (toInt32 (rw - textw (itemText s x))) (s.right x)) := rfl

/-- In the horizontal layout the loop over the items, which walks from `curr`
to `next`, reads no `NULL` pointer. -/
theorem drawHoriz_nofault (s : State) :
    ∀ (l : List Nat) (fuel : Nat) (rw : Int) (item : Option Nat),
      Seg s.right item l s.next → l.length < fuel →
      drawHoriz s fuel rw item ≠ Drawn.fault := by
  intro l
  induction l with
  | nil =>
    intro fuel rw item h _
    have : item = s.next := h
    cases fuel with
    | zero => rw [drawHoriz_zero, if_pos this]; intro h'; cases h'
    | succ f => rw [drawHoriz_succ, if_pos this]; intro h'; cases h'
  | cons x xs ih =>
    intro fuel rw item h hf
    have hi : item = some x := h.1
    subst hi
    obtain ⟨f, hf'⟩ : ∃ f, fuel = f + 1 := ⟨fuel - 1, by simp at hf; omega⟩
    subst hf'
    rw [drawHoriz_succ]
    by_cases hnx : some x = s.next
    · rw [if_pos hnx]; intro h'; cases h'
    · rw [if_neg hnx]
      simp only []
      by_cases hd : drawtextDies (toSize (toInt32 (minSize (textw (itemText s x)) rw))) = true
      · rw [if_pos hd]; intro h'; cases h'
      · rw [if_neg hd]
        by_cases hrw : toInt32 (rw - textw (itemText s x)) ≤ 0
        · rw [if_pos hrw]; intro h'; cases h'
        · rw [if_neg hrw]
          exact after_ne_fault _ _
            (ih f (toInt32 (rw - textw (itemText s x))) (s.right x) h.2
              (by simp at hf; omega))

theorem drawHoriz_done (s : State) (hw : ∀ t ∈ s.items, textw t < 2 ^ 31) :
    ∀ (l : List Nat) (fuel : Nat) (rw : Int) (item : Option Nat),
      Seg s.right item l s.next → l.length < fuel →
      ∃ d, drawHoriz s fuel (toInt32 rw) item = Drawn.done d := by
  intro l
  induction l with
  | nil =>
    intro fuel rw item h _
    have : item = s.next := h
    cases fuel with
    | zero => rw [drawHoriz_zero, if_pos this]; exact ⟨[], rfl⟩
    | succ f => rw [drawHoriz_succ, if_pos this]; exact ⟨[], rfl⟩
  | cons x xs ih =>
    intro fuel rw item h hf
    have hi : item = some x := h.1
    subst hi
    obtain ⟨f, hf'⟩ : ∃ f, fuel = f + 1 := ⟨fuel - 1, by simp at hf; omega⟩
    subst hf'
    rw [drawHoriz_succ]
    by_cases hnx : some x = s.next
    · rw [if_pos hnx]; exact ⟨[], rfl⟩
    · rw [if_neg hnx]
      simp only []
      rw [if_neg (by rw [drawHoriz_width _ rw (textw_itemText s hw x)]; simp)]
      by_cases hrw : toInt32 (toInt32 rw - textw (itemText s x)) ≤ 0
      · rw [if_pos hrw]; exact ⟨_, rfl⟩
      · rw [if_neg hrw]
        exact after_done _ _
          (ih f (toInt32 rw - textw (itemText s x)) (s.right x) h.2 (by simp at hf; omega))

/-- With a window that is sound (`next` unset in the vertical layout, a walk
from `curr` to `next` in the horizontal one), `drawmenu` reads no `NULL`
pointer. -/
theorem drawmenu_nofault (s : State) (hv : s.lines > 0 → s.next = none)
    (hc : ¬ s.lines > 0 → s.matches_.isSome = true → s.curr.isSome = true)
    (hh : ¬ s.lines > 0 → ∃ l, Seg s.right s.curr l s.next ∧ l.length ≤ s.items.length) :
    drawmenu s ≠ Drawn.fault := by
  unfold drawmenu
  by_cases hd : drawHead s = true
  · rw [if_pos hd]; intro h; cases h
  · rw [if_neg hd]
    unfold drawItems
    by_cases hl : s.lines > 0
    · rw [if_pos hl]
      exact drawVert_nofault s _ (hv hl) _ _
    · rw [if_neg hl]
      by_cases hm : s.matches_.isSome = true
      · rw [if_pos hm]
        have hcs := hc hl hm
        cases hcurr : s.curr with
        | none => rw [hcurr] at hcs; exact absurd hcs (by simp)
        | some c =>
          simp only []
          obtain ⟨l, hseg, hlen⟩ := hh hl
          rw [hcurr] at hseg
          exact drawHoriz_nofault s l _ _ _ hseg (by omega)
      · rw [if_neg hm]
        intro h; cases h

/-- The loops over the items call `drawtext` with widths that do not make it
die, when the terminal width is one and no text of an item has `2^31` bytes. -/
theorem drawItems_done (s : State) (hv : s.lines > 0 → s.next = none)
    (hc : ¬ s.lines > 0 → s.matches_.isSome = true → s.curr.isSome = true)
    (hh : ¬ s.lines > 0 → ∃ l, Seg s.right s.curr l s.next ∧ l.length ≤ s.items.length)
    (hmw : s.lines > 0 → drawtextDies (toSize s.mw) = false)
    (hw : ∀ t ∈ s.items, textw t < 2 ^ 31) :
    ∃ d, drawItems s = Drawn.done d := by
  unfold drawItems
  by_cases hl : s.lines > 0
  · rw [if_pos hl]
    exact drawVert_done s _ (hv hl) (hmw hl) _ _
  · rw [if_neg hl]
    by_cases hm : s.matches_.isSome = true
    · rw [if_pos hm]
      have hcs := hc hl hm
      cases hcurr : s.curr with
      | none => rw [hcurr] at hcs; exact absurd hcs (by simp)
      | some c =>
        simp only []
        obtain ⟨l, hseg, hlen⟩ := hh hl
        rw [hcurr] at hseg
        exact drawHoriz_done s hw l _ _ _ hseg (by omega)
    · rw [if_neg hm]
      exact ⟨[], rfl⟩

theorem redraw_done {s : State} {d : List (Nat × Nat)} (h : drawmenu s = Drawn.done d) :
    redraw (some s) = Run.reading Pc.top s := by
  unfold redraw
  simp only [h]

theorem redraw_died {s : State} (h : drawmenu s = Drawn.died) :
    redraw (some s) = Run.died := by
  unfold redraw
  simp only [h]

/-- What `drawmenu()` at the end of a round leads to, when it reads no `NULL`
pointer: the process ends in `die`, or `run` goes on reading. -/
theorem redraw_cases (o : Option State) (s : State) (ho : o = some s)
    (h : drawmenu s ≠ Drawn.fault) :
    (drawmenu s = Drawn.died → redraw o = Run.died) ∧
    (drawmenu s ≠ Drawn.died → redraw o = Run.reading Pc.top s) := by
  subst ho
  cases hd : drawmenu s with
  | done l => exact ⟨fun h' => absurd h' (by simp), fun _ => redraw_done hd⟩
  | died => exact ⟨fun _ => redraw_died hd, fun h' => absurd rfl h'⟩
  | fault => exact absurd hd h

/-- After `match` the menu is drawn without a read at `NULL`. -/
theorem redraw_match (sub : Bool) (s : State) (l : List Nat) (hl : IsChain s l)
    (hnd : l.Nodup) (hlt : ∀ x ∈ l, x < s.items.length)
    (hv : s.lines > 0 → s.next = none) :
    ∃ s', match_ sub s = some s' ∧ drawmenu s' ≠ Drawn.fault ∧ SameConf s s' := by
  obtain ⟨s', h1, h2, h3, h4, h5⟩ := match_total sub s l hl hnd hlt
  have hlines : s'.lines = s.lines := h2.2.1
  have hitems : s'.items = s.items := h2.2.2.2.2.2.2.1
  have hd := drawmenu_nofault s'
    (fun h => by rw [h4 (by rw [← hlines]; exact h)]; exact hv (by rw [← hlines]; exact h))
    (fun _ => h3)
    (fun h => by
      obtain ⟨l1, hs, hlen⟩ := h5 (by rw [← hlines]; exact h)
      exact ⟨l1, hs, by rw [hitems]; exact hlen⟩)
  exact ⟨s', h1, hd, h2⟩

theorem redraw_match_false (s : State) (hv : s.lines > 0 → s.next = none) :
    ∃ s', match_ false s = some s' ∧ drawmenu s' ≠ Drawn.fault ∧ SameConf s s' := by
  obtain ⟨s', h1, _, h3, _, h5, h6, h7⟩ := match_spec false s (List.range s.items.length)
    (visit_full s) (List.nodup_range _) (fun x hx => List.mem_range.1 hx)
  have hlines : s'.lines = s.lines := h5.2.1
  have hitems : s'.items = s.items := h5.2.2.2.2.2.2.1
  have hd := drawmenu_nofault s'
    (fun h => by rw [h6 (by rw [← hlines]; exact h)]; exact hv (by rw [← hlines]; exact h))
    (fun _ h => by rw [h3]; exact h)
    (fun h => by
      obtain ⟨l1, hs, hlen⟩ := h7 (by rw [← hlines]; exact h)
      exact ⟨l1, hs, by rw [hitems]; exact hlen⟩)
  exact ⟨s', h1, hd, h5⟩

theorem insert_neg_spec (str : List Nat) (k : Nat) (s : State) (hk : 0 < k)
    (hkc : k ≤ s.cursor) (hB : s.text.length < 2 ^ 63) (hnul : strlen s.text < s.text.length)
    (hcur : s.cursor ≤ strlen s.text) (hv : s.lines > 0 → s.next = none) :
    ∃ s', insert str (-(k : Int)) s = some s' ∧
      drawmenu s' ≠ Drawn.fault ∧
      cstr s'.text = (cstr s.text).take (s.cursor - k) ++ (cstr s.text).drop s.cursor ∧
      s'.text.length = s.text.length ∧ s'.cursor = s.cursor - k := by
  rw [insert_neg str k s hk hkc hB hcur]
  obtain ⟨s', h1, h2, h3⟩ := redraw_match_false
    { s with text := s.text.take (s.cursor - k) ++ s.text.drop s.cursor ++
               s.text.drop (s.text.length - k),
             cursor := s.cursor - k } hv
  refine ⟨s', h1, h2, ?_, ?_, h3.2.2.2.2.2.1⟩
  · rw [h3.1]
    exact cstr_deleted s.text s.cursor k hkc hcur hnul
  · rw [h3.1]
    exact length_deleted s.text s.cursor k hkc (by have := strlen_le_length s.text; omega)

theorem deleteBack_eq (s : State) (hB : s.text.length < 2 ^ 63)
    (hcur : s.cursor ≤ strlen s.text) (hp : nextrune (-1) s < s.cursor) :
    deleteBack s = insert [] (-((s.cursor - nextrune (-1) s : Nat) : Int)) s := by
  have hlen := strlen_le_length s.text
  unfold deleteBack
  rw [toSSize_eq _ (by omega) (by omega)]
  congr 1
  omega

/-! ## The claims about the edit buffer -/

/-- C8: seek moves exactly one code point.  In a text that does not start with
a continuation byte (as every well-formed UTF-8 text), with the cursor inside
the text: for `cursor < length`, `nextrune(+1)` is the smallest offset greater
than the cursor whose byte is not a continuation byte, and it is at most the
length; for `cursor > 0`, `nextrune(-1)` is the largest offset smaller than the
cursor whose byte is not a continuation byte.  The result is never an offset
inside a multi-byte code point. -/
theorem nextrune_boundary (s : State) (hB : s.text.length < 2 ^ 63)
    (hcur : s.cursor ≤ strlen s.text) (hstart : isCont (byteAt s.text 0) = false) :
    (s.cursor < strlen s.text →
      s.cursor < nextrune 1 s ∧ nextrune 1 s ≤ strlen s.text ∧
        isCont (byteAt s.text (nextrune 1 s)) = false ∧
        ∀ i, s.cursor < i → i < nextrune 1 s → isCont (byteAt s.text i) = true) ∧
    (0 < s.cursor →
      nextrune (-1) s < s.cursor ∧
        isCont (byteAt s.text (nextrune (-1) s)) = false ∧
        ∀ i, nextrune (-1) s < i → i < s.cursor → isCont (byteAt s.text i) = true) := by
  refine ⟨fun h => nextrune_fwd s hB h, fun h => ?_⟩
  obtain ⟨h1, h2, h3⟩ := nextrune_bwd s hB hcur h
  refine ⟨h1, ?_, h3⟩
  rcases h2 with h2 | h2
  · rw [h2]; exact hstart
  · exact h2

/-- C8 at the text "aéb" (bytes 97, 195, 169, 98) with the cursor behind "a":
forward the cursor goes to offset 3 behind the two bytes of "é", backward to
offset 0. -/
theorem nextrune_boundary_witness :
    ((demo [97, 195, 169, 98] [] false).text.length < 2 ^ 63 ∧
      ({ demo [97, 195, 169, 98] [] false with cursor := 1 } : State).cursor ≤
        strlen (demo [97, 195, 169, 98] [] false).text ∧
      isCont (byteAt (demo [97, 195, 169, 98] [] false).text 0) = false) ∧
    nextrune 1 { demo [97, 195, 169, 98] [] false with cursor := 1 } = 3 ∧
    nextrune (-1) { demo [97, 195, 169, 98] [] false with cursor := 1 } = 0 ∧
    ((1 : Nat) < 4 → (1 : Nat) < 3 ∧ 3 ≤ 4 ∧ isCont 98 = false ∧
      ∀ i, 1 < i → i < 3 → isCont (byteAt [97, 195, 169, 98, 0, 0, 0, 0] i) = true) := by
  refine ⟨⟨by decide, by decide, by decide⟩, by decide, by decide, ?_⟩
  exact (nextrune_boundary { demo [97, 195, 169, 98] [] false with cursor := 1 }
    (by decide) (by decide) (by decide)).1

/-- C6: the contract of `insert` for `n > 0` bytes without NUL (`n` a value of
`ssize_t`), in a buffer that
holds a string with the cursor inside it and a well-formed match chain.  If
`strlen(text) + n <= sizeof text - 1`, `insert` returns, the new text is
`text[0..cursor) ++ str[0..n) ++ text[cursor..length)`, still NUL-terminated in
the same buffer, and the new cursor is `cursor + n`; if
`strlen(text) + n > sizeof text - 1`, `insert` leaves the whole state as it is. -/
theorem insert_contract (str : List Nat) (n : Nat) (s : State) (l : List Nat)
    (hn : 0 < n) (hn63 : n < 2 ^ 63) (hstr : n ≤ str.length) (hz : 0 ∉ str.take n)
    (hB : s.text.length < 2 ^ 63) (hnul : strlen s.text < s.text.length)
    (hcur : s.cursor ≤ strlen s.text)
    (hl : IsChain s l) (hnd : l.Nodup) (hlt : ∀ x ∈ l, x < s.items.length) :
    (strlen s.text + n ≤ sizeofText s - 1 →
      ∃ s', insert str n s = some s' ∧
        cstr s'.text =
          (cstr s.text).take s.cursor ++ str.take n ++ (cstr s.text).drop s.cursor ∧
        strlen s'.text < s'.text.length ∧ s'.text.length = s.text.length ∧
        s'.cursor = s.cursor + n) ∧
    (strlen s.text + n > sizeofText s - 1 → insert str n s = some s) := by
  have hlen := strlen_le_length s.text
  constructor
  · intro hfit
    unfold sizeofText at hfit
    rw [insert_pos str n s hn hB hcur (by omega)]
    obtain ⟨s', h1, h2, _⟩ := match_total
      (decide (byteAt (s.text.take s.cursor ++ str.take n ++
          (s.text.drop s.cursor).take (s.text.length - s.cursor - n)) (s.cursor + n) = 0))
      { s with text := s.text.take s.cursor ++ str.take n ++
                 (s.text.drop s.cursor).take (s.text.length - s.cursor - n),
               cursor := s.cursor + n } l hl hnd hlt
    have hc := cstr_spliced s.text str s.cursor n hz hcur (by omega)
    have hlen' := length_spliced s.text str s.cursor n hstr (by omega)
    refine ⟨s', h1, ?_, ?_, ?_, h2.2.2.2.2.2.1⟩
    · rw [h2.1]; exact hc
    · rw [h2.1, ← strlen_cstr]
      show (cstr (s.text.take s.cursor ++ str.take n ++
        (s.text.drop s.cursor).take (s.text.length - s.cursor - n))).length < _
      rw [hc, hlen']
      simp only [List.length_append, List.length_take, List.length_drop, strlen_cstr]
      omega
    · rw [h2.1]; exact hlen'
  · intro hfull
    unfold sizeofText at hfull
    have e1 : toSize ((strlen s.text : Int) + (n : Int)) = strlen s.text + n := by
      rw [show ((strlen s.text : Int) + (n : Int)) = ((strlen s.text + n : Nat) : Int) by
        push_cast; rfl]
      exact toSize_nat _ (by omega)
    have e2 : toSize ((sizeofText s : Int) - 1) = s.text.length - 1 := by
      unfold sizeofText
      rw [show ((s.text.length : Int) - 1) = ((s.text.length - 1 : Nat) : Int) by omega]
      exact toSize_nat _ (by omega)
    unfold insert
    rw [e1, e2, if_pos hfull]

/-- C6 at the buffer "a" of five bytes with the cursor at its end, one byte "b"
inserted, and at a buffer "a" of two bytes, which is full. -/
theorem insert_contract_witness :
    (∃ s', insert [98] 1 { demo [97] [] false with cursor := 1 } = some s' ∧
      cstr s'.text = [97, 98] ∧ s'.cursor = 2) ∧
    insert [98] 1 { demo [97] [] false with text := [97, 0], cursor := 1 } =
      some { demo [97] [] false with text := [97, 0], cursor := 1 } := by
  constructor
  · obtain ⟨s', h1, h2, _, _, h3⟩ :=
      (insert_contract [98] 1 { demo [97] [] false with cursor := 1 } [] (by decide)
        (by decide) (by decide) (by decide) (by decide) (by decide) (by decide) (by decide)
        (by decide) (by decide)).1 (by decide)
    exact ⟨s', h1, h2, h3⟩
  · exact (insert_contract [98] 1 { demo [97] [] false with text := [97, 0], cursor := 1 } []
      (by decide) (by decide) (by decide) (by decide) (by decide) (by decide) (by decide)
      (by decide) (by decide) (by decide)).2 (by decide)

theorem TextInv_conf {b : Bool} {B : Nat} {s s' : State} (hc : SameConf s s')
    (h : TextInv b B s) : TextInv b B s' := by
  unfold TextInv at h ⊢
  rw [hc.1, hc.2.2.2.2.2.1]
  exact h

theorem TextInv_of_eq {b : Bool} {B : Nat} {s s' : State} (ht : s'.text = s.text)
    (hc : s'.cursor = s.cursor) (h : TextInv b B s) : TextInv b B s' := by
  unfold TextInv at h ⊢
  rw [ht, hc]
  exact h

theorem TextInv_fwd {b : Bool} {B : Nat} {s : State} (hB : B < 2 ^ 63) (h : TextInv b B s)
    (hne : byteAt s.text s.cursor ≠ 0) : TextInv b B { s with cursor := nextrune 1 s } := by
  obtain ⟨h1, h2, h3, h4⟩ := h
  have hlt := lt_strlen_of_byteAt _ _ h3 hne
  obtain ⟨f1, f2, f3, _⟩ := nextrune_fwd s (by omega) hlt
  exact ⟨h1, h2, f2, fun hb => ⟨f3, (h4 hb).2⟩⟩

theorem TextInv_bwd {b : Bool} {B : Nat} {s : State} (hB : B < 2 ^ 63) (h : TextInv b B s)
    (hpos : 0 < s.cursor) : TextInv b B { s with cursor := nextrune (-1) s } := by
  obtain ⟨h1, h2, h3, h4⟩ := h
  obtain ⟨p1, p2, _⟩ := nextrune_bwd s (by omega) h3 hpos
  refine ⟨h1, h2, ?_, fun hb => ⟨?_, (h4 hb).2⟩⟩
  · show nextrune (-1) s ≤ strlen s.text
    omega
  · show isCont (byteAt s.text (nextrune (-1) s)) = false
    rcases p2 with p2 | p2
    · rw [p2]; exact (h4 hb).2
    · exact p2

theorem byteAt_take_append_drop (Q : List Nat) (a c : Nat) (ha : a ≤ c) (hc : c ≤ Q.length) :
    byteAt (Q.take a ++ Q.drop c) a = byteAt Q c ∧
      (0 < a → byteAt (Q.take a ++ Q.drop c) 0 = byteAt Q 0) := by
  have hl : (Q.take a).length = a := by rw [List.length_take]; omega
  constructor
  · rw [byteAt_append_right _ _ _ (by omega), hl, Nat.sub_self]
    unfold byteAt
    rw [List.getD_eq_getElem?_getD, List.getD_eq_getElem?_getD, List.getElem?_drop]
    rfl
  · intro h0
    rw [byteAt_append_left _ _ _ (by omega)]
    unfold byteAt
    rw [List.getD_eq_getElem?_getD, List.getD_eq_getElem?_getD, List.getElem?_take, if_pos h0]

theorem TextInv_insert_neg {b : Bool} {B : Nat} {s s' : State} (hB : B < 2 ^ 63)
    (h : TextInv b B s) (k : Nat) (hk : 0 < k) (hkc : k ≤ s.cursor)
    (hi : insert [] (-(k : Int)) s = some s') : TextInv b B s' := by
  obtain ⟨h1, h2, h3, h4⟩ := h
  rw [insert_neg [] k s hk hkc (by omega) h3] at hi
  have hconf := match_conf _ _ _ hi
  have hlen := strlen_le_length s.text
  have hl := length_deleted s.text s.cursor k hkc (by omega)
  have hc := cstr_deleted s.text s.cursor k hkc h3 (by omega)
  have hQ := strlen_cstr s.text
  have hs : strlen (s.text.take (s.cursor - k) ++ s.text.drop s.cursor ++
      s.text.drop (s.text.length - k)) = strlen s.text - k := by
    rw [← strlen_cstr, hc]
    simp only [List.length_append, List.length_take, List.length_drop, hQ]
    omega
  refine TextInv_conf hconf ⟨by rw [← h1]; exact hl, ?_, ?_, ?_⟩
  · show strlen (s.text.take (s.cursor - k) ++ s.text.drop s.cursor ++
      s.text.drop (s.text.length - k)) < B
    rw [hs]; omega
  · show s.cursor - k ≤ strlen (s.text.take (s.cursor - k) ++ s.text.drop s.cursor ++
      s.text.drop (s.text.length - k))
    rw [hs]; omega
  · intro hb
    obtain ⟨h5, h6⟩ := h4 hb
    show isCont (byteAt (s.text.take (s.cursor - k) ++ s.text.drop s.cursor ++
        s.text.drop (s.text.length - k)) (s.cursor - k)) = false ∧
      isCont (byteAt (s.text.take (s.cursor - k) ++ s.text.drop s.cursor ++
        s.text.drop (s.text.length - k)) 0) = false
    rw [← byteAt_cstr _ (s.cursor - k) (by rw [hs]; omega),
      ← byteAt_cstr _ 0 (Nat.zero_le _), hc]
    obtain ⟨e1, e2⟩ := byteAt_take_append_drop (cstr s.text) (s.cursor - k) s.cursor
      (by omega) (by omega)
    rw [e1, byteAt_cstr _ _ h3]
    refine ⟨h5, ?_⟩
    by_cases h0 : 0 < s.cursor - k
    · rw [e2 h0, byteAt_cstr _ _ (Nat.zero_le _)]; exact h6
    · have ha : s.cursor - k = 0 := by omega
      rw [ha] at e1 ⊢
      rw [e1, byteAt_cstr _ _ h3]; exact h5

theorem TextInv_deleteBack {b : Bool} {B : Nat} {s s' : State} (hB : B < 2 ^ 63)
    (h : TextInv b B s) (hpos : 0 < s.cursor) (hd : deleteBack s = some s') :
    TextInv b B s' := by
  obtain ⟨p1, _, _⟩ := nextrune_bwd s (by rw [h.1]; exact hB) h.2.2.1 hpos
  rw [deleteBack_eq s (by rw [h.1]; exact hB) h.2.2.1 p1] at hd
  exact TextInv_insert_neg hB h _ (by omega) (by omega) hd

theorem insert_full (str : List Nat) (n : Nat) (s : State) (hn63 : n < 2 ^ 63)
    (hB : s.text.length < 2 ^ 63) (hnul : strlen s.text < s.text.length)
    (hfull : strlen s.text + n > s.text.length - 1) : insert str n s = some s := by
  have e1 : toSize ((strlen s.text : Int) + (n : Int)) = strlen s.text + n := by
    rw [show ((strlen s.text : Int) + (n : Int)) = ((strlen s.text + n : Nat) : Int) by
      push_cast; rfl]
    exact toSize_nat _ (by omega)
  have e2 : toSize ((sizeofText s : Int) - 1) = s.text.length - 1 := by
    unfold sizeofText
    rw [show ((s.text.length : Int) - 1) = ((s.text.length - 1 : Nat) : Int) by omega]
    exact toSize_nat _ (by omega)
  unfold insert
  rw [e1, e2, if_pos hfull]

theorem insert_zero (str : List Nat) (s : State) (hB : s.text.length < 2 ^ 63)
    (hnul : strlen s.text < s.text.length) (hcur : s.cursor ≤ strlen s.text) :
    insert str 0 s = match_ false s := by
  have hlen := strlen_le_length s.text
  have e1 : toSize ((strlen s.text : Int) + 0) = strlen s.text := by
    rw [Int.add_zero]; exact toSize_nat _ (by omega)
  have e2 : toSize ((sizeofText s : Int) - 1) = s.text.length - 1 := by
    unfold sizeofText
    rw [show ((s.text.length : Int) - 1) = ((s.text.length - 1 : Nat) : Int) by omega]
    exact toSize_nat _ (by omega)
  have e3 : toSize ((s.cursor : Int) + 0) = s.cursor := by
    rw [Int.add_zero]; exact toSize_nat _ (by omega)
  have e4 : toSize ((sizeofText s : Int) - s.cursor - max (0 : Int) 0) =
      s.text.length - s.cursor := by
    unfold sizeofText
    rw [show ((s.text.length : Int) - s.cursor - max (0 : Int) 0) =
      ((s.text.length - s.cursor : Nat) : Int) by omega]
    exact toSize_nat _ (by omega)
  unfold insert
  rw [e1, e2, if_neg (by omega), e3, e4]
  have ht : memmove s.text s.cursor s.cursor (s.text.length - s.cursor) = s.text := by
    unfold memmove
    have e : List.take (s.text.length - s.cursor) (List.drop s.cursor s.text) =
        List.drop s.cursor s.text :=
      List.take_of_length_le (by rw [List.length_drop])
    rw [e, List.take_append_drop, List.drop_eq_nil_of_le (by omega), List.append_nil]
  simp only [show ¬ ((0 : Int) > 0) by omega, if_false, decide_False, Bool.false_and, ht]

theorem TextInv_insert_byte {b : Bool} {B : Nat} {s s' : State} (hB : B < 2 ^ 63)
    (h : TextInv b B s) (c : Nat) (hc : c ≠ 0)
    (hw0 : b = true → isCont c = true →
      0 < s.cursor ∨ strlen s.text + 1 > sizeofText s - 1)
    (hi : insert [c] ((strlen [c] : Nat) : Int) s = some s') : TextInv b B s' := by
  obtain ⟨h1, h2, h3, h4⟩ := h
  have hs1 : strlen [c] = 1 := by simp [strlen, hc]
  rw [hs1] at hi
  have hlen := strlen_le_length s.text
  by_cases hfit : strlen s.text + 1 < s.text.length
  · have hw : b = true → isCont c = true → 0 < s.cursor := fun hb hc =>
      (hw0 hb hc).resolve_right (by unfold sizeofText; omega)
    rw [insert_pos [c] 1 s (by omega) (by omega) h3 hfit] at hi
    have hconf := match_conf _ _ _ hi
    have hz : 0 ∉ [c].take 1 := by simp [Ne.symm hc]
    have hcs := cstr_spliced s.text [c] s.cursor 1 hz h3 hfit
    have hl := length_spliced s.text [c] s.cursor 1 (by simp) (by omega)
    have hQ := strlen_cstr s.text
    have hs : strlen (s.text.take s.cursor ++ [c].take 1 ++
        (s.text.drop s.cursor).take (s.text.length - s.cursor - 1)) = strlen s.text + 1 := by
      rw [← strlen_cstr, hcs]
      simp only [List.length_append, List.length_take, List.length_drop, hQ,
        List.length_singleton]
      omega
    refine TextInv_conf hconf ⟨by rw [← h1]; exact hl, ?_, ?_, ?_⟩
    · show strlen (s.text.take s.cursor ++ [c].take 1 ++
        (s.text.drop s.cursor).take (s.text.length - s.cursor - 1)) < B
      rw [hs]; omega
    · show s.cursor + 1 ≤ strlen (s.text.take s.cursor ++ [c].take 1 ++
        (s.text.drop s.cursor).take (s.text.length - s.cursor - 1))
      rw [hs]; omega
    · intro hb
      obtain ⟨h5, h6⟩ := h4 hb
      show isCont (byteAt (s.text.take s.cursor ++ [c].take 1 ++
          (s.text.drop s.cursor).take (s.text.length - s.cursor - 1)) (s.cursor + 1)) = false ∧
        isCont (byteAt (s.text.take s.cursor ++ [c].take 1 ++
          (s.text.drop s.cursor).take (s.text.length - s.cursor - 1)) 0) = false
      rw [← byteAt_cstr _ (s.cursor + 1) (by rw [hs]; omega),
        ← byteAt_cstr _ 0 (Nat.zero_le _), hcs]
      have hlt : ((cstr s.text).take s.cursor).length = s.cursor := by
        rw [List.length_take]; omega
      have hl1 : ((cstr s.text).take s.cursor ++ [c].take 1).length = s.cursor + 1 := by
        simp only [List.length_append, hlt, List.take_succ_cons, List.take_zero,
          List.length_singleton]
      constructor
      · rw [byteAt_append_right _ _ _ (by omega), hl1, Nat.sub_self]
        have : byteAt (List.drop s.cursor (cstr s.text)) 0 = byteAt (cstr s.text) s.cursor := by
          unfold byteAt
          rw [List.getD_eq_getElem?_getD, List.getD_eq_getElem?_getD, List.getElem?_drop]
          rfl
        rw [this, byteAt_cstr _ _ h3]
        exact h5
      · rw [byteAt_append_left _ _ _ (by omega)]
        by_cases h0 : 0 < s.cursor
        · rw [byteAt_append_left _ _ _ (by omega)]
          have : byteAt (List.take s.cursor (cstr s.text)) 0 = byteAt (cstr s.text) 0 := by
            unfold byteAt
            rw [List.getD_eq_getElem?_getD, List.getD_eq_getElem?_getD, List.getElem?_take,
              if_pos h0]
          rw [this, byteAt_cstr _ _ (Nat.zero_le _)]
          exact h6
        · have hz0 : s.cursor = 0 := by omega
          rw [hz0]
          have : byteAt (List.take 0 (cstr s.text) ++ [c].take 1) 0 = c := rfl
          rw [this]
          cases hcc : isCont c with
          | false => rfl
          | true => exact absurd (hw hb hcc) h0
  · rw [insert_full [c] 1 s (by omega) (by omega) (by omega) (by omega)] at hi
    rw [← Option.some.inj hi]
    exact ⟨h1, h2, h3, h4⟩

theorem cstr_set_zero : ∀ (t : List Nat) (c : Nat), strlen t < t.length → c ≤ strlen t →
    cstr (t.set c 0) = (cstr t).take c := by
  intro t
  induction t with
  | nil => intro c h; simp [strlen] at h
  | cons x xs ih =>
    intro c h hc
    cases c with
    | zero => simp [cstr_cons_zero]
    | succ c =>
      have hx : x ≠ 0 := by
        intro e
        subst e
        simp [strlen] at hc
      have hs : strlen (x :: xs) = strlen xs + 1 := by simp [strlen, hx]
      rw [hs] at h hc
      rw [List.set_cons_succ, cstr_cons_ne _ _ hx, cstr_cons_ne _ _ hx, List.take_succ_cons,
        ih c (by simpa using h) (by omega)]

theorem TextInv_kill {b : Bool} {B : Nat} {s : State} (h : TextInv b B s) :
    TextInv b B { s with text := s.text.set s.cursor 0 } := by
  obtain ⟨h1, h2, h3, h4⟩ := h
  have hcs := cstr_set_zero s.text s.cursor (by omega) h3
  have hQ := strlen_cstr s.text
  have hs : strlen (s.text.set s.cursor 0) = s.cursor := by
    rw [← strlen_cstr, hcs, List.length_take]
    omega
  refine ⟨by rw [← h1]; exact List.length_set _ _ _, ?_, ?_, ?_⟩
  · show strlen (s.text.set s.cursor 0) < B
    rw [hs]; omega
  · show s.cursor ≤ strlen (s.text.set s.cursor 0)
    rw [hs]
  · intro hb
    obtain ⟨_, h6⟩ := h4 hb
    show isCont (byteAt (s.text.set s.cursor 0) s.cursor) = false ∧
      isCont (byteAt (s.text.set s.cursor 0) 0) = false
    rw [← byteAt_cstr _ s.cursor (by rw [hs]), ← byteAt_cstr _ 0 (Nat.zero_le _), hcs]
    constructor
    · rw [byteAt_length _ _ (by rw [List.length_take]; omega)]
      exact isCont_zero
    · by_cases h0 : 0 < s.cursor
      · have : byteAt (List.take s.cursor (cstr s.text)) 0 = byteAt (cstr s.text) 0 := by
          unfold byteAt
          rw [List.getD_eq_getElem?_getD, List.getD_eq_getElem?_getD, List.getElem?_take,
            if_pos h0]
        rw [this, byteAt_cstr _ _ (Nat.zero_le _)]
        exact h6
      · have hz0 : s.cursor = 0 := by omega
        rw [hz0]
        exact isCont_zero

theorem reading_of_waits (d : State) {r : Run} (h : waits r = true) :
    r = Run.reading Pc.top (varsOf d r) := by
  cases r with
  | abort => exact absurd h (by simp [waits])
  | died => exact absurd h (by simp [waits])
  | returned st out s => exact absurd h (by simp [waits])
  | reading pc s =>
    cases pc with
    | top => rfl
    | esc => exact absurd h (by simp [waits])
    | csi => exact absurd h (by simp [waits])
    | tilde c e => exact absurd h (by simp [waits])

theorem TextInv_backWhile {b : Bool} {B : Nat} (hB : B < 2 ^ 63) (p : Nat → Bool) :
    ∀ (fuel : Nat) (s s' : State), TextInv b B s → backWhile p fuel s = some s' →
      TextInv b B s' := by
  intro fuel
  induction fuel with
  | zero =>
    intro s s' h hr
    rw [backWhile] at hr
    by_cases hc : s.cursor > 0 ∧ p (byteAt s.text (nextrune (-1) s)) = true
    · rw [if_pos hc] at hr; exact absurd hr (by simp)
    · rw [if_neg hc] at hr; rw [← Option.some.inj hr]; exact h
  | succ f ih =>
    intro s s' h hr
    rw [backWhile] at hr
    by_cases hc : s.cursor > 0 ∧ p (byteAt s.text (nextrune (-1) s)) = true
    · rw [if_pos hc] at hr; exact ih _ _ (TextInv_bwd hB h hc.1) hr
    · rw [if_neg hc] at hr; rw [← Option.some.inj hr]; exact h

theorem TextInv_fwdSpaces {b : Bool} {B : Nat} (hB : B < 2 ^ 63) :
    ∀ (fuel : Nat) (s s' : State), TextInv b B s → fwdSpaces fuel s = some s' →
      TextInv b B s' := by
  intro fuel
  induction fuel with
  | zero =>
    intro s s' h hr
    rw [fwdSpaces] at hr
    by_cases hc : byteAt s.text s.cursor ≠ 0 ∧ byteAt s.text (nextrune 1 s) = 32
    · rw [if_pos hc] at hr; exact absurd hr (by simp)
    · rw [if_neg hc] at hr; rw [← Option.some.inj hr]; exact h
  | succ f ih =>
    intro s s' h hr
    rw [fwdSpaces] at hr
    by_cases hc : byteAt s.text s.cursor ≠ 0 ∧ byteAt s.text (nextrune 1 s) = 32
    · rw [if_pos hc] at hr; exact ih _ _ (TextInv_fwd hB h hc.1) hr
    · rw [if_neg hc] at hr; rw [← Option.some.inj hr]; exact h

theorem TextInv_fwdWord {b : Bool} {B : Nat} (hB : B < 2 ^ 63) :
    ∀ (fuel : Nat) (s s' : State), TextInv b B s → byteAt s.text s.cursor ≠ 0 →
      fwdWord fuel s = some s' → TextInv b B s' := by
  intro fuel
  induction fuel with
  | zero => intro s s' _ _ hr; exact absurd hr (by simp [fwdWord])
  | succ f ih =>
    intro s s' h hne hr
    rw [fwdWord] at hr
    by_cases hc : byteAt s.text (nextrune 1 s) ≠ 0 ∧ byteAt s.text (nextrune 1 s) ≠ 32
    · rw [if_pos hc] at hr; exact ih _ _ (TextInv_fwd hB h hne) hc.1 hr
    · rw [if_neg hc] at hr; rw [← Option.some.inj hr]; exact TextInv_fwd hB h hne

theorem TextInv_delFwd {b : Bool} {B : Nat} {s s1 : State} (hB : B < 2 ^ 63)
    (h : TextInv b B s) (hne : byteAt s.text s.cursor ≠ 0)
    (hd : deleteBack { s with cursor := nextrune 1 s } = some s1) : TextInv b B s1 := by
  have hlt := lt_strlen_of_byteAt _ _ h.2.2.1 hne
  obtain ⟨f1, _⟩ := nextrune_fwd s (by rw [h.1]; exact hB) hlt
  exact TextInv_deleteBack hB (TextInv_fwd hB h hne)
    (by show 0 < nextrune 1 s; omega) hd

theorem delSpaces_zero (s : State) :
    delSpaces 0 s =
      if byteAt s.text s.cursor ≠ 0 ∧ byteAt s.text (nextrune 1 s) = 32 then none
      else some s := rfl

theorem delSpaces_succ (f : Nat) (s : State) :
    delSpaces (f + 1) s =
      if byteAt s.text s.cursor ≠ 0 ∧ byteAt s.text (nextrune 1 s) = 32 then
        match deleteBack { s with cursor := nextrune 1 s } with
        | none => none
        | some s1 => delSpaces f s1
      else some s := rfl

theorem delWord_succ (f : Nat) (s : State) :
    delWord (f + 1) s =
      match deleteBack { s with cursor := nextrune 1 s } with
      | none => none
      | some s1 =>
        if byteAt s1.text s1.cursor ≠ 0 ∧ byteAt s1.text s1.cursor ≠ 32 then delWord f s1
        else some s1 := rfl

theorem delBackWhile_zero (p : Nat → Bool) (s : State) :
    delBackWhile p 0 s =
      if s.cursor > 0 ∧ p (byteAt s.text (nextrune (-1) s)) = true then none
      else some s := rfl

theorem delBackWhile_succ (p : Nat → Bool) (f : Nat) (s : State) :
    delBackWhile p (f + 1) s =
      if s.cursor > 0 ∧ p (byteAt s.text (nextrune (-1) s)) = true then
        match deleteBack s with
        | none => none
        | some s1 => delBackWhile p f s1
      else some s := rfl

theorem TextInv_delSpaces {b : Bool} {B : Nat} (hB : B < 2 ^ 63) :
    ∀ (fuel : Nat) (s s' : State), TextInv b B s → delSpaces fuel s = some s' →
      TextInv b B s' := by
  intro fuel
  induction fuel with
  | zero =>
    intro s s' h hr
    rw [delSpaces_zero] at hr
    by_cases hc : byteAt s.text s.cursor ≠ 0 ∧ byteAt s.text (nextrune 1 s) = 32
    · rw [if_pos hc] at hr; exact absurd hr (by simp)
    · rw [if_neg hc] at hr; rw [← Option.some.inj hr]; exact h
  | succ f ih =>
    intro s s' h hr
    rw [delSpaces_succ] at hr
    by_cases hc : byteAt s.text s.cursor ≠ 0 ∧ byteAt s.text (nextrune 1 s) = 32
    · rw [if_pos hc] at hr
      cases hd : deleteBack { s with cursor := nextrune 1 s } with
      | none => rw [hd] at hr; exact absurd hr (by simp)
      | some s1 =>
        rw [hd] at hr
        exact ih _ _ (TextInv_delFwd hB h hc.1 hd) hr
    · rw [if_neg hc] at hr; rw [← Option.some.inj hr]; exact h

theorem TextInv_delWord {b : Bool} {B : Nat} (hB : B < 2 ^ 63) :
    ∀ (fuel : Nat) (s s' : State), TextInv b B s → byteAt s.text s.cursor ≠ 0 →
      delWord fuel s = some s' → TextInv b B s' := by
  intro fuel
  induction fuel with
  | zero =>
    intro s s' _ _ hr
    have : delWord 0 s = none := rfl
    rw [this] at hr
    exact absurd hr (by simp)
  | succ f ih =>
    intro s s' h hne hr
    rw [delWord_succ] at hr
    cases hd : deleteBack { s with cursor := nextrune 1 s } with
    | none => rw [hd] at hr; exact absurd hr (by simp)
    | some s1 =>
      rw [hd] at hr
      simp only [] at hr
      have h1 := TextInv_delFwd hB h hne hd
      by_cases hc : byteAt s1.text s1.cursor ≠ 0 ∧ byteAt s1.text s1.cursor ≠ 32
      · rw [if_pos hc] at hr; exact ih _ _ h1 hc.1 hr
      · rw [if_neg hc] at hr; rw [← Option.some.inj hr]; exact h1

theorem TextInv_delBackWhile {b : Bool} {B : Nat} (hB : B < 2 ^ 63) (p : Nat → Bool) :
    ∀ (fuel : Nat) (s s' : State), TextInv b B s → delBackWhile p fuel s = some s' →
      TextInv b B s' := by
  intro fuel
  induction fuel with
  | zero =>
    intro s s' h hr
    rw [delBackWhile_zero] at hr
    by_cases hc : s.cursor > 0 ∧ p (byteAt s.text (nextrune (-1) s)) = true
    · rw [if_pos hc] at hr; exact absurd hr (by simp)
    · rw [if_neg hc] at hr; rw [← Option.some.inj hr]; exact h
  | succ f ih =>
    intro s s' h hr
    rw [delBackWhile_succ] at hr
    by_cases hc : s.cursor > 0 ∧ p (byteAt s.text (nextrune (-1) s)) = true
    · rw [if_pos hc] at hr
      cases hd : deleteBack s with
      | none => rw [hd] at hr; exact absurd hr (by simp)
      | some s1 =>
        rw [hd] at hr
        exact ih _ _ (TextInv_deleteBack hB h hc.1 hd) hr
    · rw [if_neg hc] at hr; rw [← Option.some.inj hr]; exact h

theorem selectPrev_conf (s s' : State) (h : selectPrev s = some s') : SameConf s s' := by
  unfold selectPrev at h
  split at h
  · rw [← Option.some.inj h]; exact SameConf.refl _
  · split at h
    · rw [← Option.some.inj h]; exact SameConf.refl _
    · split_ifs at h
      · have h1 := calcoffsets_conf _ _ h
        exact h1
      · rw [← Option.some.inj h]; exact SameConf.refl _

theorem selectNext_conf (s s' : State) (h : selectNext s = some s') : SameConf s s' := by
  unfold selectNext at h
  split at h
  · rw [← Option.some.inj h]; exact SameConf.refl _
  · split at h
    · rw [← Option.some.inj h]; exact SameConf.refl _
    · split_ifs at h
      · have h1 := calcoffsets_conf _ _ h
        exact h1
      · rw [← Option.some.inj h]; exact SameConf.refl _

theorem endLoop_conf : ∀ (fuel : Nat) (s s' : State), endLoop fuel s = some s' →
    SameConf s s' := by
  intro fuel
  induction fuel with
  | zero =>
    intro s s' h
    rw [endLoop] at h
    split at h
    · rw [← Option.some.inj h]; exact SameConf.refl _
    · split at h
      · exact absurd h (by simp)
      · split at h
        · rw [← Option.some.inj h]; exact SameConf.refl _
        · exact absurd h (by simp)
  | succ f ih =>
    intro s s' h
    rw [endLoop] at h
    split at h
    · rw [← Option.some.inj h]; exact SameConf.refl _
    · split at h
      · exact absurd h (by simp)
      · split at h
        · rw [← Option.some.inj h]; exact SameConf.refl _
        · rename_i c1 hr1
          cases hc : calcoffsets { s with curr := some c1 } with
          | none => rw [hc] at h; exact absurd h (by simp)
          | some s1 =>
            rw [hc] at h
            have h1 := calcoffsets_conf _ _ hc
            have h2 := ih _ _ h
            exact SameConf.trans h1 h2

theorem TextInv_keyEnd {b : Bool} {B : Nat} {s s' : State} (h : TextInv b B s)
    (hk : keyEnd s = some s') : TextInv b B s' := by
  unfold keyEnd at hk
  by_cases hne : byteAt s.text s.cursor ≠ 0
  · rw [if_pos hne] at hk
    rw [← Option.some.inj hk]
    refine ⟨h.1, h.2.1, Nat.le_refl _, fun hb => ⟨?_, (h.2.2.2 hb).2⟩⟩
    show isCont (byteAt s.text (strlen s.text)) = false
    rw [byteAt_strlen]; exact isCont_zero
  · rw [if_neg hne] at hk
    cases hn : s.next with
    | none =>
      rw [hn] at hk
      rw [← Option.some.inj hk]; exact h
    | some nx =>
      rw [hn] at hk
      simp only [] at hk
      cases hc1 : calcoffsets { s with curr := s.matchend, next := some nx } with
      | none => rw [hc1] at hk; exact absurd hk (by simp)
      | some s1 =>
        rw [hc1] at hk
        simp only [] at hk
        cases hc2 : calcoffsets { s1 with curr := s1.prev } with
        | none => rw [hc2] at hk; exact absurd hk (by simp)
        | some s2 =>
          rw [hc2] at hk
          simp only [] at hk
          cases hc3 : endLoop (s.items.length + 1) s2 with
          | none => rw [hc3] at hk; exact absurd hk (by simp)
          | some s3 =>
            rw [hc3] at hk
            rw [← Option.some.inj hk]
            have c1 := calcoffsets_conf _ _ hc1
            have c2 := calcoffsets_conf _ _ hc2
            have c3 := endLoop_conf _ _ _ hc3
            have h1 : TextInv b B s1 := TextInv_conf c1 h
            have h2 : TextInv b B s2 := TextInv_conf c2 h1
            have h3 : TextInv b B s3 := TextInv_conf c3 h2
            exact h3

theorem RunInv_redraw {b : Bool} {B : Nat} {o : Option State}
    (h : ∀ s', o = some s' → TextInv b B s') : RunInv b B (redraw o) := by
  unfold redraw
  cases o with
  | none => trivial
  | some s =>
    simp only []
    cases drawmenu s with
    | fault => trivial
    | died => trivial
    | done d => exact h s rfl

theorem RunInv_returned {b : Bool} {B : Nat} {s : State} (h : TextInv b B s) (st : Nat)
    (out : List (List Nat)) : RunInv b B (Run.returned st out s) :=
  ⟨h.2.2.1, fun hb => (h.2.2.2 hb).1⟩

theorem iscntrl_zero : iscntrl 0 = true := by decide

theorem keyDefault_inv {b : Bool} {B : Nat} {s : State} (hB : B < 2 ^ 63) (buf0 : Nat)
    (h : TextInv b B s)
    (hw : b = true → isCont buf0 = true →
      0 < s.cursor ∨ strlen s.text + 1 > sizeofText s - 1) :
    RunInv b B (keyDefault buf0 s) := by
  unfold keyDefault
  have key : ∀ s1, (if iscntrl buf0 = true then some s
      else insert [buf0] (strlen [buf0]) s) = some s1 → TextInv b B s1 := by
    intro s1 h1
    by_cases hc : iscntrl buf0 = true
    · rw [if_pos hc] at h1
      rw [← Option.some.inj h1]; exact h
    · rw [if_neg hc] at h1
      have hne : buf0 ≠ 0 := by
        intro e
        rw [e] at hc
        exact hc iscntrl_zero
      exact TextInv_insert_byte hB h buf0 hne hw h1
  cases ho : (if iscntrl buf0 = true then some s else insert [buf0] (strlen [buf0]) s) with
  | none => trivial
  | some s1 =>
    simp only []
    have h1 := key s1 ho
    by_cases hq : 2 ≤ strlen s1.text ∧
        (s1.text.drop (strlen s1.text - 2)).take 2 = [113, 113]
    · rw [if_pos hq]; exact RunInv_returned h1 _ _
    · rw [if_neg hq]
      exact RunInv_redraw (fun s2 h2 => by rw [← Option.some.inj h2]; exact h1)

theorem switchTop_inv {b : Bool} {B : Nat} {s : State} (hB : B < 2 ^ 63) (buf0 c : Nat)
    (h : TextInv b B s)
    (hw : b = true → isCont buf0 = true →
      0 < s.cursor ∨ strlen s.text + 1 > sizeofText s - 1) :
    RunInv b B (switchTop buf0 c s) := by
  have hBt : s.text.length < 2 ^ 63 := by rw [h.1]; exact hB
  unfold switchTop
  by_cases h1 : c = CONTROL 91
  · rw [if_pos h1]; exact h
  rw [if_neg h1]
  by_cases h2 : c = CONTROL 67
  · rw [if_pos h2]; exact RunInv_returned h _ _
  rw [if_neg h2]
  by_cases h3 : c = CONTROL 77 ∨ c = CONTROL 74
  · rw [if_pos h3]
    split
    · trivial
    · rename_i s1 hm
      split
      · trivial
      · trivial
      · have hconf := match_conf _ _ _ hm
        have e1 : s1.cursor = strlen s1.text := by
          rw [hconf.2.2.2.2.2.1, hconf.1]
        refine ⟨by rw [e1], fun _ => ?_⟩
        rw [e1, byteAt_strlen]
        exact isCont_zero
  rw [if_neg h3]
  by_cases h4 : c = CONTROL 93 ∨ c = CONTROL 92
  · rw [if_pos h4]; exact RunInv_returned h _ _
  rw [if_neg h4]
  by_cases h5 : c = CONTROL 65
  · rw [if_pos h5]
    by_cases hs : s.sel = s.matches_
    · rw [if_pos hs]
      refine RunInv_redraw (fun s2 h2 => ?_)
      rw [← Option.some.inj h2]
      exact ⟨h.1, h.2.1, Nat.zero_le _, fun hb => ⟨(h.2.2.2 hb).2, (h.2.2.2 hb).2⟩⟩
    · rw [if_neg hs]
      refine RunInv_redraw (fun s2 h2 => ?_)
      have hc := calcoffsets_conf _ _ h2
      exact TextInv_conf hc h
  rw [if_neg h5]
  by_cases h6 : c = CONTROL 69
  · rw [if_pos h6]
    exact RunInv_redraw (fun s2 h2 => TextInv_keyEnd h h2)
  rw [if_neg h6]
  by_cases h7 : c = CONTROL 66
  · rw [if_pos h7]
    by_cases hb : s.cursor > 0 ∧ (s.sel = none ∨ s.sel.bind s.left = none ∨ s.lines > 0)
    · rw [if_pos hb]
      refine RunInv_redraw (fun s2 h2 => ?_)
      rw [← Option.some.inj h2]
      exact TextInv_bwd hB h hb.1
    · rw [if_neg hb]
      exact RunInv_redraw (fun s2 h2 => TextInv_conf (selectPrev_conf _ _ h2) h)
  rw [if_neg h7]
  by_cases h8 : c = CONTROL 80
  · rw [if_pos h8]
    exact RunInv_redraw (fun s2 h2 => TextInv_conf (selectPrev_conf _ _ h2) h)
  rw [if_neg h8]
  by_cases h9 : c = CONTROL 70 ∨ c = CONTROL 73
  · rw [if_pos h9]
    by_cases hne : byteAt s.text s.cursor ≠ 0
    · rw [if_pos hne]
      refine RunInv_redraw (fun s2 h2 => ?_)
      rw [← Option.some.inj h2]
      exact TextInv_fwd hB h hne
    · rw [if_neg hne]
      exact RunInv_redraw (fun s2 h2 => TextInv_conf (selectNext_conf _ _ h2) h)
  rw [if_neg h9]
  by_cases h10 : c = CONTROL 78
  · rw [if_pos h10]
    exact RunInv_redraw (fun s2 h2 => TextInv_conf (selectNext_conf _ _ h2) h)
  rw [if_neg h10]
  by_cases h11 : c = CONTROL 68
  · rw [if_pos h11]
    by_cases he : byteAt s.text s.cursor = 0
    · rw [if_pos he]
      exact RunInv_redraw (fun s2 h2 => by rw [← Option.some.inj h2]; exact h)
    · rw [if_neg he]
      refine RunInv_redraw (fun s2 h2 => ?_)
      have hlt := lt_strlen_of_byteAt _ _ h.2.2.1 he
      obtain ⟨f1, _⟩ := nextrune_fwd s hBt hlt
      unfold keyBackspace at h2
      have hne1 : ¬ ({ s with cursor := nextrune 1 s } : State).cursor = 0 := by
        show ¬ nextrune 1 s = 0
        omega
      rw [if_neg hne1] at h2
      exact TextInv_delFwd hB h he h2
  rw [if_neg h11]
  by_cases h12 : c = CONTROL 72 ∨ c = CONTROL 63
  · rw [if_pos h12]
    refine RunInv_redraw (fun s2 h2 => ?_)
    unfold keyBackspace at h2
    by_cases h0 : s.cursor = 0
    · rw [if_pos h0] at h2
      rw [← Option.some.inj h2]; exact h
    · rw [if_neg h0] at h2
      exact TextInv_deleteBack hB h (by omega) h2
  rw [if_neg h12]
  by_cases h13 : c = CONTROL 75
  · rw [if_pos h13]
    refine RunInv_redraw (fun s2 h2 => ?_)
    exact TextInv_conf (match_conf _ _ _ h2) (TextInv_kill h)
  rw [if_neg h13]
  by_cases h14 : c = CONTROL 85
  · rw [if_pos h14]
    refine RunInv_redraw (fun s2 h2 => ?_)
    have hlen := strlen_le_length s.text
    have hcur := h.2.2.1
    rw [toSSize_eq _ (by omega) (by omega)] at h2
    by_cases h0 : s.cursor = 0
    · rw [h0] at h2
      have e : (0 : Int) - ((0 : Nat) : Int) = 0 := by simp
      rw [e, insert_zero [] s hBt (by rw [h.1]; exact h.2.1) hcur] at h2
      exact TextInv_conf (match_conf _ _ _ h2) h
    · have e : (0 : Int) - (s.cursor : Int) = -((s.cursor : Nat) : Int) := by omega
      rw [e] at h2
      exact TextInv_insert_neg hB h s.cursor (by omega) (Nat.le_refl _) h2
  rw [if_neg h14]
  by_cases h15 : c = CONTROL 87
  · rw [if_pos h15]
    refine RunInv_redraw (fun s2 h2 => ?_)
    cases hd1 : delBackWhile (fun b => decide (b = 32)) (s.text.length + 1) s with
    | none => rw [hd1] at h2; exact absurd h2 (by simp)
    | some s1 =>
      rw [hd1] at h2
      simp only [Option.some_bind] at h2
      exact TextInv_delBackWhile hB _ _ _ _ (TextInv_delBackWhile hB _ _ _ _ h hd1) h2
  rw [if_neg h15]
  by_cases h16 : c = CONTROL 86
  · rw [if_pos h16]
    split
    · exact RunInv_redraw (fun s2 h2 => by rw [← Option.some.inj h2]; exact h)
    · exact RunInv_redraw (fun s2 h2 => TextInv_conf (calcoffsets_conf _ _ h2) h)
  rw [if_neg h16]
  exact keyDefault_inv hB buf0 h hw

theorem isCont_esc : isCont (CONTROL 91) = false := by decide

theorem escSwitch_inv {b : Bool} {B : Nat} {s : State} (hB : B < 2 ^ 63) (c : Nat)
    (h : TextInv b B s) : RunInv b B (escSwitch c s) := by
  unfold escSwitch
  by_cases h1 : c = CONTROL 91
  · rw [if_pos h1]
    exact switchTop_inv hB _ _ h (fun _ hc => by rw [isCont_esc] at hc; exact absurd hc (by simp))
  rw [if_neg h1]
  by_cases h2 : c = 91
  · rw [if_pos h2]; exact h
  rw [if_neg h2]
  by_cases h3 : c = 98
  · rw [if_pos h3]
    refine RunInv_redraw (fun s2 h2 => ?_)
    cases hd1 : backWhile (fun b => decide (b = 32)) (s.text.length + 1) s with
    | none => rw [hd1] at h2; exact absurd h2 (by simp)
    | some s1 =>
      rw [hd1] at h2
      simp only [Option.some_bind] at h2
      exact TextInv_backWhile hB _ _ _ _ (TextInv_backWhile hB _ _ _ _ h hd1) h2
  rw [if_neg h3]
  by_cases h4 : c = 102
  · rw [if_pos h4]
    refine RunInv_redraw (fun s2 h2 => ?_)
    cases hd1 : fwdSpaces (s.text.length + 1) s with
    | none => rw [hd1] at h2; exact absurd h2 (by simp)
    | some s1 =>
      rw [hd1] at h2
      simp only [Option.some_bind] at h2
      have hs1 := TextInv_fwdSpaces hB _ _ _ h hd1
      by_cases hne : byteAt s1.text s1.cursor ≠ 0
      · rw [if_pos hne] at h2
        exact TextInv_fwdWord hB _ _ _ hs1 hne h2
      · rw [if_neg hne] at h2
        rw [← Option.some.inj h2]; exact hs1
  rw [if_neg h4]
  by_cases h5 : c = 100
  · rw [if_pos h5]
    refine RunInv_redraw (fun s2 h2 => ?_)
    cases hd1 : delSpaces (s.text.length + 1) s with
    | none => rw [hd1] at h2; exact absurd h2 (by simp)
    | some s1 =>
      rw [hd1] at h2
      simp only [Option.some_bind] at h2
      have hs1 := TextInv_delSpaces hB _ _ _ h hd1
      by_cases hne : byteAt s1.text s1.cursor ≠ 0
      · rw [if_pos hne] at h2
        exact TextInv_delWord hB _ _ _ hs1 hne h2
      · rw [if_neg hne] at h2
        rw [← Option.some.inj h2]; exact hs1
  rw [if_neg h5]
  by_cases h6 : c = 118
  · rw [if_pos h6]
    split
    · exact RunInv_redraw (fun s2 h2 => by rw [← Option.some.inj h2]; exact h)
    · exact RunInv_redraw (fun s2 h2 => TextInv_conf (calcoffsets_conf _ _ h2) h)
  rw [if_neg h6]
  exact RunInv_redraw (fun s2 h2 => by rw [← Option.some.inj h2]; exact h)

theorem csiSwitch_inv {b : Bool} {B : Nat} {s : State} (hB : B < 2 ^ 63) (c : Nat)
    (h : TextInv b B s) : RunInv b B (csiSwitch c s) := by
  have hsw : ∀ c1, RunInv b B (switchTop (CONTROL 91) c1 s) := fun c1 =>
    switchTop_inv hB _ _ h (fun _ hc => by rw [isCont_esc] at hc; exact absurd hc (by simp))
  unfold csiSwitch
  by_cases k0 : c = 49 ∨ c = 55
  · rw [if_pos k0]; exact h
  rw [if_neg k0]
  by_cases k1 : c = 72
  · rw [if_pos k1]; exact hsw _
  rw [if_neg k1]
  by_cases k2 : c = 50
  · rw [if_pos k2]; exact h
  rw [if_neg k2]
  by_cases k3 : c = 51
  · rw [if_pos k3]; exact h
  rw [if_neg k3]
  by_cases k4 : c = 52 ∨ c = 56
  · rw [if_pos k4]; exact h
  rw [if_neg k4]
  by_cases k5 : c = 70
  · rw [if_pos k5]; exact hsw _
  rw [if_neg k5]
  by_cases k6 : c = 53
  · rw [if_pos k6]; exact h
  rw [if_neg k6]
  by_cases k7 : c = 54
  · rw [if_pos k7]; exact h
  rw [if_neg k7]
  by_cases k8 : c = 65
  · rw [if_pos k8]; exact hsw _
  rw [if_neg k8]
  by_cases k9 : c = 66
  · rw [if_pos k9]; exact hsw _
  rw [if_neg k9]
  by_cases k10 : c = 67
  · rw [if_pos k10]; exact hsw _
  rw [if_neg k10]
  by_cases k11 : c = 68
  · rw [if_pos k11]; exact hsw _
  rw [if_neg k11]
  by_cases k12 : c = 90
  · rw [if_pos k12]; exact hsw _
  rw [if_neg k12]
  exact RunInv_redraw (fun s2 h2 => by rw [← Option.some.inj h2]; exact h)

theorem step_inv {b : Bool} {B : Nat} (hB : B < 2 ^ 63) (r : Run) (c : Nat)
    (h : RunInv b B r)
    (hw : b = true → ∀ s, r = Run.reading Pc.top s → isCont (c % 256) = true →
      0 < s.cursor ∨ strlen s.text + 1 > sizeofText s - 1) :
    RunInv b B (step r c) := by
  cases r with
  | abort => trivial
  | died => trivial
  | returned st out s => exact h
  | reading pc s =>
    have hs : TextInv b B s := h
    cases pc with
    | top => exact switchTop_inv hB _ _ hs (fun hb hc => hw hb s rfl hc)
    | esc => exact escSwitch_inv hB _ hs
    | csi => exact csiSwitch_inv hB _ hs
    | tilde c1 e =>
      show RunInv b B (if e = true then escSwitch c1 s else switchTop (CONTROL 91) c1 s)
      by_cases he : e = true
      · rw [if_pos he]; exact escSwitch_inv hB _ hs
      · rw [if_neg he]
        exact switchTop_inv hB _ _ hs
          (fun _ hc => by rw [isCont_esc] at hc; exact absurd hc (by simp))

theorem foldl_step_inv {b : Bool} {B : Nat} (hB : B < 2 ^ 63) :
    ∀ (input : List Nat) (r : Run), RunInv b B r → (b = true → InsertsWell r input) →
      RunInv b B (input.foldl step r) := by
  intro input
  induction input with
  | nil => intro r h _; exact h
  | cons c cs ih =>
    intro r h hw
    rw [List.foldl_cons]
    refine ih _ (step_inv hB r c h (fun hb s hr hc => ?_)) (fun hb => (hw hb).2)
    have h1 := (hw hb).1
    rw [hr] at h1
    simp only [insertOk, hc, Bool.not_true, Bool.false_or, Bool.or_eq_true,
      decide_eq_true_eq] at h1
    exact h1

theorem TextInv_initial (b : Bool) (bufsiz : Nat) (h0 : 0 < bufsiz) (items : List (List Nat))
    (icase : Bool) (lines mw inputw promptw : Int) (left right : Nat → Option Nat) :
    TextInv b bufsiz (initial bufsiz items icase lines mw inputw promptw left right) := by
  have hs : strlen (List.replicate bufsiz 0) = 0 := by
    cases bufsiz with
    | zero => rfl
    | succ n => simp [List.replicate_succ, strlen]
  have hb : byteAt (List.replicate bufsiz 0) 0 = 0 := by
    cases bufsiz with
    | zero => rfl
    | succ n => rfl
  refine ⟨by simp [initial], ?_, ?_, fun _ => ?_⟩
  · show strlen (List.replicate bufsiz 0) < bufsiz
    rw [hs]; exact h0
  · show 0 ≤ strlen (List.replicate bufsiz 0)
    exact Nat.zero_le _
  · show isCont (byteAt (List.replicate bufsiz 0) 0) = false ∧
      isCont (byteAt (List.replicate bufsiz 0) 0) = false
    rw [hb]
    exact ⟨isCont_zero, isCont_zero⟩

theorem session_inv (b : Bool) (bufsiz : Nat) (h0 : 0 < bufsiz) (hB : bufsiz < 2 ^ 63)
    (items : List (List Nat)) (icase : Bool) (lines mw inputw promptw : Int)
    (left right : Nat → Option Nat) (input : List Nat)
    (hw : b = true → InsertsWell
      (redraw (match_ false (initial bufsiz items icase lines mw inputw promptw left right)))
      input) :
    RunInv b bufsiz
      (session (initial bufsiz items icase lines mw inputw promptw left right) input) := by
  unfold session
  refine foldl_step_inv hB input _ ?_ hw
  exact RunInv_redraw (fun s2 h2 =>
    TextInv_conf (match_conf _ _ _ h2) (TextInv_initial b bufsiz h0 _ _ _ _ _ _ _ _))

theorem RunInv_cursorInText {b : Bool} {B : Nat} {r : Run} (h : RunInv b B r) :
    CursorInText r := by
  cases r with
  | abort => trivial
  | died => trivial
  | returned st out s => exact h.1
  | reading pc s => exact h.2.2.1

theorem RunInv_cursorOnBoundary {B : Nat} {r : Run} (h : RunInv true B r) :
    CursorOnBoundary r := by
  cases r with
  | abort => trivial
  | died => trivial
  | returned st out s => exact h.2 rfl
  | reading pc s => exact (h.2.2.2 rfl).1

/-! ## The claims about the session -/

/-- C9 as stated fails: in a session with an empty pool and a buffer of 64
bytes, after the bytes 0xA9 (a continuation byte, inserted at offset 0) and
Ctrl-A, `run` waits for input with the cursor at offset 0 of the text of one
byte, on a continuation byte.  The same state is reached by ESC, "é" (bytes
0xC3, 0xA9), Ctrl-A: behind ESC `run` reads the byte 0xC3 and drops it, and
0xA9 arrives at the head of the loop. -/
theorem cursor_on_continuation :
    (∃ s, session (initial 64 [] false 0 80 10 0 (fun _ => none) (fun _ => none))
        [169, 1] = Run.reading Pc.top s ∧
      s.cursor = 0 ∧ strlen s.text = 1 ∧ isCont (byteAt s.text s.cursor) = true) ∧
    (∃ s, session (initial 64 [] false 0 80 10 0 (fun _ => none) (fun _ => none))
        [27, 195, 169, 1] = Run.reading Pc.top s ∧
      s.cursor = 0 ∧ strlen s.text = 1 ∧ isCont (byteAt s.text s.cursor) = true) :=
  ⟨⟨_, rfl, rfl, rfl, rfl⟩, ⟨_, rfl, rfl, rfl, rfl⟩⟩

/-- C10 fails in the vertical layout: with one line (`lines = 1`), the pool
[a, b, c] and the empty query, after Ctrl-N the selection is the item b while
the window still starts at the item a, and `drawmenu` draws the item a alone:
`calcoffsets` does not set `next` with `lines > 0`, so Ctrl-N never moves
`curr`. -/
theorem vertical_selection_leaves_window :
    ∃ s, session (initial 64 [[97], [98], [99]] false 1 80 10 0 (fun _ => none) (fun _ => none))
        [14] = Run.reading Pc.top s ∧
      s.sel = some 1 ∧ s.curr = some 0 ∧ s.next = none ∧ drawmenu s = Drawn.done [(0, 80)] :=
  ⟨_, rfl, rfl, rfl, rfl, rfl⟩

/-! ## Lemmas about well-formed chains -/

theorem match_pre (sub : Bool) (s : State) (vis : List Nat)
    (hv : Visit sub s.items.length s.right (if sub = true then s.matches_ else itemsPtr s) vis)
    (hnd : vis.Nodup) (hlt : ∀ x ∈ vis, x < s.items.length) :
    ∃ s4, match_ sub s = calcoffsets { s4 with curr := s4.matches_, sel := s4.matches_ } ∧
      IsChain s4 (codeBands s 0 vis ++ codeBands s 1 vis ++ codeBands s 2 vis) ∧
      (codeBands s 0 vis ++ codeBands s 1 vis ++ codeBands s 2 vis).Nodup ∧
      SameConf s s4 ∧ s4.next = s.next ∧ s4.prev = s.prev := by
  have hlen : vis.length < s.items.length + 1 := by
    have := length_le_of_nodup_lt hnd hlt
    omega
  obtain ⟨s1, b, hrun, hinv, hvars⟩ :=
    matchLoop_spec sub vis (s.items.length + 1) _ s ⟨none, none, none, none, none, none⟩
      [] [] [] hv hlen hnd (by simp)
      ⟨by simp [Band, Seg], by simp [Band, Seg], by simp [Band, Seg], by simp⟩
  simp only [List.nil_append] at hinv
  obtain ⟨hE, hF, hS, hND⟩ := hinv
  have hc1 : SameConf s s1 := by
    rw [hvars]; exact SameConf.refl _
  have hj1 := joinBand_spec b.lprefix b.prefixend
    { s1 with matches_ := b.lexact, matchend := b.exactend }
    (codeBands s 0 vis) (codeBands s 1 vis) hE hF (List.nodup_append.1 hND).1
  obtain ⟨hEF, hfr1, hv1⟩ := hj1
  have hS1 : Band
      (joinBand b.lprefix b.prefixend { s1 with matches_ := b.lexact, matchend := b.exactend }).left
      (joinBand b.lprefix b.prefixend { s1 with matches_ := b.lexact, matchend := b.exactend }).right
      b.lsubstr b.substrend (codeBands s 2 vis) := by
    refine Band_congr hS ?_ ?_
    · intro z hz
      exact ((hfr1 z (fun h => (List.nodup_append.1 hND).2.2 h hz)).1).symm
    · intro z hz
      exact ((hfr1 z (fun h => (List.nodup_append.1 hND).2.2 h hz)).2).symm
  have hj2 := joinBand_spec b.lsubstr b.substrend _ _ _ hEF hS1 hND
  obtain ⟨hEFS, _, hv2⟩ := hj2
  have hc2 : SameConf s1
      (joinBand b.lsubstr b.substrend
        (joinBand b.lprefix b.prefixend
          { s1 with matches_ := b.lexact, matchend := b.exactend })) := by
    rw [hv2, hv1]; exact SameConf.refl _
  refine ⟨joinBand b.lsubstr b.substrend
        (joinBand b.lprefix b.prefixend
          { s1 with matches_ := b.lexact, matchend := b.exactend }), ?_, hEFS, hND,
    hc1.trans hc2, ?_, ?_⟩
  · unfold match_
    rw [hrun]
  · rw [hv2, hv1, hvars]
  · rw [hv2, hv1, hvars]

theorem codeBands_lt (s : State) (vis : List Nat) (hlt : ∀ x ∈ vis, x < s.items.length) :
    ∀ x ∈ codeBands s 0 vis ++ codeBands s 1 vis ++ codeBands s 2 vis, x < s.items.length := by
  intro x hx
  simp only [List.mem_append] at hx
  rcases hx with (hx | hx) | hx
  · exact hlt x (codeBands_subset s _ vis x hx)
  · exact hlt x (codeBands_subset s _ vis x hx)
  · exact hlt x (codeBands_subset s _ vis x hx)

theorem codeBands_mem (s : State) (vis : List Nat) :
    ∀ x ∈ codeBands s 0 vis ++ codeBands s 1 vis ++ codeBands s 2 vis, x ∈ vis := by
  intro x hx
  simp only [List.mem_append] at hx
  rcases hx with (hx | hx) | hx
  · exact codeBands_subset s _ vis x hx
  · exact codeBands_subset s _ vis x hx
  · exact codeBands_subset s _ vis x hx

theorem visit_chain (s : State) (l : List Nat) (hl : IsChain s l)
    (hlt : ∀ x ∈ l, x < s.items.length) :
    Visit true s.items.length s.right (if true = true then s.matches_ else itemsPtr s) l := by
  unfold Visit
  simp only [if_true]
  exact ⟨hl.1, hlt⟩

/-- The item `x` of a chain has the rest of the chain to its right and the
front of the chain, reversed, to its left. -/
theorem chain_split (s : State) (A B : List Nat) (x : Nat) (hl : IsChain s (A ++ x :: B)) :
    Seg s.right (some x) (x :: B) none ∧ Seg s.left (some x) (x :: A.reverse) none ∧
      Seg s.right s.matches_ A (some x) ∧ Seg s.left s.matchend B.reverse (some x) := by
  obtain ⟨h1, h2⟩ := hl
  rw [Seg_append] at h1
  obtain ⟨m, h1a, h1b⟩ := h1
  have hm : m = some x := h1b.1
  subst hm
  rw [List.reverse_append, List.reverse_cons, List.append_assoc, Seg_append] at h2
  obtain ⟨m2, h2a, h2b⟩ := h2
  have hm2 : m2 = some x := h2b.1
  subst hm2
  exact ⟨h1b, h2b, h1a, h2a⟩

theorem chain_right (s : State) (A B : List Nat) (x : Nat) (hl : IsChain s (A ++ x :: B)) :
    s.right x = B.head? := by
  have h := (chain_split s A B x hl).1
  cases B with
  | nil => exact h.2
  | cons y ys => exact h.2.1

theorem chain_left (s : State) (A B : List Nat) (x : Nat) (hl : IsChain s (A ++ x :: B)) :
    s.left x = A.getLast? := by
  have h := (chain_split s A B x hl).2.1
  rcases List.eq_nil_or_concat A with hA | ⟨A', y, hA⟩
  · subst hA
    exact h.2
  · rw [List.concat_eq_append] at hA
    subst hA
    rw [List.reverse_append] at h
    simp only [List.reverse_cons, List.reverse_nil, List.nil_append, List.singleton_append] at h
    rw [List.getLast?_append_of_ne_nil _ (by simp)]
    exact h.2.1

theorem chain_first (s : State) (l : List Nat) (hl : IsChain s l) : s.matches_ = l.head? := by
  cases l with
  | nil => exact hl.1
  | cons x xs => exact hl.1.1

theorem chain_last (s : State) (l : List Nat) (hl : IsChain s l) :
    s.matchend = l.getLast? := by
  rcases List.eq_nil_or_concat l with h | ⟨l', y, h⟩
  · subst h
    exact hl.2
  · rw [List.concat_eq_append] at h
    subst h
    have h2 := hl.2
    rw [List.reverse_append] at h2
    simp only [List.reverse_cons, List.reverse_nil, List.nil_append, List.singleton_append] at h2
    rw [List.getLast?_append_of_ne_nil _ (by simp)]
    exact h2.1

theorem calcoffsets_vars (s s' : State) (h : calcoffsets s = some s') :
    s' = { s with next := s'.next, prev := s'.prev } := by
  unfold calcoffsets at h
  by_cases hl : s.lines > 0
  · rw [if_pos hl] at h
    rw [← Option.some.inj h]
  · rw [if_neg hl] at h
    cases h1 : calcNext s (toInt32 (s.mw - (toInt32 (s.promptw + s.inputw) + 3 + 3)))
        (s.items.length + 1) 0 s.curr with
    | none => rw [h1] at h; exact absurd h (by simp)
    | some nx =>
      rw [h1] at h
      cases h2 : calcPrev s (toInt32 (s.mw - (toInt32 (s.promptw + s.inputw) + 3 + 3)))
          (s.items.length + 1) 0 s.curr with
      | none => rw [h2] at h; exact absurd h (by simp)
      | some pv =>
        rw [h2] at h
        rw [← Option.some.inj h]

theorem match_wf (sub : Bool) (s : State) (l : List Nat) (h : Wf s l) :
    ∃ s' l', match_ sub s = some s' ∧ drawmenu s' ≠ Drawn.fault ∧
      Wf s' l' ∧ SameConf s s' ∧ s'.curr = s'.matches_ ∧ s'.sel = s'.matches_ ∧
      (sub = true → ∀ x ∈ l', x ∈ l) := by
  obtain ⟨hl, hnd, hlt, hv⟩ := h
  obtain ⟨s1, hm1, hr1, _⟩ := redraw_match sub s l hl hnd hlt hv
  have key : ∀ vis : List Nat,
      Visit sub s.items.length s.right (if sub = true then s.matches_ else itemsPtr s) vis →
      vis.Nodup → (∀ x ∈ vis, x < s.items.length) → (sub = true → vis = l) →
      ∃ s' l', match_ sub s = some s' ∧ drawmenu s' ≠ Drawn.fault ∧
        Wf s' l' ∧ SameConf s s' ∧ s'.curr = s'.matches_ ∧ s'.sel = s'.matches_ ∧
        (sub = true → ∀ x ∈ l', x ∈ l) := by
    intro vis hvis hvnd hvlt hvl
    obtain ⟨s', hm, hch, hcurr, hsel, hconf, hnv, _⟩ := match_spec sub s vis hvis hvnd hvlt
    obtain ⟨_, _, _, hND, _⟩ := match_pre sub s vis hvis hvnd hvlt
    have hs : s1 = s' := Option.some.inj (hm1.symm.trans hm)
    rw [hs] at hr1
    have hitems : s'.items = s.items := hconf.2.2.2.2.2.2.1
    have hlines : s'.lines = s.lines := hconf.2.1
    refine ⟨s', _, hm, hr1, ⟨hch, hND, ?_, ?_⟩, hconf, hcurr, hsel, ?_⟩
    · rw [hitems]; exact codeBands_lt s vis hvlt
    · intro h0
      rw [hlines] at h0
      rw [hnv h0]; exact hv h0
    · intro hs' x hx
      rw [← hvl hs']
      exact codeBands_mem s vis x hx
  cases sub with
  | false =>
    exact key (List.range s.items.length) (visit_full s) (List.nodup_range _)
      (fun x hx => List.mem_range.1 hx) (fun h0 => absurd h0 (by simp))
  | true => exact key l (visit_chain s l hl hlt) hnd hlt (fun _ => rfl)

theorem cstr_strncpy (src : List Nat) (n : Nat) (h : strlen src < n) :
    cstr (strncpy src n) = cstr src := by
  have hl := strlen_cstr src
  unfold strncpy
  have e : (src.take (strlen src) ++ List.replicate n 0).take n =
      cstr src ++ 0 :: List.replicate (n - strlen src - 1) 0 := by
    show (cstr src ++ List.replicate n 0).take n = _
    rw [List.take_append_eq_append_take, List.take_of_length_le (by omega), hl,
      List.take_replicate]
    congr 1
    rw [show min (n - strlen src) n = (n - strlen src - 1) + 1 by omega, List.replicate_succ]
  rw [e]
  exact cstr_append_zero _ _ (zero_not_mem_cstr src)

theorem switchTop_enter (b c : Nat) (s : State) (hc : c = 13 ∨ c = 10) :
    switchTop b c s =
      match
        match_ true
          { s with
            text := (match s.sel with
              | none => s.text
              | some x => strncpy (itemText s x) (sizeofText s)),
            cursor := strlen (match s.sel with
              | none => s.text
              | some x => strncpy (itemText s x) (sizeofText s)) } with
      | none => Run.abort
      | some s1 =>
        match drawmenu s1 with
        | Drawn.fault => Run.abort
        | Drawn.died => Run.died
        | Drawn.done _ => Run.returned 0 [s1.text.take (strlen s1.text)] s1 := by
  rcases hc with hc | hc <;> subst hc <;> simp [switchTop, CONTROL] <;> try rfl

theorem enter_returns (b c : Nat) (s s1 : State) (t : List Nat) (d1 : List (Nat × Nat))
    (hc : c = 13 ∨ c = 10)
    (ht : (match s.sel with
      | none => s.text
      | some x => strncpy (itemText s x) (sizeofText s)) = t)
    (hm : match_ true { s with text := t, cursor := strlen t } = some s1)
    (hd : drawmenu s1 = Drawn.done d1) :
    switchTop b c s = Run.returned 0 [cstr s1.text] s1 := by
  rw [switchTop_enter b c s hc, ht, hm]
  simp only [hd]
  rfl

theorem switchTop_raw (b c : Nat) (s : State) (hc : c = 29 ∨ c = 28) :
    switchTop b c s = Run.returned 0 [s.text.take (strlen s.text)] s := by
  rcases hc with hc | hc <;> subst hc <;> simp [switchTop, CONTROL]

theorem cstr_replicate_zero (n : Nat) : cstr (List.replicate n 0) = [] := by
  cases n with
  | zero => rfl
  | succ k => rw [List.replicate_succ]; exact cstr_cons_zero _

theorem Wf_initial (bufsiz : Nat) (items : List (List Nat)) (icase : Bool)
    (lines mw inputw promptw : Int) (left right : Nat → Option Nat) :
    Wf (initial bufsiz items icase lines mw inputw promptw left right) [] :=
  ⟨⟨rfl, rfl⟩, List.nodup_nil, fun x hx => absurd hx (List.not_mem_nil x), fun _ => rfl⟩

theorem iscntrl_ne_zero {b : Nat} (hb : iscntrl b = false) : b ≠ 0 := by
  intro e
  rw [e, iscntrl_zero] at hb
  exact absurd hb (by simp)

theorem type_byte (b : Nat) (s : State) (l : List Nat) (h : Wf s l) (hb : iscntrl b = false)
    (hB : s.text.length < 2 ^ 63) (hcur : s.cursor ≤ strlen s.text)
    (hfit : strlen s.text + 1 < s.text.length) :
    ∃ s1 l1, insert [b] (strlen [b]) s = some s1 ∧
      drawmenu s1 ≠ Drawn.fault ∧ Wf s1 l1 ∧
      cstr s1.text = (cstr s.text).take s.cursor ++ [b] ++ (cstr s.text).drop s.cursor ∧
      s1.text.length = s.text.length ∧ s1.cursor = s.cursor + 1 := by
  have hne := iscntrl_ne_zero hb
  have hs1 : strlen [b] = 1 := by simp [strlen, hne]
  have hlen := strlen_le_length s.text
  rw [hs1, insert_pos [b] 1 s (by omega) hB hcur hfit]
  obtain ⟨s1, l1, hm, hr, hwf, hconf, _⟩ := match_wf
    (decide (byteAt (s.text.take s.cursor ++ [b].take 1 ++
      (s.text.drop s.cursor).take (s.text.length - s.cursor - 1)) (s.cursor + 1) = 0))
    { s with text := s.text.take s.cursor ++ [b].take 1 ++
               (s.text.drop s.cursor).take (s.text.length - s.cursor - 1),
             cursor := s.cursor + 1 } l h
  have hz : 0 ∉ [b].take 1 := by simp [Ne.symm hne]
  have hcs := cstr_spliced s.text [b] s.cursor 1 hz hcur hfit
  have hl := length_spliced s.text [b] s.cursor 1 (by simp) (by omega)
  refine ⟨s1, l1, hm, hr, hwf, ?_, ?_, hconf.2.2.2.2.2.1⟩
  · rw [hconf.1]
    exact hcs
  · rw [hconf.1]
    exact hl

theorem ends_qq (t Q : List Nat) (h : cstr t = Q ++ [113, 113]) :
    2 ≤ strlen t ∧ (t.drop (strlen t - 2)).take 2 = [113, 113] := by
  have hl : strlen t = Q.length + 2 := by
    rw [← strlen_cstr, h]
    simp
  have ht : t = (Q ++ [113, 113]) ++ t.drop (strlen t) := by
    rw [← h]
    exact (List.take_append_drop (strlen t) t).symm
  refine ⟨by omega, ?_⟩
  rw [hl, show Q.length + 2 - 2 = Q.length by omega, ht, List.append_assoc,
    List.drop_left]
  rfl

theorem switchTop_default (c : Nat) (s : State) (hc : 32 ≤ c) (h127 : c ≠ 127) :
    switchTop c c s = keyDefault c s := by
  unfold switchTop
  have e : ∀ k, k < 32 → c ≠ k := fun k hk hck => by omega
  simp only [CONTROL]
  rw [if_neg (e _ (by decide)), if_neg (e _ (by decide)),
    if_neg (by rintro (h | h) <;> exact e _ (by decide) h),
    if_neg (by rintro (h | h) <;> exact e _ (by decide) h),
    if_neg (e _ (by decide)), if_neg (e _ (by decide)), if_neg (e _ (by decide)),
    if_neg (e _ (by decide)),
    if_neg (by rintro (h | h) <;> exact e _ (by decide) h),
    if_neg (e _ (by decide)), if_neg (e _ (by decide)),
    if_neg (by
      rintro (h | h)
      · exact e _ (by decide) h
      · exact h127 h),
    if_neg (e _ (by decide)), if_neg (e _ (by decide)), if_neg (e _ (by decide)),
    if_neg (e _ (by decide))]

theorem key_q (s : State) (l : List Nat) (h : Wf s l) (hB : s.text.length < 2 ^ 63)
    (hcur : s.cursor = strlen s.text) (hfit : strlen s.text + 1 < s.text.length) :
    ∃ s1 l1, Wf s1 l1 ∧ cstr s1.text = cstr s.text ++ [113] ∧
      s1.text.length = s.text.length ∧ s1.cursor = strlen s1.text ∧
      step (Run.reading Pc.top s) 113 =
        (if 2 ≤ strlen s1.text ∧ (s1.text.drop (strlen s1.text - 2)).take 2 = [113, 113] then
          Run.returned 1 [(s1.text.drop (strlen s1.text - 2)).take 2] s1
        else redraw (some s1)) ∧ drawmenu s1 ≠ Drawn.fault := by
  obtain ⟨s1, l1, hi, hr, hwf, hc, hlen, hcu⟩ := type_byte 113 s l h (by decide) hB
    (by omega) hfit
  have hQ := strlen_cstr s.text
  have hc' : cstr s1.text = cstr s.text ++ [113] := by
    rw [hc, hcur, ← hQ, List.take_length, List.drop_length, List.append_nil]
  refine ⟨s1, l1, hwf, hc', hlen, ?_, ?_, hr⟩
  · rw [hcu, hcur, ← strlen_cstr s1.text, hc', List.length_append, hQ]
    rfl
  · show switchTop (113 % 256) (113 % 256) s = _
    rw [show 113 % 256 = 113 from rfl, switchTop_default 113 s (by decide) (by decide)]
    unfold keyDefault
    rw [if_neg (by decide), hi]

theorem drawVert_congr (s s' : State) (hn : s'.next = s.next) (hr : s'.right = s.right)
    (w : Nat) : ∀ (k : Nat) (item : Option Nat), drawVert s' w k item = drawVert s w k item := by
  intro k
  induction k with
  | zero => intro item; rfl
  | succ k ih =>
    intro item
    rw [drawVert_succ, drawVert_succ, hn]
    by_cases h : item = s.next
    · rw [if_pos h, if_pos h]
    · rw [if_neg h, if_neg h]
      cases item with
      | none => rfl
      | some x =>
        simp only []
        rw [hr, ih]

theorem drawHoriz_congr (s s' : State) (hn : s'.next = s.next) (hr : s'.right = s.right)
    (hi : s'.items = s.items) :
    ∀ (fuel : Nat) (rw : Int) (item : Option Nat),
      drawHoriz s' fuel rw item = drawHoriz s fuel rw item := by
  have ht : ∀ x, itemText s' x = itemText s x := by
    intro x
    unfold itemText
    rw [hi]
  intro fuel
  induction fuel with
  | zero =>
    intro rw item
    rw [drawHoriz_zero, drawHoriz_zero, hn]
  | succ f ih =>
    intro rw item
    rw [drawHoriz_succ, drawHoriz_succ, hn]
    by_cases h : item = s.next
    · rw [if_pos h, if_pos h]
    · rw [if_neg h, if_neg h]
      cases item with
      | none => rfl
      | some x =>
        simp only []
        rw [ht, hr, ih]

theorem drawHead_congr (s s' : State) (hl : s'.lines = s.lines) (hm : s'.mw = s.mw)
    (hp : s'.promptw = s.promptw) (hw : s'.inputw = s.inputw)
    (hms : s'.matches_.isSome = s.matches_.isSome) : drawHead s' = drawHead s := by
  unfold drawHead
  rw [hl, hm, hp, hw, hms]

theorem drawmenu_congr (s s' : State) (hn : s'.next = s.next) (hr : s'.right = s.right)
    (hi : s'.items = s.items) (hl : s'.lines = s.lines) (hm : s'.mw = s.mw)
    (hp : s'.promptw = s.promptw) (hw : s'.inputw = s.inputw) (hc : s'.curr = s.curr)
    (hms : s'.matches_ = s.matches_) : drawmenu s' = drawmenu s := by
  unfold drawmenu drawItems
  rw [drawHead_congr s s' hl hm hp hw (by rw [hms]), hl, hm, hp, hw, hc, hms, hi,
    drawVert_congr s s' hn hr, drawHoriz_congr s s' hn hr hi]

/-- A state in which `drawmenu` has returned: the two calls of `drawtext` at
its head did not die. -/
theorem drawHead_of_done {s : State} {d : List (Nat × Nat)} (h : drawmenu s = Drawn.done d) :
    drawHead s = false := by
  unfold drawmenu at h
  cases hh : drawHead s with
  | false => rfl
  | true =>
    rw [hh, if_pos rfl] at h
    exact absurd h (by simp)

theorem drawmenu_done (s : State) (hh : drawHead s = false) (hv : s.lines > 0 → s.next = none)
    (hc : ¬ s.lines > 0 → s.matches_.isSome = true → s.curr.isSome = true)
    (hw : ¬ s.lines > 0 → ∃ l, Seg s.right s.curr l s.next ∧ l.length ≤ s.items.length)
    (hz : Sized s) : ∃ d, drawmenu s = Drawn.done d := by
  unfold drawmenu
  rw [hh, if_neg (by simp)]
  exact drawItems_done s hv hc hw (fun _ => hz.1) hz.2

theorem drawmenu_cursor (s : State) (c : Nat) :
    drawmenu { s with cursor := c } = drawmenu s :=
  drawmenu_congr s _ rfl rfl rfl rfl rfl rfl rfl rfl rfl

theorem switchTop_left (b : Nat) (s : State) :
    switchTop b 2 s =
      if s.cursor > 0 ∧ (s.sel = none ∨ s.sel.bind s.left = none ∨ s.lines > 0) then
        redraw (some { s with cursor := nextrune (-1) s })
      else redraw (selectPrev s) := by
  simp [switchTop, CONTROL]

theorem switchTop_up (b : Nat) (s : State) : switchTop b 16 s = redraw (selectPrev s) := by
  simp [switchTop, CONTROL]

theorem selectPrev_sel (s s' : State) (x y : Nat) (hx : s.sel = some x)
    (hy : s.left x = some y) (h : selectPrev s = some s') : s'.sel = some y := by
  unfold selectPrev at h
  rw [hx] at h
  simp only [hy] at h
  by_cases hc : s.right y = s.curr
  · rw [if_pos hc] at h
    rw [calcoffsets_vars _ _ h]
  · rw [if_neg hc] at h
    rw [← Option.some.inj h]

theorem reading_of_redraw {o : Option State} {pc : Pc} {s' : State}
    (h : redraw o = Run.reading pc s') : o = some s' := by
  unfold redraw at h
  cases o with
  | none => exact absurd h (by simp)
  | some s =>
    simp only [] at h
    cases hd : drawmenu s with
    | fault => rw [hd] at h; exact absurd h (by simp)
    | died => rw [hd] at h; exact absurd h (by simp)
    | done d =>
      rw [hd] at h
      simp only [Run.reading.injEq] at h
      rw [h.2]

theorem drawn_of_redraw {o : Option State} {pc : Pc} {s' : State}
    (h : redraw o = Run.reading pc s') : pc = Pc.top ∧ ∃ d, drawmenu s' = Drawn.done d := by
  have ho := reading_of_redraw h
  subst ho
  unfold redraw at h
  simp only [] at h
  cases hd : drawmenu s' with
  | fault => rw [hd] at h; exact absurd h (by simp)
  | died => rw [hd] at h; exact absurd h (by simp)
  | done d =>
    rw [hd] at h
    simp only [Run.reading.injEq] at h
    exact ⟨h.1.symm, d, rfl⟩

theorem toInt32_eq (x : Int) (h1 : -(2 ^ 31) ≤ x) (h2 : x < 2 ^ 31) : toInt32 x = x := by
  unfold toInt32
  omega

theorem minSize_nonneg (a : Nat) (n : Int) (h0 : 0 ≤ n) (h1 : n < 2 ^ 63) :
    minSize a n = min a n.toNat := by
  unfold minSize
  rw [toSize_eq n h0 (by omega)]
  by_cases h : a < n.toNat
  · rw [if_pos h]; omega
  · rw [if_neg h]; omega

theorem minSize_neg (a : Nat) (n : Int) (h0 : n < 0) (h1 : -(2 ^ 31) ≤ n) (ha : a < 2 ^ 31) :
    minSize a n = a := by
  unfold minSize toSize
  have : (n % 2 ^ 64).toNat = (2 ^ 64 + n).toNat := by
    congr 1
    omega
  rw [this, if_pos (by omega)]

theorem calcNext_none (s : State) (n : Int) (fuel : Nat) (i : Int) :
    calcNext s n fuel i none = some none := by
  cases fuel <;> rfl

theorem calcNext_succ (s : State) (n : Int) (fuel : Nat) (i : Int) (x : Nat) :
    calcNext s n (fuel + 1) i (some x) =
      if toInt32 (i + (if s.lines > 0 then 1 else minSize (textw (itemText s x)) n)) > n then
        some (some x)
      else
        calcNext s n fuel
          (toInt32 (i + (if s.lines > 0 then 1 else minSize (textw (itemText s x)) n)))
          (s.right x) := rfl

theorem calcNext_spec (s : State) (n : Int) (hl : ¬ s.lines > 0) (h0 : 0 ≤ n)
    (h30 : n < 2 ^ 30) :
    ∀ (l : List Nat) (fuel : Nat) (i : Int) (p : Option Nat),
      Seg s.right p l none → l.length ≤ fuel → 0 ≤ i → i ≤ n →
      calcNext s n fuel i p =
        some (specNext (fun x => min (textw (itemText s x)) n.toNat) n i l) := by
  intro l
  induction l with
  | nil =>
    intro fuel i p h _ _ _
    have : p = none := h
    subst this
    rw [calcNext_none]
    rfl
  | cons x xs ih =>
    intro fuel i p h hf hi0 hin
    have hp : p = some x := h.1
    subst hp
    obtain ⟨f, hf'⟩ : ∃ f, fuel = f + 1 := ⟨fuel - 1, by simp at hf; omega⟩
    subst hf'
    rw [calcNext_succ, if_neg hl, minSize_nonneg _ n h0 (by omega)]
    have hm : ((min (textw (itemText s x)) n.toNat : Nat) : Int) ≤ n := by omega
    have hm0 : (0 : Int) ≤ ((min (textw (itemText s x)) n.toNat : Nat) : Int) := by omega
    rw [toInt32_eq _ (by omega) (by omega)]
    show _ = some (if i + ((min (textw (itemText s x)) n.toNat : Nat) : Int) > n then some x
      else specNext (fun x => min (textw (itemText s x)) n.toNat) n
        (i + ((min (textw (itemText s x)) n.toNat : Nat) : Int)) xs)
    by_cases hc : i + ((min (textw (itemText s x)) n.toNat : Nat) : Int) > n
    · rw [if_pos hc, if_pos hc]
    · rw [if_neg hc, if_neg hc]
      exact ih f _ (s.right x) h.2 (by simp at hf; omega) (by omega) (by omega)

theorem calcPrev_start (s : State) (n : Int) (fuel : Nat) (i : Int) :
    calcPrev s n fuel i none = some none := by
  cases fuel <;> rfl

/-! ## The claims about the window -/

/-- C16 fails: with `lines > 0` the function `calcoffsets` returns the state as
it is, so `next` is never set.  In a session with one line (`lines = 1`) and
the pool [a, b, c], before any key, `curr` is the item a, two more items
follow it, and `next` is `NULL`, not the item b one position to the right. -/
theorem vertical_next_unset :
    (∀ s : State, s.lines > 0 → calcoffsets s = some s) ∧
    ∃ s, session (initial 16 [[97], [98], [99]] false 1 80 10 0 (fun _ => none)
        (fun _ => none)) [] = Run.reading Pc.top s ∧
      s.curr = some 0 ∧ Seg s.right s.curr [0, 1, 2] none ∧ s.next = none :=
  ⟨fun s h => by unfold calcoffsets; rw [if_pos h], _, rfl, rfl, by decide, rfl⟩

/-- C17 as stated fails: in a terminal of 24 columns with a query field of 4
columns (available width 14) and the pool of a line of 13 letters and the line
b, the first item is 15 columns wide and `curr` is the first item; the first
item at which the running total of the widths exceeds 14 is the first item
itself, but `calcoffsets` leaves `next` at the second item. -/
theorem wide_item_stays_in_window :
    ∃ s, session (initial 16 [[97, 97, 97, 97, 97, 97, 97, 97, 97, 97, 97, 97, 97], [98]] false
        0 24 4 0 (fun _ => none) (fun _ => none)) [] = Run.reading Pc.top s ∧
      s.curr = some 0 ∧ Seg s.right s.curr [0, 1] none ∧
      s.mw - s.promptw - s.inputw - 6 = 14 ∧ textw (itemText s 0) = 15 ∧
      specNext (fun x => textw (itemText s x)) 14 0 [0, 1] = some 0 ∧
      s.next = some 1 :=
  ⟨_, rfl, rfl, by decide, by decide, by decide, by decide, rfl⟩

/-- C17, amended: in the horizontal layout, from a `curr` with the items `l` to
its right up to the end of the chain, `calcoffsets` returns; with an available
width `n = mw - promptw - inputw - 6 >= 0` it leaves in `next` the first item
`x` at or after `curr` such that the running total of the widths of the items
from `curr` through `x`, each width (code points + 2) capped at `n`, exceeds
`n`, and `NULL` when there is no such item; with `n < 0` it leaves
`next = curr`. -/
theorem next_boundary (s : State) (l l2 : List Nat) (hseg : Seg s.right s.curr l none)
    (hlen : l.length ≤ s.items.length) (hseg2 : Seg s.left s.curr l2 none)
    (hlen2 : l2.length ≤ s.items.length) (hlines : s.lines = 0)
    (hp : 0 ≤ s.promptw) (hp2 : s.promptw < 2 ^ 29) (hi : 0 ≤ s.inputw)
    (hi2 : s.inputw < 2 ^ 29) (hm : 0 ≤ s.mw) (hm2 : s.mw < 2 ^ 30)
    (hw : ∀ x ∈ l, textw (itemText s x) < 2 ^ 31) :
    ∃ s', calcoffsets s = some s' ∧
      (0 ≤ s.mw - s.promptw - s.inputw - 6 →
        s'.next = specNext
          (fun x => min (textw (itemText s x)) (s.mw - s.promptw - s.inputw - 6).toNat)
          (s.mw - s.promptw - s.inputw - 6) 0 l) ∧
      (s.mw - s.promptw - s.inputw - 6 < 0 → s'.next = s.curr) := by
  have hl : ¬ s.lines > 0 := by rw [hlines]; decide
  have hn : toInt32 (s.mw - (toInt32 (s.promptw + s.inputw) + 3 + 3)) =
      s.mw - s.promptw - s.inputw - 6 := by
    rw [toInt32_eq (s.promptw + s.inputw) (by omega) (by omega),
      toInt32_eq _ (by omega) (by omega)]
    omega
  obtain ⟨pv, hpv, _⟩ := calcPrev_some s (s.mw - s.promptw - s.inputw - 6) l2
    (s.items.length + 1) 0 s.curr hseg2 (by omega)
  unfold calcoffsets
  rw [if_neg hl, hn, hpv]
  by_cases h0 : 0 ≤ s.mw - s.promptw - s.inputw - 6
  · rw [calcNext_spec s _ hl h0 (by omega) l _ 0 _ hseg (by omega) (le_refl _) h0]
    exact ⟨_, rfl, fun _ => rfl, fun h => absurd h0 (by omega)⟩
  · cases l with
    | nil =>
      have hc : s.curr = none := hseg
      rw [hc, calcNext_none]
      exact ⟨_, rfl, fun h => absurd h h0, fun _ => rfl⟩
    | cons x xs =>
      have hc : s.curr = some x := hseg.1
      have hx := hw x (List.mem_cons_self x xs)
      rw [hc, calcNext_succ, if_neg hl, minSize_neg _ _ (by omega) (by omega) hx,
        toInt32_eq _ (by omega) (by omega), if_pos (by omega)]
      exact ⟨_, rfl, fun h => absurd h h0, fun _ => rfl⟩

/-- C17, amended, at the start of the session with the pool of a line of 13
letters and the line b in a terminal of 24 columns (available width 14): the
capped widths are 14 and 3, and `next` is the second item. -/
theorem next_boundary_witness :
    ∃ s', calcoffsets
        (demoAfter [[97, 97, 97, 97, 97, 97, 97, 97, 97, 97, 97, 97, 97], [98]] 0 24 4 0 []) =
        some s' ∧ s'.next = some 1 := by
  obtain ⟨s', h1, h2, _⟩ := next_boundary
    (demoAfter [[97, 97, 97, 97, 97, 97, 97, 97, 97, 97, 97, 97, 97], [98]] 0 24 4 0 [])
    [0, 1] [0] (by decide) (by decide) (by decide) (by decide) rfl (by decide)
    (by decide) (by decide) (by decide) (by decide) (by decide) (by decide)
  exact ⟨s', h1, by rw [h2 (by decide)]; decide⟩

/-- C18 as stated fails: in a terminal of 24 columns with a query field of 4
columns and the pool [a, b, c, d, e, f] the window holds the items a, b, c, d.
After three Ctrl-N the item d is selected; a fourth Ctrl-N selects the item e,
which is `next`, and `curr` becomes the item e, not the item b to the right of
the old `curr`.  Ctrl-P then selects the item d in front of `curr`, and `curr`
becomes the item a (the old `prev`), not the item d to the left of the old
`curr`. -/
theorem pan_by_page :
    ∃ s1 s2 s3,
      session (initial 16 [[97], [98], [99], [100], [101], [102]] false 0 24 4 0
        (fun _ => none) (fun _ => none)) [14, 14, 14] = Run.reading Pc.top s1 ∧
      s1.curr = some 0 ∧ s1.right 0 = some 1 ∧ s1.sel = some 3 ∧ s1.next = some 4 ∧
      session (initial 16 [[97], [98], [99], [100], [101], [102]] false 0 24 4 0
        (fun _ => none) (fun _ => none)) [14, 14, 14, 14] = Run.reading Pc.top s2 ∧
      s2.sel = some 4 ∧ s2.curr = some 4 ∧ s2.left 4 = some 3 ∧ s2.prev = some 0 ∧
      session (initial 16 [[97], [98], [99], [100], [101], [102]] false 0 24 4 0
        (fun _ => none) (fun _ => none)) [14, 14, 14, 14, 16] = Run.reading Pc.top s3 ∧
      s3.sel = some 3 ∧ s3.curr = some 0 :=
  ⟨_, _, _, rfl, rfl, rfl, rfl, rfl, rfl, rfl, rfl, rfl, rfl, rfl, rfl, rfl⟩

/-- C19 fails: with a prompt of 80 columns in a terminal of 80 columns the
available width is negative (-16).  With the pool [a, b] and the empty query
`run` waits with the chain a, b and `next = curr`; on Ctrl-E (byte 5) the case
returns with `curr = NULL` while `matches` is the item a, `drawmenu` then reads
`curr->left`, and the session aborts. -/
theorem anchor_lost :
    ∃ s0 s1, session (initial 16 [[97], [98]] false 0 80 10 80 (fun _ => none)
        (fun _ => none)) [] = Run.reading Pc.top s0 ∧
      s0.mw - s0.promptw - s0.inputw - 6 = -16 ∧ IsChain s0 [0, 1] ∧
      s0.curr = some 0 ∧ s0.next = some 0 ∧
      keyEnd s0 = some s1 ∧ s1.matches_ = some 0 ∧ s1.curr = none ∧ drawmenu s1 = Drawn.fault ∧
      session (initial 16 [[97], [98]] false 0 80 10 80 (fun _ => none)
        (fun _ => none)) [5] = Run.abort :=
  ⟨_, _, rfl, by decide, by decide, rfl, rfl, rfl, rfl, rfl, rfl, rfl⟩

theorem Ops_refl (s : State) : Ops s s := Relation.ReflTransGen.refl

theorem Ops_one {s s' : State} (h : Op s s') : Ops s s' := Relation.ReflTransGen.single h

theorem Ops_trans {s1 s2 s3 : State} (h1 : Ops s1 s2) (h2 : Ops s2 s3) : Ops s1 s3 :=
  Relation.ReflTransGen.trans h1 h2

theorem Ops_head {s1 s2 s3 : State} (h1 : Op s1 s2) (h2 : Ops s2 s3) : Ops s1 s3 :=
  Relation.ReflTransGen.head h1 h2

theorem TextInv_killLeft {b : Bool} {B : Nat} {s s' : State} (hB : B < 2 ^ 63)
    (h : TextInv b B s) (h2 : insert [] (toSSize (0 - (s.cursor : Int))) s = some s') :
    TextInv b B s' := by
  have hBt : s.text.length < 2 ^ 63 := by rw [h.1]; exact hB
  have hlen := strlen_le_length s.text
  have hcur := h.2.2.1
  rw [toSSize_eq _ (by omega) (by omega)] at h2
  by_cases h0 : s.cursor = 0
  · rw [h0] at h2
    have e : (0 : Int) - ((0 : Nat) : Int) = 0 := by simp
    rw [e, insert_zero [] s hBt (by rw [h.1]; exact h.2.1) hcur] at h2
    exact TextInv_conf (match_conf _ _ _ h2) h
  · have e : (0 : Int) - (s.cursor : Int) = -((s.cursor : Nat) : Int) := by omega
    rw [e] at h2
    exact TextInv_insert_neg hB h s.cursor (by omega) (Nat.le_refl _) h2

theorem Op_TextInv {B : Nat} (hB : B < 2 ^ 63) {s s' : State} (ho : Op s s')
    (h : TextInv false B s) : TextInv false B s' := by
  cases ho with
  | fwd _ h1 => exact TextInv_fwd hB h h1
  | bwd _ h1 => exact TextInv_bwd hB h h1
  | bol => exact ⟨h.1, h.2.1, Nat.zero_le _, fun hb => absurd hb (by simp)⟩
  | eol => exact ⟨h.1, h.2.1, Nat.le_refl _, fun hb => absurd hb (by simp)⟩
  | del _ _ h1 hd => exact TextInv_deleteBack hB h h1 hd
  | killLeft _ _ hd => exact TextInv_killLeft hB h hd
  | typed b _ _ hb hd =>
    exact TextInv_insert_byte hB h b (iscntrl_ne_zero hb) (fun hb => absurd hb (by simp)) hd
  | kill _ _ hd => exact TextInv_conf (match_conf _ _ _ hd) (TextInv_kill h)
  | home _ _ hd => exact TextInv_conf (calcoffsets_conf _ _ hd) h
  | endk _ _ _ hd => exact TextInv_keyEnd h hd
  | prev _ _ hd => exact TextInv_conf (selectPrev_conf _ _ hd) h
  | next _ _ hd => exact TextInv_conf (selectNext_conf _ _ hd) h
  | pgup _ _ _ hd => exact TextInv_conf (calcoffsets_conf _ _ hd) h
  | pgdn _ _ _ hd => exact TextInv_conf (calcoffsets_conf _ _ hd) h

theorem Ops_TextInv {B : Nat} (hB : B < 2 ^ 63) {s s' : State} (ho : Ops s s')
    (h : TextInv false B s) : TextInv false B s' := by
  induction ho with
  | refl => exact h
  | tail _ h2 ih => exact Op_TextInv hB h2 ih

theorem Ops_backWhile (p : Nat → Bool) :
    ∀ (fuel : Nat) (s s' : State), backWhile p fuel s = some s' → Ops s s' := by
  intro fuel
  induction fuel with
  | zero =>
    intro s s' hr
    rw [backWhile] at hr
    by_cases hc : s.cursor > 0 ∧ p (byteAt s.text (nextrune (-1) s)) = true
    · rw [if_pos hc] at hr; exact absurd hr (by simp)
    · rw [if_neg hc] at hr; rw [← Option.some.inj hr]; exact Ops_refl _
  | succ f ih =>
    intro s s' hr
    rw [backWhile] at hr
    by_cases hc : s.cursor > 0 ∧ p (byteAt s.text (nextrune (-1) s)) = true
    · rw [if_pos hc] at hr; exact Ops_head (Op.bwd s hc.1) (ih _ _ hr)
    · rw [if_neg hc] at hr; rw [← Option.some.inj hr]; exact Ops_refl _

theorem Ops_fwdSpaces :
    ∀ (fuel : Nat) (s s' : State), fwdSpaces fuel s = some s' → Ops s s' := by
  intro fuel
  induction fuel with
  | zero =>
    intro s s' hr
    rw [fwdSpaces] at hr
    by_cases hc : byteAt s.text s.cursor ≠ 0 ∧ byteAt s.text (nextrune 1 s) = 32
    · rw [if_pos hc] at hr; exact absurd hr (by simp)
    · rw [if_neg hc] at hr; rw [← Option.some.inj hr]; exact Ops_refl _
  | succ f ih =>
    intro s s' hr
    rw [fwdSpaces] at hr
    by_cases hc : byteAt s.text s.cursor ≠ 0 ∧ byteAt s.text (nextrune 1 s) = 32
    · rw [if_pos hc] at hr; exact Ops_head (Op.fwd s hc.1) (ih _ _ hr)
    · rw [if_neg hc] at hr; rw [← Option.some.inj hr]; exact Ops_refl _

theorem Ops_fwdWord :
    ∀ (fuel : Nat) (s s' : State), byteAt s.text s.cursor ≠ 0 →
      fwdWord fuel s = some s' → Ops s s' := by
  intro fuel
  induction fuel with
  | zero => intro s s' _ hr; exact absurd hr (by simp [fwdWord])
  | succ f ih =>
    intro s s' hne hr
    rw [fwdWord] at hr
    by_cases hc : byteAt s.text (nextrune 1 s) ≠ 0 ∧ byteAt s.text (nextrune 1 s) ≠ 32
    · rw [if_pos hc] at hr; exact Ops_head (Op.fwd s hne) (ih _ _ hc.1 hr)
    · rw [if_neg hc] at hr; rw [← Option.some.inj hr]; exact Ops_one (Op.fwd s hne)

theorem Ops_delFwd {B : Nat} {s s1 : State} (hB : B < 2 ^ 63)
    (h : TextInv false B s) (hne : byteAt s.text s.cursor ≠ 0)
    (hd : deleteBack { s with cursor := nextrune 1 s } = some s1) : Ops s s1 := by
  have hlt := lt_strlen_of_byteAt _ _ h.2.2.1 hne
  obtain ⟨f1, _⟩ := nextrune_fwd s (by rw [h.1]; exact hB) hlt
  exact Ops_head (Op.fwd s hne) (Ops_one (Op.del _ _ (by show 0 < nextrune 1 s; omega) hd))

theorem Ops_delSpaces {B : Nat} (hB : B < 2 ^ 63) :
    ∀ (fuel : Nat) (s s' : State), TextInv false B s → delSpaces fuel s = some s' →
      Ops s s' := by
  intro fuel
  induction fuel with
  | zero =>
    intro s s' _ hr
    rw [delSpaces_zero] at hr
    by_cases hc : byteAt s.text s.cursor ≠ 0 ∧ byteAt s.text (nextrune 1 s) = 32
    · rw [if_pos hc] at hr; exact absurd hr (by simp)
    · rw [if_neg hc] at hr; rw [← Option.some.inj hr]; exact Ops_refl _
  | succ f ih =>
    intro s s' h hr
    rw [delSpaces_succ] at hr
    by_cases hc : byteAt s.text s.cursor ≠ 0 ∧ byteAt s.text (nextrune 1 s) = 32
    · rw [if_pos hc] at hr
      cases hd : deleteBack { s with cursor := nextrune 1 s } with
      | none => rw [hd] at hr; exact absurd hr (by simp)
      | some s1 =>
        rw [hd] at hr
        exact Ops_trans (Ops_delFwd hB h hc.1 hd) (ih _ _ (TextInv_delFwd hB h hc.1 hd) hr)
    · rw [if_neg hc] at hr; rw [← Option.some.inj hr]; exact Ops_refl _

theorem Ops_delWord {B : Nat} (hB : B < 2 ^ 63) :
    ∀ (fuel : Nat) (s s' : State), TextInv false B s → byteAt s.text s.cursor ≠ 0 →
      delWord fuel s = some s' → Ops s s' := by
  intro fuel
  induction fuel with
  | zero =>
    intro s s' _ _ hr
    have : delWord 0 s = none := rfl
    rw [this] at hr
    exact absurd hr (by simp)
  | succ f ih =>
    intro s s' h hne hr
    rw [delWord_succ] at hr
    cases hd : deleteBack { s with cursor := nextrune 1 s } with
    | none => rw [hd] at hr; exact absurd hr (by simp)
    | some s1 =>
      rw [hd] at hr
      simp only [] at hr
      have h1 := TextInv_delFwd hB h hne hd
      have o1 := Ops_delFwd hB h hne hd
      by_cases hc : byteAt s1.text s1.cursor ≠ 0 ∧ byteAt s1.text s1.cursor ≠ 32
      · rw [if_pos hc] at hr; exact Ops_trans o1 (ih _ _ h1 hc.1 hr)
      · rw [if_neg hc] at hr; rw [← Option.some.inj hr]; exact o1

theorem Ops_delBackWhile {B : Nat} (hB : B < 2 ^ 63) (p : Nat → Bool) :
    ∀ (fuel : Nat) (s s' : State), TextInv false B s → delBackWhile p fuel s = some s' →
      Ops s s' := by
  intro fuel
  induction fuel with
  | zero =>
    intro s s' _ hr
    rw [delBackWhile_zero] at hr
    by_cases hc : s.cursor > 0 ∧ p (byteAt s.text (nextrune (-1) s)) = true
    · rw [if_pos hc] at hr; exact absurd hr (by simp)
    · rw [if_neg hc] at hr; rw [← Option.some.inj hr]; exact Ops_refl _
  | succ f ih =>
    intro s s' h hr
    rw [delBackWhile_succ] at hr
    by_cases hc : s.cursor > 0 ∧ p (byteAt s.text (nextrune (-1) s)) = true
    · rw [if_pos hc] at hr
      cases hd : deleteBack s with
      | none => rw [hd] at hr; exact absurd hr (by simp)
      | some s1 =>
        rw [hd] at hr
        exact Ops_head (Op.del _ _ hc.1 hd) (ih _ _ (TextInv_deleteBack hB h hc.1 hd) hr)
    · rw [if_neg hc] at hr; rw [← Option.some.inj hr]; exact Ops_refl _

theorem Ops_of_redraw {s : State} {o : Option State} {pc : Pc} {s' : State}
    (h : ∀ s1, o = some s1 → Ops s s1) (hr : redraw o = Run.reading pc s') : Ops s s' :=
  h s' (reading_of_redraw hr)

theorem Ops_of_reading {s : State} {pc1 pc : Pc} {s' : State}
    (hr : Run.reading pc1 s = Run.reading pc s') : Ops s s' := by
  simp only [Run.reading.injEq] at hr
  rw [← hr.2]
  exact Ops_refl _

theorem keyDefault_ops (buf0 : Nat) (s : State) (pc : Pc) (s' : State)
    (hr : keyDefault buf0 s = Run.reading pc s') : Ops s s' := by
  unfold keyDefault at hr
  have key : ∀ s1, (if iscntrl buf0 = true then some s
      else insert [buf0] (strlen [buf0]) s) = some s1 → Ops s s1 := by
    intro s1 h1
    by_cases hc : iscntrl buf0 = true
    · rw [if_pos hc] at h1
      rw [← Option.some.inj h1]; exact Ops_refl _
    · rw [if_neg hc] at h1
      exact Ops_one (Op.typed buf0 _ _ (by simpa using hc) h1)
  cases ho : (if iscntrl buf0 = true then some s else insert [buf0] (strlen [buf0]) s) with
  | none => rw [ho] at hr; exact absurd hr (by simp)
  | some s1 =>
    rw [ho] at hr
    simp only [] at hr
    by_cases hq : 2 ≤ strlen s1.text ∧
        (s1.text.drop (strlen s1.text - 2)).take 2 = [113, 113]
    · rw [if_pos hq] at hr; exact absurd hr (by simp)
    · rw [if_neg hq] at hr
      exact Ops_trans (key s1 ho) (Ops_of_redraw (fun s2 h2 => by
        rw [← Option.some.inj h2]; exact Ops_refl _) hr)

theorem switchTop_ops {B : Nat} (hB : B < 2 ^ 63) (buf0 c : Nat) (s : State)
    (h : TextInv false B s) (pc : Pc) (s' : State)
    (hr : switchTop buf0 c s = Run.reading pc s') : Ops s s' := by
  have hBt : s.text.length < 2 ^ 63 := by rw [h.1]; exact hB
  unfold switchTop at hr
  by_cases h1 : c = CONTROL 91
  · rw [if_pos h1] at hr; exact Ops_of_reading hr
  rw [if_neg h1] at hr
  by_cases h2 : c = CONTROL 67
  · rw [if_pos h2] at hr; exact absurd hr (by simp)
  rw [if_neg h2] at hr
  by_cases h3 : c = CONTROL 77 ∨ c = CONTROL 74
  · rw [if_pos h3] at hr
    split at hr
    · exact absurd hr (by simp)
    · split at hr
      · exact absurd hr (by simp)
      · exact absurd hr (by simp)
      · exact absurd hr (by simp)
  rw [if_neg h3] at hr
  by_cases h4 : c = CONTROL 93 ∨ c = CONTROL 92
  · rw [if_pos h4] at hr; exact absurd hr (by simp)
  rw [if_neg h4] at hr
  by_cases h5 : c = CONTROL 65
  · rw [if_pos h5] at hr
    by_cases hs : s.sel = s.matches_
    · rw [if_pos hs] at hr
      exact Ops_of_redraw (fun s2 h2 => by
        rw [← Option.some.inj h2]; exact Ops_one (Op.bol s)) hr
    · rw [if_neg hs] at hr
      exact Ops_of_redraw (fun s2 h2 => Ops_one (Op.home _ _ h2)) hr
  rw [if_neg h5] at hr
  by_cases h6 : c = CONTROL 69
  · rw [if_pos h6] at hr
    refine Ops_of_redraw (fun s2 h2 => ?_) hr
    by_cases hne : byteAt s.text s.cursor ≠ 0
    · have h2' := h2
      unfold keyEnd at h2'
      rw [if_pos hne] at h2'
      rw [← Option.some.inj h2']
      exact Ops_one (Op.eol s)
    · exact Ops_one (Op.endk _ _ (by simpa using hne) h2)
  rw [if_neg h6] at hr
  by_cases h7 : c = CONTROL 66
  · rw [if_pos h7] at hr
    by_cases hb : s.cursor > 0 ∧ (s.sel = none ∨ s.sel.bind s.left = none ∨ s.lines > 0)
    · rw [if_pos hb] at hr
      exact Ops_of_redraw (fun s2 h2 => by
        rw [← Option.some.inj h2]; exact Ops_one (Op.bwd s hb.1)) hr
    · rw [if_neg hb] at hr
      exact Ops_of_redraw (fun s2 h2 => Ops_one (Op.prev _ _ h2)) hr
  rw [if_neg h7] at hr
  by_cases h8 : c = CONTROL 80
  · rw [if_pos h8] at hr
    exact Ops_of_redraw (fun s2 h2 => Ops_one (Op.prev _ _ h2)) hr
  rw [if_neg h8] at hr
  by_cases h9 : c = CONTROL 70 ∨ c = CONTROL 73
  · rw [if_pos h9] at hr
    by_cases hne : byteAt s.text s.cursor ≠ 0
    · rw [if_pos hne] at hr
      exact Ops_of_redraw (fun s2 h2 => by
        rw [← Option.some.inj h2]; exact Ops_one (Op.fwd s hne)) hr
    · rw [if_neg hne] at hr
      exact Ops_of_redraw (fun s2 h2 => Ops_one (Op.next _ _ h2)) hr
  rw [if_neg h9] at hr
  by_cases h10 : c = CONTROL 78
  · rw [if_pos h10] at hr
    exact Ops_of_redraw (fun s2 h2 => Ops_one (Op.next _ _ h2)) hr
  rw [if_neg h10] at hr
  by_cases h11 : c = CONTROL 68
  · rw [if_pos h11] at hr
    by_cases he : byteAt s.text s.cursor = 0
    · rw [if_pos he] at hr
      exact Ops_of_redraw (fun s2 h2 => by rw [← Option.some.inj h2]; exact Ops_refl _) hr
    · rw [if_neg he] at hr
      refine Ops_of_redraw (fun s2 h2 => ?_) hr
      have hlt := lt_strlen_of_byteAt _ _ h.2.2.1 he
      obtain ⟨f1, _⟩ := nextrune_fwd s hBt hlt
      unfold keyBackspace at h2
      have hne1 : ¬ ({ s with cursor := nextrune 1 s } : State).cursor = 0 := by
        show ¬ nextrune 1 s = 0
        omega
      rw [if_neg hne1] at h2
      exact Ops_delFwd hB h he h2
  rw [if_neg h11] at hr
  by_cases h12 : c = CONTROL 72 ∨ c = CONTROL 63
  · rw [if_pos h12] at hr
    refine Ops_of_redraw (fun s2 h2 => ?_) hr
    unfold keyBackspace at h2
    by_cases h0 : s.cursor = 0
    · rw [if_pos h0] at h2
      rw [← Option.some.inj h2]; exact Ops_refl _
    · rw [if_neg h0] at h2
      exact Ops_one (Op.del _ _ (by omega) h2)
  rw [if_neg h12] at hr
  by_cases h13 : c = CONTROL 75
  · rw [if_pos h13] at hr
    exact Ops_of_redraw (fun s2 h2 => Ops_one (Op.kill _ _ h2)) hr
  rw [if_neg h13] at hr
  by_cases h14 : c = CONTROL 85
  · rw [if_pos h14] at hr
    exact Ops_of_redraw (fun s2 h2 => Ops_one (Op.killLeft _ _ h2)) hr
  rw [if_neg h14] at hr
  by_cases h15 : c = CONTROL 87
  · rw [if_pos h15] at hr
    refine Ops_of_redraw (fun s2 h2 => ?_) hr
    cases hd1 : delBackWhile (fun b => decide (b = 32)) (s.text.length + 1) s with
    | none => rw [hd1] at h2; exact absurd h2 (by simp)
    | some s1 =>
      rw [hd1] at h2
      simp only [Option.some_bind] at h2
      exact Ops_trans (Ops_delBackWhile hB _ _ _ _ h hd1)
        (Ops_delBackWhile hB _ _ _ _ (TextInv_delBackWhile hB _ _ _ _ h hd1) h2)
  rw [if_neg h15] at hr
  by_cases h16 : c = CONTROL 86
  · rw [if_pos h16] at hr
    cases hp : s.prev with
    | none =>
      rw [hp] at hr
      exact Ops_of_redraw (fun s2 h2 => by rw [← Option.some.inj h2]; exact Ops_refl _) hr
    | some pv =>
      rw [hp] at hr
      simp only [] at hr
      refine Ops_of_redraw (fun s2 h2 => ?_) hr
      refine Ops_one (Op.pgup _ _ (by rw [hp]; simp) ?_)
      rw [hp]
      exact h2
  rw [if_neg h16] at hr
  exact keyDefault_ops buf0 s pc s' hr

theorem escSwitch_ops {B : Nat} (hB : B < 2 ^ 63) (c : Nat) (s : State)
    (h : TextInv false B s) (pc : Pc) (s' : State)
    (hr : escSwitch c s = Run.reading pc s') : Ops s s' := by
  unfold escSwitch at hr
  by_cases h1 : c = CONTROL 91
  · rw [if_pos h1] at hr
    exact switchTop_ops hB _ _ s h pc s' hr
  rw [if_neg h1] at hr
  by_cases h2 : c = 91
  · rw [if_pos h2] at hr; exact Ops_of_reading hr
  rw [if_neg h2] at hr
  by_cases h3 : c = 98
  · rw [if_pos h3] at hr
    refine Ops_of_redraw (fun s2 h2 => ?_) hr
    cases hd1 : backWhile (fun b => decide (b = 32)) (s.text.length + 1) s with
    | none => rw [hd1] at h2; exact absurd h2 (by simp)
    | some s1 =>
      rw [hd1] at h2
      simp only [Option.some_bind] at h2
      exact Ops_trans (Ops_backWhile _ _ _ _ hd1) (Ops_backWhile _ _ _ _ h2)
  rw [if_neg h3] at hr
  by_cases h4 : c = 102
  · rw [if_pos h4] at hr
    refine Ops_of_redraw (fun s2 h2 => ?_) hr
    cases hd1 : fwdSpaces (s.text.length + 1) s with
    | none => rw [hd1] at h2; exact absurd h2 (by simp)
    | some s1 =>
      rw [hd1] at h2
      simp only [Option.some_bind] at h2
      have o1 := Ops_fwdSpaces _ _ _ hd1
      by_cases hne : byteAt s1.text s1.cursor ≠ 0
      · rw [if_pos hne] at h2
        exact Ops_trans o1 (Ops_fwdWord _ _ _ hne h2)
      · rw [if_neg hne] at h2
        rw [← Option.some.inj h2]; exact o1
  rw [if_neg h4] at hr
  by_cases h5 : c = 100
  · rw [if_pos h5] at hr
    refine Ops_of_redraw (fun s2 h2 => ?_) hr
    cases hd1 : delSpaces (s.text.length + 1) s with
    | none => rw [hd1] at h2; exact absurd h2 (by simp)
    | some s1 =>
      rw [hd1] at h2
      simp only [Option.some_bind] at h2
      have hs1 := TextInv_delSpaces hB _ _ _ h hd1
      have o1 := Ops_delSpaces hB _ _ _ h hd1
      by_cases hne : byteAt s1.text s1.cursor ≠ 0
      · rw [if_pos hne] at h2
        exact Ops_trans o1 (Ops_delWord hB _ _ _ hs1 hne h2)
      · rw [if_neg hne] at h2
        rw [← Option.some.inj h2]; exact o1
  rw [if_neg h5] at hr
  by_cases h6 : c = 118
  · rw [if_pos h6] at hr
    cases hp : s.next with
    | none =>
      rw [hp] at hr
      exact Ops_of_redraw (fun s2 h2 => by rw [← Option.some.inj h2]; exact Ops_refl _) hr
    | some nx =>
      rw [hp] at hr
      simp only [] at hr
      refine Ops_of_redraw (fun s2 h2 => ?_) hr
      refine Ops_one (Op.pgdn _ _ (by rw [hp]; simp) ?_)
      rw [hp]
      exact h2
  rw [if_neg h6] at hr
  exact Ops_of_redraw (fun s2 h2 => by rw [← Option.some.inj h2]; exact Ops_refl _) hr

theorem csiSwitch_ops {B : Nat} (hB : B < 2 ^ 63) (c : Nat) (s : State)
    (h : TextInv false B s) (pc : Pc) (s' : State)
    (hr : csiSwitch c s = Run.reading pc s') : Ops s s' := by
  unfold csiSwitch at hr
  by_cases k0 : c = 49 ∨ c = 55
  · rw [if_pos k0] at hr; exact Ops_of_reading hr
  rw [if_neg k0] at hr
  by_cases k1 : c = 72
  · rw [if_pos k1] at hr; exact switchTop_ops hB _ _ s h pc s' hr
  rw [if_neg k1] at hr
  by_cases k2 : c = 50
  · rw [if_pos k2] at hr; exact Ops_of_reading hr
  rw [if_neg k2] at hr
  by_cases k3 : c = 51
  · rw [if_pos k3] at hr; exact Ops_of_reading hr
  rw [if_neg k3] at hr
  by_cases k4 : c = 52 ∨ c = 56
  · rw [if_pos k4] at hr; exact Ops_of_reading hr
  rw [if_neg k4] at hr
  by_cases k5 : c = 70
  · rw [if_pos k5] at hr; exact switchTop_ops hB _ _ s h pc s' hr
  rw [if_neg k5] at hr
  by_cases k6 : c = 53
  · rw [if_pos k6] at hr; exact Ops_of_reading hr
  rw [if_neg k6] at hr
  by_cases k7 : c = 54
  · rw [if_pos k7] at hr; exact Ops_of_reading hr
  rw [if_neg k7] at hr
  by_cases k8 : c = 65
  · rw [if_pos k8] at hr; exact switchTop_ops hB _ _ s h pc s' hr
  rw [if_neg k8] at hr
  by_cases k9 : c = 66
  · rw [if_pos k9] at hr; exact switchTop_ops hB _ _ s h pc s' hr
  rw [if_neg k9] at hr
  by_cases k10 : c = 67
  · rw [if_pos k10] at hr; exact switchTop_ops hB _ _ s h pc s' hr
  rw [if_neg k10] at hr
  by_cases k11 : c = 68
  · rw [if_pos k11] at hr; exact switchTop_ops hB _ _ s h pc s' hr
  rw [if_neg k11] at hr
  by_cases k12 : c = 90
  · rw [if_pos k12] at hr; exact switchTop_ops hB _ _ s h pc s' hr
  rw [if_neg k12] at hr
  exact Ops_of_redraw (fun s2 h2 => by rw [← Option.some.inj h2]; exact Ops_refl _) hr

theorem step_ops {B : Nat} (hB : B < 2 ^ 63) (pc1 : Pc) (s : State) (c : Nat)
    (h : TextInv false B s) (pc : Pc) (s' : State)
    (hr : step (Run.reading pc1 s) c = Run.reading pc s') : Ops s s' := by
  cases pc1 with
  | top => exact switchTop_ops hB _ _ s h pc s' hr
  | esc => exact escSwitch_ops hB _ s h pc s' hr
  | csi => exact csiSwitch_ops hB _ s h pc s' hr
  | tilde c1 e =>
    have hr' : (if e = true then escSwitch c1 s else switchTop (CONTROL 91) c1 s) =
        Run.reading pc s' := hr
    by_cases he : e = true
    · rw [if_pos he] at hr'; exact escSwitch_ops hB _ s h pc s' hr'
    · rw [if_neg he] at hr'; exact switchTop_ops hB _ _ s h pc s' hr'

theorem foldl_step_returned (input : List Nat) (st : Nat) (out : List (List Nat))
    (s : State) : input.foldl step (Run.returned st out s) = Run.returned st out s := by
  induction input with
  | nil => rfl
  | cons c cs ih => rw [List.foldl_cons]; exact ih

theorem foldl_step_abort (input : List Nat) : input.foldl step Run.abort = Run.abort := by
  induction input with
  | nil => rfl
  | cons c cs ih => rw [List.foldl_cons]; exact ih

theorem foldl_step_died (input : List Nat) : input.foldl step Run.died = Run.died := by
  induction input with
  | nil => rfl
  | cons c cs ih => rw [List.foldl_cons]; exact ih

/-- The state in which `run` waits after the bytes `input` comes from the state
in which it waited before by a sequence of single changes. -/
theorem foldl_step_ops {B : Nat} (hB : B < 2 ^ 63) :
    ∀ (input : List Nat) (pc1 : Pc) (s : State), TextInv false B s →
      ∀ (pc : Pc) (s' : State), input.foldl step (Run.reading pc1 s) = Run.reading pc s' →
        Ops s s' := by
  intro input
  induction input with
  | nil =>
    intro pc1 s _ pc s' hr
    exact Ops_of_reading hr
  | cons c cs ih =>
    intro pc1 s h pc s' hr
    rw [List.foldl_cons] at hr
    cases hst : step (Run.reading pc1 s) c with
    | abort =>
      rw [hst, foldl_step_abort] at hr
      exact absurd hr (by simp)
    | died =>
      rw [hst, foldl_step_died] at hr
      exact absurd hr (by simp)
    | returned st out s1 =>
      rw [hst, foldl_step_returned] at hr
      exact absurd hr (by simp)
    | reading pc2 s2 =>
      rw [hst] at hr
      have o1 := step_ops hB pc1 s c h pc2 s2 hst
      exact Ops_trans o1 (ih pc2 s2 (Ops_TextInv hB o1 h) pc s' hr)

/-- The state in which `run` waits in a session comes from the state that
`match(FALSE)` leaves at the end of `setup` by a sequence of single changes. -/
theorem session_ops (bufsiz : Nat) (h0 : 0 < bufsiz) (hB : bufsiz < 2 ^ 63)
    (items : List (List Nat)) (icase : Bool) (lines mw inputw promptw : Int)
    (left right : Nat → Option Nat) (input : List Nat) (pc : Pc) (s' : State)
    (hr : session (initial bufsiz items icase lines mw inputw promptw left right) input =
      Run.reading pc s') :
    ∃ s0, match_ false (initial bufsiz items icase lines mw inputw promptw left right) =
        some s0 ∧ TextInv false bufsiz s0 ∧ Ops s0 s' := by
  unfold session at hr
  cases hm : match_ false (initial bufsiz items icase lines mw inputw promptw left right) with
  | none =>
    rw [hm] at hr
    have : redraw none = Run.abort := rfl
    rw [this, foldl_step_abort] at hr
    exact absurd hr (by simp)
  | some s0 =>
    rw [hm] at hr
    have ht : TextInv false bufsiz s0 :=
      TextInv_conf (match_conf _ _ _ hm) (TextInv_initial false bufsiz h0 _ _ _ _ _ _ _ _)
    refine ⟨s0, rfl, ht, ?_⟩
    cases hd : redraw (some s0) with
    | abort =>
      rw [hd, foldl_step_abort] at hr
      exact absurd hr (by simp)
    | died =>
      rw [hd, foldl_step_died] at hr
      exact absurd hr (by simp)
    | returned st out s1 =>
      rw [hd, foldl_step_returned] at hr
      exact absurd hr (by simp)
    | reading pc2 s2 =>
      rw [hd] at hr
      have e := reading_of_redraw hd
      have e2 : s0 = s2 := Option.some.inj e
      subst e2
      exact foldl_step_ops hB input pc2 s0 ht pc s' hr

theorem calcoffsets_horiz (s : State) (l1 l2 : List Nat) (hl : ¬ s.lines > 0)
    (h1 : Seg s.right s.curr l1 none) (h2 : Seg s.left s.curr l2 none)
    (hl1 : l1.length ≤ s.items.length + 1) (hl2 : l2.length ≤ s.items.length + 1) :
    ∃ s', calcoffsets s = some s' ∧ (s'.next = none ∨ ∃ y ∈ l1, s'.next = some y) ∧
      ((s.curr = none ∧ s'.prev = none) ∨ ∃ y ∈ l2, s'.prev = some y) := by
  unfold calcoffsets
  rw [if_neg hl]
  obtain ⟨nx, hnx, hnx'⟩ := calcNext_some s
    (toInt32 (s.mw - (toInt32 (s.promptw + s.inputw) + 3 + 3))) l1 _ 0 _ h1 hl1
  obtain ⟨pv, hpv, hpv'⟩ := calcPrev_some s
    (toInt32 (s.mw - (toInt32 (s.promptw + s.inputw) + 3 + 3))) l2 _ 0 _ h2 hl2
  rw [hnx, hpv]
  exact ⟨_, rfl, hnx', hpv'⟩

theorem chain_length {s : State} {l : List Nat} (hnd : l.Nodup)
    (hlt : ∀ x ∈ l, x < s.items.length) : l.length ≤ s.items.length :=
  length_le_of_nodup_lt hnd hlt

/-- The walks from an item of the chain, or from `NULL`, to both ends. -/
theorem walks_from (s : State) (l : List Nat) (hch : IsChain s l) (b : Option Nat)
    (hb : ∀ x, b = some x → x ∈ l) :
    ∃ l1 l2, Seg s.right b l1 none ∧ Seg s.left b l2 none ∧ l1.length ≤ l.length ∧
      l2.length ≤ l.length ∧ (∀ x ∈ l1, x ∈ l) ∧ (∀ x ∈ l2, x ∈ l) := by
  cases b with
  | none => exact ⟨[], [], rfl, rfl, Nat.zero_le _, Nat.zero_le _, by simp, by simp⟩
  | some x =>
    obtain ⟨A, B, hAB⟩ := List.append_of_mem (hb x rfl)
    subst hAB
    obtain ⟨h1, h2, _, _⟩ := chain_split s A B x hch
    refine ⟨x :: B, x :: A.reverse, h1, h2, by simp, by simp, ?_, ?_⟩
    · intro y hy
      simp only [List.mem_append, List.mem_cons] at hy ⊢
      rcases hy with hy | hy
      · exact Or.inr (Or.inl hy)
      · exact Or.inr (Or.inr hy)
    · intro y hy
      simp only [List.mem_append, List.mem_cons, List.mem_reverse] at hy ⊢
      rcases hy with hy | hy
      · exact Or.inr (Or.inl hy)
      · exact Or.inl hy

theorem calcoffsets_core (s s' : State) (l : List Nat) (hch : IsChain s l) (hnd : l.Nodup)
    (hlt : ∀ x ∈ l, x < s.items.length) (hcur : ∀ x, s.curr = some x → x ∈ l)
    (hv : s.lines > 0 → s.next = none ∧ s.prev = none) (hc : calcoffsets s = some s') :
    Core s' l ∧ s' = { s with next := s'.next, prev := s'.prev } := by
  have hs' := calcoffsets_vars s s' hc
  refine ⟨?_, hs'⟩
  have hfr : IsChain s' l ∧ (∀ x ∈ l, x < s'.items.length) ∧
      (∀ x, s'.curr = some x → x ∈ l) ∧ s'.lines = s.lines := by
    rw [hs']
    exact ⟨hch, hlt, hcur, rfl⟩
  obtain ⟨f1, f2, f3, f4⟩ := hfr
  by_cases hl : s.lines > 0
  · have e : s' = s := by
      unfold calcoffsets at hc
      rw [if_pos hl] at hc
      exact (Option.some.inj hc).symm
    have hn : s'.next = none := by rw [e]; exact (hv hl).1
    have hp : s'.prev = none := by rw [e]; exact (hv hl).2
    refine ⟨f1, hnd, f2, f3, ?_, ?_, fun _ => ⟨hn, hp⟩⟩
    · intro x hx; rw [hn] at hx; exact absurd hx (by simp)
    · intro x hx; rw [hp] at hx; exact absurd hx (by simp)
  · obtain ⟨l1, l2, h1, h2, hl1, hl2, hm1, hm2⟩ := walks_from s l hch s.curr hcur
    have hL := chain_length hnd hlt
    obtain ⟨s'', hc', hnx, hpv⟩ := calcoffsets_horiz s l1 l2 hl h1 h2 (by omega) (by omega)
    have e : s'' = s' := Option.some.inj (hc'.symm.trans hc)
    subst e
    refine ⟨f1, hnd, f2, f3, ?_, ?_, fun h => absurd (by rw [← f4]; exact h) hl⟩
    · intro x hx
      rcases hnx with hnx | ⟨y, hy, hnx⟩
      · rw [hnx] at hx; exact absurd hx (by simp)
      · rw [hnx] at hx
        rw [← Option.some.inj hx]; exact hm1 y hy
    · intro x hx
      rcases hpv with ⟨_, hpv⟩ | ⟨y, hy, hpv⟩
      · rw [hpv] at hx; exact absurd hx (by simp)
      · rw [hpv] at hx
        rw [← Option.some.inj hx]; exact hm2 y hy

theorem Core_calc (s s' : State) (l : List Nat) (h : Core s l) (a b : Option Nat)
    (hb : ∀ x, b = some x → x ∈ l)
    (hc : calcoffsets { s with sel := a, curr := b } = some s') :
    Core s' l ∧ s'.sel = a ∧ s'.curr = b ∧ SameConf s s' := by
  obtain ⟨h1, h2, h3, _, _, _, h7⟩ := h
  obtain ⟨hcore, hs'⟩ := calcoffsets_core { s with sel := a, curr := b } s' l h1 h2 h3 hb h7 hc
  have hconf := calcoffsets_conf _ _ hc
  refine ⟨hcore, ?_, ?_, hconf⟩
  · rw [hs']
  · rw [hs']

theorem head?_mem_of {l : List Nat} {x : Nat} (h : l.head? = some x) : x ∈ l := by
  cases l with
  | nil => exact absurd h (by simp)
  | cons y ys =>
    simp only [List.head?_cons, Option.some.injEq] at h
    rw [h]
    exact List.mem_cons_self _ _

theorem getLast?_mem_of {l : List Nat} {x : Nat} (h : l.getLast? = some x) : x ∈ l := by
  rcases List.eq_nil_or_concat l with hl | ⟨l', y, hl⟩
  · subst hl
    exact absurd h (by simp)
  · rw [List.concat_eq_append] at hl
    subst hl
    rw [List.getLast?_append_of_ne_nil _ (by simp)] at h
    simp only [List.getLast?_singleton, Option.some.injEq] at h
    rw [← h]
    simp

theorem match_core (sub : Bool) (s1 s' : State) (vis : List Nat)
    (hvis : Visit sub s1.items.length s1.right
      (if sub = true then s1.matches_ else itemsPtr s1) vis)
    (hnd : vis.Nodup) (hlt : ∀ x ∈ vis, x < s1.items.length)
    (hv : s1.lines > 0 → s1.next = none ∧ s1.prev = none) (hm : match_ sub s1 = some s') :
    Core s' (codeBands s1 0 vis ++ codeBands s1 1 vis ++ codeBands s1 2 vis) ∧
      SelOk s' (codeBands s1 0 vis ++ codeBands s1 1 vis ++ codeBands s1 2 vis) ∧
      SameConf s1 s' := by
  obtain ⟨s4, hpre, hch, hND, hconf, hn4, hp4⟩ := match_pre sub s1 vis hvis hnd hlt
  rw [hpre] at hm
  have hitems : s4.items = s1.items := hconf.2.2.2.2.2.2.1
  have hlines : s4.lines = s1.lines := hconf.2.1
  have hfirst := chain_first s4 _ hch
  obtain ⟨hcore, hs'⟩ := calcoffsets_core { s4 with curr := s4.matches_, sel := s4.matches_ }
    s' _ hch hND
    (by
      show ∀ x ∈ _, x < s4.items.length
      rw [hitems]; exact codeBands_lt s1 vis hlt)
    (by
      intro x hx
      have hx' : s4.matches_ = some x := hx
      rw [hfirst] at hx'
      exact head?_mem_of hx')
    (by
      intro h
      have h' : s4.lines > 0 := h
      rw [hlines] at h'
      show s4.next = none ∧ s4.prev = none
      rw [hn4, hp4]; exact hv h')
    hm
  have hsel : s'.sel = s4.matches_ := by rw [hs']
  have h5 := calcoffsets_conf _ _ hm
  have h6 : SameConf s4 s' := h5
  refine ⟨hcore, ⟨?_, ?_⟩, hconf.trans h6⟩
  · rw [hsel, hfirst]
    constructor
    · intro h
      cases hL : codeBands s1 0 vis ++ codeBands s1 1 vis ++ codeBands s1 2 vis with
      | nil => rfl
      | cons y ys => rw [hL] at h; exact absurd h (by simp)
    · intro h; rw [h]; rfl
  · intro x hx
    rw [hsel, hfirst] at hx
    exact head?_mem_of hx

theorem Content_conf {s s' : State} {l : List Nat} (hc : SameConf s s') (h : Content s l) :
    Content s' l := by
  obtain ⟨c1, _, _, _, _, _, c7, c8⟩ := hc
  unfold Content itemText at h ⊢
  rw [c1, c7, c8]
  exact h

theorem Memb_match_false (s1 s' : State) (hP : ∀ t ∈ s1.items, 0 ∉ t)
    (hv : s1.lines > 0 → s1.next = none ∧ s1.prev = none) (hm : match_ false s1 = some s') :
    Memb s' := by
  obtain ⟨hcore, hsel, hconf⟩ := match_core false s1 s' (List.range s1.items.length)
    (visit_full s1) (List.nodup_range _) (fun x hx => List.mem_range.1 hx) hv hm
  refine ⟨_, hcore, hsel, Content_conf hconf ⟨hP, ?_⟩⟩
  intro x
  rw [codeBands_eq s1 hP, mem_banded, List.mem_range]
  rfl

theorem Memb_match_true (s1 s' : State) (l0 q0 sfx : List Nat) (hch : IsChain s1 l0)
    (hnd : l0.Nodup)
    (hc0 : ∀ x, x ∈ l0 ↔ x < s1.items.length ∧ Contains s1.icase q0 (itemText s1 x))
    (hext : cstr s1.text = q0 ++ sfx) (hP : ∀ t ∈ s1.items, 0 ∉ t)
    (hv : s1.lines > 0 → s1.next = none ∧ s1.prev = none) (hm : match_ true s1 = some s') :
    Memb s' := by
  have hlt : ∀ x ∈ l0, x < s1.items.length := fun x hx => ((hc0 x).1 hx).1
  obtain ⟨hcore, hsel, hconf⟩ := match_core true s1 s' l0 (visit_chain s1 l0 hch hlt) hnd hlt
    hv hm
  refine ⟨_, hcore, hsel, Content_conf hconf ⟨hP, ?_⟩⟩
  intro x
  rw [codeBands_eq s1 hP, mem_banded, hc0]
  constructor
  · rintro ⟨⟨h1, _⟩, h3⟩
    exact ⟨h1, h3⟩
  · rintro ⟨h1, h3⟩
    refine ⟨⟨h1, ?_⟩, h3⟩
    have h3' : Contains s1.icase (cstr s1.text) (itemText s1 x) := h3
    rw [hext] at h3'
    exact contains_mono h3'

theorem Memb_cursor {s : State} (c : Nat) (h : Memb s) : Memb { s with cursor := c } := h

theorem Memb_vert {s : State} (h : Memb s) : s.lines > 0 → s.next = none ∧ s.prev = none := by
  obtain ⟨l, hc, _, _⟩ := h
  exact hc.2.2.2.2.2.2

theorem Memb_pool {s : State} (h : Memb s) : ∀ t ∈ s.items, 0 ∉ t := by
  obtain ⟨l, _, _, hc⟩ := h
  exact hc.1

theorem Memb_refilter {s s' : State} (h : Memb s) (t : List Nat) (c : Nat)
    (hm : match_ false { s with text := t, cursor := c } = some s') : Memb s' :=
  have hp := Memb_pool h
  have hv := Memb_vert h
  Memb_match_false { s with text := t, cursor := c } s' hp hv hm

theorem Memb_deleteBack {B : Nat} (hB : B < 2 ^ 63) {s s' : State} (ht : TextInv false B s)
    (h : Memb s) (hpos : 0 < s.cursor) (hd : deleteBack s = some s') : Memb s' := by
  have hBt : s.text.length < 2 ^ 63 := by rw [ht.1]; exact hB
  obtain ⟨p1, _, _⟩ := nextrune_bwd s hBt ht.2.2.1 hpos
  rw [deleteBack_eq s hBt ht.2.2.1 p1,
    insert_neg [] _ s (by omega) (by omega) hBt ht.2.2.1] at hd
  exact Memb_refilter h _ _ hd

theorem Memb_killLeft {B : Nat} (hB : B < 2 ^ 63) {s s' : State} (ht : TextInv false B s)
    (h : Memb s) (h2 : insert [] (toSSize (0 - (s.cursor : Int))) s = some s') : Memb s' := by
  have hBt : s.text.length < 2 ^ 63 := by rw [ht.1]; exact hB
  have hlen := strlen_le_length s.text
  have hcur := ht.2.2.1
  rw [toSSize_eq _ (by omega) (by omega)] at h2
  by_cases h0 : s.cursor = 0
  · rw [h0] at h2
    have e : (0 : Int) - ((0 : Nat) : Int) = 0 := by simp
    rw [e, insert_zero [] s hBt (by rw [ht.1]; exact ht.2.1) hcur] at h2
    exact Memb_match_false _ s' (Memb_pool h) (Memb_vert h) h2
  · have e : (0 : Int) - (s.cursor : Int) = -((s.cursor : Nat) : Int) := by omega
    rw [e, insert_neg [] _ s (by omega) (Nat.le_refl _) hBt hcur] at h2
    exact Memb_refilter h _ _ h2

theorem cstr_typed_at_end (text : List Nat) (b cursor : Nat) (hb : b ≠ 0)
    (hcur : cursor ≤ strlen text) (hfit : strlen text + 1 < text.length)
    (hz : byteAt (text.take cursor ++ [b].take 1 ++
      (text.drop cursor).take (text.length - cursor - 1)) (cursor + 1) = 0) :
    cstr (text.take cursor ++ [b].take 1 ++
      (text.drop cursor).take (text.length - cursor - 1)) = cstr text ++ [b] := by
  have hzb : 0 ∉ [b].take 1 := by simp [Ne.symm hb]
  have hcs := cstr_spliced text [b] cursor 1 hzb hcur hfit
  have hQ := strlen_cstr text
  have hsl : strlen (text.take cursor ++ [b].take 1 ++
      (text.drop cursor).take (text.length - cursor - 1)) = strlen text + 1 := by
    rw [← strlen_cstr, hcs]
    simp only [List.length_append, List.length_take, List.length_drop, hQ,
      List.length_singleton, List.take_succ_cons, List.take_zero]
    omega
  by_cases hend : cursor = strlen text
  · rw [hcs, hend, ← hQ, List.take_length, List.drop_length, List.append_nil]
    rfl
  · exfalso
    have hlt : cursor + 1 < strlen (text.take cursor ++ [b].take 1 ++
        (text.drop cursor).take (text.length - cursor - 1)) := by
      rw [hsl]; omega
    exact byteAt_ne_zero_of_lt _ _ hlt hz

theorem Memb_typed {B : Nat} (hB : B < 2 ^ 63) {s s' : State} (ht : TextInv false B s)
    (h : Memb s) (b : Nat) (hb : iscntrl b = false)
    (hi : insert [b] ((strlen [b] : Nat) : Int) s = some s') : Memb s' := by
  have hBt : s.text.length < 2 ^ 63 := by rw [ht.1]; exact hB
  have hne := iscntrl_ne_zero hb
  have hs1 : strlen [b] = 1 := by simp [strlen, hne]
  have hlen := strlen_le_length s.text
  rw [hs1] at hi
  by_cases hfit : strlen s.text + 1 < s.text.length
  · rw [insert_pos [b] 1 s (by omega) hBt ht.2.2.1 hfit] at hi
    by_cases hz : byteAt (s.text.take s.cursor ++ [b].take 1 ++
        (s.text.drop s.cursor).take (s.text.length - s.cursor - 1)) (s.cursor + 1) = 0
    · rw [decide_eq_true hz] at hi
      obtain ⟨l, hc, _, hcont⟩ := h
      exact Memb_match_true
        { s with text := s.text.take s.cursor ++ [b].take 1 ++
                   (s.text.drop s.cursor).take (s.text.length - s.cursor - 1),
                 cursor := s.cursor + 1 }
        s' l (cstr s.text) [b] hc.1 hc.2.1 hcont.2
        (cstr_typed_at_end s.text b s.cursor hne ht.2.2.1 hfit hz) hcont.1 hc.2.2.2.2.2.2 hi
    · rw [decide_eq_false hz] at hi
      exact Memb_refilter h _ _ hi
  · rw [insert_full [b] 1 s (by norm_num) hBt (by rw [ht.1]; exact ht.2.1) (by omega)] at hi
    rw [← Option.some.inj hi]
    exact h

theorem SelOk_some {s : State} {l : List Nat} {y : Nat} (hs : s.sel = some y) (hy : y ∈ l) :
    SelOk s l := by
  refine ⟨⟨fun h => ?_, fun h => ?_⟩, fun x hx => ?_⟩
  · rw [hs] at h; exact absurd h (by simp)
  · rw [h] at hy; exact absurd hy (List.not_mem_nil y)
  · rw [hs] at hx
    rw [← Option.some.inj hx]; exact hy

theorem SelOk_head {s : State} {l : List Nat} (hs : s.sel = l.head?) : SelOk s l := by
  cases l with
  | nil => exact ⟨⟨fun _ => rfl, fun _ => hs⟩, fun x hx => by rw [hs] at hx; exact absurd hx (by simp)⟩
  | cons y ys => exact SelOk_some hs (List.mem_cons_self _ _)

theorem SelOk_last {s : State} {l : List Nat} (hs : s.sel = l.getLast?) : SelOk s l := by
  cases hl : l.getLast? with
  | none =>
    have : l = [] := List.getLast?_eq_none_iff.1 hl
    subst this
    rw [hl] at hs
    exact ⟨⟨fun _ => rfl, fun _ => hs⟩, fun x hx => by rw [hs] at hx; exact absurd hx (by simp)⟩
  | some y =>
    rw [hl] at hs
    exact SelOk_some hs (getLast?_mem_of hl)

theorem left_mem {s : State} {l : List Nat} (hch : IsChain s l) {x y : Nat} (hx : x ∈ l)
    (hy : s.left x = some y) : y ∈ l := by
  obtain ⟨A, C, hAC⟩ := List.append_of_mem hx
  subst hAC
  rw [chain_left s A C x hch] at hy
  exact List.mem_append_left _ (getLast?_mem_of hy)

theorem right_mem {s : State} {l : List Nat} (hch : IsChain s l) {x y : Nat} (hx : x ∈ l)
    (hy : s.right x = some y) : y ∈ l := by
  obtain ⟨A, C, hAC⟩ := List.append_of_mem hx
  subst hAC
  rw [chain_right s A C x hch] at hy
  exact List.mem_append_right _ (List.mem_cons_of_mem _ (head?_mem_of hy))

theorem Memb_nav {s s' : State} {l : List Nat} (hc : Core s l) (hcont : Content s l)
    (a b : Option Nat) (hb : ∀ x, b = some x → x ∈ l) (y : Nat) (ha : a = some y)
    (hy : y ∈ l) (hk : calcoffsets { s with sel := a, curr := b } = some s') : Memb s' := by
  obtain ⟨hcore, hsel, _, hconf⟩ := Core_calc s s' l hc a b hb hk
  exact ⟨l, hcore, SelOk_some (hsel.trans ha) hy, Content_conf hconf hcont⟩

theorem Memb_selectPrev {s s' : State} (h : Memb s) (hd : selectPrev s = some s') :
    Memb s' := by
  obtain ⟨l, hc, hsel, hcont⟩ := h
  unfold selectPrev at hd
  cases hx : s.sel with
  | none => rw [hx] at hd; rw [← Option.some.inj hd]; exact ⟨l, hc, hsel, hcont⟩
  | some x =>
    rw [hx] at hd
    simp only [] at hd
    cases hy : s.left x with
    | none => rw [hy] at hd; rw [← Option.some.inj hd]; exact ⟨l, hc, hsel, hcont⟩
    | some y =>
      rw [hy] at hd
      simp only [] at hd
      have hyl : y ∈ l := left_mem hc.1 (hsel.2 x hx) hy
      by_cases hcnd : s.right y = s.curr
      · rw [if_pos hcnd] at hd
        exact Memb_nav hc hcont (some y) s.prev hc.2.2.2.2.2.1 y rfl hyl hd
      · rw [if_neg hcnd] at hd
        rw [← Option.some.inj hd]
        exact ⟨l, hc, SelOk_some rfl hyl, hcont⟩

theorem Memb_selectNext {s s' : State} (h : Memb s) (hd : selectNext s = some s') :
    Memb s' := by
  obtain ⟨l, hc, hsel, hcont⟩ := h
  unfold selectNext at hd
  cases hx : s.sel with
  | none => rw [hx] at hd; rw [← Option.some.inj hd]; exact ⟨l, hc, hsel, hcont⟩
  | some x =>
    rw [hx] at hd
    simp only [] at hd
    cases hy : s.right x with
    | none => rw [hy] at hd; rw [← Option.some.inj hd]; exact ⟨l, hc, hsel, hcont⟩
    | some y =>
      rw [hy] at hd
      simp only [] at hd
      have hyl : y ∈ l := right_mem hc.1 (hsel.2 x hx) hy
      by_cases hcnd : some y = s.next
      · rw [if_pos hcnd] at hd
        exact Memb_nav hc hcont (some y) s.next hc.2.2.2.2.1 y rfl hyl hd
      · rw [if_neg hcnd] at hd
        rw [← Option.some.inj hd]
        exact ⟨l, hc, SelOk_some rfl hyl, hcont⟩

theorem Core_curr {s : State} {l : List Nat} (h : Core s l) (b : Option Nat)
    (hb : ∀ x, b = some x → x ∈ l) : Core { s with curr := b } l :=
  ⟨h.1, h.2.1, h.2.2.1, hb, h.2.2.2.2.1, h.2.2.2.2.2.1, h.2.2.2.2.2.2⟩

theorem endLoop_core (l : List Nat) : ∀ (fuel : Nat) (s s' : State), Core s l →
    endLoop fuel s = some s' → Core s' l ∧ s'.sel = s.sel ∧ SameConf s s' := by
  intro fuel
  induction fuel with
  | zero =>
    intro s s' hc h
    rw [endLoop] at h
    split at h
    · rw [← Option.some.inj h]; exact ⟨hc, rfl, SameConf.refl _⟩
    · split at h
      · exact absurd h (by simp)
      · split at h
        · rw [← Option.some.inj h]
          exact ⟨Core_curr hc none (fun x hx => absurd hx (by simp)), rfl, SameConf.refl _⟩
        · exact absurd h (by simp)
  | succ f ih =>
    intro s s' hc h
    rw [endLoop] at h
    split at h
    · rw [← Option.some.inj h]; exact ⟨hc, rfl, SameConf.refl _⟩
    · split at h
      · exact absurd h (by simp)
      · rename_i c hcur
        split at h
        · rw [← Option.some.inj h]
          exact ⟨Core_curr hc none (fun x hx => absurd hx (by simp)), rfl, SameConf.refl _⟩
        · rename_i c1 hr1
          cases hk : calcoffsets { s with curr := some c1 } with
          | none => rw [hk] at h; exact absurd h (by simp)
          | some s1 =>
            rw [hk] at h
            have hc1 : c1 ∈ l := right_mem hc.1 (hc.2.2.2.1 c hcur) hr1
            obtain ⟨k1, k2, _, k4⟩ := Core_calc s s1 l hc s.sel (some c1)
              (fun x hx => by rw [← Option.some.inj hx]; exact hc1) hk
            obtain ⟨j1, j2, j3⟩ := ih s1 s' k1 h
            exact ⟨j1, j2.trans k2, k4.trans j3⟩

theorem keyEnd_of_none (s : State) (hz : byteAt s.text s.cursor = 0) (hn : s.next = none) :
    keyEnd s = some { s with sel := s.matchend } := by
  unfold keyEnd
  rw [if_neg (by simp [hz])]
  split
  · rfl
  · rename_i nx h
    rw [hn] at h
    exact absurd h (by simp)

theorem keyEnd_of_some (s : State) (hz : byteAt s.text s.cursor = 0) (nx : Nat)
    (hn : s.next = some nx) :
    keyEnd s =
      (calcoffsets { s with curr := s.matchend }).bind (fun s1 =>
        (calcoffsets { s1 with curr := s1.prev }).bind (fun s2 =>
          (endLoop (s.items.length + 1) s2).bind (fun s3 =>
            some { s3 with sel := s3.matchend }))) := by
  unfold keyEnd
  rw [if_neg (by simp [hz])]
  split
  · rename_i h
    rw [hn] at h
    exact absurd h (by simp)
  · cases calcoffsets { s with curr := s.matchend } with
    | none => rfl
    | some s1 =>
      simp only [Option.some_bind]
      cases calcoffsets { s1 with curr := s1.prev } with
      | none => rfl
      | some s2 =>
        simp only [Option.some_bind]
        cases endLoop (s.items.length + 1) s2 with
        | none => rfl
        | some s3 => rfl

theorem Memb_keyEnd {s s' : State} (h : Memb s) (hz : byteAt s.text s.cursor = 0)
    (hk : keyEnd s = some s') : Memb s' := by
  obtain ⟨l, hc, hsel, hcont⟩ := h
  have hlast := chain_last s l hc.1
  cases hn : s.next with
  | none =>
    rw [keyEnd_of_none s hz hn] at hk
    rw [← Option.some.inj hk]
    exact ⟨l, hc, SelOk_last hlast, hcont⟩
  | some nx =>
    rw [keyEnd_of_some s hz nx hn] at hk
    have hme : ∀ x, s.matchend = some x → x ∈ l := fun x hx => by
      rw [hlast] at hx; exact getLast?_mem_of hx
    cases hc1 : calcoffsets { s with curr := s.matchend } with
    | none => rw [hc1] at hk; exact absurd hk (by simp)
    | some s1 =>
      rw [hc1] at hk
      simp only [Option.some_bind] at hk
      obtain ⟨k1, _, _, k4⟩ := Core_calc s s1 l hc s.sel s.matchend hme hc1
      cases hc2 : calcoffsets { s1 with curr := s1.prev } with
      | none => rw [hc2] at hk; exact absurd hk (by simp)
      | some s2 =>
        rw [hc2] at hk
        simp only [Option.some_bind] at hk
        obtain ⟨m1, _, _, m4⟩ := Core_calc s1 s2 l k1 s1.sel s1.prev k1.2.2.2.2.2.1 hc2
        cases hc3 : endLoop (s.items.length + 1) s2 with
        | none => rw [hc3] at hk; exact absurd hk (by simp)
        | some s3 =>
          rw [hc3] at hk
          simp only [Option.some_bind] at hk
          rw [← Option.some.inj hk]
          obtain ⟨j1, _, j3⟩ := endLoop_core l _ s2 s3 m1 hc3
          have hl3 := chain_last s3 l j1.1
          exact ⟨l, j1, SelOk_last hl3, Content_conf (k4.trans (m4.trans j3)) hcont⟩

theorem Op_Memb {B : Nat} (hB : B < 2 ^ 63) {s s' : State} (ho : Op s s')
    (ht : TextInv false B s) (h : Memb s) : Memb s' := by
  cases ho with
  | fwd _ h1 => exact Memb_cursor _ h
  | bwd _ h1 => exact Memb_cursor _ h
  | bol => exact Memb_cursor _ h
  | eol => exact Memb_cursor _ h
  | del _ _ h1 hd => exact Memb_deleteBack hB ht h h1 hd
  | killLeft _ _ hd => exact Memb_killLeft hB ht h hd
  | typed b _ _ hb hd => exact Memb_typed hB ht h b hb hd
  | kill _ _ hd => exact Memb_refilter h _ _ hd
  | home _ _ hd =>
    obtain ⟨l, hc, _, hcont⟩ := h
    have hfirst := chain_first s l hc.1
    obtain ⟨k1, k2, _, k4⟩ := Core_calc s s' l hc s.matches_ s.matches_
      (fun x hx => by rw [hfirst] at hx; exact head?_mem_of hx) hd
    exact ⟨l, k1, SelOk_head (k2.trans hfirst), Content_conf k4 hcont⟩
  | endk _ _ hz hd => exact Memb_keyEnd h hz hd
  | prev _ _ hd => exact Memb_selectPrev h hd
  | next _ _ hd => exact Memb_selectNext h hd
  | pgup _ _ hp hd =>
    obtain ⟨l, hc, _, hcont⟩ := h
    cases hpv : s.prev with
    | none => exact absurd hpv hp
    | some y =>
      exact Memb_nav hc hcont s.prev s.prev hc.2.2.2.2.2.1 y hpv (hc.2.2.2.2.2.1 y hpv) hd
  | pgdn _ _ hp hd =>
    obtain ⟨l, hc, _, hcont⟩ := h
    cases hpv : s.next with
    | none => exact absurd hpv hp
    | some y =>
      exact Memb_nav hc hcont s.next s.next hc.2.2.2.2.1 y hpv (hc.2.2.2.2.1 y hpv) hd

theorem Ops_Memb {B : Nat} (hB : B < 2 ^ 63) {s s' : State} (ho : Ops s s')
    (ht : TextInv false B s) (h : Memb s) : TextInv false B s' ∧ Memb s' := by
  induction ho with
  | refl => exact ⟨ht, h⟩
  | tail _ h2 ih => exact ⟨Op_TextInv hB h2 ih.1, Op_Memb hB h2 ih.1 ih.2⟩

theorem SameGeom_refl (s : State) : SameGeom s s := ⟨rfl, rfl, rfl, rfl, rfl, rfl⟩

theorem SameGeom_trans {s1 s2 s3 : State} (h1 : SameGeom s1 s2) (h2 : SameGeom s2 s3) :
    SameGeom s1 s3 :=
  ⟨h2.1.trans h1.1, h2.2.1.trans h1.2.1, h2.2.2.1.trans h1.2.2.1,
    h2.2.2.2.1.trans h1.2.2.2.1, h2.2.2.2.2.1.trans h1.2.2.2.2.1,
    h2.2.2.2.2.2.trans h1.2.2.2.2.2⟩

theorem SameGeom_of_conf {s s' : State} (h : SameConf s s') : SameGeom s s' :=
  ⟨h.2.1, h.2.2.1, h.2.2.2.1, h.2.2.2.2.1, h.2.2.2.2.2.2.1, h.2.2.2.2.2.2.2⟩

theorem insert_geom (str : List Nat) (n : Int) (s s' : State)
    (h : insert str n s = some s') : SameGeom s s' := by
  unfold insert at h
  by_cases hc : toSize (strlen s.text + n) > toSize ((sizeofText s : Int) - 1)
  · rw [if_pos hc] at h
    rw [← Option.some.inj h]; exact SameGeom_refl _
  · rw [if_neg hc] at h
    have h1 := SameGeom_of_conf (match_conf _ _ _ h)
    exact h1

theorem keyEnd_geom (s s' : State) (hz : byteAt s.text s.cursor = 0)
    (hk : keyEnd s = some s') : SameGeom s s' := by
  cases hn : s.next with
  | none =>
    rw [keyEnd_of_none s hz hn] at hk
    rw [← Option.some.inj hk]; exact SameGeom_refl _
  | some nx =>
    rw [keyEnd_of_some s hz nx hn] at hk
    cases hc1 : calcoffsets { s with curr := s.matchend } with
    | none => rw [hc1] at hk; exact absurd hk (by simp)
    | some s1 =>
      rw [hc1] at hk
      simp only [Option.some_bind] at hk
      cases hc2 : calcoffsets { s1 with curr := s1.prev } with
      | none => rw [hc2] at hk; exact absurd hk (by simp)
      | some s2 =>
        rw [hc2] at hk
        simp only [Option.some_bind] at hk
        cases hc3 : endLoop (s.items.length + 1) s2 with
        | none => rw [hc3] at hk; exact absurd hk (by simp)
        | some s3 =>
          rw [hc3] at hk
          simp only [Option.some_bind] at hk
          rw [← Option.some.inj hk]
          have g1' := SameGeom_of_conf (calcoffsets_conf _ _ hc1)
          have g1 : SameGeom s s1 := g1'
          have g2' := SameGeom_of_conf (calcoffsets_conf _ _ hc2)
          have g2 : SameGeom s1 s2 := g2'
          have g3 : SameGeom s2 s3 := SameGeom_of_conf (endLoop_conf _ _ _ hc3)
          exact SameGeom_trans g1 (SameGeom_trans g2 g3)

theorem Op_geom {s s' : State} (ho : Op s s') : SameGeom s s' := by
  cases ho with
  | fwd _ h1 => exact SameGeom_refl _
  | bwd _ h1 => exact SameGeom_refl _
  | bol => exact SameGeom_refl _
  | eol => exact SameGeom_refl _
  | del _ _ h1 hd => exact insert_geom _ _ _ _ hd
  | killLeft _ _ hd => exact insert_geom _ _ _ _ hd
  | typed b _ _ hb hd => exact insert_geom _ _ _ _ hd
  | kill _ _ hd =>
    have h1 := SameGeom_of_conf (match_conf _ _ _ hd)
    exact h1
  | home _ _ hd =>
    have h1 := SameGeom_of_conf (calcoffsets_conf _ _ hd)
    exact h1
  | endk _ _ hz hd => exact keyEnd_geom _ _ hz hd
  | prev _ _ hd => exact SameGeom_of_conf (selectPrev_conf _ _ hd)
  | next _ _ hd => exact SameGeom_of_conf (selectNext_conf _ _ hd)
  | pgup _ _ hp hd =>
    have h1 := SameGeom_of_conf (calcoffsets_conf _ _ hd)
    exact h1
  | pgdn _ _ hp hd =>
    have h1 := SameGeom_of_conf (calcoffsets_conf _ _ hd)
    exact h1

theorem Ops_geom {s s' : State} (ho : Ops s s') : SameGeom s s' := by
  induction ho with
  | refl => exact SameGeom_refl _
  | tail _ h2 ih => exact SameGeom_trans ih (Op_geom h2)

/-- C15: selection membership.  In a session over a pool of texts without NUL
bytes, in every state in which `run` waits after any input bytes, the state has
a match chain `l` (from `matches` along `right` to `NULL`, and back from
`matchend` along `left`); `sel` is `NULL` exactly when the chain is empty, and
otherwise `sel` is an item of the chain; and the chain holds exactly the items
of the pool whose text contains the current query. -/
theorem selection_member (bufsiz : Nat) (h0 : 0 < bufsiz) (hB : bufsiz < 2 ^ 63)
    (items : List (List Nat)) (hP : ∀ t ∈ items, 0 ∉ t) (icase : Bool)
    (lines mw inputw promptw : Int) (left right : Nat → Option Nat) (input : List Nat)
    (pc : Pc) (s : State)
    (hr : session (initial bufsiz items icase lines mw inputw promptw left right) input =
      Run.reading pc s) :
    ∃ l, IsChain s l ∧ (s.sel = none ↔ l = []) ∧ (∀ x, s.sel = some x → x ∈ l) ∧
      ∀ x, x ∈ l ↔
        x < items.length ∧ Contains icase (cstr s.text) ((items.get? x).getD []) := by
  obtain ⟨s0, hm, ht, ho⟩ := session_ops bufsiz h0 hB items icase lines mw inputw promptw
    left right input pc s hr
  have hM0 : Memb s0 := Memb_match_false _ s0 hP (fun _ => ⟨rfl, rfl⟩) hm
  have g0 : SameGeom (initial bufsiz items icase lines mw inputw promptw left right) s0 :=
    SameGeom_of_conf (match_conf _ _ _ hm)
  have g := SameGeom_trans g0 (Ops_geom ho)
  obtain ⟨_, l, hc, hsel, hcont⟩ := Ops_Memb hB ho ht hM0
  have hitems : s.items = items := g.2.2.2.2.1
  have hicase : s.icase = icase := g.2.2.2.2.2
  refine ⟨l, hc.1, hsel.1, hsel.2, ?_⟩
  intro x
  have := hcont.2 x
  unfold itemText at this
  rw [hitems, hicase] at this
  exact this

/-- C15 in the session with the pool [a, ab, b] after the keys "a", Ctrl-N. -/
theorem selection_member_witness :
    (0 < 16 ∧ 16 < 2 ^ 63) ∧ (∀ t ∈ [[97], [97, 98], [98]], 0 ∉ t) ∧
    session (initial 16 [[97], [97, 98], [98]] false 0 80 10 0 (fun _ => none)
        (fun _ => none)) [97, 14] =
      Run.reading Pc.top (demoAfter [[97], [97, 98], [98]] 0 80 10 0 [97, 14]) ∧
    ∃ l, IsChain (demoAfter [[97], [97, 98], [98]] 0 80 10 0 [97, 14]) l ∧
      ((demoAfter [[97], [97, 98], [98]] 0 80 10 0 [97, 14]).sel = none ↔ l = []) ∧
      (∀ x, (demoAfter [[97], [97, 98], [98]] 0 80 10 0 [97, 14]).sel = some x → x ∈ l) ∧
      ∀ x, x ∈ l ↔
        x < [[97], [97, 98], [98]].length ∧
          Contains false (cstr (demoAfter [[97], [97, 98], [98]] 0 80 10 0 [97, 14]).text)
            (([[97], [97, 98], [98]].get? x).getD []) :=
  ⟨⟨by decide, by decide⟩, by decide, reading_of_waits _ (by decide),
    selection_member 16 (by decide) (by decide) [[97], [97, 98], [98]] (by decide) false
      0 80 10 0 (fun _ => none) (fun _ => none) [97, 14] Pc.top
      (demoAfter [[97], [97, 98], [98]] 0 80 10 0 [97, 14])
      (reading_of_waits _ (by decide))⟩

theorem contains_self (icase : Bool) (q : List Nat) : Contains icase q q :=
  List.infix_refl _

theorem Sized_conf {s s' : State} (h : SameConf s s') (hz : Sized s) : Sized s' := by
  unfold Sized at hz ⊢
  rw [h.2.2.1, h.2.2.2.2.2.2.1]
  exact hz

theorem codeBands_nil (s : State) (k : Nat) : codeBands s k [] = [] := rfl

/-- With no match, no window and (in the vertical layout) no `next`, the loops
of `drawmenu` draw no item. -/
theorem drawItems_empty (s : State) (hm : s.matches_ = none) (hc : s.curr = none)
    (hv : s.lines > 0 → s.next = none) : drawItems s = Drawn.done [] := by
  unfold drawItems
  by_cases hl : s.lines > 0
  · rw [if_pos hl, hc]
    cases s.lines.toNat with
    | zero => rfl
    | succ k => rw [drawVert_succ, if_pos (hv hl).symm]
  · rw [if_neg hl, hm]
    rfl

theorem drawmenu_of_head (s : State) (h : drawHead s = true) : drawmenu s = Drawn.died := by
  unfold drawmenu
  rw [if_pos h]

theorem drawmenu_items (s : State) (h : drawHead s = false) : drawmenu s = drawItems s := by
  unfold drawmenu
  rw [if_neg (by rw [h]; simp)]

/-- The call `match(TRUE)` of Enter in a well-formed state: it returns, the
new chain holds the items of the old one that match, and the menu is drawn
without a read at `NULL`, and without dying when the two calls of `drawtext`
at the head of `drawmenu` do not die. -/
theorem enter_draws (s : State) (l : List Nat) (h : Wf s l) :
    ∃ s', match_ true s = some s' ∧ SameConf s s' ∧
      IsChain s' (codeBands s 0 l ++ codeBands s 1 l ++ codeBands s 2 l) ∧
      s'.curr = s'.matches_ ∧ (s.lines > 0 → s'.next = none) ∧
      (Sized s → drawHead s' = false → ∃ d, drawmenu s' = Drawn.done d) := by
  obtain ⟨hl, hnd, hlt, hv⟩ := h
  obtain ⟨s', hm, hch, hcurr, _, hconf, hnv, hseg⟩ :=
    match_spec true s l (visit_chain s l hl hlt) hnd hlt
  have hlines : s'.lines = s.lines := hconf.2.1
  have hitems : s'.items = s.items := hconf.2.2.2.2.2.2.1
  have hv' : s.lines > 0 → s'.next = none := fun h0 => by rw [hnv h0]; exact hv h0
  refine ⟨s', hm, hconf, hch, hcurr, hv', fun hz hh => ?_⟩
  exact drawmenu_done s' hh (fun h0 => hv' (by rw [← hlines]; exact h0))
    (fun _ h0 => by rw [hcurr]; exact h0)
    (fun h0 => by
      obtain ⟨l1, hs, hlen⟩ := hseg (by rw [← hlines]; exact h0)
      exact ⟨l1, hs, by rw [hitems]; exact hlen⟩)
    (Sized_conf hconf hz)

theorem match_keeps (s0 s' : State) (l : List Nat) (x : Nat)
    (hch : IsChain s' (codeBands s0 0 l ++ codeBands s0 1 l ++ codeBands s0 2 l))
    (hP : ∀ t ∈ s0.items, 0 ∉ t) (hx : x ∈ l)
    (hc : Contains s0.icase (cstr s0.text) (itemText s0 x)) : s'.matches_.isSome = true := by
  have hL : x ∈ codeBands s0 0 l ++ codeBands s0 1 l ++ codeBands s0 2 l := by
    rw [codeBands_eq s0 hP l, mem_banded]
    exact ⟨hx, hc⟩
  rw [chain_first s' _ hch]
  cases hl : codeBands s0 0 l ++ codeBands s0 1 l ++ codeBands s0 2 l with
  | nil => rw [hl] at hL; exact absurd hL (List.not_mem_nil x)
  | cons a as => rfl

/-! ## The claims about the keys that end the session -/

/-- C11 as stated fails: with the pool [ab] and the typed query "a" the item ab
is selected, and Ctrl-] (byte 29) writes the raw text "a", not the text of the
selected item. -/
theorem raw_accept_with_selection :
    ∃ s0 s1, session (initial 16 [[97, 98]] false 0 80 10 0 (fun _ => none) (fun _ => none))
        [97] = Run.reading Pc.top s0 ∧ s0.sel = some 0 ∧ itemText s0 0 = [97, 98] ∧
      session (initial 16 [[97, 98]] false 0 80 10 0 (fun _ => none) (fun _ => none))
        [97, 29] = Run.returned 0 [[97]] s1 :=
  ⟨_, _, rfl, rfl, rfl, rfl⟩

/-- C11, amended: in a well-formed state in which `run` waits (the menu has
been drawn), with a pool of strings and sizes as `setup` leaves them, in which
the item `x` of the chain is selected and its text fits into the buffer, Enter
and Ctrl-J (bytes 13 and 10) write the text of the selected item and return the
success status 0, while Ctrl-] and Ctrl-\ (bytes 29 and 28) write the raw query
text and return the success status. -/
theorem accept_keys (s : State) (l : List Nat) (x : Nat) (d : List (Nat × Nat))
    (h : Wf s l) (hx : x ∈ l) (hsel : s.sel = some x)
    (hfit : strlen (itemText s x) < s.text.length) (hP : ∀ t ∈ s.items, 0 ∉ t)
    (hd : drawmenu s = Drawn.done d) (hz : Sized s) :
    (∀ c, c = 13 ∨ c = 10 →
      ∃ s', step (Run.reading Pc.top s) c = Run.returned 0 [cstr (itemText s x)] s') ∧
    (∀ c, c = 29 ∨ c = 28 →
      step (Run.reading Pc.top s) c = Run.returned 0 [cstr s.text] s) := by
  constructor
  · intro c hc
    have hc' : c % 256 = 13 ∨ c % 256 = 10 := by
      rcases hc with hc | hc <;> subst hc <;> simp
    have ht : cstr (strncpy (itemText s x) (sizeofText s)) = itemText s x := by
      rw [show sizeofText s = s.text.length from rfl, cstr_strncpy _ _ hfit]
      exact cstr_of_no_zero _ (itemText_no_zero s hP x)
    obtain ⟨s', hm, hconf, hch, _, _, hdone⟩ := enter_draws
      { s with text := strncpy (itemText s x) (sizeofText s),
               cursor := strlen (strncpy (itemText s x) (sizeofText s)) } l h
    have hm1 : s'.matches_.isSome = true :=
      match_keeps
        { s with text := strncpy (itemText s x) (sizeofText s),
                 cursor := strlen (strncpy (itemText s x) (sizeofText s)) } s' l x hch hP hx
        (by
          show Contains s.icase (cstr (strncpy (itemText s x) (sizeofText s))) (itemText s x)
          rw [ht]
          exact contains_self _ _)
    have hm0 : s.matches_.isSome = true := by
      rw [chain_first s l h.1]
      cases l with
      | nil => exact absurd hx (List.not_mem_nil x)
      | cons a as => rfl
    have hh : drawHead s' = false := by
      rw [drawHead_congr s s' hconf.2.1 hconf.2.2.1 hconf.2.2.2.2.1 hconf.2.2.2.1
        (by rw [hm1, hm0])]
      exact drawHead_of_done hd
    obtain ⟨d1, hd1⟩ := hdone hz hh
    refine ⟨s', ?_⟩
    show switchTop (c % 256) (c % 256) s = _
    rw [enter_returns (c % 256) (c % 256) s s' _ d1 hc' (by rw [hsel]) hm hd1]
    have e : s'.text = strncpy (itemText s x) (sizeofText s) := hconf.1
    rw [e, ht, cstr_of_no_zero _ (itemText_no_zero s hP x)]
  · intro c hc
    have hc' : c % 256 = 29 ∨ c % 256 = 28 := by
      rcases hc with hc | hc <;> subst hc <;> simp
    show switchTop (c % 256) (c % 256) s = _
    rw [switchTop_raw _ _ s hc']
    rfl

/-- C11, amended, at the state after typing "a" with the pool [ab, ac]: the item
ab is selected. -/
theorem accept_keys_witness :
    Wf (demoAfter [[97, 98], [97, 99]] 0 80 10 0 [97]) [0, 1] ∧
    (demoAfter [[97, 98], [97, 99]] 0 80 10 0 [97]).sel = some 0 ∧
    strlen (itemText (demoAfter [[97, 98], [97, 99]] 0 80 10 0 [97]) 0) <
      (demoAfter [[97, 98], [97, 99]] 0 80 10 0 [97]).text.length ∧
    drawmenu (demoAfter [[97, 98], [97, 99]] 0 80 10 0 [97]) = Drawn.done [(0, 4), (1, 4)] ∧
    Sized (demoAfter [[97, 98], [97, 99]] 0 80 10 0 [97]) ∧
    ((∀ c, c = 13 ∨ c = 10 →
      ∃ s', step (Run.reading Pc.top (demoAfter [[97, 98], [97, 99]] 0 80 10 0 [97])) c =
        Run.returned 0 [cstr (itemText (demoAfter [[97, 98], [97, 99]] 0 80 10 0 [97]) 0)] s') ∧
    (∀ c, c = 29 ∨ c = 28 →
      step (Run.reading Pc.top (demoAfter [[97, 98], [97, 99]] 0 80 10 0 [97])) c =
        Run.returned 0 [cstr (demoAfter [[97, 98], [97, 99]] 0 80 10 0 [97]).text]
          (demoAfter [[97, 98], [97, 99]] 0 80 10 0 [97]))) :=
  ⟨by decide, by decide, by decide, rfl, by decide,
    accept_keys (demoAfter [[97, 98], [97, 99]] 0 80 10 0 [97]) [0, 1] 0 [(0, 4), (1, 4)]
      (by decide) (by decide) (by decide) (by decide) (by decide) rfl (by decide)⟩

/-- Enter and Ctrl-J in a state with an empty chain that has been drawn. -/
theorem enter_raw (b c : Nat) (s : State) (d : List (Nat × Nat)) (h : Wf s [])
    (hsel : s.sel = none) (hd : drawmenu s = Drawn.done d) (hc : c = 13 ∨ c = 10) :
    ∃ s', switchTop b c s = Run.returned 0 [cstr s.text] s' := by
  obtain ⟨s', hm, hconf, hch, hcurr, hnv, _⟩ := enter_draws
    { s with text := s.text, cursor := strlen s.text } [] h
  have hm1 : s'.matches_ = none := chain_first s' [] hch
  have hm0 : s.matches_ = none := chain_first s [] h.1
  have hh : drawHead s' = false := by
    rw [drawHead_congr s s' hconf.2.1 hconf.2.2.1 hconf.2.2.2.2.1 hconf.2.2.2.1
      (by rw [hm1, hm0])]
    exact drawHead_of_done hd
  have hlines : s'.lines = s.lines := hconf.2.1
  have hd1 : drawmenu s' = Drawn.done [] := by
    rw [drawmenu_items s' hh]
    exact drawItems_empty s' hm1 (by rw [hcurr, hm1])
      (fun h0 => hnv (by rw [← hlines]; exact h0))
  refine ⟨s', ?_⟩
  rw [enter_returns b c s s' s.text [] hc (by rw [hsel]) hm hd1]
  have e : s'.text = s.text := hconf.1
  rw [e]

/-- C12: Accept without a selection.  For each of the four Accept keys (bytes
13, 10, 29, 28), in every well-formed state in which `run` waits (the menu has
been drawn) with an empty chain and no item selected, `run` writes the raw
query text and returns the success status 0.  In a session with an empty pool,
the key pressed at once, for every buffer size and all sizes: when `drawmenu`
does not die in drawing the prompt or the text (it dies, for one, with a prompt
wider than the terminal), `run` writes the empty string and returns the success
status; and when it dies, the process ends with the status 1 before the key is
read. -/
theorem accept_raw (c : Nat) (hc : c = 13 ∨ c = 10 ∨ c = 29 ∨ c = 28) (s : State)
    (d : List (Nat × Nat)) (h : Wf s []) (hsel : s.sel = none)
    (hd : drawmenu s = Drawn.done d) :
    (∃ s', step (Run.reading Pc.top s) c = Run.returned 0 [cstr s.text] s') ∧
    (∀ (bufsiz : Nat) (icase : Bool) (lines mw inputw promptw : Int)
        (left right : Nat → Option Nat),
      (drawHead (initial bufsiz [] icase lines mw inputw promptw left right) = false →
        ∃ s', session (initial bufsiz [] icase lines mw inputw promptw left right) [c] =
          Run.returned 0 [[]] s') ∧
      (drawHead (initial bufsiz [] icase lines mw inputw promptw left right) = true →
        session (initial bufsiz [] icase lines mw inputw promptw left right) [c] =
          Run.died)) := by
  have key : ∀ (s : State) (d : List (Nat × Nat)), Wf s [] → s.sel = none →
      drawmenu s = Drawn.done d →
      ∃ s', step (Run.reading Pc.top s) c = Run.returned 0 [cstr s.text] s' := by
    intro s d h hsel hd
    show ∃ s', switchTop (c % 256) (c % 256) s = _
    by_cases h1 : c = 13 ∨ c = 10
    · have hc' : c % 256 = 13 ∨ c % 256 = 10 := by
        rcases h1 with h1 | h1 <;> subst h1 <;> simp
      exact enter_raw (c % 256) (c % 256) s d h hsel hd hc'
    · have hc' : c % 256 = 29 ∨ c % 256 = 28 := by
        rcases hc with hc | hc | hc | hc
        · exact absurd (Or.inl hc) h1
        · exact absurd (Or.inr hc) h1
        · subst hc; simp
        · subst hc; simp
      exact ⟨s, by rw [switchTop_raw _ _ s hc']; rfl⟩
  refine ⟨key s d h hsel hd, ?_⟩
  intro bufsiz icase lines mw inputw promptw left right
  obtain ⟨s0, l0, hm, _, hwf, hconf, hcurr, hsel0, _⟩ := match_wf false _ []
    (Wf_initial bufsiz [] icase lines mw inputw promptw left right)
  have hitems : s0.items = [] := hconf.2.2.2.2.2.2.1
  have hl0 : l0 = [] := by
    cases l0 with
    | nil => rfl
    | cons x xs =>
      have := hwf.2.2.1 x (List.mem_cons_self x xs)
      rw [hitems] at this
      exact absurd this (by simp)
  subst hl0
  have hm0 : s0.matches_ = none := chain_first s0 [] hwf.1
  have hhead : drawHead s0 =
      drawHead (initial bufsiz [] icase lines mw inputw promptw left right) :=
    drawHead_congr _ s0 hconf.2.1 hconf.2.2.1 hconf.2.2.2.2.1 hconf.2.2.2.1
      (by rw [hm0]; rfl)
  have ht : s0.text = List.replicate bufsiz 0 := hconf.1
  constructor
  · intro hh
    have hd0 : drawmenu s0 = Drawn.done [] := by
      rw [drawmenu_items s0 (by rw [hhead]; exact hh)]
      exact drawItems_empty s0 hm0 (by rw [hcurr, hm0]) hwf.2.2.2
    obtain ⟨s', hs'⟩ := key s0 [] hwf (by rw [hsel0, hm0]) hd0
    refine ⟨s', ?_⟩
    show List.foldl step (redraw (match_ false _)) [c] = _
    rw [hm, redraw_done hd0, List.foldl_cons, List.foldl_nil, hs', ht, cstr_replicate_zero]
  · intro hh
    show List.foldl step (redraw (match_ false _)) [c] = _
    rw [hm, redraw_died (drawmenu_of_head s0 (by rw [hhead]; exact hh))]
    rfl

/-- C12 at Enter (byte 13) in the state after typing "x" with the pool [a]: no
item matches, and Enter writes the text "x"; with an empty pool and a terminal
of 80 columns, Enter at once writes the empty string without a prompt and dies
with a prompt of 81 columns. -/
theorem accept_raw_witness :
    (13 = 13 ∨ 13 = 10 ∨ 13 = 29 ∨ 13 = 28) ∧
    Wf (demoAfter [[97]] 0 80 10 0 [120]) [] ∧
    (demoAfter [[97]] 0 80 10 0 [120]).sel = none ∧
    drawmenu (demoAfter [[97]] 0 80 10 0 [120]) = Drawn.done [] ∧
    cstr (demoAfter [[97]] 0 80 10 0 [120]).text = [120] ∧
    (∃ s', step (Run.reading Pc.top (demoAfter [[97]] 0 80 10 0 [120])) 13 =
      Run.returned 0 [cstr (demoAfter [[97]] 0 80 10 0 [120]).text] s') ∧
    (∃ s', session (initial 16 [] false 0 80 10 0 (fun _ => none) (fun _ => none)) [13] =
      Run.returned 0 [[]] s') ∧
    session (initial 16 [] false 0 80 10 81 (fun _ => none) (fun _ => none)) [13] =
      Run.died :=
  ⟨by decide, by decide, by decide, rfl, by decide,
    (accept_raw 13 (by decide) (demoAfter [[97]] 0 80 10 0 [120]) [] (by decide) (by decide)
      rfl).1,
    ((accept_raw 13 (by decide) (demoAfter [[97]] 0 80 10 0 [120]) [] (by decide) (by decide)
      rfl).2 16 false 0 80 10 0 (fun _ => none) (fun _ => none)).1 (by decide),
    ((accept_raw 13 (by decide) (demoAfter [[97]] 0 80 10 0 [120]) [] (by decide) (by decide)
      rfl).2 16 false 0 80 10 81 (fun _ => none) (fun _ => none)).2 (by decide)⟩

/-- The case of Ctrl-P in a well-formed state that has been drawn, with `prev`
in the chain: `run` goes on reading. -/
theorem selectPrev_draws (s : State) (l : List Nat) (d : List (Nat × Nat)) (hwf : Wf s l)
    (hd : drawmenu s = Drawn.done d) (hz : Sized s) (hpl : InChain s.prev l)
    (hp0 : ¬ s.lines > 0 → s.matches_.isSome = true → s.prev.isSome = true) :
    ∃ s', selectPrev s = some s' ∧ (∃ d', drawmenu s' = Drawn.done d') ∧
      (s.sel = none ∨ s.sel.bind s.left = none → s' = s) := by
  unfold selectPrev
  cases hx : s.sel with
  | none => exact ⟨s, rfl, ⟨d, hd⟩, fun _ => rfl⟩
  | some x =>
    simp only []
    cases hy : s.left x with
    | none => exact ⟨s, rfl, ⟨d, hd⟩, fun _ => rfl⟩
    | some y =>
      simp only []
      have hno : ¬ (some x = none ∨ (some x).bind s.left = none) := by
        rintro (h1 | h1)
        · exact absurd h1 (by simp)
        · rw [Option.some_bind, hy] at h1
          exact absurd h1 (by simp)
      by_cases hcnd : s.right y = s.curr
      · rw [if_pos hcnd]
        obtain ⟨l1, l2, h1, h2, hl1, hl2, _, _⟩ := walks_from s l hwf.1 s.prev hpl
        have hL := chain_length hwf.2.1 hwf.2.2.1
        obtain ⟨s', hk, hs', _, _, hvn, hseg⟩ :=
          calcoffsets_some { s with sel := some y, curr := s.prev } l1 l2 h1 h2
            (by show l1.length ≤ s.items.length + 1; omega)
            (by show l2.length ≤ s.items.length + 1; omega)
        have e : s'.lines = s.lines ∧ s'.mw = s.mw ∧ s'.promptw = s.promptw ∧
            s'.inputw = s.inputw ∧ s'.matches_ = s.matches_ ∧ s'.items = s.items ∧
            s'.curr = s.prev ∧ s'.right = s.right := by
          rw [hs']
          exact ⟨rfl, rfl, rfl, rfl, rfl, rfl, rfl, rfl⟩
        obtain ⟨e1, e2, e3, e4, e5, e6, e7, e8⟩ := e
        have hh : drawHead s' = false := by
          rw [drawHead_congr s s' e1 e2 e3 e4 (by rw [e5])]
          exact drawHead_of_done hd
        have hdone := drawmenu_done s' hh
          (fun h0 => by
            rw [e1] at h0
            have := hvn h0
            rw [this]
            exact hwf.2.2.2 h0)
          (fun h0 h1 => by
            rw [e1] at h0
            rw [e5] at h1
            rw [e7]
            exact hp0 h0 h1)
          (fun h0 => by
            rw [e1] at h0
            obtain ⟨l3, hs3, hlen3⟩ := hseg h0
            refine ⟨l3, ?_, by rw [e6]; omega⟩
            rw [e8, e7]
            exact hs3)
          (by
            unfold Sized at hz ⊢
            rw [e2, e6]
            exact hz)
        exact ⟨s', hk, hdone, fun h0 => absurd h0 hno⟩
      · rw [if_neg hcnd]
        refine ⟨_, rfl, ⟨d, ?_⟩, fun h0 => absurd h0 hno⟩
        rw [drawmenu_congr s { s with sel := some y } rfl rfl rfl rfl rfl rfl rfl rfl rfl]
        exact hd

/-- C14 as stated fails: with the pool [a, ab], after "a" and Ctrl-N the cursor
is at offset 1 and the item ab is selected; Ctrl-B (byte 2) then leaves the
cursor at offset 1 and moves the selection to the item a. -/
theorem left_moves_selection :
    ∃ s1 s2,
      session (initial 16 [[97], [97, 98]] false 0 80 10 0 (fun _ => none) (fun _ => none))
        [97, 14] = Run.reading Pc.top s1 ∧ s1.cursor = 1 ∧ s1.sel = some 1 ∧
      session (initial 16 [[97], [97, 98]] false 0 80 10 0 (fun _ => none) (fun _ => none))
        [97, 14, 2] = Run.reading Pc.top s2 ∧ s2.cursor = 1 ∧ s2.sel = some 0 :=
  ⟨_, _, rfl, rfl, rfl, rfl, rfl, rfl⟩

/-- C14, amended: in a well-formed state in which `run` waits (the menu has
been drawn, `prev` is an item of the chain, and one is set in the horizontal
layout while there are matches), with sizes as `setup` leaves them and the
cursor inside the text, Ctrl-B (byte 2) moves the cursor one code point left,
leaving every other variable, exactly when `cursor > 0` and either no item is
selected, or the selected item has no left neighbour, or the layout is
vertical.  Otherwise (the cursor is at 0, or an item with a left neighbour is
selected in the horizontal layout) Ctrl-B does what Ctrl-P (byte 16) does, and
`run` goes on reading in a state `s'` with the cursor and the text as they
were, in which the left neighbour of the selected item is selected if there is
one, and which is the state `s` if there is none.  The Left arrow (ESC [ D)
does what Ctrl-B does. -/
theorem move_left_contract (s : State) (l : List Nat) (d : List (Nat × Nat)) (hwf : Wf s l)
    (hd : drawmenu s = Drawn.done d) (hz : Sized s) (hpl : InChain s.prev l)
    (hp0 : ¬ s.lines > 0 → s.matches_.isSome = true → s.prev.isSome = true)
    (hB : s.text.length < 2 ^ 63) (hcur : s.cursor ≤ strlen s.text) :
    (0 < s.cursor → (s.sel = none ∨ s.sel.bind s.left = none ∨ s.lines > 0) →
      step (Run.reading Pc.top s) 2 =
        Run.reading Pc.top { s with cursor := nextrune (-1) s } ∧
      nextrune (-1) s < s.cursor ∧
      (nextrune (-1) s = 0 ∨ isCont (byteAt s.text (nextrune (-1) s)) = false) ∧
      ∀ i, nextrune (-1) s < i → i < s.cursor → isCont (byteAt s.text i) = true) ∧
    (¬ (0 < s.cursor ∧ (s.sel = none ∨ s.sel.bind s.left = none ∨ s.lines > 0)) →
      step (Run.reading Pc.top s) 2 = step (Run.reading Pc.top s) 16 ∧
      ∃ s', step (Run.reading Pc.top s) 2 = Run.reading Pc.top s' ∧
        s'.cursor = s.cursor ∧ s'.text = s.text ∧
        (∀ x y, s.sel = some x → s.left x = some y → s'.sel = some y) ∧
        (s.sel = none ∨ s.sel.bind s.left = none → s' = s)) ∧
    List.foldl step (Run.reading Pc.top s) [27, 91, 68] = step (Run.reading Pc.top s) 2 := by
  have e2 : step (Run.reading Pc.top s) 2 = switchTop 2 2 s := rfl
  refine ⟨?_, ?_, ?_⟩
  · intro hpos hsel
    refine ⟨?_, nextrune_bwd s hB hcur hpos⟩
    rw [e2, switchTop_left, if_pos ⟨hpos, hsel⟩]
    exact redraw_done (d := d) (by rw [drawmenu_cursor]; exact hd)
  · intro hc
    have e16 : step (Run.reading Pc.top s) 16 = switchTop 16 16 s := rfl
    rw [e2, e16, switchTop_left, switchTop_up, if_neg hc]
    refine ⟨rfl, ?_⟩
    obtain ⟨s', hs, ⟨d', hd'⟩, hsame⟩ := selectPrev_draws s l d hwf hd hz hpl hp0
    have hconf := selectPrev_conf _ _ hs
    refine ⟨s', ?_, hconf.2.2.2.2.2.1, hconf.1,
      fun x y hx hy => selectPrev_sel s s' x y hx hy hs, hsame⟩
    rw [hs]
    exact redraw_done hd'
  · show step (step (step (Run.reading Pc.top s) 27) 91) 68 = _
    rw [e2, switchTop_left]
    have h1 : step (Run.reading Pc.top s) 27 = Run.reading Pc.esc s := by
      show switchTop (27 % 256) (27 % 256) s = _
      simp [switchTop, CONTROL]
    have h2 : step (Run.reading Pc.esc s) 91 = Run.reading Pc.csi s := by
      show escSwitch (91 % 256) s = _
      simp [escSwitch, CONTROL]
    have h3 : step (Run.reading Pc.csi s) 68 = switchTop (CONTROL 91) (CONTROL 66) s := by
      show csiSwitch (68 % 256) s = _
      simp [csiSwitch]
    rw [h1, h2, h3, show CONTROL 66 = 2 from rfl, switchTop_left]

/-- C14, amended, at the state after "a" and Ctrl-N with the pool [a, ab]
(the cursor at 1, the item ab selected, which has the left neighbour a): Ctrl-B
leaves the cursor at 1 and selects the item a. -/
theorem move_left_contract_witness :
    Wf (demoAfter [[97], [97, 98]] 0 80 10 0 [97, 14]) [0, 1] ∧
    drawmenu (demoAfter [[97], [97, 98]] 0 80 10 0 [97, 14]) = Drawn.done [(0, 3), (1, 4)] ∧
    Sized (demoAfter [[97], [97, 98]] 0 80 10 0 [97, 14]) ∧
    InChain (demoAfter [[97], [97, 98]] 0 80 10 0 [97, 14]).prev [0, 1] ∧
    (demoAfter [[97], [97, 98]] 0 80 10 0 [97, 14]).cursor = 1 ∧
    (demoAfter [[97], [97, 98]] 0 80 10 0 [97, 14]).sel = some 1 ∧
    ¬ (0 < (demoAfter [[97], [97, 98]] 0 80 10 0 [97, 14]).cursor ∧
      ((demoAfter [[97], [97, 98]] 0 80 10 0 [97, 14]).sel = none ∨
        (demoAfter [[97], [97, 98]] 0 80 10 0 [97, 14]).sel.bind
          (demoAfter [[97], [97, 98]] 0 80 10 0 [97, 14]).left = none ∨
        (demoAfter [[97], [97, 98]] 0 80 10 0 [97, 14]).lines > 0)) ∧
    ∃ s', step (Run.reading Pc.top (demoAfter [[97], [97, 98]] 0 80 10 0 [97, 14])) 2 =
        Run.reading Pc.top s' ∧ s'.cursor = 1 ∧ s'.sel = some 0 := by
  refine ⟨by decide, rfl, by decide, by decide, by decide, by decide, by decide, ?_⟩
  obtain ⟨_, s', h1, h2, _, h4, _⟩ :=
    (move_left_contract (demoAfter [[97], [97, 98]] 0 80 10 0 [97, 14]) [0, 1]
      [(0, 3), (1, 4)] (by decide) rfl (by decide) (by decide) (by decide) (by decide)
      (by decide)).2.1 (by decide)
  exact ⟨s', h1, h2, h4 1 0 (by decide) (by decide)⟩

theorem Geo_nolines {s : State} (h : Geo s) : ¬ s.lines > 0 := by
  rw [h.1]; decide

theorem Geo_n {s : State} (h : Geo s) :
    toInt32 (s.mw - (toInt32 (s.promptw + s.inputw) + 3 + 3)) = availW s := by
  obtain ⟨_, h2, h3, h4, h5, h6, h7⟩ := h
  unfold availW at h7 ⊢
  rw [toInt32_eq (s.promptw + s.inputw) (by omega) (by omega),
    toInt32_eq _ (by omega) (by omega)]
  omega

theorem Geo_lt {s : State} (h : Geo s) : availW s < 2 ^ 30 := by
  obtain ⟨_, h2, h3, h4, h5, h6, h7⟩ := h
  unfold availW at h7 ⊢
  omega

theorem capW_le {s : State} (h0 : 0 ≤ availW s) (x : Nat) : (capW s x : Int) ≤ availW s := by
  unfold capW
  omega

theorem sumW_nil (s : State) : sumW s [] = 0 := rfl

theorem sumW_cons (s : State) (x : Nat) (l : List Nat) :
    sumW s (x :: l) = capW s x + sumW s l := by
  unfold sumW
  simp

theorem sumW_append (s : State) (l1 l2 : List Nat) :
    sumW s (l1 ++ l2) = sumW s l1 + sumW s l2 := by
  unfold sumW
  simp

theorem calcNext_split (s : State) (hg : Geo s) :
    ∀ (l : List Nat) (fuel : Nat) (i : Int) (p : Option Nat),
      Seg s.right p l none → l.length ≤ fuel → 0 ≤ i → i ≤ availW s →
      ∃ W B, l = W ++ B ∧ calcNext s (availW s) fuel i p = some B.head? ∧
        i + sumW s W ≤ availW s ∧
        ∀ z B', B = z :: B' → availW s < i + sumW s W + capW s z := by
  have hl := Geo_nolines hg
  have h0 := hg.2.2.2.2.2.2
  have h30 := Geo_lt hg
  intro l
  induction l with
  | nil =>
    intro fuel i p h _ _ hin
    have : p = none := h
    subst this
    refine ⟨[], [], rfl, calcNext_none _ _ _ _, ?_, ?_⟩
    · rw [sumW_nil]; simpa using hin
    · intro z B' hB; exact absurd hB (by simp)
  | cons x xs ih =>
    intro fuel i p h hf hi0 hin
    have hp : p = some x := h.1
    subst hp
    obtain ⟨f, hf'⟩ : ∃ f, fuel = f + 1 := ⟨fuel - 1, by simp at hf; omega⟩
    subst hf'
    have hcap := capW_le h0 x
    rw [calcNext_succ, if_neg hl, minSize_nonneg _ _ h0 (by omega)]
    have e : ((min (textw (itemText s x)) (availW s).toNat : Nat) : Int) = (capW s x : Int) := rfl
    rw [e, toInt32_eq _ (by omega) (by omega)]
    by_cases hc : i + (capW s x : Int) > availW s
    · rw [if_pos hc]
      refine ⟨[], x :: xs, rfl, rfl, ?_, ?_⟩
      · rw [sumW_nil]; simpa using hin
      · intro z B' hB
        have hz : x = z := (List.cons.inj hB).1
        rw [← hz, sumW_nil]
        simpa using hc
    · rw [if_neg hc]
      obtain ⟨W, B, hWB, hcalc, hsum, hex⟩ := ih f (i + capW s x) (s.right x) h.2
        (by simp at hf; omega) (by omega) (by omega)
      refine ⟨x :: W, B, by rw [hWB]; rfl, hcalc, ?_, ?_⟩
      · rw [sumW_cons]; push_cast; omega
      · intro z B' hB
        have := hex z B' hB
        rw [sumW_cons]; push_cast; omega

theorem calcPrev_succ (s : State) (n : Int) (fuel : Nat) (i : Int) (x : Nat) :
    calcPrev s n (fuel + 1) i (some x) =
      match s.left x with
      | none => some (some x)
      | some y =>
        if toInt32 (i + (if s.lines > 0 then 1 else minSize (textw (itemText s y)) n)) > n then
          some (some x)
        else
          calcPrev s n fuel
            (toInt32 (i + (if s.lines > 0 then 1 else minSize (textw (itemText s y)) n)))
            (some y) := rfl

theorem calcPrev_split (s : State) (hg : Geo s) :
    ∀ (L : List Nat) (fuel : Nat) (i : Int) (x : Nat),
      Seg s.left (some x) (x :: L) none → L.length < fuel → 0 ≤ i → i ≤ availW s →
      ∃ L1 L2, L = L1 ++ L2 ∧
        calcPrev s (availW s) fuel i (some x) = some ((x :: L1).getLast?) ∧
        i + sumW s L1 ≤ availW s ∧
        ∀ z L2', L2 = z :: L2' → availW s < i + sumW s L1 + capW s z := by
  have hl := Geo_nolines hg
  have h0 := hg.2.2.2.2.2.2
  have h30 := Geo_lt hg
  intro L
  induction L with
  | nil =>
    intro fuel i x h hf _ hin
    obtain ⟨f, hf'⟩ : ∃ f, fuel = f + 1 := ⟨fuel - 1, by simp at hf; omega⟩
    subst hf'
    have hx : s.left x = none := h.2
    refine ⟨[], [], rfl, ?_, ?_, ?_⟩
    · rw [calcPrev_succ, hx]; rfl
    · rw [sumW_nil]; simpa using hin
    · intro z B' hB; exact absurd hB (by simp)
  | cons y ys ih =>
    intro fuel i x h hf hi0 hin
    obtain ⟨f, hf'⟩ : ∃ f, fuel = f + 1 := ⟨fuel - 1, by simp at hf; omega⟩
    subst hf'
    have hx : s.left x = some y := h.2.1
    have hcap := capW_le h0 y
    rw [calcPrev_succ, hx]
    simp only []
    rw [if_neg hl, minSize_nonneg _ _ h0 (by omega)]
    have e : ((min (textw (itemText s y)) (availW s).toNat : Nat) : Int) = (capW s y : Int) := rfl
    rw [e, toInt32_eq _ (by omega) (by omega)]
    by_cases hc : i + (capW s y : Int) > availW s
    · rw [if_pos hc]
      refine ⟨[], y :: ys, rfl, rfl, ?_, ?_⟩
      · rw [sumW_nil]; simpa using hin
      · intro z B' hB
        have hz : y = z := (List.cons.inj hB).1
        rw [← hz, sumW_nil]
        simpa using hc
    · rw [if_neg hc]
      have h2 : Seg s.left (some y) (y :: ys) none := by
        have := h.2
        rw [hx] at this
        exact this
      obtain ⟨L1, L2, hL, hcalc, hsum, hex⟩ := ih f (i + capW s y) y h2
        (by simp at hf; omega) (by omega) (by omega)
      refine ⟨y :: L1, L2, by rw [hL]; rfl, ?_, ?_, ?_⟩
      · rw [hcalc, List.getLast?_cons_cons]
      · rw [sumW_cons]; push_cast; omega
      · intro z B' hB
        have := hex z B' hB
        rw [sumW_cons]; push_cast; omega

theorem sumW_reverse (s : State) (l : List Nat) : sumW s l.reverse = sumW s l := by
  unfold sumW
  rw [List.map_reverse, List.sum_reverse]

theorem getLast?_cons_head (x : Nat) (L1 R : List Nat) :
    (x :: L1).getLast? = (L1.reverse ++ x :: R).head? := by
  rcases List.eq_nil_or_concat L1 with h | ⟨L', z, h⟩
  · subst h; rfl
  · rw [List.concat_eq_append] at h
    subst h
    rw [← List.cons_append, List.getLast?_append_of_ne_nil _ (by simp)]
    simp

theorem calcoffsets_win (s : State) (A C : List Nat) (hg : Geo s)
    (hch : IsChain s (A ++ C)) (hnd : (A ++ C).Nodup)
    (hlt : ∀ x ∈ A ++ C, x < s.items.length) (hcur : s.curr = C.head?)
    (hAC : C = [] → A = []) :
    ∃ s' A1 A2 W B, calcoffsets s = some s' ∧
      s' = { s with next := s'.next, prev := s'.prev } ∧ A = A1 ++ A2 ∧ C = W ++ B ∧
      s'.next = B.head? ∧ s'.prev = (A2 ++ C).head? ∧ (sumW s A2 : Int) ≤ availW s ∧
      (A1 ≠ [] → A2 ≠ []) ∧ (C ≠ [] → W ≠ []) ∧ (sumW s W : Int) ≤ availW s ∧
      ∀ z B', B = z :: B' → availW s < sumW s W + capW s z := by
  have hl := Geo_nolines hg
  have h0 := hg.2.2.2.2.2.2
  unfold calcoffsets
  rw [if_neg hl, Geo_n hg]
  cases C with
  | nil =>
    have hA := hAC rfl
    subst hA
    have hc : s.curr = none := hcur
    rw [hc, calcNext_none, calcPrev_start]
    refine ⟨_, [], [], [], [], rfl, rfl, rfl, rfl, rfl, rfl, ?_, fun h => absurd rfl h,
      fun h => absurd rfl h, ?_, ?_⟩
    · rw [sumW_nil]; simpa using h0
    · rw [sumW_nil]; simpa using h0
    · intro z B' hB; exact absurd hB (by simp)
  | cons x C' =>
    have hc : s.curr = some x := hcur
    obtain ⟨h1, h2, _, _⟩ := chain_split s A C' x hch
    have hL := chain_length hnd hlt
    simp only [List.length_append, List.length_cons] at hL
    obtain ⟨W, B, hWB, hnx, hsw, hex⟩ := calcNext_split s hg (x :: C') (s.items.length + 1) 0
      (some x) h1 (by simp; omega) (le_refl _) h0
    obtain ⟨L1, L2, hL12, hpv, hsl, hexl⟩ := calcPrev_split s hg A.reverse
      (s.items.length + 1) 0 x h2 (by simp; omega) (le_refl _) h0
    rw [hc, hnx, hpv]
    have hA : A = L2.reverse ++ L1.reverse := by
      have := congrArg List.reverse hL12
      rw [List.reverse_reverse, List.reverse_append] at this
      exact this
    refine ⟨_, L2.reverse, L1.reverse, W, B, rfl, rfl, hA, hWB, rfl, ?_, ?_, ?_, ?_, ?_, ?_⟩
    · exact getLast?_cons_head x L1 C'
    · rw [sumW_reverse]; omega
    · intro hne
      cases L2 with
      | nil => exact absurd rfl hne
      | cons z L2' =>
        intro h1'
        have hL1 : L1 = [] := by simpa using h1'
        have := hexl z L2' rfl
        rw [hL1, sumW_nil] at this
        have hcap := capW_le h0 z
        omega
    · intro _ hW
      subst hW
      have := hex x C' hWB.symm
      rw [sumW_nil] at this
      have hcap := capW_le h0 x
      omega
    · omega
    · intro z B' hB
      have := hex z B' hB
      omega

theorem availW_geom {s s' : State} (h : SameGeom s s') : availW s' = availW s := by
  unfold availW
  rw [h.2.1, h.2.2.1, h.2.2.2.1]

theorem sumW_geom {s s' : State} (h : SameGeom s s') (l : List Nat) :
    sumW s' l = sumW s l := by
  unfold sumW capW itemText
  rw [availW_geom h, h.2.2.2.2.1]

theorem Geo_geom {s s' : State} (h : SameGeom s s') (hg : Geo s) : Geo s' := by
  unfold Geo
  rw [availW_geom h, h.1, h.2.1, h.2.2.1, h.2.2.2.1]
  exact hg

theorem head?_append_left (W B : List Nat) (h : W ≠ []) : (W ++ B).head? = W.head? := by
  cases W with
  | nil => exact absurd rfl h
  | cons x xs => rfl

/-- The call `calcoffsets()` after `sel = a; curr = b`, with `b` the first item
of the rest `C` of the chain: it returns and leaves a frame whose window is
the longest run of items at the head of `C` that fits. -/
theorem Frame_calc (s : State) (A C : List Nat) (a b : Option Nat) (hg : Geo s)
    (hch : IsChain s (A ++ C)) (hnd : (A ++ C).Nodup)
    (hlt : ∀ x ∈ A ++ C, x < s.items.length) (hAC : C = [] → A = []) (hb : b = C.head?) :
    ∃ s' A1 A2 W B, calcoffsets { s with sel := a, curr := b } = some s' ∧
      s' = { s with sel := a, curr := b, next := s'.next, prev := s'.prev } ∧
      A = A1 ++ A2 ∧ C = W ++ B ∧ Frame s' A1 A2 W B ∧ (sumW s W : Int) ≤ availW s ∧
      ∀ z B', B = z :: B' → availW s < sumW s W + capW s z := by
  obtain ⟨s', A1, A2, W, B, hk, hs', hA, hC, hnext, hprev, hsum, hA12, hW, hsw, hex⟩ :=
    calcoffsets_win { s with sel := a, curr := b } A C hg hch hnd hlt hb hAC
  subst hA
  subst hC
  have hgeo : SameGeom s s' := by
    rw [hs']; exact SameGeom_refl _
  have e : IsChain s' (A1 ++ A2 ++ (W ++ B)) ∧
      (∀ x ∈ A1 ++ A2 ++ (W ++ B), x < s'.items.length) ∧ s'.curr = (W ++ B).head? := by
    rw [hs']
    exact ⟨hch, hlt, hb⟩
  refine ⟨s', A1, A2, W, B, hk, hs', rfl, rfl,
    ⟨e.1, hnd, e.2.1, e.2.2, hnext, hprev, ?_, hA12, ?_⟩, hsw, hex⟩
  · rw [sumW_geom hgeo, availW_geom hgeo]
    exact hsum
  · intro hW0
    have hC0 : W ++ B = [] := by
      by_contra hne
      exact hW hne hW0
    rw [hAC hC0, hC0]
    rfl

theorem Geo_calc {s s' : State} {a b : Option Nat} (hg : Geo s)
    (hs' : s' = { s with sel := a, curr := b, next := s'.next, prev := s'.prev }) :
    Geo s' := by
  have hgeo : SameGeom s s' := by
    rw [hs']; exact SameGeom_refl _
  exact Geo_geom hgeo hg

/-- After `sel = curr = b` (the first item of the rest `C` of the chain) and
`calcoffsets()`, the invariant of the window holds. -/
theorem Win_jump (s : State) (A C : List Nat) (hg : Geo s)
    (hch : IsChain s (A ++ C)) (hnd : (A ++ C).Nodup)
    (hlt : ∀ x ∈ A ++ C, x < s.items.length) (hAC : C = [] → A = [])
    (a b : Option Nat) (hb : b = C.head?) (ha : a = b) :
    ∃ s', calcoffsets { s with sel := a, curr := b } = some s' ∧
      s' = { s with sel := a, curr := b, next := s'.next, prev := s'.prev } ∧ Win s' := by
  obtain ⟨s', A1, A2, W, B, hk, hs', hA, hC, hf, _, _⟩ :=
    Frame_calc s A C a b hg hch hnd hlt hAC hb
  refine ⟨s', hk, hs', A1, A2, W, B, hf, ?_⟩
  have hsel : s'.sel = C.head? := by
    rw [hs']
    show a = C.head?
    rw [ha, hb]
  by_cases hW : W = []
  · left
    have h0 := hf.2.2.2.2.2.2.2.2 hW
    refine ⟨h0, ?_⟩
    have hC0 : W ++ B = [] := (List.append_eq_nil.1 h0).2
    rw [hsel, hC, hC0]
    rfl
  · right
    obtain ⟨z, zs, hz⟩ := List.exists_cons_of_ne_nil hW
    refine ⟨z, by rw [hz]; exact List.mem_cons_self _ _, ?_⟩
    rw [hsel, hC, hz]
    rfl

theorem Win_cursor {s : State} (c : Nat) (h : Win s) : Win { s with cursor := c } := h

theorem Geo_cursor {s : State} (c : Nat) (h : Geo s) : Geo { s with cursor := c } := h

theorem Win_match (sub : Bool) (s1 s' : State) (vis : List Nat) (hg : Geo s1)
    (hvis : Visit sub s1.items.length s1.right
      (if sub = true then s1.matches_ else itemsPtr s1) vis)
    (hnd : vis.Nodup) (hlt : ∀ x ∈ vis, x < s1.items.length)
    (hm : match_ sub s1 = some s') : Win s' := by
  obtain ⟨s4, hpre, hch, hND, hconf, _, _⟩ := match_pre sub s1 vis hvis hnd hlt
  rw [hpre] at hm
  have hitems : s4.items = s1.items := hconf.2.2.2.2.2.2.1
  have hfirst := chain_first s4 _ hch
  have hg4 : Geo s4 := Geo_geom (SameGeom_of_conf hconf) hg
  obtain ⟨s'', hk, _, hw⟩ := Win_jump s4 [] _ hg4 hch hND
    (by
      intro x hx
      rw [hitems]
      exact codeBands_lt s1 vis hlt x hx)
    (fun _ => rfl) s4.matches_ s4.matches_ hfirst rfl
  have e : s'' = s' := Option.some.inj (hk.symm.trans hm)
  rw [← e]
  exact hw

theorem insert_cases (str : List Nat) (n : Int) (s s' : State)
    (h : insert str n s = some s') :
    s' = s ∨ ∃ sub t c, match_ sub { s with text := t, cursor := c } = some s' := by
  unfold insert at h
  by_cases hc : toSize (strlen s.text + n) > toSize ((sizeofText s : Int) - 1)
  · rw [if_pos hc] at h
    exact Or.inl (Option.some.inj h).symm
  · rw [if_neg hc] at h
    exact Or.inr ⟨_, _, _, h⟩

theorem Win_chain {s : State} (h : Win s) :
    ∃ l, IsChain s l ∧ l.Nodup ∧ ∀ x ∈ l, x < s.items.length := by
  obtain ⟨A1, A2, W, B, ⟨h1, h2, h3, _⟩, _⟩ := h
  exact ⟨_, h1, h2, h3⟩

theorem Win_refilter {s s' : State} (hg : Geo s) (h : Win s) (sub : Bool) (t : List Nat)
    (c : Nat) (hm : match_ sub { s with text := t, cursor := c } = some s') : Win s' := by
  obtain ⟨l, h1, h2, h3⟩ := Win_chain h
  cases sub with
  | false =>
    exact Win_match false { s with text := t, cursor := c } s' (List.range s.items.length) hg
      (visit_full { s with text := t, cursor := c }) (List.nodup_range _)
      (fun x hx => List.mem_range.1 hx) hm
  | true =>
    exact Win_match true { s with text := t, cursor := c } s' l hg
      (visit_chain { s with text := t, cursor := c } l h1 h3) h2 h3 hm

theorem Win_insert {s s' : State} (hg : Geo s) (h : Win s) (str : List Nat) (n : Int)
    (hi : insert str n s = some s') : Win s' := by
  rcases insert_cases str n s s' hi with e | ⟨sub, t, c, hm⟩
  · rw [e]; exact h
  · exact Win_refilter hg h sub t c hm

theorem nodup_mid (P W1 W2 Q : List Nat) (x : Nat)
    (h : (P ++ ((W1 ++ x :: W2) ++ Q)).Nodup) : x ∉ W1 := by
  intro hx
  have h1 : ((W1 ++ x :: W2) ++ Q).Nodup := (List.nodup_append.1 h).2.1
  have h2 : (W1 ++ x :: W2).Nodup := (List.nodup_append.1 h1).1
  exact (List.nodup_append.1 h2).2.2 hx (List.mem_cons_self _ _)

theorem getLast?_split {l : List Nat} {y : Nat} (h : l.getLast? = some y) :
    ∃ l', l = l' ++ [y] := by
  rcases List.eq_nil_or_concat l with hl | ⟨l', z, hl⟩
  · rw [hl] at h; exact absurd h (by simp)
  · rw [List.concat_eq_append] at hl
    rw [hl, List.getLast?_append_of_ne_nil _ (by simp)] at h
    have : z = y := by simpa using h
    exact ⟨l', by rw [hl, this]⟩

/-- A run of items at the head of a list that fits into the available width is
part of the longest such run. -/
theorem prefix_of_fit (s : State) (A2 R W' B' : List Nat) (h : A2 ++ R = W' ++ B')
    (hs : (sumW s A2 : Int) ≤ availW s)
    (hex : ∀ z B'', B' = z :: B'' → availW s < sumW s W' + capW s z) :
    ∃ T, W' = A2 ++ T := by
  rcases List.append_eq_append_iff.1 h with ⟨a', h1, _⟩ | ⟨c', h1, h2⟩
  · exact ⟨a', h1⟩
  · cases c' with
    | nil => exact ⟨[], by rw [h1]; simp⟩
    | cons z c'' =>
      have := hex z (c'' ++ R) (by rw [h2]; rfl)
      rw [h1, sumW_append, sumW_cons] at hs
      push_cast at hs
      omega

theorem selectNext_pan (s s' : State) (x y : Nat) (hx : s.sel = some x)
    (hy : s.right x = some y) (hn : some y = s.next) (hk : selectNext s = some s') :
    s'.curr = s.next ∧ s'.sel = some y := by
  unfold selectNext at hk
  rw [hx] at hk
  simp only [hy] at hk
  rw [if_pos hn] at hk
  rw [calcoffsets_vars _ _ hk]
  exact ⟨rfl, rfl⟩

theorem selectPrev_pan (s s' : State) (x y : Nat) (hx : s.sel = some x)
    (hy : s.left x = some y) (hn : s.right y = s.curr) (hk : selectPrev s = some s') :
    s'.curr = s.prev ∧ s'.sel = some y := by
  unfold selectPrev at hk
  rw [hx] at hk
  simp only [hy] at hk
  rw [if_pos hn] at hk
  rw [calcoffsets_vars _ _ hk]
  exact ⟨rfl, rfl⟩

/-- The case of Ctrl-N in a state with the invariant of the window: it
returns, and the invariant holds again. -/
theorem Win_selectNext {s : State} (hg : Geo s) (h : Win s) :
    ∃ s', selectNext s = some s' ∧ Win s' := by
  obtain ⟨A1, A2, W, B, hf, hsel⟩ := h
  have hf0 := hf
  obtain ⟨hch, hnd, hlt, hcur, hnx, hpv, hsum, hA, hW⟩ := hf
  unfold selectNext
  rcases hsel with ⟨he, hs⟩ | ⟨x, hxW, hs⟩
  · rw [hs]
    exact ⟨s, rfl, A1, A2, W, B, hf0, Or.inl ⟨he, hs⟩⟩
  · rw [hs]
    simp only []
    obtain ⟨W1, W2, hW12⟩ := List.append_of_mem hxW
    have hre : A1 ++ A2 ++ (W ++ B) = (A1 ++ A2 ++ W1) ++ x :: (W2 ++ B) := by
      rw [hW12]; simp [List.append_assoc]
    have hr : s.right x = (W2 ++ B).head? := chain_right s _ _ x (by rw [← hre]; exact hch)
    cases hy : s.right x with
    | none => exact ⟨s, rfl, A1, A2, W, B, hf0, Or.inr ⟨x, hxW, hs⟩⟩
    | some y =>
      simp only []
      by_cases hcnd : some y = s.next
      · rw [if_pos hcnd]
        have hB : B.head? = some y := by rw [← hnx]; exact hcnd.symm
        obtain ⟨s', hk, _, hw⟩ := Win_jump s (A1 ++ A2 ++ W) B hg
          (by rw [List.append_assoc]; exact hch) (by rw [List.append_assoc]; exact hnd)
          (by rw [List.append_assoc]; exact hlt)
          (fun hB0 => by rw [hB0] at hB; exact absurd hB (by simp)) (some y) s.next hnx hcnd
        exact ⟨s', hk, hw⟩
      · rw [if_neg hcnd]
        have hW2 : W2 ≠ [] := by
          intro h0
          rw [h0, List.nil_append, ← hnx] at hr
          exact hcnd (by rw [← hy, hr])
        obtain ⟨z, zs, hz⟩ := List.exists_cons_of_ne_nil hW2
        have hyz : y = z := by
          rw [hy, hz] at hr
          exact Option.some.inj hr
        refine ⟨_, rfl, A1, A2, W, B, hf0, Or.inr ⟨y, ?_, rfl⟩⟩
        rw [hW12, hz, hyz]
        simp

/-- The case of Ctrl-P in a state with the invariant of the window: it
returns, and the invariant holds again; when it pans to the page in front, the
new window holds the new selection. -/
theorem Win_selectPrev {s : State} (hg : Geo s) (h : Win s) :
    ∃ s', selectPrev s = some s' ∧ Win s' := by
  obtain ⟨A1, A2, W, B, hf, hsel⟩ := h
  have hf0 := hf
  obtain ⟨hch, hnd, hlt, hcur, hnx, hpv, hsum, hA, hW⟩ := hf
  unfold selectPrev
  rcases hsel with ⟨he, hs⟩ | ⟨x, hxW, hs⟩
  · rw [hs]
    exact ⟨s, rfl, A1, A2, W, B, hf0, Or.inl ⟨he, hs⟩⟩
  · rw [hs]
    simp only []
    obtain ⟨W1, W2, hW12⟩ := List.append_of_mem hxW
    have hre : A1 ++ A2 ++ (W ++ B) = (A1 ++ A2 ++ W1) ++ x :: (W2 ++ B) := by
      rw [hW12]; simp [List.append_assoc]
    have hl : s.left x = (A1 ++ A2 ++ W1).getLast? :=
      chain_left s _ _ x (by rw [← hre]; exact hch)
    cases hy : s.left x with
    | none => exact ⟨s, rfl, A1, A2, W, B, hf0, Or.inr ⟨x, hxW, hs⟩⟩
    | some y =>
      simp only []
      rw [hy] at hl
      by_cases hW1 : W1 = []
      · subst hW1
        rw [List.append_nil] at hl
        have hA2 : A2 ≠ [] := by
          intro h0
          by_cases hA1 : A1 = []
          · rw [hA1, h0] at hl; exact absurd hl (by simp)
          · exact hA hA1 h0
        have hy2 : A2.getLast? = some y := by
          rw [List.getLast?_append_of_ne_nil _ hA2] at hl
          exact hl.symm
        have hyA2 : y ∈ A2 := getLast?_mem_of hy2
        obtain ⟨A2', hA2'⟩ := getLast?_split hy2
        have hcx : s.curr = some x := by rw [hcur, hW12]; rfl
        have hre2 : A1 ++ A2 ++ (W ++ B) = (A1 ++ A2') ++ y :: (W ++ B) := by
          rw [hA2']; simp [List.append_assoc]
        have hry : s.right y = some x := by
          rw [chain_right s _ _ y (by rw [← hre2]; exact hch), hW12]
          rfl
        rw [if_pos (by rw [hry, hcx])]
        obtain ⟨s', A1', A2n, W', B', hk, hs', _, hC', hf', _, hex⟩ :=
          Frame_calc s A1 (A2 ++ (W ++ B)) (some y) s.prev hg
            (by rw [← List.append_assoc]; exact hch) (by rw [← List.append_assoc]; exact hnd)
            (by rw [← List.append_assoc]; exact hlt)
            (fun h0 => absurd (List.append_eq_nil.1 h0).1 hA2) hpv
        obtain ⟨T, hT⟩ := prefix_of_fit s A2 (W ++ B) W' B' hC' hsum hex
        refine ⟨s', hk, A1', A2n, W', B', hf', Or.inr ⟨y, ?_, ?_⟩⟩
        · rw [hT]; exact List.mem_append_left _ hyA2
        · rw [hs']
      · have hy1 : W1.getLast? = some y := by
          rw [List.getLast?_append_of_ne_nil _ hW1] at hl
          exact hl.symm
        have hyW : y ∈ W := by
          rw [hW12]; exact List.mem_append_left _ (getLast?_mem_of hy1)
        obtain ⟨W1', hW1'⟩ := getLast?_split hy1
        have hre2 : A1 ++ A2 ++ (W ++ B) = (A1 ++ A2 ++ W1') ++ y :: (x :: W2 ++ B) := by
          rw [hW12, hW1']; simp [List.append_assoc]
        have hry : s.right y = some x := by
          rw [chain_right s _ _ y (by rw [← hre2]; exact hch)]
          rfl
        have hne : ¬ s.right y = s.curr := by
          intro h0
          rw [hry, hcur, hW12, List.append_assoc, head?_append_left _ _ hW1] at h0
          exact nodup_mid (A1 ++ A2) W1 W2 B x (by rw [← hW12]; exact hnd)
            (head?_mem_of h0.symm)
        rw [if_neg hne]
        exact ⟨_, rfl, A1, A2, W, B, hf0, Or.inr ⟨y, hyW, rfl⟩⟩

theorem Frame_next_none {s : State} {A1 A2 W B : List Nat} (hf : Frame s A1 A2 W B)
    (hn : s.next = none) : B = [] := by
  have := hf.2.2.2.2.1
  rw [hn] at this
  cases B with
  | nil => rfl
  | cons z zs => exact absurd this (by simp)

theorem last_in_window (X W : List Nat) (hW : W ≠ []) :
    ∃ m ∈ W, (X ++ (W ++ [])).getLast? = some m := by
  rw [List.append_nil, List.getLast?_append_of_ne_nil _ hW]
  rcases List.eq_nil_or_concat W with h | ⟨W', m, h⟩
  · exact absurd h hW
  · rw [List.concat_eq_append] at h
    refine ⟨m, by rw [h]; simp, ?_⟩
    rw [h, List.getLast?_append_of_ne_nil _ (by simp)]
    rfl

/-- The loop `while (next && (curr = curr->right)) calcoffsets();` of Ctrl-E,
started in a frame with a window that is not empty: it ends, with `next ==
NULL` and a window that reaches the end of the chain. -/
theorem endLoop_frame (L : List Nat) :
    ∀ (fuel : Nat) (s : State) (A1 A2 W B : List Nat), Geo s → Frame s A1 A2 W B →
      A1 ++ A2 ++ (W ++ B) = L → W ≠ [] → (W ++ B).length ≤ fuel →
      ∃ s' A1' A2' W', endLoop fuel s = some s' ∧ Frame s' A1' A2' W' [] ∧
        A1' ++ A2' ++ (W' ++ []) = L ∧ W' ≠ [] ∧ s'.sel = s.sel ∧ SameGeom s s' ∧
        s'.next = none := by
  intro fuel
  induction fuel with
  | zero =>
    intro s A1 A2 W B _ _ _ hW hlen
    have : W = [] := by
      have h0 : W ++ B = [] := List.length_eq_zero.1 (Nat.le_zero.1 hlen)
      exact (List.append_eq_nil.1 h0).1
    exact absurd this hW
  | succ f ih =>
    intro s A1 A2 W B hg hf hL hW hlen
    rw [endLoop]
    cases hn : s.next with
    | none =>
      have hB := Frame_next_none hf hn
      subst hB
      exact ⟨s, A1, A2, W, rfl, hf, hL, hW, rfl, SameGeom_refl _, hn⟩
    | some nx =>
      simp only []
      obtain ⟨c, W', hWc⟩ := List.exists_cons_of_ne_nil hW
      have hc : s.curr = some c := by rw [hf.2.2.2.1, hWc]; rfl
      rw [hc]
      simp only []
      have hB : B ≠ [] := by
        intro h0
        have := hf.2.2.2.2.1
        rw [hn, h0] at this
        exact absurd this (by simp)
      have hne : W' ++ B ≠ [] := fun h0 => hB (List.append_eq_nil.1 h0).2
      have hAC : A1 ++ A2 ++ [c] ++ (W' ++ B) = A1 ++ A2 ++ (W ++ B) := by
        rw [hWc]; simp [List.append_assoc]
      have hr : s.right c = (W' ++ B).head? :=
        chain_right s (A1 ++ A2) (W' ++ B) c (by
          have : A1 ++ A2 ++ c :: (W' ++ B) = A1 ++ A2 ++ (W ++ B) := by rw [hWc]; rfl
          rw [this]; exact hf.1)
      obtain ⟨c1, cs, hcs⟩ := List.exists_cons_of_ne_nil hne
      have hc1 : (W' ++ B).head? = some c1 := by rw [hcs]; rfl
      rw [hr, hc1]
      simp only []
      obtain ⟨s1, X1, X2, Wn, Bn, hk, hs1, hA, hC, hf1, _, _⟩ :=
        Frame_calc s (A1 ++ A2 ++ [c]) (W' ++ B) s.sel (some c1) hg
          (by rw [hAC]; exact hf.1) (by rw [hAC]; exact hf.2.1)
          (by rw [hAC]; exact hf.2.2.1) (fun h0 => absurd h0 hne) hc1.symm
      have hk' : calcoffsets { s with curr := some c1 } = some s1 := hk
      rw [hn] at hk'
      rw [hk']
      simp only []
      have hWn : Wn ≠ [] := by
        intro h0
        have h1 := hf1.2.2.2.2.2.2.2.2 h0
        have h2 : Wn ++ Bn = [] := (List.append_eq_nil.1 h1).2
        rw [← hC] at h2
        exact hne h2
      have hgeo1 : SameGeom s s1 := by
        rw [hs1]; exact SameGeom_refl _
      have hsel1 : s1.sel = s.sel := by rw [hs1]
      obtain ⟨s', A1', A2', W'', he, hf', hL', hW', hsel', hgeo', hnx'⟩ :=
        ih s1 X1 X2 Wn Bn (Geo_geom hgeo1 hg) hf1 (by rw [← hA, ← hC, hAC, hL]) hWn
          (by
            rw [← hC]
            rw [hWc] at hlen
            simp only [List.length_append, List.length_cons] at hlen ⊢
            omega)
      exact ⟨s', A1', A2', W'', he, hf', hL', hW', hsel'.trans hsel1,
        SameGeom_trans hgeo1 hgeo', hnx'⟩

/-- The case of Ctrl-E with the cursor at the end of the text, in a state with
the invariant of the window: it returns, with `next == NULL`, the last item of
the chain selected, and the invariant. -/
theorem Win_keyEnd {s : State} (hg : Geo s) (h : Win s) (hz : byteAt s.text s.cursor = 0) :
    ∃ s', keyEnd s = some s' ∧ Win s' ∧ s'.next = none ∧ s'.sel = s'.matchend := by
  obtain ⟨A1, A2, W, B, hf, hsel⟩ := h
  cases hn : s.next with
  | none =>
    rw [keyEnd_of_none s hz hn]
    refine ⟨_, rfl, ?_, hn, rfl⟩
    have hB := Frame_next_none hf hn
    subst hB
    refine ⟨A1, A2, W, [], hf, ?_⟩
    have hlast := chain_last s _ hf.1
    by_cases hW : W = []
    · left
      have h0 := hf.2.2.2.2.2.2.2.2 hW
      refine ⟨h0, ?_⟩
      show s.matchend = none
      rw [hlast, h0]
      rfl
    · right
      obtain ⟨m, hm, hm'⟩ := last_in_window (A1 ++ A2) W hW
      exact ⟨m, hm, by show s.matchend = some m; rw [hlast, hm']⟩
  | some nx =>
    rw [keyEnd_of_some s hz nx hn]
    have hB : B ≠ [] := by
      intro h0
      have := hf.2.2.2.2.1
      rw [hn, h0] at this
      exact absurd this (by simp)
    have hLne : A1 ++ A2 ++ (W ++ B) ≠ [] := fun h0 =>
      hB (List.append_eq_nil.1 (List.append_eq_nil.1 h0).2).2
    have hlast := chain_last s _ hf.1
    obtain ⟨m, hm⟩ : ∃ m, (A1 ++ A2 ++ (W ++ B)).getLast? = some m := by
      rcases List.eq_nil_or_concat (A1 ++ A2 ++ (W ++ B)) with h0 | ⟨l', z, h0⟩
      · exact absurd h0 hLne
      · rw [List.concat_eq_append] at h0
        exact ⟨z, by rw [h0, List.getLast?_append_of_ne_nil _ (by simp)]; rfl⟩
    obtain ⟨L0, hL0⟩ := getLast?_split hm
    obtain ⟨s1, X1, X2, W1, B1, hk1, hs1, hA1, hC1, hf1, _, _⟩ :=
      Frame_calc s L0 [m] s.sel s.matchend hg (by rw [← hL0]; exact hf.1)
        (by rw [← hL0]; exact hf.2.1) (by rw [← hL0]; exact hf.2.2.1)
        (fun h0 => absurd h0 (by simp)) (by rw [hlast, hm]; rfl)
    have hk1' : calcoffsets { s with curr := s.matchend } = some s1 := hk1
    rw [hk1', Option.some_bind]
    have hgeo1 : SameGeom s s1 := by
      rw [hs1]; exact SameGeom_refl _
    have hg1 := Geo_geom hgeo1 hg
    have hch1 : X1 ++ X2 ++ (W1 ++ B1) = A1 ++ A2 ++ (W ++ B) := by
      rw [← hA1, ← hC1, ← hL0]
    obtain ⟨s2, Y1, Y2, W2, B2, hk2, hs2, hA2, hC2, hf2, _, _⟩ :=
      Frame_calc s1 X1 (X2 ++ (W1 ++ B1)) s1.sel s1.prev hg1
        (by rw [← List.append_assoc]; exact hf1.1)
        (by rw [← List.append_assoc]; exact hf1.2.1)
        (by rw [← List.append_assoc]; exact hf1.2.2.1)
        (fun h0 => by
          have : W1 ++ B1 = [] := (List.append_eq_nil.1 h0).2
          rw [← hC1] at this
          exact absurd this (by simp))
        hf1.2.2.2.2.2.1
    have hk2' : calcoffsets { s1 with curr := s1.prev } = some s2 := hk2
    rw [hk2', Option.some_bind]
    have hgeo2 : SameGeom s1 s2 := by
      rw [hs2]; exact SameGeom_refl _
    have hg2 := Geo_geom hgeo2 hg1
    have hch2 : Y1 ++ Y2 ++ (W2 ++ B2) = A1 ++ A2 ++ (W ++ B) := by
      rw [← hA2, ← hC2, ← List.append_assoc, hch1]
    have hW2 : W2 ≠ [] := by
      intro h0
      have h1 := hf2.2.2.2.2.2.2.2.2 h0
      rw [hch2] at h1
      exact hLne h1
    have hlen : (W2 ++ B2).length ≤ s.items.length + 1 := by
      have h1 := chain_length hf.2.1 hf.2.2.1
      have h2 := congrArg List.length hch2
      simp only [List.length_append] at h1 h2 ⊢
      omega
    obtain ⟨s3, Z1, Z2, W3, he, hf3, hL3, hW3, _, _, hnx3⟩ :=
      endLoop_frame (A1 ++ A2 ++ (W ++ B)) (s.items.length + 1) s2 Y1 Y2 W2 B2 hg2 hf2 hch2
        hW2 hlen
    rw [he, Option.some_bind]
    refine ⟨_, rfl, ⟨Z1, Z2, W3, [], hf3, Or.inr ?_⟩, hnx3, rfl⟩
    have hlast3 := chain_last s3 _ hf3.1
    obtain ⟨m3, hm3, hm3'⟩ := last_in_window (Z1 ++ Z2) W3 hW3
    exact ⟨m3, hm3, by show s3.matchend = some m3; rw [hlast3, hm3']⟩

/-- Every single change keeps the invariant of the window. -/
theorem Op_Win {s s' : State} (ho : Op s s') (hg : Geo s) (h : Win s) : Win s' := by
  cases ho with
  | fwd _ h1 => exact Win_cursor _ h
  | bwd _ h1 => exact Win_cursor _ h
  | bol => exact Win_cursor _ h
  | eol => exact Win_cursor _ h
  | del _ _ h1 hd => exact Win_insert hg h [] _ hd
  | killLeft _ _ hd => exact Win_insert hg h [] _ hd
  | typed b _ _ hb hd => exact Win_insert hg h [b] _ hd
  | kill _ _ hd => exact Win_refilter hg h false _ s.cursor hd
  | home _ _ hd =>
    obtain ⟨l, h1, h2, h3⟩ := Win_chain h
    obtain ⟨s'', hk, _, hw⟩ := Win_jump s [] l hg h1 h2 h3 (fun _ => rfl) s.matches_
      s.matches_ (chain_first s l h1) rfl
    have e : s'' = s' := Option.some.inj (hk.symm.trans hd)
    rw [← e]; exact hw
  | endk _ _ hz hd =>
    obtain ⟨s'', hk, hw, _⟩ := Win_keyEnd hg h hz
    have e : s'' = s' := Option.some.inj (hk.symm.trans hd)
    rw [← e]; exact hw
  | prev _ _ hd =>
    obtain ⟨s'', hk, hw⟩ := Win_selectPrev hg h
    have e : s'' = s' := Option.some.inj (hk.symm.trans hd)
    rw [← e]; exact hw
  | next _ _ hd =>
    obtain ⟨s'', hk, hw⟩ := Win_selectNext hg h
    have e : s'' = s' := Option.some.inj (hk.symm.trans hd)
    rw [← e]; exact hw
  | pgup _ _ hp hd =>
    obtain ⟨A1, A2, W, B, hf, _⟩ := h
    obtain ⟨s'', hk, _, hw⟩ := Win_jump s A1 (A2 ++ (W ++ B)) hg
      (by rw [← List.append_assoc]; exact hf.1) (by rw [← List.append_assoc]; exact hf.2.1)
      (by rw [← List.append_assoc]; exact hf.2.2.1)
      (fun h0 => by
        by_contra hA1
        exact hf.2.2.2.2.2.2.2.1 hA1 (List.append_eq_nil.1 h0).1)
      s.prev s.prev hf.2.2.2.2.2.1 rfl
    have e : s'' = s' := Option.some.inj (hk.symm.trans hd)
    rw [← e]; exact hw
  | pgdn _ _ hp hd =>
    obtain ⟨A1, A2, W, B, hf, _⟩ := h
    obtain ⟨s'', hk, _, hw⟩ := Win_jump s (A1 ++ A2 ++ W) B hg
      (by rw [List.append_assoc]; exact hf.1) (by rw [List.append_assoc]; exact hf.2.1)
      (by rw [List.append_assoc]; exact hf.2.2.1)
      (fun h0 => by
        have := hf.2.2.2.2.1
        rw [h0] at this
        exact absurd this hp)
      s.next s.next hf.2.2.2.2.1 rfl
    have e : s'' = s' := Option.some.inj (hk.symm.trans hd)
    rw [← e]; exact hw

theorem Ops_Win {s s' : State} (ho : Ops s s') (hg : Geo s) (h : Win s) :
    Geo s' ∧ Win s' := by
  induction ho with
  | refl => exact ⟨hg, h⟩
  | tail _ h2 ih => exact ⟨Geo_geom (Op_geom h2) ih.1, Op_Win h2 ih.1 ih.2⟩

theorem toSize_small (v : Int) (h0 : 0 ≤ v) (h1 : v < 2 ^ 31) : toSize v < 2 ^ 31 := by
  unfold toSize
  omega

/-- With the sizes of `Geo` the two calls of `drawtext` at the head of
`drawmenu` do not die. -/
theorem Geo_head {s : State} (hg : Geo s) : drawHead s = false := by
  obtain ⟨_, hp0, hp1, hi0, hi1, hm, hn⟩ := hg
  unfold availW at hn
  unfold drawHead
  have h1 : drawtextDies (toSize s.promptw) = false :=
    drawtextDies_small _ (toSize_small _ hp0 (by omega))
  have h2 : drawtextDies (toSize (if s.lines = 0 ∧ s.matches_.isSome = true then s.inputw
      else toInt32 (s.mw - s.promptw))) = false := by
    apply drawtextDies_small
    apply toSize_small
    · split
      · exact hi0
      · rw [toInt32_same _ (by omega) (by omega)]; omega
    · split
      · omega
      · rw [toInt32_same _ (by omega) (by omega)]; omega
  rw [h1, h2]
  simp

theorem Seg_head {r : Nat → Option Nat} {l : List Nat} {p : Option Nat}
    (h : Seg r p l none) : p = l.head? := by
  cases l with
  | nil => exact h
  | cons x xs => exact h.1

/-- In a frame the walk from `curr` along `right` passes the window and arrives
at `next`. -/
theorem Frame_seg {s : State} {A1 A2 W B : List Nat} (hf : Frame s A1 A2 W B) :
    Seg s.right s.curr W s.next := by
  have h := hf.1.1
  rw [Seg_append] at h
  obtain ⟨m, _, h2⟩ := h
  have hm := Seg_head h2
  rw [Seg_append] at h2
  obtain ⟨m2, h3, h4⟩ := h2
  have hm2 := Seg_head h4
  rw [hf.2.2.2.1, hf.2.2.2.2.1, ← hm, ← hm2]
  exact h3

/-- In a state with the invariant of the window `drawmenu` draws the menu: it
reads no `NULL` pointer and does not die. -/
theorem Win_draws {s : State} (hg : Geo s) (h : Win s)
    (hw : ∀ t ∈ s.items, textw t < 2 ^ 31) : ∃ d, drawmenu s = Drawn.done d := by
  obtain ⟨A1, A2, W, B, hf, _⟩ := h
  have hl : ¬ s.lines > 0 := by rw [hg.1]; decide
  refine drawmenu_done s (Geo_head hg) (fun h0 => absurd h0 hl) ?_ ?_ ⟨?_, hw⟩
  · intro _ hm
    have h1 := chain_first s _ hf.1
    by_cases hW : W = []
    · rw [h1, hf.2.2.2.2.2.2.2.2 hW] at hm
      exact absurd hm (by simp)
    · obtain ⟨c, W', hc⟩ := List.exists_cons_of_ne_nil hW
      rw [hf.2.2.2.1, hc]
      rfl
  · intro _
    refine ⟨W, Frame_seg hf, ?_⟩
    have h1 := chain_length hf.2.1 hf.2.2.1
    simp only [List.length_append] at h1
    omega
  · obtain ⟨_, hp0, _, hi0, _, hm, hn⟩ := hg
    unfold availW at hn
    exact drawtextDies_small _ (toSize_small _ (by omega) (by omega))

theorem Win_InWindow {s : State} (h : Win s) : InWindow s := by
  obtain ⟨A1, A2, W, B, hf, hsel⟩ := h
  have e : A1 ++ A2 ++ W ++ B = A1 ++ A2 ++ (W ++ B) := List.append_assoc _ _ _
  refine ⟨A1 ++ A2, W, B, by rw [e]; exact hf.1, by rw [e]; exact hf.2.1, hf.2.2.2.1,
    hf.2.2.2.2.1, ?_⟩
  rw [e]
  exact hsel

theorem Geo_initial (bufsiz : Nat) (items : List (List Nat)) (icase : Bool)
    (mw inputw promptw : Int) (left right : Nat → Option Nat) (hp : 0 ≤ promptw)
    (hi : 0 ≤ inputw) (hm : mw < 2 ^ 29) (hn : 0 ≤ mw - promptw - inputw - 6) :
    Geo (initial bufsiz items icase 0 mw inputw promptw left right) := by
  unfold Geo availW initial
  simp only []
  exact ⟨trivial, hp, by omega, hi, by omega, by omega, hn⟩

/-- In a session in the horizontal layout whose available width is not
negative, every state in which `run` waits has the sizes of `Geo`, the
invariant of the window, and the items of the pool. -/
theorem session_win (bufsiz : Nat) (h0 : 0 < bufsiz) (hB : bufsiz < 2 ^ 63)
    (items : List (List Nat)) (icase : Bool) (mw inputw promptw : Int)
    (left right : Nat → Option Nat) (hp : 0 ≤ promptw) (hi : 0 ≤ inputw) (hm : mw < 2 ^ 29)
    (hn : 0 ≤ mw - promptw - inputw - 6) (input : List Nat) (pc : Pc) (s : State)
    (hr : session (initial bufsiz items icase 0 mw inputw promptw left right) input =
      Run.reading pc s) : Geo s ∧ Win s ∧ s.items = items := by
  obtain ⟨s0, hm0, _, hops⟩ :=
    session_ops bufsiz h0 hB items icase 0 mw inputw promptw left right input pc s hr
  have hg := Geo_initial bufsiz items icase mw inputw promptw left right hp hi hm hn
  have hw0 : Win s0 :=
    Win_match false (initial bufsiz items icase 0 mw inputw promptw left right) s0
      (List.range items.length) hg
      (visit_full (initial bufsiz items icase 0 mw inputw promptw left right))
      (List.nodup_range _) (fun x hx => List.mem_range.1 hx) hm0
  have hgeo0 : SameGeom (initial bufsiz items icase 0 mw inputw promptw left right) s0 :=
    SameGeom_of_conf (match_conf _ _ _ hm0)
  have h1 := Ops_Win hops (Geo_geom hgeo0 hg) hw0
  have hgeo := SameGeom_trans hgeo0 (Ops_geom hops)
  exact ⟨h1.1, h1.2, hgeo.2.2.2.2.1⟩

theorem switchTop_down (b : Nat) (s : State) : switchTop b 14 s = redraw (selectNext s) := by
  simp [switchTop, CONTROL]

theorem switchTop_end (b : Nat) (s : State) : switchTop b 5 s = redraw (keyEnd s) := by
  simp [switchTop, CONTROL]

/-- A navigation case that returns `s'` in a state with the invariant of the
window, with items shorter than `2^31` bytes: `drawmenu` draws the new state
and `run` goes on reading. -/
theorem nav_reads {s s' : State} (o : Option State) (ho : o = some s') (hop : Op s s')
    (hg : Geo s) (hw : Win s) (hi : ∀ t ∈ s.items, textw t < 2 ^ 31) :
    redraw o = Run.reading Pc.top s' := by
  have hgeo := Op_geom hop
  have hi' : ∀ t ∈ s'.items, textw t < 2 ^ 31 := by rw [hgeo.2.2.2.2.1]; exact hi
  obtain ⟨d, hd⟩ := Win_draws (Geo_geom hgeo hg) (Op_Win hop hg hw) hi'
  rw [ho]
  exact redraw_done hd

/-! ## The claims about the viewport -/

/-- C20 (the invariant of the viewport in the horizontal layout).  In a
session with `lines = 0` and the available width `mw - promptw - inputw - 6`
not negative (`mw`, which `setup` takes from `ws_col` or sets to 80, below
`2^29`; `promptw` and `inputw` not negative, as `setup` computes them), every
state `s` in which `run` waits has the invariant `InWindow`: the chain is
`A ++ W ++ B` without repetition, `curr` is the first item of the window `W`,
`next` is the first item of `B` or `NULL`, and `sel` is an item of `W` (or the
chain is empty and `sel` is `NULL`).  The case of Ctrl-P returns in such a
state with the invariant, so after the pan `curr = prev` the new window holds
the new selection.  The case of Ctrl-E with the cursor at the end of the text
returns: its loop ends, with `next == NULL` and `sel` the last item of the
chain, `matchend`.  When no item of the pool is `2^31 - 2` bytes long or
longer, `drawmenu` then draws the menu and `run` goes on reading. -/
theorem viewport_invariant (bufsiz : Nat) (h0 : 0 < bufsiz) (hB : bufsiz < 2 ^ 63)
    (items : List (List Nat)) (icase : Bool) (mw inputw promptw : Int)
    (left right : Nat → Option Nat) (hp : 0 ≤ promptw) (hi : 0 ≤ inputw) (hm : mw < 2 ^ 29)
    (hn : 0 ≤ mw - promptw - inputw - 6) (input : List Nat) (pc : Pc) (s : State)
    (hr : session (initial bufsiz items icase 0 mw inputw promptw left right) input =
      Run.reading pc s) :
    InWindow s ∧
    (∃ s', selectPrev s = some s' ∧ InWindow s' ∧
      (∀ x y, s.sel = some x → s.left x = some y → s.right y = s.curr →
        s'.curr = s.prev ∧ s'.sel = some y) ∧
      ((∀ t ∈ items, textw t < 2 ^ 31) →
        step (Run.reading Pc.top s) 16 = Run.reading Pc.top s')) ∧
    (byteAt s.text s.cursor = 0 →
      ∃ s', keyEnd s = some s' ∧ InWindow s' ∧ s'.next = none ∧ s'.sel = s'.matchend ∧
        (∃ l, IsChain s' l ∧ s'.sel = l.getLast?) ∧
        ((∀ t ∈ items, textw t < 2 ^ 31) →
          step (Run.reading Pc.top s) 5 = Run.reading Pc.top s')) := by
  obtain ⟨hg, hw, hit⟩ :=
    session_win bufsiz h0 hB items icase mw inputw promptw left right hp hi hm hn input pc s hr
  refine ⟨Win_InWindow hw, ?_, ?_⟩
  · obtain ⟨s', hk, hw'⟩ := Win_selectPrev hg hw
    refine ⟨s', hk, Win_InWindow hw', fun x y hx hy hc => selectPrev_pan s s' x y hx hy hc hk,
      fun hI => ?_⟩
    show switchTop (16 % 256) (16 % 256) s = Run.reading Pc.top s'
    rw [show (16 % 256 : Nat) = 16 from rfl, switchTop_up]
    exact nav_reads _ hk (Op.prev s s' hk) hg hw (by rw [hit]; exact hI)
  · intro hz
    obtain ⟨s', hk, hw', hnx, hsel⟩ := Win_keyEnd hg hw hz
    obtain ⟨l, hl, _, _⟩ := Win_chain hw'
    refine ⟨s', hk, Win_InWindow hw', hnx, hsel, ⟨l, hl, by rw [hsel]; exact chain_last s' l hl⟩,
      fun hI => ?_⟩
    show switchTop (5 % 256) (5 % 256) s = Run.reading Pc.top s'
    rw [show (5 % 256 : Nat) = 5 from rfl, switchTop_end]
    exact nav_reads _ hk (Op.endk s s' hz hk) hg hw (by rw [hit]; exact hI)

/-- The invariant of C20 at a concrete state: a terminal of 24 columns, a
query field of 4 columns, no prompt (available width 14), the pool [a, b, c,
d, e, f] and four Ctrl-N.  `run` waits with the window at the item e, which
is selected; Ctrl-P pans to the page in front, with `curr` the item a and the
item d selected, and Ctrl-E ends with `next == NULL`. -/
theorem viewport_invariant_witness :
    (0 < 16 ∧ 16 < 2 ^ 63) ∧ (0 ≤ (24 : Int) - 0 - 4 - 6) ∧
    session (initial 16 [[97], [98], [99], [100], [101], [102]] false 0 24 4 0 (fun _ => none)
        (fun _ => none)) [14, 14, 14, 14] =
      Run.reading Pc.top (demoAfter [[97], [98], [99], [100], [101], [102]] 0 24 4 0 [14, 14, 14, 14]) ∧
    (demoAfter [[97], [98], [99], [100], [101], [102]] 0 24 4 0 [14, 14, 14, 14]).sel = some 4 ∧
    (demoAfter [[97], [98], [99], [100], [101], [102]] 0 24 4 0 [14, 14, 14, 14]).curr = some 4 ∧
    (demoAfter [[97], [98], [99], [100], [101], [102]] 0 24 4 0 [14, 14, 14, 14]).prev = some 0 ∧
    InWindow (demoAfter [[97], [98], [99], [100], [101], [102]] 0 24 4 0 [14, 14, 14, 14]) ∧
    (∃ s', step (Run.reading Pc.top (demoAfter [[97], [98], [99], [100], [101], [102]] 0 24 4 0 [14, 14, 14, 14])) 16 = Run.reading Pc.top s' ∧
      InWindow s' ∧ s'.curr = some 0 ∧ s'.sel = some 3) ∧
    (∃ s', step (Run.reading Pc.top (demoAfter [[97], [98], [99], [100], [101], [102]] 0 24 4 0 [14, 14, 14, 14])) 5 = Run.reading Pc.top s' ∧
      InWindow s' ∧ s'.next = none ∧ s'.sel = s'.matchend) := by
  have h := viewport_invariant 16 (by decide) (by decide)
    [[97], [98], [99], [100], [101], [102]] false 24 4 0 (fun _ => none) (fun _ => none)
    (by decide) (by decide) (by decide) (by decide) [14, 14, 14, 14] Pc.top
    (demoAfter [[97], [98], [99], [100], [101], [102]] 0 24 4 0 [14, 14, 14, 14]) (reading_of_waits _ (by decide))
  obtain ⟨h1, ⟨s', _, h3, h4, h5⟩, h6⟩ := h
  obtain ⟨s'', _, h8, h9, h10, _, h11⟩ := h6 (by decide)
  have h12 := h4 4 3 (by decide) (by decide) (by decide)
  exact ⟨⟨by decide, by decide⟩, by decide, reading_of_waits _ (by decide), by decide,
    by decide, by decide, h1, ⟨s', h5 (by decide), h3, h12.1.trans (by decide), h12.2⟩,
    ⟨s'', h11 (by decide), h8, h9, h10⟩⟩

/-- C18, as the code has it: crossing a border of the window pans by a page.
In a session in the horizontal layout whose available width is not negative,
at every state `s` in which `run` waits: when Ctrl-N moves `sel` onto `next`,
the case returns with the new `sel` and the new `curr` both the old `next`;
when Ctrl-P moves `sel` to the item in front of `curr`, the case returns with
the new `curr` the old `prev`, the start of the page in front; both times
the new window holds the new selection, and with items shorter than `2^31`
bytes `run` goes on reading in the new state. -/
theorem pan_to_page (bufsiz : Nat) (h0 : 0 < bufsiz) (hB : bufsiz < 2 ^ 63)
    (items : List (List Nat)) (icase : Bool) (mw inputw promptw : Int)
    (left right : Nat → Option Nat) (hp : 0 ≤ promptw) (hi : 0 ≤ inputw) (hm : mw < 2 ^ 29)
    (hn : 0 ≤ mw - promptw - inputw - 6) (hI : ∀ t ∈ items, textw t < 2 ^ 31)
    (input : List Nat) (pc : Pc) (s : State)
    (hr : session (initial bufsiz items icase 0 mw inputw promptw left right) input =
      Run.reading pc s) (x y : Nat) (hx : s.sel = some x) :
    (s.right x = some y → some y = s.next →
      ∃ s', step (Run.reading Pc.top s) 14 = Run.reading Pc.top s' ∧
        s'.sel = some y ∧ s'.curr = s.next ∧ InWindow s') ∧
    (s.left x = some y → s.right y = s.curr →
      ∃ s', step (Run.reading Pc.top s) 16 = Run.reading Pc.top s' ∧
        s'.sel = some y ∧ s'.curr = s.prev ∧ InWindow s') := by
  obtain ⟨hg, hw, hit⟩ :=
    session_win bufsiz h0 hB items icase mw inputw promptw left right hp hi hm hn input pc s hr
  have hI' : ∀ t ∈ s.items, textw t < 2 ^ 31 := by rw [hit]; exact hI
  constructor
  · intro hy hc
    obtain ⟨s', hk, hw'⟩ := Win_selectNext hg hw
    have h1 := selectNext_pan s s' x y hx hy hc hk
    refine ⟨s', ?_, h1.2, h1.1, Win_InWindow hw'⟩
    show switchTop (14 % 256) (14 % 256) s = Run.reading Pc.top s'
    rw [show (14 % 256 : Nat) = 14 from rfl, switchTop_down]
    exact nav_reads _ hk (Op.next s s' hk) hg hw hI'
  · intro hy hc
    obtain ⟨s', hk, hw'⟩ := Win_selectPrev hg hw
    have h1 := selectPrev_pan s s' x y hx hy hc hk
    refine ⟨s', ?_, h1.2, h1.1, Win_InWindow hw'⟩
    show switchTop (16 % 256) (16 % 256) s = Run.reading Pc.top s'
    rw [show (16 % 256 : Nat) = 16 from rfl, switchTop_up]
    exact nav_reads _ hk (Op.prev s s' hk) hg hw hI'

/-- The pans of C18 at concrete states: a terminal of 24 columns, a query
field of 4 columns, the pool [a, b, c, d, e, f].  After three Ctrl-N the item
d is selected and `next` is the item e: Ctrl-N selects e and `curr` becomes
e.  After four Ctrl-N the item e is selected and is `curr`, with `prev` the
item a: Ctrl-P selects d and `curr` becomes a. -/
theorem pan_to_page_witness :
    (session (initial 16 [[97], [98], [99], [100], [101], [102]] false 0 24 4 0 (fun _ => none)
        (fun _ => none)) [14, 14, 14] = Run.reading Pc.top (demoAfter [[97], [98], [99], [100], [101], [102]] 0 24 4 0 [14, 14, 14]) ∧
      (demoAfter [[97], [98], [99], [100], [101], [102]] 0 24 4 0 [14, 14, 14]).sel = some 3 ∧ (demoAfter [[97], [98], [99], [100], [101], [102]] 0 24 4 0 [14, 14, 14]).curr = some 0 ∧
      ∃ s', step (Run.reading Pc.top (demoAfter [[97], [98], [99], [100], [101], [102]] 0 24 4 0 [14, 14, 14])) 14 = Run.reading Pc.top s' ∧
        s'.sel = some 4 ∧ s'.curr = some 4 ∧ InWindow s') ∧
    (session (initial 16 [[97], [98], [99], [100], [101], [102]] false 0 24 4 0 (fun _ => none)
        (fun _ => none)) [14, 14, 14, 14] = Run.reading Pc.top (demoAfter [[97], [98], [99], [100], [101], [102]] 0 24 4 0 [14, 14, 14, 14]) ∧
      (demoAfter [[97], [98], [99], [100], [101], [102]] 0 24 4 0 [14, 14, 14, 14]).sel = some 4 ∧ (demoAfter [[97], [98], [99], [100], [101], [102]] 0 24 4 0 [14, 14, 14, 14]).curr = some 4 ∧
      ∃ s', step (Run.reading Pc.top (demoAfter [[97], [98], [99], [100], [101], [102]] 0 24 4 0 [14, 14, 14, 14])) 16 = Run.reading Pc.top s' ∧
        s'.sel = some 3 ∧ s'.curr = some 0 ∧ InWindow s') := by
  constructor
  · obtain ⟨s', h1, h2, h3, h4⟩ :=
      (pan_to_page 16 (by decide) (by decide) [[97], [98], [99], [100], [101], [102]] false
        24 4 0 (fun _ => none) (fun _ => none) (by decide) (by decide) (by decide) (by decide)
        (by decide) [14, 14, 14] Pc.top (demoAfter [[97], [98], [99], [100], [101], [102]] 0 24 4 0 [14, 14, 14]) (reading_of_waits _ (by decide))
        3 4 (by decide)).1 (by decide) (by decide)
    exact ⟨reading_of_waits _ (by decide), by decide, by decide, s', h1, h2,
      h3.trans (by decide), h4⟩
  · obtain ⟨s', h1, h2, h3, h4⟩ :=
      (pan_to_page 16 (by decide) (by decide) [[97], [98], [99], [100], [101], [102]] false
        24 4 0 (fun _ => none) (fun _ => none) (by decide) (by decide) (by decide) (by decide)
        (by decide) [14, 14, 14, 14] Pc.top (demoAfter [[97], [98], [99], [100], [101], [102]] 0 24 4 0 [14, 14, 14, 14])
        (reading_of_waits _ (by decide)) 4 3 (by decide)).2 (by decide) (by decide)
    exact ⟨reading_of_waits _ (by decide), by decide, by decide, s', h1, h2,
      h3.trans (by decide), h4⟩

theorem redraw_atTop (o : Option State) : AtTop (redraw o) := by
  unfold redraw
  cases o with
  | none => exact trivial
  | some s =>
    simp only []
    cases drawmenu s with
    | fault => exact trivial
    | died => exact trivial
    | done d => exact rfl

theorem redraw_past (o : Option State)
    (h : ∀ s, o = some s → 0 < s.cursor ∨ strlen s.text + 1 > sizeofText s - 1) :
    CursorPast (redraw o) := by
  unfold redraw
  cases o with
  | none => exact trivial
  | some s =>
    have hs := h s rfl
    simp only []
    cases drawmenu s with
    | fault => exact trivial
    | died => exact trivial
    | done d => exact hs

theorem keyDefault_atTop (buf0 : Nat) (s : State) : AtTop (keyDefault buf0 s) := by
  unfold keyDefault
  cases (if iscntrl buf0 = true then some s else insert [buf0] (strlen [buf0]) s) with
  | none => exact trivial
  | some s1 =>
    simp only []
    by_cases hq : 2 ≤ strlen s1.text ∧
        (s1.text.drop (strlen s1.text - 2)).take 2 = [113, 113]
    · rw [if_pos hq]; exact trivial
    · rw [if_neg hq]; exact redraw_atTop _

/-- Only ESC leads from the head of the loop to another `read`. -/
theorem switchTop_atTop (buf0 c : Nat) (s : State) (hc : c ≠ 27) :
    AtTop (switchTop buf0 c s) := by
  unfold switchTop
  rw [if_neg (fun h1 => hc (h1.trans (by decide)))]
  by_cases h2 : c = CONTROL 67
  · rw [if_pos h2]; exact trivial
  rw [if_neg h2]
  by_cases h3 : c = CONTROL 77 ∨ c = CONTROL 74
  · rw [if_pos h3]
    split
    · exact trivial
    · split <;> exact trivial
  rw [if_neg h3]
  by_cases h4 : c = CONTROL 93 ∨ c = CONTROL 92
  · rw [if_pos h4]; exact trivial
  rw [if_neg h4]
  by_cases h5 : c = CONTROL 65
  · rw [if_pos h5]
    split <;> exact redraw_atTop _
  rw [if_neg h5]
  by_cases h6 : c = CONTROL 69
  · rw [if_pos h6]; exact redraw_atTop _
  rw [if_neg h6]
  by_cases h7 : c = CONTROL 66
  · rw [if_pos h7]
    split <;> exact redraw_atTop _
  rw [if_neg h7]
  by_cases h8 : c = CONTROL 80
  · rw [if_pos h8]; exact redraw_atTop _
  rw [if_neg h8]
  by_cases h9 : c = CONTROL 70 ∨ c = CONTROL 73
  · rw [if_pos h9]
    split <;> exact redraw_atTop _
  rw [if_neg h9]
  by_cases h10 : c = CONTROL 78
  · rw [if_pos h10]; exact redraw_atTop _
  rw [if_neg h10]
  by_cases h11 : c = CONTROL 68
  · rw [if_pos h11]
    split <;> exact redraw_atTop _
  rw [if_neg h11]
  by_cases h12 : c = CONTROL 72 ∨ c = CONTROL 63
  · rw [if_pos h12]; exact redraw_atTop _
  rw [if_neg h12]
  by_cases h13 : c = CONTROL 75
  · rw [if_pos h13]; exact redraw_atTop _
  rw [if_neg h13]
  by_cases h14 : c = CONTROL 85
  · rw [if_pos h14]; exact redraw_atTop _
  rw [if_neg h14]
  by_cases h15 : c = CONTROL 87
  · rw [if_pos h15]; exact redraw_atTop _
  rw [if_neg h15]
  by_cases h16 : c = CONTROL 86
  · rw [if_pos h16]
    split <;> exact redraw_atTop _
  rw [if_neg h16]
  exact keyDefault_atTop _ _

theorem step_atTop (r : Run) (c : Nat) (h : AtTop r) (hc : c % 256 ≠ 27) :
    AtTop (step r c) := by
  cases r with
  | abort => exact trivial
  | died => exact trivial
  | returned st out s => exact trivial
  | reading pc s =>
    have hp : pc = Pc.top := h
    subst hp
    exact switchTop_atTop _ _ s hc

/-- A byte that is no control character, inserted by the `default` case, leaves
the cursor behind offset 0, unless the buffer is full and stays as it is. -/
theorem keyDefault_past {B : Nat} {s : State} (hB : B < 2 ^ 63) (c : Nat)
    (h : TextInv false B s) (hc : iscntrl c = false) : CursorPast (keyDefault c s) := by
  obtain ⟨h1, h2, h3, _⟩ := h
  have hne : c ≠ 0 := iscntrl_ne_zero hc
  have hs1 : strlen [c] = 1 := by simp [strlen, hne]
  have key : ∀ s1, (if iscntrl c = true then some s
      else insert [c] (strlen [c]) s) = some s1 →
      0 < s1.cursor ∨ strlen s1.text + 1 > sizeofText s1 - 1 := by
    intro s1 hi
    rw [if_neg (by rw [hc]; simp), hs1] at hi
    by_cases hfit : strlen s.text + 1 < s.text.length
    · rw [insert_pos [c] 1 s (by omega) (by omega) h3 hfit] at hi
      have hconf := match_conf _ _ _ hi
      left
      rw [hconf.2.2.2.2.2.1]
      exact Nat.succ_pos _
    · rw [insert_full [c] 1 s (by omega) (by omega) (by omega) (by omega)] at hi
      rw [← Option.some.inj hi]
      right
      unfold sizeofText
      omega
  unfold keyDefault
  cases ho : (if iscntrl c = true then some s else insert [c] (strlen [c]) s) with
  | none => exact trivial
  | some s1 =>
    simp only []
    have hk := key s1 ho
    by_cases hq : 2 ≤ strlen s1.text ∧
        (s1.text.drop (strlen s1.text - 2)).take 2 = [113, 113]
    · rw [if_pos hq]; exact trivial
    · rw [if_neg hq]
      exact redraw_past _ (fun s2 h2 => by rw [← Option.some.inj h2]; exact hk)

theorem step_past {B : Nat} (hB : B < 2 ^ 63) (r : Run) (c : Nat) (h : RunInv false B r)
    (ht : AtTop r) (hc : 128 ≤ c % 256) : CursorPast (step r c) := by
  cases r with
  | abort => exact trivial
  | died => exact trivial
  | returned st out s => exact trivial
  | reading pc s =>
    have hp : pc = Pc.top := ht
    subst hp
    have hs : TextInv false B s := h
    show CursorPast (switchTop (c % 256) (c % 256) s)
    rw [switchTop_default _ s (by omega) (by omega)]
    refine keyDefault_past hB _ hs ?_
    unfold iscntrl
    simp only [Bool.or_eq_false_iff, decide_eq_false_iff_not]
    omega

/-- With an input of the kind `typedWell`, no continuation byte is inserted at
offset 0. -/
theorem typed_inserts_well {B : Nat} (hB : B < 2 ^ 63) :
    ∀ (input : List Nat) (r : Run) (prev : Nat), RunInv false B r → AtTop r →
      (128 ≤ prev % 256 → CursorPast r) → typedWell prev input = true →
      InsertsWell r input := by
  intro input
  induction input with
  | nil => intro r prev _ _ _ _; exact trivial
  | cons c cs ih =>
    intro r prev h ht hp hw
    unfold typedWell at hw
    simp only [Bool.and_eq_true, decide_eq_true_eq, Bool.or_eq_true, Bool.not_eq_true'] at hw
    obtain ⟨⟨h27, hcont⟩, hrest⟩ := hw
    refine ⟨?_, ih (step r c) c (step_inv hB r c h (fun hb => absurd hb (by simp)))
      (step_atTop r c ht h27) (fun h128 => step_past hB r c h ht h128) hrest⟩
    cases r with
    | abort => rfl
    | died => rfl
    | returned st out s => rfl
    | reading pc s =>
      have hpc : pc = Pc.top := ht
      subst hpc
      show (!(isCont (c % 256)) || decide (0 < s.cursor) ||
        decide (strlen s.text + 1 > sizeofText s - 1)) = true
      rcases hcont with hn | h128
      · rw [hn]; rfl
      · have := hp h128
        have hcp : 0 < s.cursor ∨ strlen s.text + 1 > sizeofText s - 1 := this
        rcases hcp with h0 | hf
        · simp [h0]
        · simp [hf]

/-! ## The claims about the cursor -/

/-- C9, amended: in a session that starts from the empty buffer of `BUFSIZ`
bytes with the cursor at 0, in every state `s` in which `run` stands after
some input bytes (waiting for more, or returned), the cursor satisfies
`0 <= cursor <= strlen(text)`; and the byte at the cursor is not a continuation
byte when no continuation byte was inserted at offset 0 (`InsertsWell`: none
arrived at the head of the loop while the cursor was at offset 0 and the buffer
had room).  This is so for every input of the kind `typedWell`: no ESC byte,
and each continuation byte directly behind a byte of 0x80 or more. -/
theorem cursor_invariant (bufsiz : Nat) (h0 : 0 < bufsiz) (hB : bufsiz < 2 ^ 63)
    (items : List (List Nat)) (icase : Bool) (lines mw inputw promptw : Int)
    (left right : Nat → Option Nat) (input : List Nat) (pc : Pc) (st : Nat)
    (out : List (List Nat)) (s : State)
    (hr : session (initial bufsiz items icase lines mw inputw promptw left right) input =
        Run.reading pc s ∨
      session (initial bufsiz items icase lines mw inputw promptw left right) input =
        Run.returned st out s) :
    s.cursor ≤ strlen s.text ∧
      (InsertsWell
          (redraw (match_ false (initial bufsiz items icase lines mw inputw promptw left right)))
          input →
        isCont (byteAt s.text s.cursor) = false) ∧
      (typedWell 0 input = true → isCont (byteAt s.text s.cursor) = false) := by
  have h1 := RunInv_cursorInText
    (session_inv false bufsiz h0 hB items icase lines mw inputw promptw left right input
      (fun h => absurd h (by simp)))
  have key : InsertsWell
      (redraw (match_ false (initial bufsiz items icase lines mw inputw promptw left right)))
      input → isCont (byteAt s.text s.cursor) = false := by
    intro hw
    have h2 := RunInv_cursorOnBoundary
      (session_inv true bufsiz h0 hB items icase lines mw inputw promptw left right input
        (fun _ => hw))
    rcases hr with hr | hr
    · rw [hr] at h2; exact h2
    · rw [hr] at h2; exact h2
  refine ⟨?_, key, fun ht => key ?_⟩
  · rcases hr with hr | hr
    · rw [hr] at h1; exact h1
    · rw [hr] at h1; exact h1
  · have h3 : RunInv false bufsiz
        (redraw (match_ false
          (initial bufsiz items icase lines mw inputw promptw left right))) :=
      session_inv false bufsiz h0 hB items icase lines mw inputw promptw left right []
        (fun h => absurd h (by simp))
    exact typed_inserts_well hB input _ 0 h3 (redraw_atTop _)
      (fun h => absurd h (by decide)) ht

/-- C9, amended, at the input "é" (bytes 195, 169), "x", Ctrl-B, Ctrl-B, Ctrl-F
with a buffer of 16 bytes and the pool [a]: the input has no ESC byte and its
one continuation byte stands behind the byte 195; `run` waits for input with
the text "éx" and the cursor at offset 2, behind "é"; no continuation byte was
inserted at offset 0, and the parts of the invariant hold. -/
theorem cursor_invariant_witness :
    (0 < 16 ∧ 16 < 2 ^ 63) ∧
    (session (initial 16 [[97]] false 0 80 3 0 (fun _ => none) (fun _ => none)) [195, 169, 120, 2, 2, 6] = Run.reading Pc.top (demoAfter [[97]] 0 80 3 0 [195, 169, 120, 2, 2, 6])) ∧
    InsertsWell (redraw (match_ false (initial 16 [[97]] false 0 80 3 0 (fun _ => none) (fun _ => none)))) [195, 169, 120, 2, 2, 6] ∧
    typedWell 0 [195, 169, 120, 2, 2, 6] = true ∧
    cstr (demoAfter [[97]] 0 80 3 0 [195, 169, 120, 2, 2, 6]).text = [195, 169, 120] ∧
    (demoAfter [[97]] 0 80 3 0 [195, 169, 120, 2, 2, 6]).cursor = 2 ∧
    ((demoAfter [[97]] 0 80 3 0 [195, 169, 120, 2, 2, 6]).cursor ≤ strlen (demoAfter [[97]] 0 80 3 0 [195, 169, 120, 2, 2, 6]).text ∧
      (InsertsWell (redraw (match_ false (initial 16 [[97]] false 0 80 3 0 (fun _ => none) (fun _ => none)))) [195, 169, 120, 2, 2, 6] →
        isCont (byteAt (demoAfter [[97]] 0 80 3 0 [195, 169, 120, 2, 2, 6]).text (demoAfter [[97]] 0 80 3 0 [195, 169, 120, 2, 2, 6]).cursor) = false) ∧
      (typedWell 0 [195, 169, 120, 2, 2, 6] = true →
        isCont (byteAt (demoAfter [[97]] 0 80 3 0 [195, 169, 120, 2, 2, 6]).text (demoAfter [[97]] 0 80 3 0 [195, 169, 120, 2, 2, 6]).cursor) = false)) :=
  ⟨⟨by decide, by decide⟩, reading_of_waits _ (by decide), by decide, by decide, by decide,
    by decide,
    cursor_invariant 16 (by decide) (by decide) [[97]] false 0 80 3 0 (fun _ => none)
      (fun _ => none) [195, 169, 120, 2, 2, 6] Pc.top 0 [] (demoAfter [[97]] 0 80 3 0 [195, 169, 120, 2, 2, 6])
      (Or.inl (reading_of_waits _ (by decide)))⟩

end Slmenu
